import Mathlib

/-!
# A verification development for `noms` (Go): structs, paths, diff, blobs, commits, merge, chunk stores and tables

The Go sources under `go/types/struct.go`, `go/types/path.go`,
`go/diff/diff.go` and `cmd/noms/noms_blob_put.go` are embedded as Lean
definitions; the theorems below are stated over these definitions.  The
sequence cursor, the search for a common ancestor of two commits, the
three-way merge, the root of a chunk store and the table writer and reader
are known from their tests only (`go/types/sequence_cursor_test.go`,
`go/datas/commit_test.go`, `go/merge/three_way_keyval_test.go`,
`go/chunks/chunk_store_common_test.go`, `go/nbs/table_test.go`); they are
modelled from the specification, and the definitions concerned say so.

Conventions of the embedding.

* A Go `string` is an immutable sequence of bytes: `GoString := List Nat`,
  every element standing for one byte.  Go compares strings byte by byte
  (`strLt`), and `for i, c := range s` decodes UTF-8 (`decodeRune`).
* A Go panic (`d.Panic`, `d.PanicIfFalse`, an out-of-range read of a decoder)
  is the value `none` of an `Option`.
* A nil slice or a nil interface value is `none`, a non-nil one is `some _`.
* An `int64` or `uint64` is an integer; where the Go operation can overflow,
  the result is reduced explicitly (`wrapInt64`, `toUint64`).
-/

namespace Noms

/-! ## Go strings -/

/-- A Go string: a sequence of bytes. -/
abbrev GoString := List Nat

/-- UTF-8 encoding of one Unicode scalar value, as the Go compiler encodes the
characters of a string literal. -/
def utf8Encode (c : Nat) : List Nat :=
  if c < 0x80 then [c]
  else if c < 0x800 then [0xC0 + c / 64, 0x80 + c % 64]
  else if c < 0x10000 then [0xE0 + c / 4096, 0x80 + c / 64 % 64, 0x80 + c % 64]
  else [0xF0 + c / 262144, 0x80 + c / 4096 % 64, 0x80 + c / 64 % 64, 0x80 + c % 64]

/-- The bytes of a Go string literal. -/
def lit (s : String) : GoString :=
  s.toList.flatMap fun c => utf8Encode c.toNat

/-- Go `a < b` on strings: lexicographic comparison of the bytes. -/
def strLt : GoString → GoString → Bool
  | [], [] => false
  | [], _ :: _ => true
  | _ :: _, [] => false
  | a :: as, b :: bs => if a < b then true else if a = b then strLt as bs else false

/-- The replacement rune `utf8.RuneError`. -/
def RuneError : Nat := 0xFFFD

/-- Continuation byte test `0x80 <= b <= 0xBF`. -/
def isCont (b : Nat) : Bool := 0x80 ≤ b && b ≤ 0xBF

/-- Go `utf8.DecodeRuneInString` (standard library): the first rune of a
non-empty string and the number of bytes it occupies.  An invalid or
truncated encoding yields `(RuneError, 1)`. -/
def decodeRune : GoString → Nat × Nat
  | [] => (RuneError, 0)
  | b0 :: rest =>
    if b0 < 0x80 then (b0, 1)
    else if 0xC2 ≤ b0 ∧ b0 ≤ 0xDF then
      match rest with
      | b1 :: _ =>
        if isCont b1 then ((b0 - 0xC0) * 64 + (b1 - 0x80), 2) else (RuneError, 1)
      | _ => (RuneError, 1)
    else if 0xE0 ≤ b0 ∧ b0 ≤ 0xEF then
      match rest with
      | b1 :: b2 :: _ =>
        let lo := if b0 = 0xE0 then 0xA0 else 0x80
        let hi := if b0 = 0xED then 0x9F else 0xBF
        if lo ≤ b1 ∧ b1 ≤ hi ∧ isCont b2 then
          ((b0 - 0xE0) * 4096 + (b1 - 0x80) * 64 + (b2 - 0x80), 3)
        else (RuneError, 1)
      | _ => (RuneError, 1)
    else if 0xF0 ≤ b0 ∧ b0 ≤ 0xF4 then
      match rest with
      | b1 :: b2 :: b3 :: _ =>
        let lo := if b0 = 0xF0 then 0x90 else 0x80
        let hi := if b0 = 0xF4 then 0x8F else 0xBF
        if lo ≤ b1 ∧ b1 ≤ hi ∧ isCont b2 ∧ isCont b3 then
          ((b0 - 0xF0) * 262144 + (b1 - 0x80) * 4096 + (b2 - 0x80) * 64 + (b3 - 0x80), 4)
        else (RuneError, 1)
      | _ => (RuneError, 1)
    else (RuneError, 1)

/-- The runes visited by `for i, c := range s`, in order, as pairs
`(i, c)` of byte offset and rune.  `fuel` bounds the number of iterations;
`s.length` iterations always suffice since each one consumes a byte. -/
def rangeRunes : Nat → Nat → GoString → List (Nat × Nat)
  | 0, _, _ => []
  | _ + 1, _, [] => []
  | fuel + 1, i, b :: rest =>
    let r := decodeRune (b :: rest)
    (i, r.1) :: rangeRunes fuel (i + r.2) ((b :: rest).drop r.2)

/-! ## Field names (`struct.go`) -/

/-- Go `isAlpha`. -/
def isAlpha (c : Nat) : Bool :=
  (c ≥ 0x61 && c ≤ 0x7A) || (c ≥ 0x41 && c ≤ 0x5A)

/-- Go `isAlphaNumOrUnderscore`. -/
def isAlphaNumOrUnderscore (c : Nat) : Bool :=
  (c ≥ 0x61 && c ≤ 0x7A) || (c ≥ 0x41 && c ≤ 0x5A) || (c ≥ 0x30 && c ≤ 0x39) || c = 0x5F

/-- The loop of `IsValidStructFieldName` over the `(i, c)` pairs of
`range name`: `false` as soon as a rune is not allowed at its offset. -/
def validLoop : List (Nat × Nat) → Bool
  | [] => true
  | (i, c) :: rest =>
    if i = 0 then
      if !isAlpha c then false else validLoop rest
    else if !isAlphaNumOrUnderscore c then false
    else validLoop rest

/-- Go `IsValidStructFieldName`. -/
def IsValidStructFieldName (name : GoString) : Bool :=
  if validLoop (rangeRunes name.length 0 name) then name.length ≠ 0 else false

/-- Go `verifyName` (and `verifyFieldName`): `false` stands for the panic
`Invalid struct name`. -/
def verifyName (name : GoString) : Bool := IsValidStructFieldName name

/-- Go `verifyFieldName`. -/
def verifyFieldName (name : GoString) : Bool := verifyName name

/-- Go `verifyStructName`: the empty name is allowed. -/
def verifyStructName (name : GoString) : Bool :=
  if name ≠ [] then verifyName name else true

/-! ## The regular expressions of `struct.go`

The patterns are matched by Go's `regexp` package (standard library).  Their
character classes hold ASCII characters only; such a character is one byte
of the UTF-8 text and is never part of a longer or invalid sequence, so the
matches below are decided byte by byte. -/

/-- The class `[a-zA-Z]` of `headFieldNamePattern`. -/
def headFieldNameClass (b : Nat) : Bool :=
  (0x61 ≤ b && b ≤ 0x7A) || (0x41 ≤ b && b ≤ 0x5A)

/-- The class `[a-zA-Z0-9_]` of `tailFieldNamePattern`. -/
def tailFieldNameClass (b : Nat) : Bool :=
  (0x61 ≤ b && b ≤ 0x7A) || (0x41 ≤ b && b ≤ 0x5A) || (0x30 ≤ b && b ≤ 0x39) || b = 0x5F

/-- Go `fieldNameRe.MatchString(s)` for `fieldNameRe = ^[a-zA-Z][a-zA-Z0-9_]*$`:
the whole of `s` is one character of the head class followed by characters of
the tail class. -/
def fieldNameReMatch (s : GoString) : Bool :=
  match s with
  | [] => false
  | c :: rest => headFieldNameClass c && rest.all tailFieldNameClass

/-- Go `fieldNameComponentRe.FindIndex(s)` for
`fieldNameComponentRe = ^[a-zA-Z][a-zA-Z0-9_]*`: `nil` when `s` does not start
with a character of the head class, else the location `[0, end)` of the
match, the star taking as many characters of the tail class as there are. -/
def fieldNameComponentFindIndex (s : GoString) : Option (Nat × Nat) :=
  match s with
  | [] => none
  | c :: rest =>
    if headFieldNameClass c then some (0, 1 + (rest.takeWhile tailFieldNameClass).length)
    else none

/-! ## Structs (`struct.go`)

A struct value is a byte buffer written by `newStruct`: the kind tag, the
name, the field count, and then, for each field, its name followed by its
encoded value.  The embedding keeps the decoded form of that buffer: the
name, the count as written, and the sequence of `(field name, value)` pairs
that follow the count.  `count` is kept apart from the fields because the
code writes it apart (`w.writeCount(count)`).  The values of the fields are
of an arbitrary type `V`; a Go `Value` that may be nil is an `Option V`. -/

/-- The decoded buffer of a `types.Struct`. -/
structure Struct (V : Type) where
  /-- The struct name, read by `dec.readString()` after the kind. -/
  name : GoString
  /-- The field count, read by `dec.readCount()`. -/
  count : Nat
  /-- The `(name, value)` pairs that follow the count in the buffer. -/
  fields : List (GoString × V)
  deriving DecidableEq, Repr

/-- Go `StructData`, a `map[string]Value`: finitely many entries with
pairwise distinct keys.  The order of `entries` is the (unspecified) order in
which `range data` visits the map. -/
structure StructData (V : Type) where
  /-- The entries in iteration order; the values stored are noms values,
  which are never nil. -/
  entries : List (GoString × V)
  /-- A map has each key once. -/
  nodup : (entries.map Prod.fst).Nodup

/-- Go `data[k]`: the value stored under `k`, the nil `Value` when `k` is not
a key. -/
def StructData.get {V : Type} (d : StructData V) (k : GoString) : Option V :=
  match d.entries.find? (fun e => e.1 = k) with
  | some e => some e.2
  | none => none

/-- Go `len(data)`. -/
def StructData.len {V : Type} (d : StructData V) : Nat := d.entries.length

/-- Insert into an ascending list (used by `sortStrings`). -/
def insertSorted (x : GoString) : List GoString → List GoString
  | [] => [x]
  | y :: ys => if strLt y x then y :: insertSorted x ys else x :: y :: ys

/-- Go `sort.Sort(sort.StringSlice(a))` (standard library): the rearrangement of
`a` in ascending byte order, computed here by insertion. -/
def sortStrings : List GoString → List GoString
  | [] => []
  | x :: xs => insertSorted x (sortStrings xs)

/-- The loop of `newStruct`: writes `fieldNames[i]` and `values[i]` for each
`i < len(fieldNames)`.  Reading `values[i]` past the end of `values`, or
writing a nil value, panics. -/
def writeFields {V : Type} : List GoString → List (Option V) → Option (List (GoString × V))
  | [], _ => some []
  | _ :: _, [] => none
  | _ :: _, none :: _ => none
  | n :: ns, some v :: vs =>
    match writeFields ns vs with
    | some fs => some ((n, v) :: fs)
    | none => none

/-- Go `newStruct`. -/
def newStruct {V : Type} (name : GoString) (fieldNames : List GoString)
    (values : List (Option V)) : Option (Struct V) :=
  match writeFields fieldNames values with
  | some fs => some ⟨name, fieldNames.length, fs⟩
  | none => none

/-- Go `NewStruct`. -/
def NewStruct {V : Type} (name : GoString) (data : StructData V) : Option (Struct V) :=
  if !verifyStructName name then none
  else
    let keys := data.entries.map Prod.fst
    if !keys.all verifyFieldName then none
    else
      let fieldNames := sortStrings keys
      let values := fieldNames.map fun k => data.get k
      newStruct name fieldNames values

/-- Go `StructTemplate`. -/
structure StructTemplate where
  /-- The struct name. -/
  name : GoString
  /-- The field names. -/
  fieldNames : List GoString
  deriving DecidableEq, Repr

/-- The loop `for i := 1; i < len(fieldNames); i++` of `MakeStructTemplate`;
`prev` is `fieldNames[i-1]`. -/
def templateLoop : GoString → List GoString → Bool
  | _, [] => true
  | prev, f :: rest =>
    if !verifyFieldName f then false
    else if !strLt prev f then false
    else templateLoop f rest

/-- Go `MakeStructTemplate`. -/
def MakeStructTemplate (name : GoString) (fieldNames : List GoString) : Option StructTemplate :=
  if !verifyStructName name then none
  else
    match fieldNames with
    | [] => some ⟨name, fieldNames⟩
    | f0 :: rest =>
      if !verifyFieldName f0 then none
      else if templateLoop f0 rest then some ⟨name, fieldNames⟩ else none

/-- Go `StructTemplate.NewStruct`. -/
def StructTemplate.NewStruct {V : Type} (st : StructTemplate) (values : List (Option V)) :
    Option (Struct V) :=
  if st.fieldNames.length ≠ values.length then none
  else newStruct st.name st.fieldNames values

/-- Go `Struct.Len`. -/
def Struct.Len {V : Type} (s : Struct V) : Nat := s.count

/-- Go `Struct.Name`. -/
def Struct.Name {V : Type} (s : Struct V) : GoString := s.name

/-- The loop of `Struct.MaybeGet`: `c` iterations are left and `dec` is what the
decoder has not read yet.  The result is `(v, found)`; reading past the end
of the buffer panics. -/
def maybeGetLoop {V : Type} (n : GoString) : Nat → List (GoString × V) → Option (Option V × Bool)
  | 0, _ => some (none, false)
  | _ + 1, [] => none
  | c + 1, (name, v) :: dec =>
    if name = n then some (some v, true)
    else if strLt n name then some (none, false)
    else maybeGetLoop n c dec

/-- Go `Struct.MaybeGet`. -/
def Struct.MaybeGet {V : Type} (s : Struct V) (n : GoString) : Option (Option V × Bool) :=
  maybeGetLoop n s.count s.fields

/-- What the loop of `splitFieldsAt` leaves behind. -/
structure SplitLoop (V : Type) where
  /-- The slice `head`, nil when the loop ended without a `break`. -/
  head : Option (List (GoString × V))
  /-- The slice `tail`, nil when the loop ended without a `break`. -/
  tail : Option (List (GoString × V))
  /-- The flag `found`. -/
  found : Bool
  /-- The fields in `dec.buff[fieldsOffset:dec.offset]` when the loop ends. -/
  consumed : List (GoString × V)

/-- The loop of `Struct.splitFieldsAt`: `c` iterations are left, `before` is
`dec.buff[fieldsOffset:beforeCurrent]` and `dec` is `dec.buff[beforeCurrent:]`. -/
def splitLoop {V : Type} (name : GoString) :
    Nat → List (GoString × V) → List (GoString × V) → Option (SplitLoop V)
  | 0, before, _ => some ⟨none, none, false, before⟩
  | _ + 1, _, [] => none
  | c + 1, before, (fn, v) :: dec =>
    if fn = name then some ⟨some before, some dec, true, before ++ [(fn, v)]⟩
    else if strLt name fn then some ⟨some before, some ((fn, v) :: dec), false, before ++ [(fn, v)]⟩
    else splitLoop name c (before ++ [(fn, v)]) dec

/-- The results of `Struct.splitFieldsAt`. -/
structure Split (V : Type) where
  /-- The kind and name bytes: the struct name. -/
  prolog : GoString
  /-- The fields before the position of the name. -/
  head : Option (List (GoString × V))
  /-- The fields after it. -/
  tail : Option (List (GoString × V))
  /-- The field count of the struct. -/
  count : Nat
  /-- Whether the name is a field. -/
  found : Bool

/-- Go `Struct.splitFieldsAt`. -/
def Struct.splitFieldsAt {V : Type} (s : Struct V) (name : GoString) : Option (Split V) :=
  match splitLoop name s.count [] s.fields with
  | none => none
  | some r =>
    let head := if r.head.isNone && r.tail.isNone then some r.consumed else r.head
    some ⟨s.name, head, r.tail, s.count, r.found⟩

/-- Go `w.writeRaw(b)` of a slice of fields: a nil slice writes nothing. -/
def rawFields {V : Type} (b : Option (List (GoString × V))) : List (GoString × V) :=
  match b with
  | some fs => fs
  | none => []

/-- Go `Struct.Set`. -/
def Struct.Set {V : Type} (s : Struct V) (n : GoString) (v : V) : Option (Struct V) :=
  if !verifyFieldName n then none
  else
    match s.splitFieldsAt n with
    | none => none
    | some sp =>
      let count := if !sp.found then sp.count + 1 else sp.count
      some ⟨sp.prolog, count, rawFields sp.head ++ [(n, v)] ++ rawFields sp.tail⟩

/-- Go `Struct.SetName`. -/
def Struct.SetName {V : Type} (s : Struct V) (name : GoString) : Option (Struct V) :=
  if !verifyStructName name then none
  else some ⟨name, s.count, s.fields⟩

/-- Go `Struct.Delete`.  `count - 1` is computed only when the name was found,
hence after at least one iteration, where `count ≥ 1`. -/
def Struct.Delete {V : Type} (s : Struct V) (n : GoString) : Option (Struct V) :=
  match s.splitFieldsAt n with
  | none => none
  | some sp =>
    if !sp.found then some s
    else some ⟨sp.prolog, sp.count - 1, rawFields sp.head ++ rawFields sp.tail⟩

/-! ### Predicates on structs -/

/-- The field names of a struct, in buffer order. -/
def Struct.fieldNames {V : Type} (s : Struct V) : List GoString := s.fields.map Prod.fst

/-- The count written in the buffer is the number of fields that follow. -/
def Struct.WF {V : Type} (s : Struct V) : Prop := s.count = s.fields.length

/-- Strictly ascending in byte order. -/
def Ascending (names : List GoString) : Prop :=
  names.Pairwise fun a b => strLt a b = true

/-- The fields are sorted: their names are strictly ascending. -/
def Struct.Sorted {V : Type} (s : Struct V) : Prop := Ascending s.fieldNames

/-- The structs that the constructors and updaters of `struct.go` produce. -/
inductive Reachable {V : Type} : Struct V → Prop
  | ofNewStruct (name : GoString) (data : StructData V) (s : Struct V) :
      NewStruct name data = some s → Reachable s
  | ofTemplate (name : GoString) (fieldNames : List GoString) (t : StructTemplate)
      (values : List (Option V)) (s : Struct V) :
      MakeStructTemplate name fieldNames = some t → t.NewStruct values = some s → Reachable s
  | set (s : Struct V) (n : GoString) (v : V) (s' : Struct V) :
      Reachable s → s.Set n v = some s' → Reachable s'
  | delete (s : Struct V) (n : GoString) (s' : Struct V) :
      Reachable s → s.Delete n = some s' → Reachable s'
  | setName (s : Struct V) (name : GoString) (s' : Struct V) :
      Reachable s → s.SetName name = some s' → Reachable s'

/-- The fields that `splitFieldsAt` puts in `head`: those read before the
loop stops. -/
def lowerFields {V : Type} (n : GoString) : List (GoString × V) → List (GoString × V)
  | [] => []
  | (fn, w) :: rest =>
    if fn = n then [] else if strLt n fn then [] else (fn, w) :: lowerFields n rest

/-- The field at which the loop of `splitFieldsAt` stops with `found`. -/
def midFields {V : Type} (n : GoString) : List (GoString × V) → List (GoString × V)
  | [] => []
  | (fn, w) :: rest =>
    if fn = n then [(fn, w)] else if strLt n fn then [] else midFields n rest

/-- The fields that `splitFieldsAt` puts in `tail`. -/
def upperFields {V : Type} (n : GoString) : List (GoString × V) → List (GoString × V)
  | [] => []
  | (fn, w) :: rest =>
    if fn = n then rest else if strLt n fn then (fn, w) :: rest else upperFields n rest

/-- The flag `found` of `splitFieldsAt`. -/
def hasField {V : Type} (n : GoString) : List (GoString × V) → Bool
  | [] => false
  | (fn, _) :: rest =>
    if fn = n then true else if strLt n fn then false else hasField n rest

/-- The pair `(v, found)` for the first field called `n`, `(nil, false)` when
there is none. -/
def lookupField {V : Type} (n : GoString) (fields : List (GoString × V)) : Option V × Bool :=
  match fields.find? (fun f => f.1 = n) with
  | some f => (some f.2, true)
  | none => (none, false)

instance (names : List GoString) : Decidable (Ascending names) := by
  unfold Ascending
  infer_instance

instance {V : Type} (s : Struct V) : Decidable s.WF := by
  unfold Struct.WF
  infer_instance

instance {V : Type} (s : Struct V) : Decidable s.Sorted := by
  unfold Struct.Sorted
  infer_instance

/-- A map with two entries, visited in the order `b`, `a`. -/
def exampleData : StructData Nat :=
  ⟨[(lit "b", 2), (lit "a", 1)], by decide⟩

/-- The struct `T {a: 1, b: 2}`. -/
def exampleStruct : Struct Nat :=
  ⟨lit "T", 2, [(lit "a", 1), (lit "b", 2)]⟩

/-! ## Values (`go/types`)

Only `struct.go` and `path.go` of package `types` are among the sources; the
shape of the other values is taken from the way these two files and
`diff.go` use them. -/

/-- Go `NomsKind`. -/
inductive NomsKind
  | BoolKind | NumberKind | StringKind | BlobKind | ValueKind | ListKind | MapKind
  | RefKind | SetKind | StructKind | CycleKind | UnionKind | TypeKind
  deriving DecidableEq, Repr

/-- Go `hash.Hash`, a 20-byte address, kept as the number its bytes spell in
base 256 (most significant byte first). -/
abbrev Hash := Nat

/-- The empty hash: twenty zero bytes. -/
def emptyHash : Hash := 0

/-- Go `Hash.IsEmpty`. -/
def Hash.IsEmpty (h : Hash) : Bool := h = emptyHash

mutual
/-- A noms type: the descriptors `PrimitiveDesc`, `CompoundDesc`, `StructDesc`
and `CycleDesc` that `path.go` and `struct.go` refer to. -/
inductive NomsType
  | primitive (kind : NomsKind)
  | compound (kind : NomsKind) (elemTypes : NomsTypeList)
  | struct (name : GoString) (fields : StructFieldList)
  | cycle (name : GoString)
/-- A sequence of types (`CompoundDesc.ElemTypes`). -/
inductive NomsTypeList
  | nil
  | cons (head : NomsType) (tail : NomsTypeList)
/-- A sequence of `StructField{Name, Type, Optional}`. -/
inductive StructFieldList
  | nil
  | cons (name : GoString) (type : NomsType) (optional : Bool) (tail : StructFieldList)
end

deriving instance DecidableEq for NomsType, NomsTypeList, StructFieldList

mutual
/-- A non-nil Go `types.Value`.  A `Number` is a finite `float64`, kept as the
rational it denotes.  A struct is the decoded buffer described at
`Struct`. -/
inductive Value
  | bool (b : Bool)
  | number (n : ℚ)
  | string (s : GoString)
  | blob (data : List Nat)
  | list (elems : ValueList)
  | map (entries : EntryList)
  | set (elems : ValueList)
  | ref (target : Hash) (targetType : NomsType) (height : Nat)
  | struct (name : GoString) (count : Nat) (fields : FieldList)
  | type (t : NomsType)
/-- The elements of a list or set, in order. -/
inductive ValueList
  | nil
  | cons (head : Value) (tail : ValueList)
/-- The entries of a map, in key order. -/
inductive EntryList
  | nil
  | cons (key : Value) (val : Value) (tail : EntryList)
/-- The fields of a struct, in buffer order. -/
inductive FieldList
  | nil
  | cons (name : GoString) (val : Value) (tail : FieldList)
end

deriving instance DecidableEq for Value, ValueList, EntryList, FieldList

/-- The elements as a Lean list. -/
def ValueList.toList : ValueList → List Value
  | .nil => []
  | .cons v vs => v :: vs.toList

/-- The list of elements as a `ValueList`. -/
def ValueList.ofList : List Value → ValueList
  | [] => .nil
  | v :: vs => .cons v (ValueList.ofList vs)

/-- The entries as a Lean list of `(key, value)` pairs. -/
def EntryList.toList : EntryList → List (Value × Value)
  | .nil => []
  | .cons k v es => (k, v) :: es.toList

/-- The list of entries as an `EntryList`. -/
def EntryList.ofList : List (Value × Value) → EntryList
  | [] => .nil
  | (k, v) :: es => .cons k v (EntryList.ofList es)

/-- The fields as a Lean list of `(name, value)` pairs. -/
def FieldList.toList : FieldList → List (GoString × Value)
  | .nil => []
  | .cons n v fs => (n, v) :: fs.toList

/-- The list of fields as a `FieldList`. -/
def FieldList.ofList : List (GoString × Value) → FieldList
  | [] => .nil
  | (n, v) :: fs => .cons n v (FieldList.ofList fs)

/-- A `types.Struct` as a `Value`. -/
def Value.ofStruct (s : Struct Value) : Value :=
  .struct s.name s.count (FieldList.ofList s.fields)

/-- Go `v.(types.Struct)`: the struct behind a value of that dynamic type. -/
def Value.asStruct : Value → Option (Struct Value)
  | .struct name count fields => some ⟨name, count, fields.toList⟩
  | _ => none

/-- Go `Value.Kind`. -/
def Value.Kind : Value → NomsKind
  | .bool _ => .BoolKind
  | .number _ => .NumberKind
  | .string _ => .StringKind
  | .blob _ => .BlobKind
  | .list _ => .ListKind
  | .map _ => .MapKind
  | .set _ => .SetKind
  | .ref _ _ _ => .RefKind
  | .struct _ _ _ => .StructKind
  | .type _ => .TypeKind

/-- Go `Value.Equals`: two values are equal when their encodings are, that
is, when they are the same value. -/
def Value.Equals (v w : Value) : Bool := decide (v = w)

/-! ## Paths (`path.go`) -/

/-- Go `PathPart`: the six implementations of the interface in `path.go`. -/
inductive PathPart
  | FieldPath (Name : GoString)
  | IndexPath (Index : Value) (IntoKey : Bool)
  | HashIndexPath (Hash : Hash) (IntoKey : Bool)
  | TypeAnnotation
  | TargetAnnotation
  | AtAnnotation (Index : Int) (IntoKey : Bool)
  deriving DecidableEq

/-- Go `Path`, a slice of parts; the nil path is `[]`. -/
abbrev Path := List PathPart

/-- The errors that `ParsePath` returns, one per `errors.New` / `fmt.Errorf` of
`path.go`, and `panic` for a failed `d.PanicIf...`. -/
inductive PathError
  /-- Error `Empty path`. -/
  | emptyPath
  /-- Error `Invalid field: ...`. -/
  | invalidField
  /-- Error `Path ends in [`. -/
  | endsInBracket
  /-- Error `[ is missing closing ]`. -/
  | missingClosingBracket
  /-- Error `Only " and \ can be escaped`. -/
  | badEscape
  /-- Error `Empty index value`. -/
  | emptyIndex
  /-- Error `Invalid hash: ...`. -/
  | invalidHash
  /-- Error `Invalid index: ...`. -/
  | invalidIndex
  /-- Error `@at annotation requires a position argument`. -/
  | atNeedsArgument
  /-- Error `Invalid position: ...`. -/
  | invalidPosition
  /-- Error `@key annotation does not support arguments`. -/
  | keyHasArgument
  /-- Error `Cannot use @key annotation at beginning of path`. -/
  | keyAtBeginning
  /-- Error `Cannot use @key annotation on: ...`. -/
  | keyOnPart (lastPart : PathPart)
  /-- Error `@target annotation does not support arguments`. -/
  | targetHasArgument
  /-- Error `@type annotation does not support arguments`. -/
  | typeHasArgument
  /-- Error `Unsupported annotation: @...`. -/
  | unsupportedAnnotation (ann : GoString)
  /-- Error `] is missing opening [`. -/
  | missingOpeningBracket
  /-- Error `Invalid operator: ...`. -/
  | invalidOperator (op : Nat)
  /-- A `d.PanicIfTrue` / `d.PanicIfFalse` that fired. -/
  | panic
  /-- The recursion budget of the embedding ran out (never with the budget
  that `ParsePath` gives, see `constructPath_fuel`). -/
  | outOfFuel
  deriving DecidableEq

deriving instance DecidableEq for Except

/-- Go `ValueCanBePathIndex`. -/
def ValueCanBePathIndex (v : Value) : Bool :=
  let k := v.Kind
  k = .StringKind || k = .BoolKind || k = .NumberKind

/-- Go `newIndexPath`; `none` is the panic of `d.PanicIfFalse`. -/
def newIndexPath (idx : Value) (intoKey : Bool) : Option PathPart :=
  if !ValueCanBePathIndex idx then none else some (.IndexPath idx intoKey)

/-- Go `NewIndexPath`. -/
def NewIndexPath (idx : Value) : Option PathPart := newIndexPath idx false

/-- Go `newHashIndexPath`; `none` is the panic of `d.PanicIfTrue`. -/
def newHashIndexPath (h : Hash) (intoKey : Bool) : Option PathPart :=
  if h.IsEmpty then none else some (.HashIndexPath h intoKey)

/-- Go `NewHashIndexPath`. -/
def NewHashIndexPath (h : Hash) : Option PathPart := newHashIndexPath h false

/-- Go `NewAtAnnotation`. -/
def NewAtAnnotation (idx : Int) : PathPart := PathPart.AtAnnotation idx false

/-- The type assertion `lastPart.(keyIndexable)` followed by
`setIntoKey(v)`: `IndexPath`, `HashIndexPath` and `AtAnnotation` are the
types with a `setIntoKey` method; `none` when the assertion fails. -/
def setIntoKey (part : PathPart) (v : Bool) : Option PathPart :=
  match part with
  | .IndexPath idx _ => some (.IndexPath idx v)
  | .HashIndexPath h _ => some (.HashIndexPath h v)
  | PathPart.AtAnnotation idx _ => some ( PathPart.AtAnnotation idx v)
  | _ => none

/-- The value of one character of the address alphabet
`0123456789abcdefghijklmnopqrstuv`. -/
def base32Digit (b : Nat) : Option Nat :=
  if 0x30 ≤ b ∧ b ≤ 0x39 then some (b - 0x30)
  else if 0x61 ≤ b ∧ b ≤ 0x76 then some (b - 0x61 + 10)
  else none

/-- The number spelled by base-32 digits, most significant first. -/
def base32Value : Nat → GoString → Option Nat
  | acc, [] => some acc
  | acc, b :: rest =>
    match base32Digit b with
    | some d => base32Value (acc * 32 + d) rest
    | none => none

/-- Modelled from the spec: `hash.MaybeParse` of package `go/hash`, which is
not among the sources.  The spec gives the textual form of an address as 32
characters of base 32 over the alphabet `0123456789abcdefghijklmnopqrstuv`;
any other string is not an address (`none`, where the Go function returns
the empty hash and `false`). -/
def hashMaybeParse (s : GoString) : Option Hash :=
  if s.length ≠ 32 then none else base32Value 0 s

/-- Go `strconv.ParseFloat(s, 64)` is outside the repository and outside the
embedding: `Floats` carries the function used in its place, `none` being a
non-nil error. -/
structure Floats where
  /-- Go `strconv.ParseFloat(s, 64)`. -/
  parseFloat : GoString → Option ℚ

/-- The value of a run of decimal digits; `none` when a character is not a
digit. -/
def decimalValue : Nat → GoString → Option Nat
  | acc, [] => some acc
  | acc, b :: rest =>
    if 0x30 ≤ b ∧ b ≤ 0x39 then decimalValue (acc * 10 + (b - 0x30)) rest else none

/-- Go `strconv.ParseInt(s, 10, 64)` (standard library): an optional sign
followed by one or more decimal digits, whose value lies in
`[-2^63, 2^63 - 1]`; `none` is a non-nil error (syntax or range). -/
def parseInt64 (s : GoString) : Option Int :=
  match s with
  | [] => none
  | c :: rest =>
    let neg := c = 0x2D
    let digits := if c = 0x2B ∨ c = 0x2D then rest else c :: rest
    if digits = [] then none
    else
      match decimalValue 0 digits with
      | none => none
      | some un =>
        if !neg && un ≥ 2 ^ 63 then none
        else if neg && un > 2 ^ 63 then none
        else some (if neg then -(un : Int) else (un : Int))

/-- What `ParsePathIndex` returns beside the error. -/
structure PathIndex where
  /-- The index value, nil for a hash index. -/
  idx : Option Value
  /-- The hash, empty for a value index. -/
  h : Hash
  /-- The rest of the string. -/
  rem : GoString
  deriving DecidableEq

/-- The loop of the `'"'` case of `ParsePathIndex`: `str` is `str[i:]` and `buf`
is `stringBuf`; the result is the string read and `str[i:]` after the
loop. -/
def parseQuoted : GoString → GoString → Except PathError (GoString × GoString)
  | [], buf => .ok (buf, [])
  | [c], buf => if c = 0x22 then .ok (buf, []) else .ok (buf ++ [c], [])
  | c :: c2 :: rest, buf =>
    if c = 0x22 then .ok (buf, c2 :: rest)
    else if c = 0x5C then
      if c2 ≠ 0x5C ∧ c2 ≠ 0x22 then .error .badEscape
      else parseQuoted rest (buf ++ [c2])
    else parseQuoted (c2 :: rest) (buf ++ [c])

/-- Go `strings.Index(str, "]")`, as the split of `str` before the first
`]`: `none` when there is none (`sepIdx < 0`). -/
def splitAtBracket (str : GoString) : Option (GoString × GoString) :=
  if 0x5D ∈ str then some (str.takeWhile (· ≠ 0x5D), str.dropWhile (· ≠ 0x5D)) else none

/-- The `default` case of `ParsePathIndex` once `idxStr` and `rem` are set: the
chain of `if`s on `idxStr`. -/
def parsePlainIndex (fl : Floats) (idxStr rem : GoString) : Except PathError PathIndex :=
  match idxStr with
  | [] => .error .emptyIndex
  | c0 :: hashStr =>
    if c0 = 0x23 then
      match hashMaybeParse hashStr with
      | none => .error .invalidHash
      | some h => if h.IsEmpty then .error .invalidHash else .ok ⟨none, h, rem⟩
    else if idxStr = lit "true" then .ok ⟨some (.bool true), emptyHash, rem⟩
    else if idxStr = lit "false" then .ok ⟨some (.bool false), emptyHash, rem⟩
    else
      match fl.parseFloat idxStr with
      | some i => .ok ⟨some (.number i), emptyHash, rem⟩
      | none => .error .invalidIndex

/-- Go `ParsePathIndex`, called with a non-empty `str` (`str[0]` panics on an
empty one). -/
def ParsePathIndex (fl : Floats) (str : GoString) : Except PathError PathIndex :=
  match str with
  | [] => .error .panic
  | c :: rest =>
    if c = 0x22 then
      match parseQuoted rest [] with
      | .error e => .error e
      | .ok (s, rem) => .ok ⟨some (.string s), emptyHash, rem⟩
    else
      match splitAtBracket str with
      | some (idxStr, rem) => parsePlainIndex fl idxStr rem
      | none => parsePlainIndex fl str []

/-- The class `[a-z]` of `annotationRe`. -/
def annotationNameClass (b : Nat) : Bool := 0x61 ≤ b && b ≤ 0x7A

/-- The class `[\w\-"']` of `annotationRe`; `\w` is `[0-9A-Za-z_]`. -/
def annotationArgClass (b : Nat) : Bool :=
  (0x30 ≤ b && b ≤ 0x39) || (0x41 ≤ b && b ≤ 0x5A) || (0x61 ≤ b && b ≤ 0x7A) || b = 0x5F
    || b = 0x2D || b = 0x22 || b = 0x27

/-- Go `getAnnotation`: the submatches of
`annotationRe = ^([a-z]+)(\(([\w\-"']*)\))?` on `str`, as
`(ann, hasArg, arg, rem)`.  The name is the longest run of `[a-z]`; the
argument group matches when that run is followed by `(`, a run of the
argument class, and `)`. -/
def getAnnotation (str : GoString) : GoString × Bool × GoString × GoString :=
  let ann := str.takeWhile annotationNameClass
  if ann = [] then ([], false, [], [])
  else
    let rest := str.dropWhile annotationNameClass
    match rest with
    | [] => (ann, false, [], rest)
    | c :: r =>
      if c = 0x28 then
        match r.dropWhile annotationArgClass with
        | [] => (ann, false, [], rest)
        | c' :: rem =>
          if c' = 0x29 then (ann, true, r.takeWhile annotationArgClass, rem)
          else (ann, false, [], rest)
      else (ann, false, [], rest)

/-- Go `constructPath`.  Each call consumes at least one character of `str`;
`fuel` bounds the depth of the recursion. -/
def constructPath (fl : Floats) : Nat → Path → GoString → Except PathError Path
  | 0, _, _ => .error .outOfFuel
  | fuel + 1, p, str =>
    match str with
    | [] => .ok p
    | op :: tail =>
      if op = 0x2E then
        match fieldNameComponentFindIndex tail with
        | none => .error .invalidField
        | some idx =>
          constructPath fl fuel (p ++ [.FieldPath (tail.take idx.2)]) (tail.drop idx.2)
      else if op = 0x5B then
        if tail.length = 0 then .error .endsInBracket
        else
          match ParsePathIndex fl tail with
          | .error e => .error e
          | .ok r =>
            match r.rem with
            | [] => .error .missingClosingBracket
            | c :: rem1 =>
              if c ≠ 0x5D then .error .missingClosingBracket
              else if r.idx.isNone && r.h.IsEmpty then .error .panic
              else if r.idx.isSome && !r.h.IsEmpty then .error .panic
              else
                match r.idx with
                | some idx =>
                  match NewIndexPath idx with
                  | none => .error .panic
                  | some part => constructPath fl fuel (p ++ [part]) rem1
                | none =>
                  match NewHashIndexPath r.h with
                  | none => .error .panic
                  | some part => constructPath fl fuel (p ++ [part]) rem1
      else if op = 0x40 then
        match getAnnotation tail with
        | (ann, hasArg, arg, rem) =>
          if ann = lit "at" then
            if arg = [] then .error .atNeedsArgument
            else
              match parseInt64 arg with
              | none => .error .invalidPosition
              | some idx => constructPath fl fuel (p ++ [ NewAtAnnotation idx]) rem
          else if ann = lit "key" then
            if hasArg then .error .keyHasArgument
            else
              match p.getLast? with
              | none => .error .keyAtBeginning
              | some lastPart =>
                match setIntoKey lastPart true with
                | some ki => constructPath fl fuel (p.dropLast ++ [ki]) rem
                | none => .error (.keyOnPart lastPart)
          else if ann = lit "target" then
            if hasArg then .error .targetHasArgument
            else constructPath fl fuel (p ++ [ PathPart.TargetAnnotation]) rem
          else if ann = lit "type" then
            if hasArg then .error .typeHasArgument
            else constructPath fl fuel (p ++ [ PathPart.TypeAnnotation]) rem
          else .error ( PathError.unsupportedAnnotation ann)
      else if op = 0x5D then .error .missingOpeningBracket
      else .error (.invalidOperator op)

/-- Go `ParsePath`.  The recursion of `constructPath` is given one step per
character of `str` and one for the empty rest. -/
def ParsePath (fl : Floats) (str : GoString) : Except PathError Path :=
  if str = [] then .error .emptyPath
  else constructPath fl (str.length + 1) [] str

/-- A stand-in for `strconv.ParseFloat` on the unsigned decimal integers
(`"0"`, `"1"`, `"42"`, ...), on which the two agree; every other string is
refused. -/
def decimalFloats : Floats :=
  ⟨fun s => if s = [] then none else (decimalValue 0 s).map fun n => (n : ℚ)⟩

/-! ## The path grammar of the specification

```
path  := part*
part  := '.' fieldName
       | '[' indexValue ']' ('@key')?
       | '@type' | '@target' | '@at(' int ')' ('@key')?
indexValue := number | '"' escapedStr '"' | 'true' | 'false' | '#' hash
```
-/

/-- The nonterminal `indexValue`: which alternative, and the text of its
token.  For a quoted string the token kept is the string that is spelled;
its `escapedStr` is `escapeString` of it. -/
inductive IndexValue
  | number (text : GoString)
  | string (s : GoString)
  | bool (b : Bool)
  | hash (text : GoString)
  deriving DecidableEq

/-- The nonterminal `part`; `key` tells whether the optional `'@key'` is
there. -/
inductive PathSyntax
  | field (fieldName : GoString)
  | index (iv : IndexValue) (key : Bool)
  | typeAnn
  | targetAnn
  | atAnn (int : GoString) (key : Bool)
  deriving DecidableEq

/-- The `escapedStr` that spells `s`: a backslash goes before every `"` and
every backslash. -/
def escapeString : GoString → GoString
  | [] => []
  | c :: rest =>
    if c = 0x22 ∨ c = 0x5C then 0x5C :: c :: escapeString rest else c :: escapeString rest

/-- The string generated for an `indexValue`. -/
def IndexValue.render : IndexValue → GoString
  | .number text => text
  | .string s => 0x22 :: (escapeString s ++ [0x22])
  | .bool true => lit "true"
  | .bool false => lit "false"
  | .hash text => 0x23 :: text

/-- The text `('@key')?`. -/
def keySuffix (key : Bool) : GoString := if key then lit "@key" else []

/-- The string generated for a `part`. -/
def PathSyntax.render : PathSyntax → GoString
  | .field fieldName => 0x2E :: fieldName
  | .index iv key => 0x5B :: (iv.render ++ 0x5D :: keySuffix key)
  | .typeAnn => lit "@type"
  | .targetAnn => lit "@target"
  | .atAnn int key => lit "@at(" ++ (int ++ 0x29 :: keySuffix key)

/-- The string generated for `path := part*`. -/
def renderPath : List PathSyntax → GoString
  | [] => []
  | part :: parts => part.render ++ renderPath parts

/-- A decimal integer: digits, after an optional `-`. -/
def isDecimalInt (t : GoString) : Bool :=
  match t with
  | [] => false
  | c :: rest =>
    if c = 0x2D then rest ≠ [] && rest.all (fun b => 0x30 ≤ b && b ≤ 0x39)
    else t.all (fun b => 0x30 ≤ b && b ≤ 0x39)

/-- The tokens of an `indexValue` that the parser knows: a `number` is a text
that `strconv.ParseFloat` accepts (such a text has no `]`, does not start with
`"` or `#` and is not `true` or `false`), a `hash` is the text of a non-empty
address, and every string can be spelled. -/
def IndexValue.wf (fl : Floats) : IndexValue → Bool
  | .number text =>
    match text with
    | [] => false
    | c :: _ =>
      c ≠ 0x22 && c ≠ 0x23 && !(text.contains 0x5D) && text ≠ lit "true" && text ≠ lit "false"
        && (fl.parseFloat text).isSome
  | .string _ => true
  | .bool _ => true
  | .hash text =>
    match hashMaybeParse text with
    | some h => !h.IsEmpty
    | none => false

/-- The tokens of a `part` that the parser knows: a `fieldName` matches
`[A-Za-z][A-Za-z0-9_]*`, an `int` is a decimal integer of 64 bits. -/
def PathSyntax.wf (fl : Floats) : PathSyntax → Bool
  | .field fieldName => fieldNameReMatch fieldName
  | .index iv _ => iv.wf fl
  | .typeAnn => true
  | .targetAnn => true
  | .atAnn int _ => isDecimalInt int && (parseInt64 int).isSome

/-- The part that an `indexValue` followed by `('@key')?` stands for. -/
def IndexValue.denote (fl : Floats) (key : Bool) : IndexValue → PathPart
  | .number text =>
    match fl.parseFloat text with
    | some q => .IndexPath (.number q) key
    | none => .IndexPath (.number 0) key
  | .string s => .IndexPath (.string s) key
  | .bool b => .IndexPath (.bool b) key
  | .hash text =>
    match hashMaybeParse text with
    | some h => .HashIndexPath h key
    | none => .HashIndexPath emptyHash key

/-- The `PathPart` that a `part` stands for. -/
def PathSyntax.denote (fl : Floats) : PathSyntax → PathPart
  | .field fieldName => .FieldPath fieldName
  | .index iv key => iv.denote fl key
  | .typeAnn => PathPart.TypeAnnotation
  | .targetAnn => PathPart.TargetAnnotation
  | .atAnn int key =>
    match parseInt64 int with
    | some n => PathPart.AtAnnotation n key
    | none => PathPart.AtAnnotation 0 key

/-- The rest of a path after a part: empty, or the first character of a
part. -/
def startsPart : GoString → Bool
  | [] => true
  | c :: _ => c = 0x2E || c = 0x5B || c = 0x40

/-- The parts of `.foo["a\"]b\\"]@key[42][true][#94a2...]@key@type@target@at(-42)@key`. -/
def exampleParts : List PathSyntax :=
  [.field (lit "foo"), .index (.string (lit "a\"]b\\")) true, .index (.number (lit "42")) false,
    .index (.bool true) false, .index (.hash (lit "94a2oa20oka0jdv5lha03vuvvumul1vb")) true,
    .typeAnn, .targetAnn, .atAnn (lit "-42") true]

/-- The part `[1]@key`. -/
def exampleKeyPart : PathSyntax := .index (.number (lit "1")) true

/-! ## `Struct.Diff` (`struct.go`) -/

/-- Go `types.DiffChangeType`. -/
inductive DiffChangeType
  | DiffChangeAdded
  | DiffChangeRemoved
  | DiffChangeModified
  deriving DecidableEq

/-- Go `types.ValueChanged{ChangeType, Key, OldValue, NewValue}`. -/
structure ValueChanged where
  /-- Added, removed or modified. -/
  ChangeType : DiffChangeType
  /-- The key (a field name as a `String`, a map key, a set element). -/
  Key : Option Value
  /-- The value before, nil for an addition. -/
  OldValue : Option Value
  /-- The value after, nil for a removal. -/
  NewValue : Option Value
  deriving DecidableEq

/-- What a struct decoder reads after the field count: names and values in
turn. -/
inductive Token
  | name (s : GoString)
  | value (v : Value)
  deriving DecidableEq

/-- The buffer of a struct after its field count. -/
def fieldTokens : List (GoString × Value) → List Token
  | [] => []
  | (n, v) :: rest => .name n :: .value v :: fieldTokens rest

/-- Go `dec.readString()` on a field name.  `none` when the decoder is at the
end of the buffer, or at a value: the bytes there are not the encoding of a
field name and what the Go decoder makes of them is not modelled. -/
def readString : List Token → Option (GoString × List Token)
  | .name s :: rest => some (s, rest)
  | _ => none

/-- Go `dec.readValue()`.  `none` when the decoder is at the end of the
buffer, or at a field name. -/
def readValue : List Token → Option (Value × List Token)
  | .value v :: rest => some (v, rest)
  | _ => none

/-- Go `if fn == "" { fn = dec.readString() }`. -/
def readNameIfEmpty (fn : GoString) (dec : List Token) : Option (GoString × List Token) :=
  if fn = [] then readString dec else some (fn, dec)

/-- The variables of `Struct.Diff` that its loops update. -/
structure StructDiffState where
  /-- The decoder of `s`. -/
  dec1 : List Token
  /-- The decoder of `last`. -/
  dec2 : List Token
  /-- Fields of `s` done. -/
  i1 : Nat
  /-- Fields of `last` done. -/
  i2 : Nat
  /-- The name read from `dec1` whose value is not read yet, or `""`. -/
  fn1 : GoString
  /-- The name read from `dec2` whose value is not read yet, or `""`. -/
  fn2 : GoString
  /-- The changes sent so far. -/
  sent : List ValueChanged

/-- The loop `for i1 < count1 && i2 < count2` of `Struct.Diff`, with a receiver
that never closes `closeChan` (`sendChange` returns true).  The variable
`change` stays the zero `ValueChanged{}` exactly when the two values are
equal; every change that is assigned has a non-nil `Key`.  Each iteration
advances `i1` or `i2`, so `count1 + count2` iterations are enough; `none`
when a decoder fails. -/
def structDiffLoop (count1 count2 : Nat) : Nat → StructDiffState → Option StructDiffState
  | 0, st => if st.i1 < count1 ∧ st.i2 < count2 then none else some st
  | fuel + 1, st =>
    if st.i1 < count1 ∧ st.i2 < count2 then
      match readNameIfEmpty st.fn1 st.dec1 with
      | none => none
      | some (fn1, dec1) =>
        match readNameIfEmpty st.fn2 st.dec2 with
        | none => none
        | some (fn2, dec2) =>
          if fn1 = fn2 then
            match readValue dec1 with
            | none => none
            | some (v1, dec1') =>
              match readValue dec2 with
              | none => none
              | some (v2, dec2') =>
                let sent :=
                  if !v1.Equals v2 then
                    st.sent ++ [⟨.DiffChangeModified, some (.string fn1), some v2, some v1⟩]
                  else st.sent
                structDiffLoop count1 count2 fuel ⟨dec1', dec2', st.i1 + 1, st.i2 + 1, [], [], sent⟩
          else if strLt fn1 fn2 then
            match readValue dec1 with
            | none => none
            | some (v1, dec1') =>
              structDiffLoop count1 count2 fuel
                ⟨dec1', dec2, st.i1 + 1, st.i2, [], fn2,
                  st.sent ++ [⟨.DiffChangeAdded, some (.string fn1), none, some v1⟩]⟩
          else
            match readValue dec2 with
            | none => none
            | some (v2, dec2') =>
              structDiffLoop count1 count2 fuel
                ⟨dec1, dec2', st.i1, st.i2 + 1, fn1, [],
                  st.sent ++ [⟨.DiffChangeRemoved, some (.string fn2), some v2, none⟩]⟩
    else some st

/-- The loop `for ; i1 < count1; i1++` of `Struct.Diff`: `n` is `count1 - i1`.
The name `fn1` is read when it is `""` and is not cleared after the value is
read. -/
def structDiffAdded : Nat → GoString → List Token → List ValueChanged →
    Option (List ValueChanged)
  | 0, _, _, sent => some sent
  | n + 1, fn1, dec1, sent =>
    match readNameIfEmpty fn1 dec1 with
    | none => none
    | some (fn1', dec1') =>
      match readValue dec1' with
      | none => none
      | some (v1, dec1'') =>
        structDiffAdded n fn1' dec1''
          (sent ++ [⟨.DiffChangeAdded, some (.string fn1'), none, some v1⟩])

/-- The loop `for ; i2 < count2; i2++` of `Struct.Diff`: `n` is `count2 - i2`. -/
def structDiffRemoved : Nat → GoString → List Token → List ValueChanged →
    Option (List ValueChanged)
  | 0, _, _, sent => some sent
  | n + 1, fn2, dec2, sent =>
    match readNameIfEmpty fn2 dec2 with
    | none => none
    | some (fn2', dec2') =>
      match readValue dec2' with
      | none => none
      | some (v2, dec2'') =>
        structDiffRemoved n fn2' dec2''
          (sent ++ [⟨.DiffChangeRemoved, some (.string fn2'), some v2, none⟩])

/-- Go `Struct.Diff(last, changes, closeChan)`: the changes sent on `changes`,
in order, when the receiver takes all of them; `none` when a decoder
fails. -/
def Struct.Diff (s last : Struct Value) : Option (List ValueChanged) :=
  if s = last then some []
  else
    match structDiffLoop s.count last.count (s.count + last.count)
        ⟨fieldTokens s.fields, fieldTokens last.fields, 0, 0, [], [], []⟩ with
    | none => none
    | some st =>
      match structDiffAdded (s.count - st.i1) st.fn1 st.dec1 st.sent with
      | none => none
      | some sent => structDiffRemoved (last.count - st.i2) st.fn2 st.dec2 sent

/-! ## Diff (`diff.go`) -/

/-- Go `types.Splice{SpAt, SpRemoved, SpFrom, SpAdded}`. -/
structure Splice where
  /-- Where, in the old list. -/
  SpAt : Nat
  /-- How many elements are removed there. -/
  SpRemoved : Nat
  /-- Where, in the new list, the added elements are. -/
  SpFrom : Nat
  /-- How many elements are added. -/
  SpAdded : Nat
  deriving DecidableEq

/-- Go `diff.Difference`. -/
structure Difference where
  /-- Path to the value that has changed. -/
  Path : Path
  /-- The type of the change. -/
  ChangeType : DiffChangeType
  /-- The value before the change, nil when added. -/
  OldValue : Option Value
  /-- The value after the change, nil when removed. -/
  NewValue : Option Value
  /-- The new key, for elements added under a key. -/
  NewKeyValue : Option Value
  deriving DecidableEq

/-- The functions of package `types` that `diff.go` calls and that are not
among the sources: the diffs of the ordered sequences and the hash of a
value.  Each diff is given the new collection first, as in `v2.Diff(v1, ...)`,
and yields what it sends on its channel when the receiver takes all of it. -/
structure SequenceDiffs where
  /-- Go `List.Diff`. -/
  listDiff : List Value → List Value → List Splice
  /-- Go `Map.DiffLeftRight`. -/
  mapDiffLeftRight : List (Value × Value) → List (Value × Value) → List ValueChanged
  /-- Go `Map.DiffHybrid`. -/
  mapDiffHybrid : List (Value × Value) → List (Value × Value) → List ValueChanged
  /-- Go `Set.DiffLeftRight`. -/
  setDiffLeftRight : List Value → List Value → List ValueChanged
  /-- Go `Set.DiffHybrid`. -/
  setDiffHybrid : List Value → List Value → List ValueChanged
  /-- Go `Value.Hash`. -/
  hashOf : Value → Hash

/-- Why a diff yields no list of differences. -/
inductive DiffFailure
  /-- A Go panic. -/
  | panic
  /-- The recursion budget of the embedding ran out. -/
  | outOfFuel
  deriving DecidableEq

/-- What a diff function sends on `diffChan` when the receiver takes all of
it. -/
abbrev DiffResult := Except DiffFailure (List Difference)

/-- Modelled from the spec: `types.IsPrimitiveKind` is not among the sources.
The spec has `Diff` descend into the non-primitive values, which `differ.diff`
takes to be of kind List, Map, Set or Struct, and has Ref treated apart; the
kinds of the other values are the primitive ones. -/
def IsPrimitiveKind (k : NomsKind) : Bool :=
  match k with
  | .BoolKind | .NumberKind | .StringKind | .BlobKind | .ValueKind | .TypeKind => true
  | _ => false

/-- Go `shouldDescend`. -/
def shouldDescend (v1 v2 : Value) : Bool :=
  let kind := v1.Kind
  !IsPrimitiveKind kind && kind = v2.Kind && kind ≠ .RefKind

/-- Go `shouldDescend` on values that may be nil: `v1.Kind()` panics on a nil
`v1`, and `v2.Kind()`, evaluated when `v1` is not primitive, on a nil `v2`. -/
def shouldDescendNil (v1 v2 : Option Value) : Option Bool :=
  match v1 with
  | none => none
  | some a =>
    if IsPrimitiveKind a.Kind then some false
    else
      match v2 with
      | none => none
      | some b => some (shouldDescend a b)

/-- The differences sent by consecutive pieces of work; the first failure
ends the diff. -/
def concatDiffs : List DiffResult → DiffResult
  | [] => .ok []
  | r :: rest =>
    match r with
    | .error e => .error e
    | .ok ds =>
      match concatDiffs rest with
      | .error e => .error e
      | .ok ds' => .ok (ds ++ ds')

/-- Go `List.Get(i)`; `none` is the panic on an index out of range. -/
def listGet (l : List Value) (i : Nat) : Option Value := l.get? i

/-- Go `Map.Get(k)`: the value under the key `k`, nil when there is none. -/
def mapGet (m : List (Value × Value)) (k : Value) : Option Value :=
  match m.find? (fun e => e.1 = k) with
  | some e => some e.2
  | none => none

/-- Go `Struct.Get(n)`; the outer `none` is the panic `Struct has no
field`. -/
def Struct.Get {V : Type} (s : Struct V) (n : GoString) : Option V :=
  match s.MaybeGet n with
  | some (some v, true) => some v
  | _ => none

/-- The path part of a list index: `types.NewIndexPath(types.Number(i))`. -/
def listIndexPart (i : Nat) : PathPart := .IndexPath (.number (i : ℚ)) false

/-- One round `i` of the loop of `diffLists` over a splice with
`SpRemoved == SpAdded`; `recDiff` is `d.diff`. -/
def diffListsModified (recDiff : Path → Value → Value → DiffResult) (p : Path)
    (v1 v2 : List Value) (splice : Splice) (i : Nat) : DiffResult :=
  match listGet v1 (splice.SpAt + i), listGet v2 (splice.SpFrom + i) with
  | some lastEl, some newEl =>
    if shouldDescend lastEl newEl then
      recDiff (p ++ [listIndexPart (splice.SpAt + i)]) lastEl newEl
    else
      .ok [⟨p ++ [listIndexPart (splice.SpAt + i)], .DiffChangeModified, some lastEl,
        some newEl, none⟩]
  | _, _ => .error .panic

/-- One round `i` of the first loop of `diffLists` over a splice with
`SpRemoved != SpAdded`. -/
def diffListsRemoved (p : Path) (v1 : List Value) (splice : Splice) (i : Nat) : DiffResult :=
  match listGet v1 (splice.SpAt + i) with
  | some old =>
    .ok [⟨p ++ [listIndexPart (splice.SpAt + i)], .DiffChangeRemoved, some old, none, none⟩]
  | none => .error .panic

/-- One round `i` of the second loop of `diffLists` over a splice with
`SpRemoved != SpAdded`. -/
def diffListsAdded (p : Path) (v2 : List Value) (splice : Splice) (i : Nat) : DiffResult :=
  match listGet v2 (splice.SpFrom + i) with
  | some new =>
    .ok [⟨p ++ [listIndexPart (splice.SpFrom + i)], .DiffChangeAdded, none, some new, none⟩]
  | none => .error .panic

/-- The body of `for splice := range spliceChan` in `diffLists`. -/
def diffListsSplice (recDiff : Path → Value → Value → DiffResult) (p : Path)
    (v1 v2 : List Value) (splice : Splice) : DiffResult :=
  if splice.SpRemoved = splice.SpAdded then
    concatDiffs ((List.range splice.SpRemoved).map (diffListsModified recDiff p v1 v2 splice))
  else
    concatDiffs
      ((List.range splice.SpRemoved).map (diffListsRemoved p v1 splice) ++
        (List.range splice.SpAdded).map (diffListsAdded p v2 splice))

/-- Go `differ.diffLists`, with a receiver that never stops. -/
def diffLists (sd : SequenceDiffs) (recDiff : Path → Value → Value → DiffResult) (p : Path)
    (v1 v2 : List Value) : DiffResult :=
  concatDiffs ((sd.listDiff v2 v1).map (diffListsSplice recDiff p v1 v2))

/-- The body of `for change := range changeChan` in `diffOrdered`.  `ppf`, `v1`
and `v2` are the function arguments of `diffOrdered` (`kf` is the identity
at each of its three calls); their `none` is a panic, and the inner `none`
of `v1` and `v2` a nil value. -/
def diffOrderedChange (recDiff : Path → Value → Value → DiffResult) (p : Path)
    (ppf : Value → Option PathPart) (v1 v2 : Value → Option (Option Value))
    (change : ValueChanged) : DiffResult :=
  match change.Key with
  | none => .error .panic
  | some k =>
    match ppf k with
    | none => .error .panic
    | some part =>
      let p1 := p ++ [part]
      match change.ChangeType with
      | .DiffChangeAdded =>
        match v2 k with
        | none => .error .panic
        | some new => .ok [⟨p1, .DiffChangeAdded, none, new, some k⟩]
      | .DiffChangeRemoved =>
        match v1 k with
        | none => .error .panic
        | some old => .ok [⟨p1, .DiffChangeRemoved, old, none, none⟩]
      | .DiffChangeModified =>
        match v1 k, v2 k with
        | some c1, some c2 =>
          match shouldDescendNil c1 c2, c1, c2 with
          | some true, some a, some b => recDiff p1 a b
          | some false, _, _ => .ok [⟨p1, .DiffChangeModified, c1, c2, none⟩]
          | _, _, _ => .error .panic
        | _, _ => .error .panic

/-- Go `differ.diffOrdered`, with a receiver that never stops; `changes` is
what `df` sends. -/
def diffOrdered (recDiff : Path → Value → Value → DiffResult) (p : Path)
    (ppf : Value → Option PathPart) (changes : List ValueChanged)
    (v1 v2 : Value → Option (Option Value)) : DiffResult :=
  concatDiffs (changes.map (diffOrderedChange recDiff p ppf v1 v2))

/-- The `pathPartFunc` of `diffMaps` and `diffSets`. -/
def keyPathPart (sd : SequenceDiffs) (v : Value) : Option PathPart :=
  if ValueCanBePathIndex v then NewIndexPath v else NewHashIndexPath (sd.hashOf v)

/-- Go `differ.diffMaps`. -/
def diffMaps (sd : SequenceDiffs) (leftRight : Bool)
    (recDiff : Path → Value → Value → DiffResult) (p : Path)
    (v1 v2 : List (Value × Value)) : DiffResult :=
  diffOrdered recDiff p (keyPathPart sd)
    (if leftRight then sd.mapDiffLeftRight v2 v1 else sd.mapDiffHybrid v2 v1)
    (fun k => some (mapGet v1 k)) (fun k => some (mapGet v2 k))

/-- The function `str` of `diffStructs`: `string(v.(types.String))`. -/
def keyString (v : Value) : Option GoString :=
  match v with
  | .string s => some s
  | _ => none

/-- The `valueFunc`s of `diffStructs`: `v.Get(str(k))`. -/
def structValue (s : Struct Value) (k : Value) : Option (Option Value) :=
  match keyString k with
  | none => none
  | some n =>
    match s.Get n with
    | none => none
    | some v => some (some v)

/-- Go `differ.diffStructs`. -/
def diffStructs (recDiff : Path → Value → Value → DiffResult) (p : Path)
    (v1 v2 : Struct Value) : DiffResult :=
  match v2.Diff v1 with
  | none => .error .panic
  | some changes =>
    diffOrdered recDiff p (fun v => (keyString v).map PathPart.FieldPath) changes
      (structValue v1) (structValue v2)

/-- Go `differ.diffSets`. -/
def diffSets (sd : SequenceDiffs) (leftRight : Bool)
    (recDiff : Path → Value → Value → DiffResult) (p : Path) (v1 v2 : List Value) : DiffResult :=
  diffOrdered recDiff p (keyPathPart sd)
    (if leftRight then sd.setDiffLeftRight v2 v1 else sd.setDiffHybrid v2 v1)
    (fun k => some (some k)) (fun k => some (some k))

/-- Go `differ.diff`.  The recursion goes into values inside `v1`; `fuel`
bounds its depth. -/
def differDiff (sd : SequenceDiffs) (leftRight : Bool) : Nat → Path → Value → Value → DiffResult
  | 0, _, _, _ => .error .outOfFuel
  | fuel + 1, p, v1, v2 =>
    match v1, v2 with
    | .list l1, .list l2 =>
      diffLists sd (differDiff sd leftRight fuel) p l1.toList l2.toList
    | .map m1, .map m2 =>
      diffMaps sd leftRight (differDiff sd leftRight fuel) p m1.toList m2.toList
    | .set s1, .set s2 =>
      diffSets sd leftRight (differDiff sd leftRight fuel) p s1.toList s2.toList
    | .struct n1 c1 f1, .struct n2 c2 f2 =>
      diffStructs (differDiff sd leftRight fuel) p ⟨n1, c1, f1.toList⟩ ⟨n2, c2, f2.toList⟩
    | _, _ => .error .panic

mutual
/-- How deep values are nested inside a value. -/
def Value.depth : Value → Nat
  | .list elems => elems.depth + 1
  | .map entries => entries.depth + 1
  | .set elems => elems.depth + 1
  | .struct _ _ fields => fields.depth + 1
  | _ => 0
/-- The greatest depth of an element. -/
def ValueList.depth : ValueList → Nat
  | .nil => 0
  | .cons v vs => max v.depth vs.depth
/-- The greatest depth of a key or value. -/
def EntryList.depth : EntryList → Nat
  | .nil => 0
  | .cons k v es => max (max k.depth v.depth) es.depth
/-- The greatest depth of a field value. -/
def FieldList.depth : FieldList → Nat
  | .nil => 0
  | .cons _ v fs => max v.depth fs.depth
end

/-- Go `diff.Diff(v1, v2, dChan, stopChan, leftRight)`: the differences sent on
`dChan`, in order, when the receiver takes all of them.  `differ.diff` is
given one level of recursion for each level of nesting of `v1`. -/
def Diff (sd : SequenceDiffs) (v1 v2 : Value) (leftRight : Bool) : DiffResult :=
  if !v1.Equals v2 then
    if !shouldDescend v1 v2 then
      .ok [⟨[], .DiffChangeModified, some v1, some v2, none⟩]
    else differDiff sd leftRight (v1.depth + 1) [] v1 v2
  else .ok []

/-- A set diff that sends additions and removals only, as the diff of two
sets does. -/
def SetDiffsPlain (sd : SequenceDiffs) : Prop :=
  ∀ a b : List Value,
    (∀ c ∈ sd.setDiffLeftRight a b, c.ChangeType ≠ .DiffChangeModified) ∧
    (∀ c ∈ sd.setDiffHybrid a b, c.ChangeType ≠ .DiffChangeModified)

/-- Sequence diffs that send nothing, for the values without lists, maps and
sets. -/
def noSequenceDiffs : SequenceDiffs :=
  ⟨fun _ _ => [], fun _ _ => [], fun _ _ => [], fun _ _ => [], fun _ _ => [], fun _ => 1⟩

/-- The struct `A {x: 1}`. -/
def structA : Value := .struct (lit "A") 1 (.cons (lit "x") (.number 1) .nil)

/-- The struct `B {x: 1}`. -/
def structB : Value := .struct (lit "B") 1 (.cons (lit "x") (.number 1) .nil)

/-! ## Resolving a path part (`path.go`)

`Resolve` returns a Go `Value` that may be nil: an `Option Value`, `none`
being nil.  The collections `List`, `Map`, `Set` and `Blob` are defined in
files outside the sources at hand; of them the methods `Len`, `Get`, `Has`
and `At` are used, with the meaning their names and the callers give them:
a list is the sequence of its elements, a set the sequence of its elements
in order, a map the sequence of its entries in key order. -/

/-- The elements of `CompoundDesc.ElemTypes` as a Lean list. -/
def NomsTypeList.toList : NomsTypeList → List NomsType
  | .nil => []
  | .cons t ts => t :: ts.toList

/-- The value of 64 bits in two's complement that the integer `x` is reduced
to: the result of an `int64` operation whose exact result is `x`. -/
def wrapInt64 (x : Int) : Int := (x + 2 ^ 63) % 2 ^ 64 - 2 ^ 63

/-- Go `uint64(x)` of an `int64` `x`: `x` modulo `2^64`. -/
def toUint64 (x : Int) : Nat := (x % 2 ^ 64).toNat

/-- Go `v.(Collection)` followed by `v.Len()`: the values with a method
`Len() uint64` are the lists, maps, sets and blobs; `none` for any other
value. -/
def collectionLen : Value → Option Nat
  | .blob data => some data.length
  | .list elems => some elems.toList.length
  | .map entries => some entries.toList.length
  | .set elems => some elems.toList.length
  | _ => none

/-- The statements of `getAbsoluteIndex` that follow the `switch`: `l` is the
length found there.  `-relIdx` is an `int64` negation, `uint64(..)` the
conversion of its result, and `l - uint64(-relIdx)` a subtraction of
`uint64`. -/
def absoluteIndexOf (l : Nat) (relIdx : Int) : Nat × Bool :=
  if relIdx < 0 then
    if toUint64 (wrapInt64 (-relIdx)) > l then (0, false)
    else ((l + 2 ^ 64 - toUint64 (wrapInt64 (-relIdx))) % 2 ^ 64, true)
  else
    if toUint64 relIdx ≥ l then (0, false)
    else (toUint64 relIdx, true)

/-- Go `getAbsoluteIndex`, as `(absIdx, ok)`. -/
def getAbsoluteIndex (v : Value) (relIdx : Int) : Nat × Bool :=
  match v with
  | .type t =>
    match t with
    | .compound _ elemTypes => absoluteIndexOf elemTypes.toList.length relIdx
    | _ => (0, false)
  | _ =>
    match collectionLen v with
    | some l => absoluteIndexOf l relIdx
    | none => (0, false)

/-- Go `int64(f)` for a `float64` `f` that is an integer.  The conversion is
exact when `f` lies in `[-2^63, 2^63)`; otherwise the Go specification leaves
the result to the implementation, and `outOfRange f`, reduced to 64 bits,
stands for it. -/
def float64ToInt64 (outOfRange : ℚ → Int) (f : ℚ) : Int :=
  if -2 ^ 63 ≤ f.num ∧ f.num < 2 ^ 63 then f.num else wrapInt64 (outOfRange f)

/-- Go `Map.Has(k)`. -/
def mapHas (m : List (Value × Value)) (k : Value) : Bool := m.any fun e => e.1 = k

/-- Go `Set.Has(v)`. -/
def setHas (s : List Value) (v : Value) : Bool := s.any fun e => e = v

/-- The closure `seqIndex` of `IndexPath.Resolve`; `getter` is called with an
index below the length only.  `f != math.Trunc(f)` says that `f` is not an
integer.  `Number(ai)` is kept exact. -/
def seqIndex (outOfRange : ℚ → Int) (Index : Value) (IntoKey : Bool) (v : Value)
    (getter : Nat → Option Value) : Option Value :=
  match Index with
  | .number f =>
    if f.den ≠ 1 then none
    else
      match getAbsoluteIndex v (float64ToInt64 outOfRange f) with
      | (ai, true) => if IntoKey then some (.number (ai : ℚ)) else getter ai
      | (_, false) => none
  | _ => none

/-- Go `IndexPath.Resolve` of the part `IndexPath{Index, IntoKey}` in the value
`v`. -/
def IndexPath.Resolve (outOfRange : ℚ → Int) (Index : Value) (IntoKey : Bool) (v : Value) :
    Option Value :=
  match v with
  | .list elems => seqIndex outOfRange Index IntoKey v fun i => listGet elems.toList i
  | .type t =>
    match t with
    | .compound _ elemTypes =>
      seqIndex outOfRange Index IntoKey v fun i => (elemTypes.toList.get? i).map Value.type
    | _ => none
  | .map entries =>
    if !IntoKey then mapGet entries.toList Index
    else if mapHas entries.toList Index then some Index
    else none
  | _ => none

/-- Go `AtAnnotation.Resolve` of the part `AtAnnotation{Index, IntoKey}` in the
value `v`; `Set.At(i)` is the element at position `i` and `Map.At(i)` the
entry at position `i`. -/
def AtAnnotation.Resolve (Index : Int) (IntoKey : Bool) (v : Value) : Option Value :=
  match getAbsoluteIndex v Index with
  | (_, false) => none
  | (ai, true) =>
    match v with
    | .list elems => if !IntoKey then listGet elems.toList ai else none
    | .set elems => elems.toList.get? ai
    | .map entries =>
      match entries.toList.get? ai with
      | some (k, mapv) => if IntoKey then some k else some mapv
      | none => none
    | .type t =>
      match t with
      | .compound _ elemTypes => (elemTypes.toList.get? ai).map Value.type
      | _ => none
    | _ => none

/-- The list `[10, 20, 30]`. -/
def exampleList : Value :=
  .list (.cons (.number 10) (.cons (.number 20) (.cons (.number 30) .nil)))

/-- The map `{"a": 1, "b": 2}`. -/
def exampleMap : Value :=
  .map (.cons (.string (lit "a")) (.number 1) (.cons (.string (lit "b")) (.number 2) .nil))

/-- The set `{true, 7, "a"}`. -/
def exampleSet : Value :=
  .set (.cons (.bool true) (.cons (.number 7) (.cons (.string (lit "a")) .nil)))

/-! ## `noms blob put` (`noms_blob_put.go`)

`nomsBlobPut` opens the file once per reader; reader `i` is placed at the
offset `int64(i)*chunkSize` by `r.Seek` and cut by `io.LimitReader(r,
limit)`; `types.NewBlob(db, readers...)` reads the readers one after the
other.  A reader is kept as the pair `(offset, limit)`. -/

/-- The value of `chunkSize` in `nomsBlobPut`: `fileSize / int64(concurrency)`
(Go's division truncates toward zero), raised to `1 << 20` when it is
below. -/
def blobPutChunkSize (fileSize : Nat) (concurrency : Int) : Nat :=
  if (fileSize : Int).tdiv concurrency < 2 ^ 20 then 2 ^ 20
  else ((fileSize : Int).tdiv concurrency).toNat

/-- The readers that Go `nomsBlobPut` builds for a file of `fileSize` bytes, as
pairs `(offset, limit)`; `none` is the panic of the division when
`concurrency` is 0. -/
def nomsBlobPutReaders (fileSize : Nat) (concurrency : Int) : Option (List (Nat × Nat)) :=
  if concurrency = 0 then none
  else
    let chunkSize := blobPutChunkSize fileSize concurrency
    let n := fileSize / chunkSize
    some ((List.range n).map fun i =>
      (i * chunkSize, if i = n - 1 then chunkSize + fileSize % chunkSize else chunkSize))

/-- The ranges `[offset, offset + limit)` of `readers`, taken in order, are
contiguous from `start` on and end at `fileSize`: each begins where the one
before ends, so no two of them overlap, and together they are exactly
`[start, fileSize)`. -/
def rangesCover (start : Nat) (readers : List (Nat × Nat)) (fileSize : Nat) : Bool :=
  match readers with
  | [] => start = fileSize
  | (offset, limit) :: rest => offset = start && rangesCover (start + limit) rest fileSize

/-- What `types.NewBlob` reads from the readers of a file of content `file`:
each reader yields the bytes of the file from its offset on, `limit` of them
at most. -/
def blobPutContent (file : List Nat) (readers : List (Nat × Nat)) : List Nat :=
  readers.flatMap fun r => (file.drop r.1).take r.2

/-! ## Escaping field names (`struct.go`) -/

/-- Go `escapeChar`: the string `"Q"`. -/
def escapeChar : GoString := [0x51]

/-- Go `string([]rune{ch})`: the UTF-8 encoding of the rune, that of
`utf8.RuneError` for a surrogate or a value above `0x10FFFF`. -/
def runeToString (ch : Nat) : GoString :=
  if ch < 0xD800 ∨ (0xE000 ≤ ch ∧ ch < 0x110000) then utf8Encode ch else utf8Encode RuneError

/-- One upper-case hexadecimal digit. -/
def hexDigitUpper (d : Nat) : Nat := if d < 10 then 0x30 + d else 0x41 + (d - 10)

/-- Go `fmt.Sprintf("%X", s)` of a string (standard library): two upper-case
hexadecimal digits for every byte. -/
def sprintfX (s : GoString) : GoString :=
  s.flatMap fun b => [hexDigitUpper (b / 16), hexDigitUpper (b % 16)]

/-- Go `p.MatchString(s)` for a pattern `p` that is one class of ASCII
characters (`headFieldNamePattern`, `tailFieldNamePattern`): some character
of `s` is in the class. -/
def classMatchString (p : Nat → Bool) (s : GoString) : Bool := s.any p

/-- Go `escapeRegex.MatchString(s)` for `escapeRegex = Q`: `s` has a `Q`. -/
def escapeRegexMatchString (s : GoString) : Bool := s.any fun b => b = 0x51

/-- The closure `encode` of `EscapeStructField`; the pattern is given by its
class. -/
def encode (s1 : GoString) (p : Nat → Bool) : GoString :=
  if classMatchString p s1 && s1 ≠ escapeChar then s1
  else
    let hs := sprintfX s1
    escapeChar ++ ((if hs.length = 1 then lit "0" else []) ++ hs)

/-- The loop of `escapeField` over the runes of `range input`; `pattern` and
`output` are the variables of these names. -/
def escapeFieldLoop (encode : GoString → (Nat → Bool) → GoString) :
    List (Nat × Nat) → (Nat → Bool) → GoString → GoString
  | [], _, output => output
  | (_, ch) :: rest, pattern, output =>
    escapeFieldLoop encode rest tailFieldNameClass (output ++ encode (runeToString ch) pattern)

/-- Go `escapeField`. -/
def escapeField (input : GoString) (encode : GoString → (Nat → Bool) → GoString) : GoString :=
  escapeFieldLoop encode (rangeRunes input.length 0 input) headFieldNameClass []

/-- Go `EscapeStructField`. -/
def EscapeStructField (input : GoString) : GoString :=
  if !escapeRegexMatchString input && IsValidStructFieldName input then input
  else escapeField input encode

/-- The escape of one character as the specification words it: a character
that is allowed at its position and is not `Q` stays, any other becomes `Q`
followed by the upper-case hexadecimal digits of its UTF-8 bytes.  `first`
tells whether the character is the first of the name. -/
def escapeRuneSpec (first : Bool) (ch : Nat) : GoString :=
  if (if first then isAlpha ch else isAlphaNumOrUnderscore ch) ∧ ch ≠ 0x51 then runeToString ch
  else 0x51 :: sprintfX (runeToString ch)

/-- The escape of a sequence of characters as the specification words it. -/
def escapeRunesSpec : Bool → List Nat → GoString
  | _, [] => []
  | first, ch :: rest => escapeRuneSpec first ch ++ escapeRunesSpec false rest

/-- The escape of a field name as the specification words it, over the
characters that `range input` visits. -/
def escapeStructFieldSpec (input : GoString) : GoString :=
  escapeRunesSpec true ((rangeRunes input.length 0 input).map Prod.snd)

/-! ## The sequence cursor (`sequence_cursor_test.go`)

The test file builds a cursor over a two-level tree with
`newTestSequenceCursor`: a parent cursor over the sequence of leaf chunks and
a leaf cursor over the first chunk.  The cursor itself (`sequenceCursor`,
`newSequenceCursor`, `advance`, `retreat`, `valid`, `indexInChunk`,
`current`) is in `sequence_cursor.go`, which is not among the sources. -/

/-- Modelled from the spec: the type `sequenceCursor` of `sequence_cursor.go`,
which is not among the sources, for the two levels that
`newTestSequenceCursor` builds.  The specification keeps, for each level,
the sequence and the index in the chunk: `chunks` is the sequence of the
parent (its items are the leaf chunks), `parentIdx` the index of the parent
cursor, `idx` the index of the leaf cursor; the leaf sequence is the chunk
that the parent cursor is at. -/
structure sequenceCursor (α : Type) where
  /-- The items of the parent sequence: the leaf chunks. -/
  chunks : List (List α)
  /-- The index of the parent cursor (`cur.parent.indexInChunk()`). -/
  parentIdx : Int
  /-- The index of the leaf cursor (`cur.indexInChunk()`). -/
  idx : Int
  deriving DecidableEq

/-- Go `newTestSequenceCursor(items)`: the parent cursor at 0, the leaf cursor
at 0 in `items[0]`. -/
def newTestSequenceCursor {α : Type} (items : List (List α)) : sequenceCursor α :=
  ⟨items, 0, 0⟩

/-- The leaf chunk that the cursor is in: the child at the index of the
parent cursor. -/
def sequenceCursor.leaf {α : Type} (cur : sequenceCursor α) : List α :=
  (cur.chunks.get? cur.parentIdx.toNat).getD []

/-- Modelled from the spec: `valid()` of `sequence_cursor.go` (not among the
sources).  The two invalid states of the specification are the index `-1`
and the index equal to the count of the chunk; a cursor is valid when its
index is that of an item of its chunk. -/
def sequenceCursor.valid {α : Type} (cur : sequenceCursor α) : Bool :=
  0 ≤ cur.idx && cur.idx < cur.leaf.length

/-- Modelled from the spec: `current()` of `sequence_cursor.go` (not among the
sources): the item under a valid cursor. -/
def sequenceCursor.current {α : Type} (cur : sequenceCursor α) : Option α :=
  if cur.valid then cur.leaf.get? cur.idx.toNat else none

/-- Modelled from the spec: `advance()` of `sequence_cursor.go` (not among the
sources), as the pair of the cursor afterwards and the result.  The
specification says that `advance` moves at the leaf, that the parent cursor
advances and a new leaf is loaded when the leaf cursor falls off its chunk,
and that advancing past the end puts the cursor at the index equal to the
count; the test adds that the parent cursor stays on the last chunk then, and
that a cursor past the end stays as it is. -/
def sequenceCursor.advance {α : Type} (cur : sequenceCursor α) : sequenceCursor α × Bool :=
  if cur.idx + 1 < cur.leaf.length then ({ cur with idx := cur.idx + 1 }, true)
  else if cur.idx = cur.leaf.length then (cur, false)
  else if cur.parentIdx + 1 < cur.chunks.length then
    ({ cur with parentIdx := cur.parentIdx + 1, idx := 0 }, true)
  else ({ cur with idx := cur.idx + 1 }, false)

/-- Modelled from the spec: `retreat()` of `sequence_cursor.go` (not among the
sources), as the pair of the cursor afterwards and the result.  The
specification says that `retreat` moves at the leaf, that the parent cursor
moves and a new leaf is loaded when the leaf cursor falls off its chunk, and
that retreating past position 0 puts the cursor at the index `-1`; the test
adds that the parent cursor stays on the first chunk then, and that a cursor
before the start stays as it is. -/
def sequenceCursor.retreat {α : Type} (cur : sequenceCursor α) : sequenceCursor α × Bool :=
  if 0 < cur.idx then ({ cur with idx := cur.idx - 1 }, true)
  else if cur.idx = -1 then (cur, false)
  else if 0 < cur.parentIdx then
    let parentIdx := cur.parentIdx - 1
    ({ cur with parentIdx := parentIdx,
                idx := ((cur.chunks.get? parentIdx.toNat).getD []).length - 1 }, true)
  else ({ cur with idx := cur.idx - 1 }, false)

/-- The number of items before the cursor in document order: the items of the
chunks before its chunk, and those before it in its chunk. -/
def sequenceCursor.position {α : Type} (cur : sequenceCursor α) : Int :=
  (((cur.chunks.take cur.parentIdx.toNat).map List.length).sum : Nat) + cur.idx

/-- The number of items of the tree. -/
def sequenceCursor.count {α : Type} (cur : sequenceCursor α) : Int :=
  ((cur.chunks.map List.length).sum : Nat)

/-- The tree `[[100, 101], [102]]` of `TestTestCursor`. -/
def testTree : List (List Nat) := [[100, 101], [102]]

/-- What `expect` of `TestTestCursor` reads from the cursor: the index, the
index of the parent, `valid()` and `current()`. -/
def expectOf (cur : sequenceCursor Nat) : Int × Int × Bool × Option Nat :=
  (cur.idx, cur.parentIdx, cur.valid, cur.current)

/-! ## The lowest common ancestor of two commits (`commit_test.go`)

`TestFindCommonAncestor` builds a commit graph and calls
`FindCommonAncestor`, which is defined in `commit.go`; that file is not
among the sources.  The search below is the one the specification
describes. -/

/-- A finite commit graph: the commit of address `c` is the entry `c` of
`commits`, the height of a ref to it and the addresses of its parents.  A
ref to a commit is kept as the address; its height is read from the
graph. -/
structure CommitGraph where
  /-- For each commit, the height of a ref to it and its parents. -/
  commits : List (Nat × List Nat)

/-- The number of commits. -/
def CommitGraph.size (g : CommitGraph) : Nat := g.commits.length

/-- The height of a ref to the commit `c`. -/
def CommitGraph.height (g : CommitGraph) (c : Nat) : Nat := (g.commits.getD c (0, [])).1

/-- The parents of the commit `c`. -/
def CommitGraph.parents (g : CommitGraph) (c : Nat) : List Nat := (g.commits.getD c (0, [])).2

/-- The invariant of the specification on the heights of refs, as far as the
search needs it: a parent is a commit of the graph and a ref to it is lower
than a ref to the child. -/
def CommitGraph.WF (g : CommitGraph) : Prop :=
  ∀ c < g.size, ∀ p ∈ g.parents c, p < g.size ∧ g.height p < g.height c

instance (g : CommitGraph) : Decidable g.WF :=
  inferInstanceAs (Decidable (∀ c < g.size, ∀ p ∈ g.parents c, p < g.size ∧ g.height p < g.height c))

/-- The commit `d` is reachable from `c` through parent links, in zero or more
steps. -/
inductive Reach (g : CommitGraph) : Nat → Nat → Prop
  | refl (c : Nat) : Reach g c c
  | step {c p d : Nat} : p ∈ g.parents c → Reach g p d → Reach g c d

/-- A common ancestor of `a` and `b`. -/
def CommonAncestor (g : CommitGraph) (a b c : Nat) : Prop := Reach g a c ∧ Reach g b c

/-- A lowest common ancestor of `a` and `b`: a common ancestor that is not an
ancestor of another common ancestor. -/
def LowestCommonAncestor (g : CommitGraph) (a b c : Nat) : Prop :=
  CommonAncestor g a b c ∧ ∀ d, CommonAncestor g a b d → Reach g d c → d = c

/-- The commits reachable from `c` in at most `fuel` steps, with
repetitions. -/
def ancestors (g : CommitGraph) : Nat → Nat → List Nat
  | 0, c => [c]
  | fuel + 1, c => c :: (g.parents c).flatMap (ancestors g fuel)

/-- The test for a lowest common ancestor over the lists of ancestors. -/
def isLowestCommonAncestor (g : CommitGraph) (a b c : Nat) : Bool :=
  c ∈ ancestors g (g.height a) a && c ∈ ancestors g (g.height b) b &&
    (ancestors g (g.height a) a).all fun d =>
      !(d ∈ ancestors g (g.height b) b && c ∈ ancestors g (g.height d) d) || d = c

/-- One side of the search: its priority queue, and the refs seen from this
side, that is, those that have entered the queue. -/
structure SearchSide where
  /-- The refs in the queue. -/
  queue : List Nat
  /-- The refs that have entered the queue. -/
  seen : List Nat
  deriving DecidableEq

/-- The top of a priority queue ordered by height, descending: a ref of the
queue of greatest height (the first such in the list); `none` for an empty
queue. -/
def queueTop (g : CommitGraph) : List Nat → Option Nat
  | [] => none
  | r :: rest =>
    match queueTop g rest with
    | none => some r
    | some r' => if g.height r < g.height r' then some r' else some r

/-- Push each of `parents` that has not been seen from this side. -/
def pushParents : List Nat → SearchSide → SearchSide
  | [], s => s
  | p :: ps, s => pushParents ps (if p ∈ s.seen then s else ⟨p :: s.queue, p :: s.seen⟩)

/-- Pop `r` and push the parents of its commit. -/
def popRef (g : CommitGraph) (r : Nat) (s : SearchSide) : SearchSide :=
  pushParents (g.parents r) ⟨s.queue.erase r, s.seen⟩

/-- Modelled from the spec: the search of `FindCommonAncestor` in `commit.go`,
which is not among the sources.  The specification keeps two priority queues
ordered by height; at each step it pops the queue whose top is higher, both
queues when the heights are equal (an empty queue is not popped); a popped
ref that was seen from the other side is returned; otherwise the parents of
its commit are pushed; the result is none when both queues are empty.  A ref
counts as seen from a side once it has entered the queue of that side, and
it enters it once.  The outer `none` says that `fuel` steps were not
enough. -/
def searchCommonAncestor (g : CommitGraph) : Nat → SearchSide → SearchSide → Option (Option Nat)
  | 0, _, _ => none
  | fuel + 1, sa, sb =>
    match queueTop g sa.queue, queueTop g sb.queue with
    | none, none => some none
    | some ra, none =>
      if ra ∈ sb.seen then some (some ra)
      else searchCommonAncestor g fuel (popRef g ra sa) sb
    | none, some rb =>
      if rb ∈ sa.seen then some (some rb)
      else searchCommonAncestor g fuel sa (popRef g rb sb)
    | some ra, some rb =>
      if g.height rb < g.height ra then
        if ra ∈ sb.seen then some (some ra)
        else searchCommonAncestor g fuel (popRef g ra sa) sb
      else if g.height ra < g.height rb then
        if rb ∈ sa.seen then some (some rb)
        else searchCommonAncestor g fuel sa (popRef g rb sb)
      else if ra ∈ sb.seen then some (some ra)
      else if rb ∈ sa.seen then some (some rb)
      else searchCommonAncestor g fuel (popRef g ra sa) (popRef g rb sb)

/-- Modelled from the spec: `FindCommonAncestor(aRef, bRef)` of `commit.go`,
which is not among the sources: the search from the queues that hold `a` and
`b`.  `some (some c)` is the ref `c` with `ok = true`, `some none` is
`ok = false`. -/
def FindCommonAncestor (g : CommitGraph) (a b : Nat) : Option (Option Nat) :=
  searchCommonAncestor g (4 * g.size + 3) ⟨[a], [a]⟩ ⟨[b], [b]⟩

/-- The number of commits of the graph that a side has not seen. -/
def unseenCount (n : Nat) (seen : List Nat) : Nat :=
  ((List.range n).filter fun c => c ∉ seen).length

/-- The steps that a side can still take: a pop takes one ref from the queue,
and each ref enters the queue once. -/
def sideMeasure (n : Nat) (s : SearchSide) : Nat := 2 * unseenCount n s.seen + s.queue.length

/-- What holds of one side of the search from `x`: the start is seen, the
queue holds seen refs, once each, every seen ref is reachable from `x`, and
the parents of a seen ref that has left the queue are seen. -/
structure SideInv (g : CommitGraph) (x : Nat) (s : SearchSide) : Prop where
  root : x ∈ s.seen
  queue_seen : ∀ u ∈ s.queue, u ∈ s.seen
  seen_reach : ∀ v ∈ s.seen, Reach g x v
  nodup : s.queue.Nodup
  closed : ∀ w ∈ s.seen, w ∈ s.queue ∨ ∀ p ∈ g.parents w, p ∈ s.seen

/-- The refs that have left the queue of `s` have not been seen from the other
side `t`, and no ref in the queue of `t` is higher. -/
def Cross (g : CommitGraph) (s t : SearchSide) : Prop :=
  ∀ v ∈ s.seen, v ∉ s.queue → v ∉ t.seen ∧ ∀ u ∈ t.queue, g.height u ≤ g.height v

/-- What the search owes for its result: a ref returned is a common ancestor
of greatest height; none means that there is no common ancestor. -/
def SearchPost (g : CommitGraph) (a b : Nat) : Option Nat → Prop
  | some r => CommonAncestor g a b r ∧ ∀ c, CommonAncestor g a b c → g.height c ≤ g.height r
  | none => ∀ c, ¬ CommonAncestor g a b c

/-- The graph of `TestFindCommonAncestor`; the commits are numbered in the
order of the calls to `addCommit`: `a1, d1, a2, c2, d2, a3, b3, c3, a4, b4,
a5, b5, a6`. -/
def testGraph : CommitGraph :=
  ⟨[(1, []), (1, []), (2, [0]), (2, [0]), (2, [1]), (3, [2]), (3, [2]), (3, [3, 4]),
    (4, [5]), (4, [6]), (5, [8]), (5, [9, 5]), (6, [10, 11])]⟩

/-- The graph of scenario S3 of the specification; the commits are numbered
`a1, a2, a3, b3, a4, b4, a5, b5, a6`. -/
def specGraph : CommitGraph :=
  ⟨[(1, []), (2, [0]), (3, [1]), (3, [1]), (4, [2]), (4, [3]), (5, [4]), (5, [5, 2]),
    (6, [6, 7])]⟩

/-! ## `Struct.Diff` and `Diff` as described

The changes that the description of `Struct.Diff` gives, written from its
words, to compare with what the decoder loops of `Struct.Diff` send. -/

/-- The changes that the description of `Struct.Diff` gives for two field
lists with the same names: going through the fields in order, one
`Modified` change for each field whose two values differ, with the field
name as key, the value of `last` as old value and the value of `s` as new
value. -/
def modifiedChangesSpec : List (GoString × Value) → List (GoString × Value) → List ValueChanged
  | (n, v1) :: r1, (_, v2) :: r2 =>
    (if v1 = v2 then [] else [⟨.DiffChangeModified, some (.string n), some v2, some v1⟩]) ++
      modifiedChangesSpec r1 r2
  | _, _ => []

/-- The value of the field called `n` in a field list, if there is one. -/
def fieldValue (n : GoString) (fields : List (GoString × Value)) : Option Value :=
  (lookupField n fields).1

/-- The change that the description of `Struct.Diff` gives for the field
name `n`: `Added` when only `s` has the field, `Removed` when only `last`
has it, `Modified` when both have it with unequal values, none otherwise. -/
def fieldChangeSpec (s last : List (GoString × Value)) (n : GoString) : Option ValueChanged :=
  match fieldValue n s, fieldValue n last with
  | some v1, none => some ⟨.DiffChangeAdded, some (.string n), none, some v1⟩
  | none, some v2 => some ⟨.DiffChangeRemoved, some (.string n), some v2, none⟩
  | some v1, some v2 =>
    if v1 = v2 then none else some ⟨.DiffChangeModified, some (.string n), some v2, some v1⟩
  | none, none => none

/-- The changes that the description of `Struct.Diff` gives: the change of
each field name of `s` or `last`, in ascending order of the names. -/
def structChangesSpec (s last : Struct Value) : List ValueChanged :=
  (sortStrings (s.fieldNames ++ last.fieldNames).dedup).filterMap
    (fieldChangeSpec s.fields last.fields)

/-- The struct `A {x: 1, y: 2, z: 3}`. -/
def structXYZ : Struct Value :=
  ⟨lit "A", 3, [(lit "x", .number 1), (lit "y", .number 2), (lit "z", .number 3)]⟩

/-- The struct `A {x: 1, y: 5, z: 7}`. -/
def structXYZ2 : Struct Value :=
  ⟨lit "A", 3, [(lit "x", .number 1), (lit "y", .number 5), (lit "z", .number 7)]⟩

/-- The struct `S {a: 1, b: 2, c: 3}`. -/
def structABC : Struct Value :=
  ⟨lit "S", 3, [(lit "a", .number 1), (lit "b", .number 2), (lit "c", .number 3)]⟩

/-- The struct `S {a: 1, b: 2}`. -/
def structAB : Struct Value := ⟨lit "S", 2, [(lit "a", .number 1), (lit "b", .number 2)]⟩

/-- The struct `S {a: 1}`. -/
def structOnlyA : Struct Value := ⟨lit "S", 1, [(lit "a", .number 1)]⟩

/-- A map diff for the examples, given the new map first: the removal or
modification of each key of the old map that is not in the new map or has
another value there, then the addition of each key of the new map that is not
in the old one. -/
def exampleMapDiff (new old : List (Value × Value)) : List ValueChanged :=
  old.filterMap (fun e =>
    match mapGet new e.1 with
    | none => some ⟨.DiffChangeRemoved, some e.1, some e.2, none⟩
    | some w =>
      if e.2 = w then none else some ⟨.DiffChangeModified, some e.1, some e.2, some w⟩) ++
  new.filterMap (fun e =>
    if mapHas old e.1 then none else some ⟨.DiffChangeAdded, some e.1, none, some e.2⟩)

/-- A list diff for the examples, for the lists `listOld` and `listNew`: the
three elements from index 1 are replaced, the last element of the new list is
added; any other list is replaced as a whole. -/
def exampleListDiff (new old : List Value) : List Splice :=
  if old.length = 4 ∧ new.length = 5 then [⟨1, 3, 1, 3⟩, ⟨4, 0, 4, 1⟩]
  else [⟨0, old.length, 0, new.length⟩]

/-- Sequence diffs for the examples; the hash of every value is 7. -/
def exampleSequenceDiffs : SequenceDiffs :=
  ⟨exampleListDiff, exampleMapDiff, exampleMapDiff, fun _ _ => [], fun _ _ => [], fun _ => 7⟩

/-- The map `{1: "one", [1]: {}, "gone": 0}` with a key that cannot be a path
index. -/
def mapOld : Value :=
  .map (.cons (.number 1) (.string (lit "one"))
    (.cons (.list (.cons (.number 1) .nil)) (.map .nil)
      (.cons (.string (lit "gone")) (.number 0) .nil)))

/-- The map `{1: "uno", [1]: {2: 2}, true: 3}`. -/
def mapNew : Value :=
  .map (.cons (.number 1) (.string (lit "uno"))
    (.cons (.list (.cons (.number 1) .nil)) (.map (.cons (.number 2) (.number 2) .nil))
      (.cons (.bool true) (.number 3) .nil)))

/-- The old list `[1, 2, [3], 4]`. -/
def listOld : Value :=
  .list (.cons (.number 1) (.cons (.number 2) (.cons (.list (.cons (.number 3) .nil))
    (.cons (.number 4) .nil))))

/-- The new list `[1, 5, [6, 6], 7, 8]`. -/
def listNew : Value :=
  .list (.cons (.number 1) (.cons (.number 5)
    (.cons (.list (.cons (.number 6) (.cons (.number 6) .nil)))
      (.cons (.number 7) (.cons (.number 8) .nil)))))

/-! ## The root of a chunk store

The views of a database share its manifest in the KV layer; each view keeps
a copy of the root.  A state is a manifest together with a view. -/

/-- Modelled from the spec: the chunk store implementations (`ChunkStore`
with `Root`, `Commit` and `Rebase`, the `Factory`, the manifest of package
`nbs`) are not among the sources, only `chunk_store_common_test.go` is.  The
manifest of a database in the KV layer: the root and the table set; a table
is kept as its chunks. -/
structure Manifest where
  /-- The stored root pointer. -/
  root : Hash
  /-- The persisted tables, newest first. -/
  tables : List (List (Hash × List Nat))
  deriving DecidableEq

/-- Modelled from the spec: the state `{memtable, tables[], root}` of a view
of the store (the persister and the caches play no part in what follows). -/
structure ChunkStore where
  /-- The chunks put and not yet persisted. -/
  memtable : List (Hash × List Nat)
  /-- The table list of the view. -/
  tables : List (List (Hash × List Nat))
  /-- The cached root. -/
  root : Hash
  deriving DecidableEq

/-- Modelled from the spec: the manifest of a database that nothing was
written to; its root is the empty hash (`TestChunkStoreRoot`). -/
def emptyManifest : Manifest := ⟨emptyHash, []⟩

/-- Modelled from the spec: `Factory.CreateStore`, a new view of the database
with the given manifest. -/
def CreateStore (m : Manifest) : ChunkStore := ⟨[], m.tables, m.root⟩

/-- Modelled from the spec: `root()` returns the cached root. -/
def ChunkStore.Root (s : ChunkStore) : Hash := s.root

/-- Modelled from the spec: `rebase()` re-reads the manifest, updates the table
list of the view and re-reads the root. -/
def ChunkStore.Rebase (s : ChunkStore) (m : Manifest) : ChunkStore :=
  ⟨s.memtable, m.tables, m.root⟩

/-- Modelled from the spec: `commit(new, expected)` on the view `s` of the
database with manifest `m`; the result is the manifest and the view after
the call and the boolean returned.  The conditional write of the manifest
succeeds iff the stored root equals `expected`; it then installs the new
root and the table set with the flushed memtable as newest table.  On a
mismatch the manifest is not written, the view rebases and keeps its
memtable. -/
def ChunkStore.Commit (s : ChunkStore) (m : Manifest) (new expected : Hash) :
    Manifest × ChunkStore × Bool :=
  if m.root = expected then
    let tables := if s.memtable = [] then m.tables else s.memtable :: m.tables
    (⟨new, tables⟩, ⟨[], tables, new⟩, true)
  else (m, s.Rebase m, false)

/-- The hash `bogusRoot` of `TestChunkStoreRoot`. -/
def bogusRoot : Option Hash := hashMaybeParse (lit "8habda5skfek1265pc5d5l1orptn5dr0")

/-- The hash `newRoot` of `TestChunkStoreRoot`. -/
def newRoot : Option Hash := hashMaybeParse (lit "8la6qjbh81v85r6q67lqbfrkmpds14lg")

/-- The test `TestChunkStoreRoot` on a fresh store: whether the old root is
empty, the result of `Commit(newRoot, bogusRoot)` and the result of
`Commit(newRoot, oldRoot)` after it. -/
def TestChunkStoreRoot : Option (Bool × Bool × Bool) :=
  match bogusRoot, newRoot with
  | some bogus, some new =>
    let store := CreateStore emptyManifest
    let oldRoot := store.Root
    let r1 := store.Commit emptyManifest new bogus
    let r2 := r1.2.1.Commit r1.1 new oldRoot
    some (oldRoot.IsEmpty, r1.2.2, r2.2.2)
  | _, _ => none

/-! ## Three-way merge

Package `merge` is not among the sources, only its tests are.  The model
follows the table of the spec: at each key of a Map or field of a Struct the
value of the side that changed it, the parent's value where no side changed
it, either value where both made the same change, and otherwise the nested
merge of two Maps or two Structs or, for a conflict, the resolver. -/

/-- Modelled from the spec: why a merge yields no value. -/
inductive MergeFailure
  /-- A conflict, the error that `ThreeWay` returns. -/
  | conflict
  /-- The recursion budget of the embedding ran out. -/
  | outOfFuel
  deriving DecidableEq

/-- Modelled from the spec: the result of a merge, a value or a failure. -/
abbrev MergeResult (α : Type) := Except MergeFailure α

/-- Go `merge.ResolveFunc`, with the signature that the test
`TestThreeWayMerge_CustomMerge` shows: from the two change types, the two
values and the path to the change type to keep, the merged value and whether
the conflict is resolved. -/
abbrev ResolveFunc :=
  DiffChangeType → DiffChangeType → Option Value → Option Value → Path →
    DiffChangeType × Option Value × Bool

/-- Modelled from the spec: the built-in resolver `Ours` accepts the side
`a`. -/
def Ours : ResolveFunc := fun aChange _ aVal _ _ => (aChange, aVal, true)

/-- Modelled from the spec: the built-in resolver `Theirs` accepts the side
`b`. -/
def Theirs : ResolveFunc := fun _ bChange _ bVal _ => (bChange, bVal, true)

/-- Modelled from the spec: what merging needs from package `types` and from
the value store, none of it among the sources: the order of the keys of a
Map (`Value.Less`), the hash of a value, and the merge of two values of the
same kind that are neither Maps nor Structs (Lists, Sets, Refs; `none` is a
conflict). -/
structure Merger where
  /-- The resolver given to `ThreeWay`, if any. -/
  resolve : Option ResolveFunc
  /-- Go `Value.Less` on map keys. -/
  less : Value → Value → Bool
  /-- Go `Value.Hash`. -/
  hashOf : Value → Hash
  /-- The merge of two values of the same kind other than Map and Struct. -/
  otherMerge : Path → Value → Value → Option Value → Option Value

/-- Modelled from the spec: the value under the key `k` in a list of entries
(`Map.Get`, `Struct.MaybeGet`), nil when there is none. -/
def entryGet {K : Type} [DecidableEq K] (k : K) (l : List (K × Value)) : Option Value :=
  match l.find? (fun e => e.1 = k) with
  | some e => some e.2
  | none => none

/-- Insert a key into an ascending list of keys. -/
def insertKey {K : Type} (lt : K → K → Bool) (x : K) : List K → List K
  | [] => [x]
  | y :: ys => if lt y x then y :: insertKey lt x ys else x :: y :: ys

/-- The keys in ascending order. -/
def sortKeys {K : Type} (lt : K → K → Bool) : List K → List K
  | [] => []
  | x :: xs => insertKey lt x (sortKeys lt xs)

/-- Modelled from the spec: the structural positions to merge, "reachable in
either side relative to parent": the keys of `a`, `b` and `parent`, each
once, in key order. -/
def keyUnion {K : Type} [DecidableEq K] (lt : K → K → Bool) (a b p : List (K × Value)) :
    List K :=
  sortKeys lt (a.map Prod.fst ++ b.map Prod.fst ++ p.map Prod.fst).dedup

/-- Modelled from the spec: the change that a side made at a key where its
value `v` differs from the parent's value `pv`, the `aChange` and `bChange`
given to the resolver. -/
def changeTypeOf (pv v : Option Value) : DiffChangeType :=
  match pv, v with
  | none, _ => .DiffChangeAdded
  | some _, none => .DiffChangeRemoved
  | some _, some _ => .DiffChangeModified

/-- Modelled from the spec: a conflict goes to the resolver.  Without a
resolver, or when the resolver does not resolve it, the merge fails; else
the key is removed or gets the merged value, as the change type returned
says. -/
def resolveConflict (resolve : Option ResolveFunc) (path : Path) (pv va vb : Option Value) :
    MergeResult (Option Value) :=
  match resolve with
  | none => .error .conflict
  | some f =>
    match f (changeTypeOf pv va) (changeTypeOf pv vb) va vb path with
    | (change, merged, true) => if change = .DiffChangeRemoved then .ok none else .ok merged
    | (_, _, false) => .error .conflict

/-- Modelled from the spec: the table of the three-way merge at one position
with parent value `pv` and side values `va`, `vb` (nil when absent).  No
change of `a`: the value of `b` (the parent's when `b` did not change
either); no change of `b`: the value of `a`; equal changes: either.  Two
different new values of the same kind that is not primitive are merged by
`rec`; everything else is a conflict for the resolver. -/
def mergeChanges (resolve : Option ResolveFunc)
    (rec : Path → Value → Value → Option Value → MergeResult Value) (path : Path)
    (pv va vb : Option Value) : MergeResult (Option Value) :=
  if va = pv then .ok vb
  else if vb = pv then .ok va
  else if va = vb then .ok va
  else
    match va, vb with
    | some x, some y =>
      if x.Kind = y.Kind ∧ IsPrimitiveKind x.Kind = false then
        match rec path x y pv with
        | .ok z => .ok (some z)
        | .error e => .error e
      else resolveConflict resolve path pv va vb
    | _, _ => resolveConflict resolve path pv va vb

/-- Modelled from the spec: "for Maps/Structs, recursion proceeds by key":
the merged entries for the keys `keys`, in that order; the first failure
ends the merge. -/
def mergeKeys {K : Type} [DecidableEq K]
    (mergeAt : K → Option Value → Option Value → Option Value → MergeResult (Option Value))
    (a b p : List (K × Value)) : List K → MergeResult (List (K × Value))
  | [] => .ok []
  | k :: ks =>
    match mergeAt k (entryGet k p) (entryGet k a) (entryGet k b) with
    | .error e => .error e
    | .ok v =>
      match mergeKeys mergeAt a b p ks with
      | .error e => .error e
      | .ok rest =>
        match v with
        | some w => .ok ((k, w) :: rest)
        | none => .ok rest

/-- Modelled from the spec: the entries of the parent of two Maps, none for a
nil parent (`TestThreeWayMerge_RecursiveCreateNil`); a parent that is not a
Map is a conflict (`none`). -/
def mapParent : Option Value → Option (List (Value × Value))
  | none => some []
  | some (.map e) => some e.toList
  | some _ => none

/-- Modelled from the spec: the fields of the parent of two Structs, none for
a nil parent; a parent that is not a Struct is a conflict (`none`). -/
def structParent : Option Value → Option (List (GoString × Value))
  | none => some []
  | some (.struct _ _ f) => some f.toList
  | some _ => none

/-- Modelled from the spec: the path part of a map key in the path given to
the resolver, as in `diffMaps`. -/
def mergeKeyPart (hashOf : Value → Hash) (k : Value) : PathPart :=
  if ValueCanBePathIndex k then .IndexPath k false else .HashIndexPath (hashOf k) false

/-- Modelled from the spec: the merge of two non-nil values `a` and `b` on top
of `parent`.  Two Maps are merged key by key, two Structs of the same name
field by field; values of different kinds, and Structs of different names,
do not merge ("type mismatch between sides"); the other kinds are left to
`otherMerge`.  The recursion goes into values inside `a`; `fuel` bounds its
depth. -/
def threeWay (m : Merger) : Nat → Path → Value → Value → Option Value → MergeResult Value
  | 0, _, _, _, _ => .error .outOfFuel
  | fuel + 1, path, a, b, parent =>
    match a, b with
    | .map ea, .map eb =>
      match mapParent parent with
      | none => .error .conflict
      | some ep =>
        match mergeKeys
            (fun k => mergeChanges m.resolve (threeWay m fuel) (path ++ [mergeKeyPart m.hashOf k]))
            ea.toList eb.toList ep (keyUnion m.less ea.toList eb.toList ep) with
        | .error e => .error e
        | .ok es => .ok (.map (EntryList.ofList es))
    | .struct na _ fa, .struct nb _ fb =>
      if na ≠ nb then .error .conflict
      else
        match structParent parent with
        | none => .error .conflict
        | some fp =>
          match mergeKeys
              (fun k => mergeChanges m.resolve (threeWay m fuel) (path ++ [.FieldPath k]))
              fa.toList fb.toList fp (keyUnion strLt fa.toList fb.toList fp) with
          | .error e => .error e
          | .ok fs => .ok (.struct na fs.length (FieldList.ofList fs))
    | _, _ =>
      if a.Kind ≠ b.Kind then .error .conflict
      else
        match m.otherMerge path a b parent with
        | some v => .ok v
        | none => .error .conflict

/-- Modelled from the spec: `ThreeWay(a, b, parent, vrw, resolve, progress)`.
When both sides are nil there is nothing to merge and the result is `parent`
(`TestThreeWayMerge_DoNothing`); one nil side is a conflict
(`TestThreeWayMerge_NilConflict`). -/
def ThreeWay (m : Merger) (a b parent : Option Value) : MergeResult (Option Value) :=
  match a, b with
  | none, none => .ok parent
  | some x, some y =>
    match threeWay m (x.depth + 1) [] x y parent with
    | .ok v => .ok (some v)
    | .error e => .error e
  | _, _ => .error .conflict

/-- A key order for the examples: strings in byte order; it does not order
other keys. -/
def stringLess (x y : Value) : Bool :=
  match x, y with
  | .string s, .string t => strLt s t
  | _, _ => false

/-- The merger of the tests: the given resolver, string keys, no merge of
other kinds. -/
def testMerger (resolve : Option ResolveFunc) : Merger :=
  ⟨resolve, stringLess, fun _ => 1, fun _ _ _ _ => none⟩

/-- The function `create` of `ThreeWayMapMergeSuite`: a Map with the given
string keys. -/
def createMap (kv : List (String × Value)) : Value :=
  .map (EntryList.ofList (kv.map fun e => (.string (lit e.1), e.2)))

/-- The function `create` of `ThreeWayStructMergeSuite`: the struct
`TestStruct` with the given fields. -/
def createStruct (kv : List (String × Value)) : Value :=
  .struct (lit "TestStruct") kv.length (FieldList.ofList (kv.map fun e => (lit e.1, e.2)))

/-- A string value. -/
def str (s : String) : Value := .string (lit s)

/-- The fixture `aa1` of the merge tests. -/
def aa1 : List (String × Value) :=
  [("a1", str "a-one"), ("a2", str "a-two"), ("a3", str "a-three"), ("a4", str "a-four")]

/-- The fixture `aa1a`. -/
def aa1a : List (String × Value) :=
  [("a1", str "a-one"), ("a2", str "a-two"), ("a3", str "a-three-diff"), ("a4", str "a-four"),
   ("a6", str "a-six")]

/-- The fixture `aa1b`. -/
def aa1b : List (String × Value) :=
  [("a1", str "a-one"), ("a3", str "a-three-diff"), ("a4", str "a-four"), ("a5", str "a-five")]

/-- The fixture `aaMerged`. -/
def aaMerged : List (String × Value) :=
  [("a1", str "a-one"), ("a3", str "a-three-diff"), ("a4", str "a-four"), ("a5", str "a-five"),
   ("a6", str "a-six")]

/-- The fixture `mm1`. -/
def mm1 : List (String × Value) := []

/-- The fixture `mm1a`, with the nested values built by `create`. -/
def mm1a (create : List (String × Value) → Value) : List (String × Value) :=
  [("k1", create [("a", .number 0)])]

/-- The fixture `mm1b`. -/
def mm1b (create : List (String × Value) → Value) : List (String × Value) :=
  [("k1", create [("b", .number 1)])]

/-- The fixture `mm1Merged`. -/
def mm1Merged (create : List (String × Value) → Value) : List (String × Value) :=
  [("k1", create [("a", .number 0), ("b", .number 1)])]

/-- The fixture `mm2`. -/
def mm2 (create : List (String × Value) → Value) : List (String × Value) :=
  [("k2", create aa1), ("k3", str "k-three")]

/-- The fixture `mm2a`. -/
def mm2a (create : List (String × Value) → Value) : List (String × Value) :=
  [("k1", create [("a", .number 0)]), ("k2", create aa1a), ("k3", str "k-three"),
   ("k4", str "k-four")]

/-- The fixture `mm2b`. -/
def mm2b (create : List (String × Value) → Value) : List (String × Value) :=
  [("k1", create [("b", .number 1)]), ("k2", create aa1b)]

/-- The fixture `mm2Merged`. -/
def mm2Merged (create : List (String × Value) → Value) : List (String × Value) :=
  [("k1", create [("a", .number 0), ("b", .number 1)]), ("k2", create aaMerged),
   ("k4", str "k-four")]

/-- The struct of `TestNomsMerge_Success` with the given `str` field and the
given entries of its `map` field. -/
def mergeDataset (s : String) (m : List (Value × Value)) : Value :=
  .struct [] 4 (FieldList.ofList
    [(lit "lst", .list (.cons (.number 1) (.cons (str "foo") .nil))),
     (lit "map", .map (EntryList.ofList m)), (lit "num", .number 42), (lit "str", str s)])

/-- The struct `{num: n}` of `TestNomsMerge_Left`, `TestNomsMerge_Right` and
`TestNomsMerge_Conflict`. -/
def numDataset (n : ℚ) : Value := .struct [] 1 (.cons (lit "num") (.number n) .nil)

/-- The resolver of `TestThreeWayMerge_CustomMerge`. -/
def customResolve : ResolveFunc := fun aChange bChange aVal bVal _ =>
  match aVal with
  | some (.map _) => (bChange, bVal, true)
  | _ => if bChange = .DiffChangeRemoved then (bChange, bVal, true) else (aChange, aVal, true)

/-- Modelled from the spec: the helper `tryThreeWayMerge(a, b, p, exp)` of the
merge tests, which is not among the sources: whether the merge of
`create(a)` and `create(b)` on `create(p)` without resolver succeeds with
`create(exp)`; `create(nil)` is nil. -/
def tryThreeWayMerge (create : List (String × Value) → Value)
    (a b p exp : Option (List (String × Value))) : Bool :=
  ThreeWay (testMerger none) (a.map create) (b.map create) (p.map create) =
    .ok (exp.map create)

/-- The function `lt` is a strict total order on the keys in `S`. -/
structure KeyOrderOn {K : Type} (lt : K → K → Bool) (S : K → Prop) : Prop where
  /-- No key is below itself. -/
  irrefl : ∀ a, S a → lt a a = false
  /-- The order is transitive. -/
  trans : ∀ a b c, S a → S b → S c → lt a b = true → lt b c = true → lt a c = true
  /-- Two keys that are not below one another are the same key. -/
  total : ∀ a b, S a → S b → lt a b = false → lt b a = false → a = b

/-- The value under the key `k` in a value that may be nil: the value of a Map
under `k`, the field of a Struct called `k` (a String), nil otherwise. -/
def childOf (v : Option Value) (k : Value) : Option Value :=
  match v with
  | some (.map e) => entryGet k e.toList
  | some (.struct _ _ f) =>
    match k with
    | .string n => entryGet n f.toList
    | _ => none
  | _ => none

/-- The merge of `a` and `b` on top of `parent` meets no conflict, in the
words of the description: `a` and `b` are two Maps, or two Structs of the
same name, `parent` is nil or of their kind, and at every key at most one of
`a`, `b` differs from `parent`, or both made the identical change, or both
have a value there and these two values merge without conflict on top of the
parent's.  For Maps, `lt` is a strict total order on the keys met. -/
inductive NoConflict (lt : Value → Value → Bool) : Value → Value → Option Value → Prop
  | maps (ea eb : EntryList) (parent : Option Value) (ep : List (Value × Value))
      (hp : mapParent parent = some ep)
      (hord : KeyOrderOn lt
        (fun k => k ∈ ea.toList.map Prod.fst ++ eb.toList.map Prod.fst ++ ep.map Prod.fst))
      (hkey : ∀ k, entryGet k ea.toList = entryGet k ep ∨ entryGet k eb.toList = entryGet k ep ∨
        entryGet k ea.toList = entryGet k eb.toList ∨
        ∃ x y, entryGet k ea.toList = some x ∧ entryGet k eb.toList = some y)
      (hrec : ∀ k x y, entryGet k ea.toList = some x → entryGet k eb.toList = some y →
        some x ≠ entryGet k ep → some y ≠ entryGet k ep → x ≠ y →
        NoConflict lt x y (entryGet k ep)) :
      NoConflict lt (.map ea) (.map eb) parent
  | structs (name : GoString) (ca cb : Nat) (fa fb : FieldList) (parent : Option Value)
      (fp : List (GoString × Value))
      (hp : structParent parent = some fp)
      (hkey : ∀ k, entryGet k fa.toList = entryGet k fp ∨ entryGet k fb.toList = entryGet k fp ∨
        entryGet k fa.toList = entryGet k fb.toList ∨
        ∃ x y, entryGet k fa.toList = some x ∧ entryGet k fb.toList = some y)
      (hrec : ∀ k x y, entryGet k fa.toList = some x → entryGet k fb.toList = some y →
        some x ≠ entryGet k fp → some y ≠ entryGet k fp → x ≠ y →
        NoConflict lt x y (entryGet k fp)) :
      NoConflict lt (.struct name ca fa) (.struct name cb fb) parent

/-- What the description says of the merged value `v` at a key with parent
value `pv` and side values `va`, `vb`: the value of the side that changed it,
the parent's where no side changed it, and for two different new values the
merge of the two, which meets no conflict. -/
def MergedAt (m : Merger) (pv va vb v : Option Value) : Prop :=
  (va = pv → v = vb) ∧ (vb = pv → v = va) ∧ (va = vb → v = va) ∧
  (va ≠ pv → vb ≠ pv → va ≠ vb →
    ∃ x y z, va = some x ∧ vb = some y ∧ v = some z ∧ NoConflict m.less x y pv ∧
      ThreeWay m (some x) (some y) pv = .ok (some z))

/-- Whether `lt` is a strict total order on the keys of the list `l`. -/
def keyOrderCheck {K : Type} [DecidableEq K] (lt : K → K → Bool) (l : List K) : Bool :=
  l.all (fun a => !lt a a) &&
  l.all (fun a => l.all fun b => l.all fun c => !(lt a b && lt b c) || lt a c) &&
  l.all (fun a => l.all fun b => lt a b || lt b a || decide (a = b))

/-- Whether the entries `ea` and `eb` merge without conflict on top of `ep`,
given the check `rec` for two values under the same key. -/
def noConflictKeys {K : Type} [DecidableEq K] (rec : Value → Value → Option Value → Bool)
    (ea eb ep : List (K × Value)) : Bool :=
  (ea.map Prod.fst ++ eb.map Prod.fst ++ ep.map Prod.fst).all fun k =>
    decide (entryGet k ea = entryGet k ep) || decide (entryGet k eb = entryGet k ep) ||
    decide (entryGet k ea = entryGet k eb) ||
    match entryGet k ea, entryGet k eb with
    | some x, some y => rec x y (entryGet k ep)
    | _, _ => false

/-- A check of `NoConflict` that can be evaluated; `fuel` bounds the depth of
the recursion. -/
def noConflictCheck (lt : Value → Value → Bool) : Nat → Value → Value → Option Value → Bool
  | 0, _, _, _ => false
  | fuel + 1, a, b, parent =>
    match a, b with
    | .map ea, .map eb =>
      match mapParent parent with
      | none => false
      | some ep =>
        keyOrderCheck lt (ea.toList.map Prod.fst ++ eb.toList.map Prod.fst ++ ep.map Prod.fst) &&
        noConflictKeys (noConflictCheck lt fuel) ea.toList eb.toList ep
    | .struct na _ fa, .struct nb _ fb =>
      match structParent parent with
      | none => false
      | some fp =>
        decide (na = nb) && noConflictKeys (noConflictCheck lt fuel) fa.toList fb.toList fp
    | _, _ => false

/-- The keys of a Map are in ascending order of `lt`. -/
def MapSorted (lt : Value → Value → Bool) (e : EntryList) : Prop :=
  (e.toList.map Prod.fst).Pairwise fun a b => lt a b = true

/-- Two values that do not merge: not both present, of different kinds, or of a
primitive kind. -/
def Unmergeable (va vb : Option Value) : Prop :=
  ∀ x y, va = some x → vb = some y → ¬ (x.Kind = y.Kind ∧ IsPrimitiveKind x.Kind = false)

/-- A conflict at a key with parent value `pv` and side values `va`, `vb`:
both sides changed the value, to different values that do not merge. -/
def ConflictAt (pv va vb : Option Value) : Prop :=
  va ≠ pv ∧ vb ≠ pv ∧ va ≠ vb ∧ Unmergeable va vb

/-- The values that `ThreeWay` merges key by key: two Maps, or two Structs of
the same name, on top of a parent that is nil or of their kind. -/
def MergeShape (a b : Value) (parent : Option Value) : Prop :=
  (∃ ea eb ep, a = .map ea ∧ b = .map eb ∧ mapParent parent = some ep) ∨
  (∃ name ca cb fa fb fp, a = .struct name ca fa ∧ b = .struct name cb fb ∧
    structParent parent = some fp)

/-- The function `lt` is a strict total order on the keys of the Maps `a`, `b`
and `parent`. -/
def KeysOrdered (lt : Value → Value → Bool) (a b : Value) (parent : Option Value) : Prop :=
  ∀ ea eb ep, a = .map ea → b = .map eb → mapParent parent = some ep →
    KeyOrderOn lt (fun k => k ∈ ea.toList.map Prod.fst ++ eb.toList.map Prod.fst ++
      ep.map Prod.fst)

/-- Modelled from the spec: the helper `tryThreeWayConflict(a, b, p, ...)` of
the merge tests, which is not among the sources: whether the merge without
resolver returns the conflict error. -/
def tryThreeWayConflict (a b p : Option Value) : Bool :=
  ThreeWay (testMerger none) a b p = .error .conflict

/-- A list of pairs with the entry of key `k` removed, as `kvs.remove`. -/
def kvsRemove (kv : List (String × Value)) (k : String) : List (String × Value) :=
  kv.filter fun e => e.1 ≠ k

/-- A list of pairs with the value of key `k` replaced, as `kvs.set`. -/
def kvsSet (kv : List (String × Value)) (k : String) (v : Value) : List (String × Value) :=
  kv.map fun e => if e.1 = k then (e.1, v) else e

/-! ## Tables

The table writer and reader of package `nbs` are not among the sources, only
`table_test.go` is.  The model follows the layout that the spec gives bit
by bit: the chunk payloads in write order, the index (the prefix tuples in
the order of the addresses, then the lengths and the suffixes, both by
ordinal), and the footer.  A buffer is the list of its bytes. -/

/-- Modelled from the spec: Go `addr`, an address of 20 bytes. -/
abbrev addr := List Nat

/-- Modelled from the spec: the size of an address. -/
def addrSize : Nat := 20

/-- Modelled from the spec: the first 8 bytes of an address are its prefix. -/
def addrPrefixSize : Nat := 8

/-- Modelled from the spec: the 12 low-order bytes of an address are its
suffix. -/
def addrSuffixSize : Nat := 12

/-- Modelled from the spec: an ordinal is a `u32`. -/
def ordinalSize : Nat := 4

/-- Modelled from the spec: a length is a `u32`. -/
def lengthSize : Nat := 4

/-- Modelled from the spec: a prefix tuple is `{prefix:u64 BE, ordinal:u32 BE}`. -/
def prefixTupleSize : Nat := addrPrefixSize + ordinalSize

/-- Modelled from the spec: the magic bytes of the footer, `"NBSv1   "`. -/
def magicNumber : List Nat := lit "NBSv1   "

/-- Modelled from the spec: the footer is `chunkCount:u32`, `totalUncompLen:u64`
and the 8 magic bytes. -/
def footerSize : Nat := 4 + 8 + 8

/-- Go `binary.BigEndian.PutUint32`, `PutUint64`: the `w` bytes of `n` modulo
`256 ^ w`, most significant first. -/
def putUint : Nat → Nat → List Nat
  | 0, _ => []
  | w + 1, n => (n / 256 ^ w % 256) :: putUint w (n % 256 ^ w)

/-- Go `binary.BigEndian.Uint32`, `Uint64`: the number that the bytes spell,
most significant first. -/
def getUint : List Nat → Nat
  | [] => 0
  | b :: bs => b * 256 ^ bs.length + getUint bs

/-- Modelled from the spec: `addr.Prefix()`, the first 8 bytes as a big-endian
unsigned integer. -/
def addr.Prefix (a : addr) : Nat := getUint (a.take addrPrefixSize)

/-- Modelled from the spec: the suffix of an address, `a[addrPrefixSize:]`. -/
def addr.Suffix (a : addr) : List Nat := a.drop addrPrefixSize

/-- Modelled from the spec: `maxTableSize(n, total) = total + n*(addr +
lenEncoding) + indexOverhead + footer`; with the 4 bytes of the ordinal as
index overhead per chunk this is the size of the table. -/
def maxTableSize (numChunks totalData : Nat) : Nat :=
  totalData + numChunks * (addrSize + lengthSize) + numChunks * ordinalSize + footerSize

/-- Modelled from the spec: an entry `(fullAddr, length)` of the staging list
of the writer, with its place in the write order. -/
structure prefixIndexRec where
  /-- The address of the chunk. -/
  a : addr
  /-- The ordinal: how many chunks were added before. -/
  order : Nat
  /-- The length of the payload. -/
  size : Nat
  deriving DecidableEq

/-- Modelled from the spec: the state of a `tableWriter`. -/
structure tableWriter where
  /-- The size of the destination buffer, `len(buff)`. -/
  capacity : Nat
  /-- The data region written so far, `buff[:pos]`. -/
  data : List Nat
  /-- The staging list, in write order. -/
  prefixes : List prefixIndexRec
  deriving DecidableEq

/-- Modelled from the spec: `newTableWriter(buff, nil)`. -/
def newTableWriter (capacity : Nat) : tableWriter := ⟨capacity, [], []⟩

/-- Modelled from the spec: `addChunk(addr, payload)` appends the payload to the
data region and `(fullAddr, length)` to the staging list; `none` is the
panic of a write past the end of the buffer. -/
def tableWriter.addChunk (tw : tableWriter) (h : addr) (data : List Nat) :
    Option tableWriter :=
  if tw.data.length + data.length > tw.capacity then none
  else some ⟨tw.capacity, tw.data ++ data, tw.prefixes ++ [⟨h, tw.prefixes.length, data.length⟩]⟩

/-- Modelled from the spec: the order of the index, by prefix, "prefix
collisions resolved by suffix". -/
def prefixIndexRec.less (x y : prefixIndexRec) : Bool :=
  decide (x.a.Prefix < y.a.Prefix) || (decide (x.a.Prefix = y.a.Prefix) && strLt x.a.Suffix y.a.Suffix)

/-- Modelled from the spec: the index section for the staging list `recs`:
the prefix tuples in sorted order, then the lengths and the suffixes, each
at the place of its ordinal. -/
def writeIndex (recs : List prefixIndexRec) : List Nat :=
  (sortKeys prefixIndexRec.less recs).flatMap
      (fun r => putUint addrPrefixSize r.a.Prefix ++ putUint ordinalSize r.order) ++
    recs.flatMap (fun r => putUint lengthSize r.size) ++
    recs.flatMap (fun r => r.a.Suffix)

/-- Modelled from the spec: the footer, chunk count, total length of the
payloads and the magic bytes. -/
def writeFooter (chunkCount totalUncompressedData : Nat) : List Nat :=
  putUint 4 chunkCount ++ putUint 8 totalUncompressedData ++ magicNumber

/-- Modelled from the spec: `finish()` sorts the staging list, emits the index,
computes the table name as the hash of the concatenated sorted addresses and
writes the footer; it returns the length, the name and, here, the bytes
`buff[:length]`.  `none` is the panic of a write past the end of the
buffer.  `hashOf` is the address function. -/
def tableWriter.finish (hashOf : List Nat → addr) (tw : tableWriter) :
    Option (Nat × addr × List Nat) :=
  let out := tw.data ++ writeIndex tw.prefixes ++ writeFooter tw.prefixes.length tw.data.length
  if out.length > tw.capacity then none
  else
    some (out.length,
      hashOf ((sortKeys prefixIndexRec.less tw.prefixes).flatMap fun r => r.a), out)

/-- The loop of `buildTable`: `tw.addChunk(computeAddr(chunk), chunk)` for each
chunk, the addresses being given with the chunks. -/
def addChunks : tableWriter → List (addr × List Nat) → Option tableWriter
  | tw, [] => some tw
  | tw, c :: rest =>
    match tw.addChunk c.1 c.2 with
    | none => none
    | some tw' => addChunks tw' rest

/-- Go `buildTable` of `table_test.go`, the addresses being given with the
chunks: the table data `buff[:length]` and the table name. -/
def buildTable (hashOf : List Nat → addr) (chunks : List (addr × List Nat)) :
    Option (List Nat × addr) :=
  let totalData := (chunks.map fun c => c.2.length).sum
  let capacity := maxTableSize chunks.length totalData
  match addChunks (newTableWriter capacity) chunks with
  | none => none
  | some tw =>
    match tw.finish hashOf with
    | none => none
    | some (_, blockHash, buff) => some (buff, blockHash)

/-- Modelled from the spec: the parsed index of a table, the prefix, ordinal
and length arrays, the offsets of the payloads in the data section and the
suffixes. -/
structure tableIndex where
  /-- The number of chunks. -/
  chunkCount : Nat
  /-- The total length of the payloads. -/
  totalUncompressedData : Nat
  /-- The prefixes, ascending. -/
  prefixes : List Nat
  /-- The ordinal of each prefix tuple. -/
  ordinals : List Nat
  /-- The lengths, by ordinal. -/
  lengths : List Nat
  /-- The offsets in the data section, by ordinal. -/
  offsets : List Nat
  /-- The suffixes, by ordinal. -/
  suffixes : List (List Nat)
  deriving DecidableEq

/-- The `n` pieces of `k` bytes at the start of `bs`. -/
def pieces (k n : Nat) (bs : List Nat) : List (List Nat) :=
  (List.range n).map fun i => (bs.drop (i * k)).take k

/-- The offsets of payloads with the given lengths laid end to end. -/
def offsetsOf : Nat → List Nat → List Nat
  | _, [] => []
  | start, l :: ls => start :: offsetsOf (start + l) ls

/-- Modelled from the spec: `parseTableIndex(buff)` reads the footer at the
end of the buffer and the index before it; `none` is the panic on a buffer
that is too short or has the wrong magic. -/
def parseTableIndex (buff : List Nat) : Option tableIndex :=
  if buff.length < footerSize then none
  else
    let footer := buff.drop (buff.length - footerSize)
    if footer.drop 12 ≠ magicNumber then none
    else
      let chunkCount := getUint (footer.take 4)
      let totalUncompressedData := getUint ((footer.drop 4).take 8)
      let indexSize := chunkCount * (prefixTupleSize + lengthSize + addrSuffixSize)
      if buff.length < footerSize + indexSize then none
      else
        let index := buff.drop (buff.length - footerSize - indexSize)
        let tuples := pieces prefixTupleSize chunkCount index
        let lengths :=
          (pieces lengthSize chunkCount (index.drop (chunkCount * prefixTupleSize))).map getUint
        let suffixes := pieces addrSuffixSize chunkCount
          (index.drop (chunkCount * prefixTupleSize + chunkCount * lengthSize))
        some ⟨chunkCount, totalUncompressedData,
          tuples.map (fun t => getUint (t.take addrPrefixSize)),
          tuples.map (fun t => getUint (t.drop addrPrefixSize)),
          lengths, offsetsOf 0 lengths, suffixes⟩

/-- Modelled from the spec: a `tableReader` holds the parsed index and a byte
source. -/
structure tableReader where
  /-- The parsed index. -/
  index : tableIndex
  /-- The byte source. -/
  r : List Nat
  /-- The block size for coalesced reads. -/
  blockSize : Nat
  deriving DecidableEq

/-- Modelled from the spec: `newTableReader(index, r, blockSize)`. -/
def newTableReader (index : tableIndex) (r : List Nat) (blockSize : Nat) : tableReader :=
  ⟨index, r, blockSize⟩

/-- Go `tableReaderAtFromBytes` of the tests: the bytes as a byte source. -/
def tableReaderAtFromBytes (b : List Nat) : List Nat := b

/-- Modelled from the spec: the binary search of the prefixes, by halving the
range `[idx, j)`; the result is the first place with a prefix not below
`pfx`.  Each round makes the range smaller, so `fuel` rounds are enough
for a range of `fuel` places. -/
def findPrefixLoop (prefixes : List Nat) (pfx : Nat) : Nat → Nat → Nat → Nat
  | 0, idx, _ => idx
  | fuel + 1, idx, j =>
    if idx < j then
      let h := idx + (j - idx) / 2
      if prefixes.getD h 0 < pfx then findPrefixLoop prefixes pfx fuel (h + 1) j
      else findPrefixLoop prefixes pfx fuel idx h
    else idx

/-- Modelled from the spec: "binary search prefixes". -/
def tableIndex.findPrefix (ti : tableIndex) (pfx : Nat) : Nat :=
  findPrefixLoop ti.prefixes pfx ti.chunkCount 0 ti.chunkCount

/-- Modelled from the spec: whether the suffix of the chunk with the given
ordinal is the suffix of `h`. -/
def tableIndex.ordinalSuffixMatches (ti : tableIndex) (ordinal : Nat) (h : addr) : Bool :=
  ti.suffixes.getD ordinal [] = h.Suffix

/-- Modelled from the spec: "walk equal-prefix run comparing suffixes", from
the place `idx`: the ordinal of the first chunk of the run with the suffix of
`h`.  The walk ends at the end of the index at the latest. -/
def tableIndex.walkRun (ti : tableIndex) (h : addr) : Nat → Nat → Option Nat
  | 0, _ => none
  | fuel + 1, idx =>
    if idx < ti.chunkCount ∧ ti.prefixes.getD idx 0 = h.Prefix then
      if ti.ordinalSuffixMatches (ti.ordinals.getD idx 0) h then some (ti.ordinals.getD idx 0)
      else ti.walkRun h fuel (idx + 1)
    else none

/-- Modelled from the spec: the lookup of an address, the ordinal of its
chunk if the table has it. -/
def tableIndex.lookupOrdinal (ti : tableIndex) (h : addr) : Option Nat :=
  ti.walkRun h ti.chunkCount (ti.findPrefix h.Prefix)

/-- Modelled from the spec: `has(addr)`. -/
def tableReader.has (tr : tableReader) (h : addr) : Bool :=
  (tr.index.lookupOrdinal h).isSome

/-- Modelled from the spec: `get(addr)`, "lookup + single range read of
`(offset, length)`.  Empty chunk if absent." -/
def tableReader.get (tr : tableReader) (h : addr) : List Nat :=
  match tr.index.lookupOrdinal h with
  | none => []
  | some ordinal =>
    (tr.r.drop (tr.index.offsets.getD ordinal 0)).take (tr.index.lengths.getD ordinal 0)

/-- Go `hasRecord` of `table_test.go`: an address, its prefix, its place in the
request and whether a table has it. -/
structure hasRecord where
  /-- The address asked for. -/
  a : addr
  /-- Its prefix (the field `prefix`). -/
  pfx : Nat
  /-- Its place in the request. -/
  order : Nat
  /-- Whether the address was found. -/
  has : Bool
  deriving DecidableEq

/-- Modelled from the spec: the step of the linear merge that moves on in the
index while the prefix there is below `pfx`. -/
def skipBelow (prefixes : List Nat) (pfx : Nat) : Nat → Nat → Nat
  | 0, idx => idx
  | fuel + 1, idx =>
    if idx < prefixes.length ∧ prefixes.getD idx 0 < pfx then
      skipBelow prefixes pfx fuel (idx + 1)
    else idx

/-- Modelled from the spec: `has_many(records)`, "records pre-sorted by
prefix; single linear merge pass.  Sets `has` flag per record": the records
after the pass, from the place `filterIdx` of the index.  A record that is
found already is left alone; when the index is used up the other records
are left alone. -/
def tableIndex.hasManyLoop (ti : tableIndex) : Nat → List hasRecord → List hasRecord
  | _, [] => []
  | filterIdx, rec :: rest =>
    if rec.has then rec :: ti.hasManyLoop filterIdx rest
    else
      let idx := skipBelow ti.prefixes rec.pfx ti.prefixes.length filterIdx
      if idx ≥ ti.prefixes.length then rec :: rest
      else if rec.pfx ≠ ti.prefixes.getD idx 0 then rec :: ti.hasManyLoop idx rest
      else
        { rec with has := (ti.walkRun rec.a ti.chunkCount idx).isSome } ::
          ti.hasManyLoop idx rest

/-- Modelled from the spec: `hasMany(addrs)`; the records after the call and
whether some record is still not found. -/
def tableReader.hasMany (tr : tableReader) (addrs : List hasRecord) : List hasRecord × Bool :=
  let out := tr.index.hasManyLoop 0 addrs
  (out, out.any fun r => !r.has)

/-- The address with the given textual form. -/
def addrOf (s : String) : addr :=
  match hashMaybeParse (lit s) with
  | some h => putUint addrSize h
  | none => []

/-- The addresses of `TestHasManySequentialPrefix`, which share their prefix. -/
def sequentialAddrs : List addr :=
  [addrOf "0rfgadopg6h3fk7d253ivbjsij4qo3nv", addrOf "0rfgadopg6h3fk7d253ivbjsij4qo4nv",
   addrOf "0rfgadopg6h3fk7d253ivbjsij4qo9nv"]

/-- The chunks of `TestHasManySequentialPrefix`: `bogusData` under each of the
addresses. -/
def sequentialChunks : List (addr × List Nat) :=
  sequentialAddrs.map fun a => (a, lit "bogus")

/-- The request of `TestHasManySequentialPrefix`, which leaves out the first
address. -/
def sequentialRecords : List hasRecord :=
  [⟨sequentialAddrs.getD 1 [], (sequentialAddrs.getD 1 []).Prefix, 1, false⟩,
   ⟨sequentialAddrs.getD 2 [], (sequentialAddrs.getD 2 []).Prefix, 2, false⟩]

/-- An address function for the examples: the first 20 bytes of the data
repeated. -/
def exampleAddr (data : List Nat) : addr :=
  ((List.replicate 20 data).flatten).take 20

/-- The chunks of `TestSimple`, each with an address. -/
def simpleChunks : List (addr × List Nat) :=
  [lit "hello2", lit "goodbye2", lit "badbye2"].map fun c => (exampleAddr c, c)

/-- The table reader of a table built from the given chunks, as the tests
make it. -/
def readerOf (chunks : List (addr × List Nat)) : Option tableReader :=
  match buildTable exampleAddr chunks with
  | none => none
  | some (tableData, _) =>
    match parseTableIndex tableData with
    | none => none
    | some index => some (newTableReader index (tableReaderAtFromBytes tableData) 4096)

/-- The staging list of a writer after the chunks `chunks` were added, the
first with ordinal `start`. -/
def stagingOf : Nat → List (addr × List Nat) → List prefixIndexRec
  | _, [] => []
  | start, c :: rest => ⟨c.1, start, c.2.length⟩ :: stagingOf (start + 1) rest

/-- The index of the table written from the chunks `chunks`, as the layout
describes it. -/
def indexOf (chunks : List (addr × List Nat)) : tableIndex :=
  let recs := stagingOf 0 chunks
  let sorted := sortKeys prefixIndexRec.less recs
  ⟨chunks.length, (chunks.flatMap fun c => c.2).length % 256 ^ 8,
    sorted.map fun r => r.a.Prefix, sorted.map fun r => r.order,
    recs.map fun r => r.size, offsetsOf 0 (recs.map fun r => r.size),
    recs.map fun r => r.a.Suffix⟩

/-- The bytes of the table written from the chunks `chunks`, as the layout
describes it: the payloads, the index and the footer. -/
def tableBytes (chunks : List (addr × List Nat)) : List Nat :=
  (chunks.flatMap fun c => c.2) ++ writeIndex (stagingOf 0 chunks) ++
    writeFooter chunks.length (chunks.flatMap fun c => c.2).length

/-- An address is 20 bytes. -/
def addr.WF (a : addr) : Prop := a.length = addrSize ∧ ∀ b ∈ a, b < 256

instance (a : addr) : Decidable a.WF := by
  unfold addr.WF
  infer_instance

/-! # Lemmas and theorems -/

theorem strLt_irrefl (a : GoString) : strLt a a = false := by
  induction a with
  | nil => rfl
  | cons x xs ih => simp [strLt, ih]

theorem strLt_trans {a b c : GoString} (h1 : strLt a b = true) (h2 : strLt b c = true) :
    strLt a c = true := by
  induction a generalizing b c with
  | nil =>
    cases b with
    | nil => simp [strLt] at h1
    | cons y ys =>
      cases c with
      | nil => simp [strLt] at h2
      | cons z zs => simp [strLt]
  | cons x xs ih =>
    cases b with
    | nil => simp [strLt] at h1
    | cons y ys =>
      cases c with
      | nil => simp [strLt] at h2
      | cons z zs =>
        simp only [strLt] at h1 h2 ⊢
        split_ifs at h1 h2 ⊢ <;> first | rfl | omega | (subst_vars; exact ih h1 h2)

theorem strLt_total {a b : GoString} (h1 : strLt a b = false) (h2 : strLt b a = false) :
    a = b := by
  induction a generalizing b with
  | nil =>
    cases b with
    | nil => rfl
    | cons y ys => simp [strLt] at h1
  | cons x xs ih =>
    cases b with
    | nil => simp [strLt] at h2
    | cons y ys =>
      simp only [strLt] at h1 h2
      split_ifs at h1 h2 <;> first | omega | skip
      all_goals (subst_vars; first | omega | (rw [ih h1 h2]))

theorem strLt_asymm {a b : GoString} (h : strLt a b = true) : strLt b a = false := by
  cases hba : strLt b a with
  | false => rfl
  | true =>
    have := strLt_trans h hba
    rw [strLt_irrefl] at this
    exact absurd this (by simp)

theorem strLt_ne {a b : GoString} (h : strLt a b = true) : a ≠ b := by
  intro hab
  subst hab
  rw [strLt_irrefl] at h
  exact absurd h (by simp)

/-! ### Sorting -/

theorem mem_insertSorted {x y : GoString} {l : List GoString} :
    y ∈ insertSorted x l ↔ y = x ∨ y ∈ l := by
  induction l with
  | nil => simp [insertSorted]
  | cons z zs ih =>
    simp only [insertSorted]
    split_ifs
    · simp only [List.mem_cons, ih]
      tauto
    · simp only [List.mem_cons]

theorem length_insertSorted (x : GoString) (l : List GoString) :
    (insertSorted x l).length = l.length + 1 := by
  induction l with
  | nil => rfl
  | cons z zs ih =>
    simp only [insertSorted]
    split_ifs <;> simp [ih]

theorem ascending_insertSorted {x : GoString} {l : List GoString}
    (hl : Ascending l) (hx : x ∉ l) : Ascending (insertSorted x l) := by
  induction l with
  | nil => simp [insertSorted, Ascending]
  | cons z zs ih =>
    have hz : ∀ b ∈ zs, strLt z b = true := (List.pairwise_cons.1 hl).1
    have hzs : Ascending zs := (List.pairwise_cons.1 hl).2
    have hxz : x ≠ z := fun h => hx (h ▸ List.mem_cons_self _ _)
    have hxzs : x ∉ zs := fun h => hx (List.mem_cons_of_mem _ h)
    simp only [insertSorted]
    split_ifs with hlt
    · refine List.pairwise_cons.2 ⟨?_, ih hzs hxzs⟩
      intro b hb
      rcases mem_insertSorted.1 hb with rfl | hb
      · exact hlt
      · exact hz b hb
    · have hxlt : strLt x z = true := by
        cases hc : strLt x z with
        | true => rfl
        | false => exact absurd (strLt_total hc (by simpa using hlt)) hxz
      refine List.pairwise_cons.2 ⟨?_, hl⟩
      intro b hb
      rcases List.mem_cons.1 hb with rfl | hb
      · exact hxlt
      · exact strLt_trans hxlt (hz b hb)

theorem mem_sortStrings {y : GoString} {l : List GoString} : y ∈ sortStrings l ↔ y ∈ l := by
  induction l with
  | nil => simp [sortStrings]
  | cons z zs ih => simp [sortStrings, mem_insertSorted, ih]

theorem length_sortStrings (l : List GoString) : (sortStrings l).length = l.length := by
  induction l with
  | nil => rfl
  | cons z zs ih => simp [sortStrings, length_insertSorted, ih]

theorem ascending_sortStrings {l : List GoString} (h : l.Nodup) : Ascending (sortStrings l) := by
  induction l with
  | nil => simp [sortStrings, Ascending]
  | cons z zs ih =>
    have hz := List.nodup_cons.1 h
    exact ascending_insertSorted (ih hz.2) (fun hm => hz.1 (mem_sortStrings.1 hm))

theorem Ascending.nodup {l : List GoString} (h : Ascending l) : l.Nodup :=
  List.Pairwise.imp (fun hab => strLt_ne hab) h

/-! ### `newStruct` -/

theorem writeFields_names {V : Type} {ns : List GoString} {vs : List (Option V)}
    {fs : List (GoString × V)} (h : writeFields ns vs = some fs) : fs.map Prod.fst = ns := by
  induction ns generalizing vs fs with
  | nil => simp [writeFields] at h; simp [← h]
  | cons n ns ih =>
    cases vs with
    | nil => simp [writeFields] at h
    | cons v vs =>
      cases v with
      | none => simp [writeFields] at h
      | some v =>
        simp only [writeFields] at h
        cases hw : writeFields ns vs with
        | none => simp [hw] at h
        | some fs' =>
          simp only [hw, Option.some.injEq] at h
          subst h
          simp [ih hw]

theorem newStruct_spec {V : Type} {name : GoString} {ns : List GoString} {vs : List (Option V)}
    {s : Struct V} (h : newStruct name ns vs = some s) :
    s.name = name ∧ s.count = ns.length ∧ s.fieldNames = ns := by
  unfold newStruct at h
  cases hw : writeFields ns vs with
  | none => simp [hw] at h
  | some fs =>
    simp only [hw, Option.some.injEq] at h
    subst h
    exact ⟨rfl, rfl, writeFields_names hw⟩

theorem Struct.wf_of_names {V : Type} {s : Struct V} {ns : List GoString}
    (hc : s.count = ns.length) (hn : s.fieldNames = ns) : s.WF := by
  unfold Struct.WF
  rw [hc, ← hn, Struct.fieldNames, List.length_map]


/-! ### The loops of `splitFieldsAt` and `MaybeGet` -/

theorem splitLoop_eq {V : Type} (name : GoString) (dec before : List (GoString × V)) :
    ∃ r, splitLoop name dec.length before dec = some r ∧
      rawFields (if r.head.isNone && r.tail.isNone then some r.consumed else r.head)
        = before ++ lowerFields name dec ∧
      rawFields r.tail = upperFields name dec ∧
      r.found = hasField name dec := by
  induction dec generalizing before with
  | nil => exact ⟨_, rfl, by simp [rawFields, lowerFields], rfl, rfl⟩
  | cons f rest ih =>
    obtain ⟨fn, w⟩ := f
    simp only [List.length_cons, splitLoop, lowerFields, upperFields, hasField]
    by_cases h1 : fn = name
    · simp [h1, rawFields]
    · by_cases h2 : strLt name fn = true
      · simp [h1, h2, rawFields]
      · obtain ⟨r, hr, hh, ht, hf⟩ := ih (before ++ [(fn, w)])
        refine ⟨r, ?_, ?_, ?_, ?_⟩
        · simp [h1, h2, hr]
        · simp [h1, h2, hh]
        · simp [h1, h2, ht]
        · simp [h1, h2, hf]

theorem splitFieldsAt_eq {V : Type} (s : Struct V) (n : GoString) (hwf : s.WF) :
    ∃ sp, s.splitFieldsAt n = some sp ∧ sp.prolog = s.name ∧ sp.count = s.count ∧
      rawFields sp.head = lowerFields n s.fields ∧
      rawFields sp.tail = upperFields n s.fields ∧
      sp.found = hasField n s.fields := by
  obtain ⟨r, hr, hh, ht, hf⟩ := splitLoop_eq n s.fields []
  unfold Struct.WF at hwf
  refine ⟨⟨s.name, if r.head.isNone && r.tail.isNone then some r.consumed else r.head,
    r.tail, s.count, r.found⟩, ?_, rfl, rfl, ?_, ht, hf⟩
  · simp only [Struct.splitFieldsAt, hwf, hr]
  · simpa using hh

theorem Struct.Set_eq {V : Type} (s : Struct V) (n : GoString) (v : V) (hwf : s.WF)
    (hn : IsValidStructFieldName n = true) :
    s.Set n v = some ⟨s.name, if hasField n s.fields then s.count else s.count + 1,
      lowerFields n s.fields ++ [(n, v)] ++ upperFields n s.fields⟩ := by
  obtain ⟨sp, hsp, hp, hc, hh, ht, hf⟩ := splitFieldsAt_eq s n hwf
  simp only [Struct.Set, verifyFieldName, verifyName, hn, hsp, hp, hc, hh, ht, hf]
  cases hasField n s.fields <;> simp

theorem Struct.Delete_eq {V : Type} (s : Struct V) (n : GoString) (hwf : s.WF) :
    s.Delete n = some (if hasField n s.fields then
      ⟨s.name, s.count - 1, lowerFields n s.fields ++ upperFields n s.fields⟩ else s) := by
  obtain ⟨sp, hsp, hp, hc, hh, ht, hf⟩ := splitFieldsAt_eq s n hwf
  simp only [Struct.Delete, hsp, hp, hc, hh, ht, hf]
  cases hasField n s.fields <;> simp

theorem fields_split {V : Type} (n : GoString) (l : List (GoString × V)) :
    l = lowerFields n l ++ midFields n l ++ upperFields n l := by
  induction l with
  | nil => rfl
  | cons f rest ih =>
    obtain ⟨fn, w⟩ := f
    simp only [lowerFields, midFields, upperFields]
    split_ifs
    · simp
    · simp
    · simpa using ih

theorem length_midFields {V : Type} (n : GoString) (l : List (GoString × V)) :
    (midFields n l).length = if hasField n l then 1 else 0 := by
  induction l with
  | nil => rfl
  | cons f rest ih =>
    obtain ⟨fn, w⟩ := f
    simp only [midFields, hasField]
    split_ifs <;> simp_all

theorem mem_midFields {V : Type} {n : GoString} {l : List (GoString × V)} {f : GoString × V}
    (h : f ∈ midFields n l) : f.1 = n := by
  induction l with
  | nil => simp [midFields] at h
  | cons g rest ih =>
    obtain ⟨fn, w⟩ := g
    simp only [midFields] at h
    split_ifs at h with h1 h2
    · simp only [List.mem_singleton] at h
      subst h
      exact h1
    · simp at h
    · exact ih h

theorem mem_lowerFields {V : Type} {n : GoString} {l : List (GoString × V)} {f : GoString × V}
    (h : f ∈ lowerFields n l) : strLt f.1 n = true := by
  induction l with
  | nil => simp [lowerFields] at h
  | cons g rest ih =>
    obtain ⟨fn, w⟩ := g
    simp only [lowerFields] at h
    split_ifs at h with h1 h2
    · simp at h
    · simp at h
    · rcases List.mem_cons.1 h with rfl | h
      · cases hc : strLt fn n with
        | true => rfl
        | false => exact absurd (strLt_total hc (by simpa using h2)) h1
      · exact ih h

/-- Fields whose names are strictly ascending. -/
theorem ascending_cons {V : Type} {f : GoString × V} {l : List (GoString × V)}
    (h : Ascending ((f :: l).map Prod.fst)) :
    (∀ g ∈ l, strLt f.1 g.1 = true) ∧ Ascending (l.map Prod.fst) := by
  simp only [Ascending, List.map_cons, List.pairwise_cons, List.mem_map, forall_exists_index,
    and_imp] at h
  exact ⟨fun g hg => h.1 g.1 g hg rfl, h.2⟩

theorem mem_upperFields {V : Type} {n : GoString} {l : List (GoString × V)} {f : GoString × V}
    (hs : Ascending (l.map Prod.fst)) (h : f ∈ upperFields n l) : strLt n f.1 = true := by
  induction l with
  | nil => simp [upperFields] at h
  | cons g rest ih =>
    obtain ⟨fn, w⟩ := g
    obtain ⟨hg, hrest⟩ := ascending_cons hs
    simp only [upperFields] at h
    split_ifs at h with h1 h2
    · subst h1
      exact hg f h
    · rcases List.mem_cons.1 h with rfl | h
      · exact h2
      · exact strLt_trans h2 (hg f h)
    · exact ih hrest h

theorem hasField_iff {V : Type} {n : GoString} {l : List (GoString × V)}
    (hs : Ascending (l.map Prod.fst)) : hasField n l = true ↔ n ∈ l.map Prod.fst := by
  induction l with
  | nil => simp [hasField]
  | cons g rest ih =>
    obtain ⟨fn, w⟩ := g
    obtain ⟨hg, hrest⟩ := ascending_cons hs
    simp only [hasField, List.map_cons, List.mem_cons]
    split_ifs with h1 h2
    · simp [h1]
    · simp only [Bool.false_eq_true, false_iff, not_or]
      refine ⟨fun h => h1 h.symm, fun hm => ?_⟩
      obtain ⟨g, hg1, hg2⟩ := List.mem_map.1 hm
      have := strLt_trans h2 (hg g hg1)
      rw [hg2, strLt_irrefl] at this
      exact absurd this (by simp)
    · rw [ih hrest]
      constructor
      · exact Or.inr
      · rintro (h | h)
        · exact absurd h.symm h1
        · exact h

theorem maybeGetLoop_eq {V : Type} (n : GoString) (l : List (GoString × V))
    (hs : Ascending (l.map Prod.fst)) :
    maybeGetLoop n l.length l = some (lookupField n l) := by
  induction l with
  | nil => rfl
  | cons g rest ih =>
    obtain ⟨fn, w⟩ := g
    obtain ⟨hg, hrest⟩ := ascending_cons hs
    simp only [List.length_cons, maybeGetLoop]
    split_ifs with h1 h2
    · simp [lookupField, h1]
    · have hnone : rest.find? (fun f => decide (f.1 = n)) = none := by
        rw [List.find?_eq_none]
        intro g hg1
        simp only [decide_eq_true_eq]
        intro hg2
        have := strLt_trans h2 (hg g hg1)
        rw [hg2, strLt_irrefl] at this
        exact absurd this (by simp)
      simp [lookupField, h1, hnone]
    · rw [ih hrest]
      simp [lookupField, h1]

theorem Struct.MaybeGet_eq {V : Type} (s : Struct V) (n : GoString) (hwf : s.WF)
    (hs : s.Sorted) : s.MaybeGet n = some (lookupField n s.fields) := by
  unfold Struct.MaybeGet
  rw [hwf]
  exact maybeGetLoop_eq n s.fields hs


/-! ### The struct invariant -/

/-- The invariant kept by every operation of `struct.go`. -/
theorem Struct.inv_newStruct {V : Type} {name : GoString} {data : StructData V} {s : Struct V}
    (h : NewStruct name data = some s) :
    s.WF ∧ (∀ n ∈ s.fieldNames, IsValidStructFieldName n = true) ∧ s.Sorted := by
  unfold NewStruct at h
  split_ifs at h with h1
  simp only at h
  split_ifs at h with h2
  obtain ⟨-, hc, hn⟩ := newStruct_spec h
  refine ⟨Struct.wf_of_names hc hn, ?_, ?_⟩
  · intro n hmem
    rw [hn, mem_sortStrings] at hmem
    have h2' : (data.entries.map Prod.fst).all verifyFieldName = true := by simpa using h2
    exact List.all_eq_true.1 h2' n hmem
  · unfold Struct.Sorted
    rw [hn]
    exact ascending_sortStrings data.nodup

theorem templateLoop_spec {prev : GoString} {l : List GoString} (h : templateLoop prev l = true) :
    (∀ x ∈ l, IsValidStructFieldName x = true ∧ strLt prev x = true) ∧ Ascending l := by
  induction l generalizing prev with
  | nil => simp [Ascending]
  | cons f rest ih =>
    simp only [templateLoop] at h
    split_ifs at h with h1 h2
    have hf : IsValidStructFieldName f = true := by simpa [verifyFieldName, verifyName] using h1
    have hlt : strLt prev f = true := by simpa using h2
    obtain ⟨hr, ha⟩ := ih h
    refine ⟨?_, List.pairwise_cons.2 ⟨fun b hb => (hr b hb).2, ha⟩⟩
    intro x hx
    rcases List.mem_cons.1 hx with rfl | hx
    · exact ⟨hf, hlt⟩
    · exact ⟨(hr x hx).1, strLt_trans hlt (hr x hx).2⟩

theorem MakeStructTemplate_spec {name : GoString} {fieldNames : List GoString}
    {t : StructTemplate} (h : MakeStructTemplate name fieldNames = some t) :
    t.name = name ∧ t.fieldNames = fieldNames ∧
      (∀ x ∈ fieldNames, IsValidStructFieldName x = true) ∧ Ascending fieldNames := by
  unfold MakeStructTemplate at h
  split_ifs at h with h0
  cases fieldNames with
  | nil =>
    simp only [Option.some.injEq] at h
    subst h
    simp [Ascending]
  | cons f0 rest =>
    simp only at h
    split_ifs at h with h1 h2
    simp only [Option.some.injEq] at h
    subst h
    have hf : IsValidStructFieldName f0 = true := by simpa [verifyFieldName, verifyName] using h1
    obtain ⟨hr, ha⟩ := templateLoop_spec h2
    refine ⟨rfl, rfl, ?_, List.pairwise_cons.2 ⟨fun b hb => (hr b hb).2, ha⟩⟩
    intro x hx
    rcases List.mem_cons.1 hx with rfl | hx
    · exact hf
    · exact (hr x hx).1

theorem Struct.inv_template {V : Type} {name : GoString} {fieldNames : List GoString}
    {t : StructTemplate} {values : List (Option V)} {s : Struct V}
    (ht : MakeStructTemplate name fieldNames = some t) (h : t.NewStruct values = some s) :
    s.WF ∧ (∀ n ∈ s.fieldNames, IsValidStructFieldName n = true) ∧ s.Sorted := by
  obtain ⟨-, htf, hv, ha⟩ := MakeStructTemplate_spec ht
  unfold StructTemplate.NewStruct at h
  split_ifs at h
  obtain ⟨-, hc, hn⟩ := newStruct_spec h
  rw [htf] at hc hn
  refine ⟨Struct.wf_of_names hc hn, ?_, ?_⟩
  · rw [hn]; exact hv
  · unfold Struct.Sorted; rw [hn]; exact ha

theorem fields_pairwise {V : Type} {l : List (GoString × V)} (hs : Ascending (l.map Prod.fst)) :
    (lowerFields n l ++ midFields n l ++ upperFields n l).Pairwise
      (fun a b => strLt a.1 b.1 = true) := by
  rw [← fields_split n l]
  exact List.pairwise_map.1 hs

theorem ascending_set {V : Type} {l : List (GoString × V)} (n : GoString) (v : V)
    (hs : Ascending (l.map Prod.fst)) :
    Ascending ((lowerFields n l ++ [(n, v)] ++ upperFields n l).map Prod.fst) := by
  have hp := fields_pairwise (n := n) hs
  rw [List.append_assoc, List.pairwise_append] at hp
  obtain ⟨hlo, hmu, hcross⟩ := hp
  rw [List.pairwise_append] at hmu
  unfold Ascending
  rw [List.pairwise_map, List.append_assoc, List.pairwise_append]
  refine ⟨hlo, ?_, ?_⟩
  · refine List.pairwise_cons.2 ⟨fun b hb => mem_upperFields hs hb, hmu.2.1⟩
  · intro a ha b hb
    rcases List.mem_cons.1 hb with rfl | hb
    · exact mem_lowerFields ha
    · exact hcross a ha b (List.mem_append_right _ hb)

theorem ascending_delete {V : Type} {l : List (GoString × V)} (n : GoString)
    (hs : Ascending (l.map Prod.fst)) :
    Ascending ((lowerFields n l ++ upperFields n l).map Prod.fst) := by
  have hp := fields_pairwise (n := n) hs
  rw [List.append_assoc, List.pairwise_append] at hp
  obtain ⟨hlo, hmu, hcross⟩ := hp
  rw [List.pairwise_append] at hmu
  unfold Ascending
  rw [List.pairwise_map, List.pairwise_append]
  exact ⟨hlo, hmu.2.1, fun a ha b hb => hcross a ha b (List.mem_append_right _ hb)⟩

theorem mem_of_mem_lowerFields {V : Type} {n : GoString} {l : List (GoString × V)}
    {f : GoString × V} (h : f ∈ lowerFields n l) : f ∈ l := by
  rw [fields_split n l]
  exact List.mem_append_left _ (List.mem_append_left _ h)

theorem mem_of_mem_upperFields {V : Type} {n : GoString} {l : List (GoString × V)}
    {f : GoString × V} (h : f ∈ upperFields n l) : f ∈ l := by
  rw [fields_split n l]
  exact List.mem_append_right _ h

theorem length_fields {V : Type} (n : GoString) (l : List (GoString × V)) :
    l.length = (lowerFields n l).length + (if hasField n l then 1 else 0)
      + (upperFields n l).length := by
  conv_lhs => rw [fields_split n l]
  simp only [List.length_append, length_midFields]

theorem Struct.inv_set {V : Type} {s s' : Struct V} {n : GoString} {v : V}
    (hinv : s.WF ∧ (∀ n ∈ s.fieldNames, IsValidStructFieldName n = true) ∧ s.Sorted)
    (h : s.Set n v = some s') :
    s'.WF ∧ (∀ n ∈ s'.fieldNames, IsValidStructFieldName n = true) ∧ s'.Sorted := by
  obtain ⟨hwf, hv, hs⟩ := hinv
  have hn : IsValidStructFieldName n = true := by
    cases hc : IsValidStructFieldName n with
    | true => rfl
    | false => simp [Struct.Set, verifyFieldName, verifyName, hc] at h
  rw [Struct.Set_eq s n v hwf hn, Option.some.injEq] at h
  subst h
  refine ⟨?_, ?_, ascending_set n v hs⟩
  · have hl := length_fields n s.fields
    unfold Struct.WF at hwf ⊢
    simp only [List.length_append, List.length_cons, List.length_nil]
    split_ifs with hf <;> simp only [hf, if_true, if_false, Bool.false_eq_true] at hl <;> omega
  · intro m hm
    simp only [Struct.fieldNames, List.map_append, List.map_cons, List.map_nil,
      List.mem_append, List.mem_cons, List.mem_map, List.not_mem_nil, or_false] at hm
    rcases hm with (⟨f, hf, rfl⟩ | rfl) | ⟨f, hf, rfl⟩
    · exact hv _ (List.mem_map_of_mem _ (mem_of_mem_lowerFields hf))
    · exact hn
    · exact hv _ (List.mem_map_of_mem _ (mem_of_mem_upperFields hf))

theorem Struct.inv_delete {V : Type} {s s' : Struct V} {n : GoString}
    (hinv : s.WF ∧ (∀ n ∈ s.fieldNames, IsValidStructFieldName n = true) ∧ s.Sorted)
    (h : s.Delete n = some s') :
    s'.WF ∧ (∀ n ∈ s'.fieldNames, IsValidStructFieldName n = true) ∧ s'.Sorted := by
  obtain ⟨hwf, hv, hs⟩ := hinv
  rw [Struct.Delete_eq s n hwf, Option.some.injEq] at h
  subst h
  split_ifs with hf
  · refine ⟨?_, ?_, ascending_delete n hs⟩
    · have hl := length_fields n s.fields
      unfold Struct.WF at hwf ⊢
      simp only [List.length_append]
      simp only [hf, if_true] at hl
      omega
    · intro m hm
      simp only [Struct.fieldNames, List.map_append, List.mem_append, List.mem_map] at hm
      rcases hm with ⟨f, hf, rfl⟩ | ⟨f, hf, rfl⟩
      · exact hv _ (List.mem_map_of_mem _ (mem_of_mem_lowerFields hf))
      · exact hv _ (List.mem_map_of_mem _ (mem_of_mem_upperFields hf))
  · exact ⟨hwf, hv, hs⟩

theorem Struct.inv_setName {V : Type} {s s' : Struct V} {name : GoString}
    (hinv : s.WF ∧ (∀ n ∈ s.fieldNames, IsValidStructFieldName n = true) ∧ s.Sorted)
    (h : s.SetName name = some s') :
    s'.WF ∧ (∀ n ∈ s'.fieldNames, IsValidStructFieldName n = true) ∧ s'.Sorted := by
  unfold Struct.SetName at h
  split_ifs at h
  simp only [Option.some.injEq] at h
  subst h
  exact hinv

theorem Reachable.inv {V : Type} {s : Struct V} (h : Reachable s) :
    s.WF ∧ (∀ n ∈ s.fieldNames, IsValidStructFieldName n = true) ∧ s.Sorted := by
  induction h with
  | ofNewStruct name data s h => exact Struct.inv_newStruct h
  | ofTemplate name fieldNames t values s ht h => exact Struct.inv_template ht h
  | set s n v s' _ h ih => exact Struct.inv_set ih h
  | delete s n s' _ h ih => exact Struct.inv_delete ih h
  | setName s name s' _ h ih => exact Struct.inv_setName ih h

/-! ### Lookup lemmas -/

theorem StructData.get_of_mem {V : Type} (d : StructData V) {k : GoString} {v : V}
    (h : (k, v) ∈ d.entries) : d.get k = some v := by
  unfold StructData.get
  cases hf : d.entries.find? (fun e => decide (e.1 = k)) with
  | none =>
    rw [List.find?_eq_none] at hf
    exact absurd (by simp) (hf (k, v) h)
  | some e =>
    have he1 : e.1 = k := by simpa using List.find?_some hf
    have he2 : e ∈ d.entries := List.mem_of_find?_eq_some hf
    have : e = (k, v) := List.inj_on_of_nodup_map d.nodup he2 h he1
    simp [this]

theorem StructData.get_of_not_mem {V : Type} (d : StructData V) {k : GoString}
    (h : k ∉ d.entries.map Prod.fst) : d.get k = none := by
  unfold StructData.get
  have : d.entries.find? (fun e => decide (e.1 = k)) = none := by
    rw [List.find?_eq_none]
    intro e he
    simp only [decide_eq_true_eq]
    intro hek
    exact h (hek ▸ List.mem_map_of_mem _ he)
  rw [this]

theorem writeFields_map {V : Type} (g : GoString → Option V) (ns : List GoString)
    (h : ∀ k ∈ ns, ∃ v, g k = some v) :
    ∃ fs, writeFields ns (ns.map g) = some fs ∧ ∀ f ∈ fs, g f.1 = some f.2 := by
  induction ns with
  | nil => exact ⟨[], rfl, by simp⟩
  | cons n ns ih =>
    obtain ⟨v, hv⟩ := h n (List.mem_cons_self _ _)
    obtain ⟨fs, hfs, hg⟩ := ih (fun k hk => h k (List.mem_cons_of_mem _ hk))
    refine ⟨(n, v) :: fs, ?_, ?_⟩
    · simp [writeFields, hv, hfs]
    · intro f hf
      rcases List.mem_cons.1 hf with rfl | hf
      · exact hv
      · exact hg f hf

theorem lookupField_of_mem {V : Type} {n : GoString} {l : List (GoString × V)}
    (h : n ∈ l.map Prod.fst) : ∃ f ∈ l, f.1 = n ∧ lookupField n l = (some f.2, true) := by
  unfold lookupField
  cases hf : l.find? (fun f => decide (f.1 = n)) with
  | none =>
    rw [List.find?_eq_none] at hf
    obtain ⟨f, hf1, hf2⟩ := List.mem_map.1 h
    exact absurd (by simpa using hf2) (hf f hf1)
  | some f =>
    exact ⟨f, List.mem_of_find?_eq_some hf, by simpa using List.find?_some hf, rfl⟩

theorem lookupField_of_not_mem {V : Type} {n : GoString} {l : List (GoString × V)}
    (h : n ∉ l.map Prod.fst) : lookupField n l = (none, false) := by
  unfold lookupField
  have : l.find? (fun f => decide (f.1 = n)) = none := by
    rw [List.find?_eq_none]
    intro e he
    simp only [decide_eq_true_eq]
    intro hek
    exact h (hek ▸ List.mem_map_of_mem _ he)
  rw [this]

theorem find?_lowerFields {V : Type} (n : GoString) (l : List (GoString × V)) :
    (lowerFields n l).find? (fun f => decide (f.1 = n)) = none := by
  rw [List.find?_eq_none]
  intro f hf
  simp only [decide_eq_true_eq]
  exact strLt_ne (mem_lowerFields hf)

theorem find?_midFields {V : Type} {n m : GoString} (l : List (GoString × V)) (h : m ≠ n) :
    (midFields n l).find? (fun f => decide (f.1 = m)) = none := by
  rw [List.find?_eq_none]
  intro f hf
  simp only [decide_eq_true_eq]
  rw [mem_midFields hf]
  exact fun hnm => h hnm.symm

theorem find?_upperFields {V : Type} (n : GoString) {l : List (GoString × V)}
    (hs : Ascending (l.map Prod.fst)) :
    (upperFields n l).find? (fun f => decide (f.1 = n)) = none := by
  rw [List.find?_eq_none]
  intro f hf
  simp only [decide_eq_true_eq]
  exact fun h => strLt_ne (mem_upperFields hs hf) h.symm

theorem lookupField_set_same {V : Type} (n : GoString) (v : V) (l : List (GoString × V)) :
    lookupField n (lowerFields n l ++ [(n, v)] ++ upperFields n l) = (some v, true) := by
  simp [lookupField, List.find?_append, find?_lowerFields, List.find?_cons]

theorem lookupField_set_other {V : Type} {n m : GoString} (v : V) (l : List (GoString × V))
    (h : m ≠ n) :
    lookupField m (lowerFields n l ++ [(n, v)] ++ upperFields n l) = lookupField m l := by
  conv_rhs => rw [fields_split n l]
  have hn : ¬ n = m := fun hnm => h hnm.symm
  simp [lookupField, List.find?_append, find?_midFields l h, List.find?_cons, hn]

theorem lookupField_delete_other {V : Type} {n m : GoString} (l : List (GoString × V))
    (h : m ≠ n) :
    lookupField m (lowerFields n l ++ upperFields n l) = lookupField m l := by
  conv_rhs => rw [fields_split n l]
  simp [lookupField, List.find?_append, find?_midFields l h]

theorem lookupField_delete_same {V : Type} (n : GoString) {l : List (GoString × V)}
    (hs : Ascending (l.map Prod.fst)) :
    lookupField n (lowerFields n l ++ upperFields n l) = (none, false) := by
  simp [lookupField, List.find?_append, find?_lowerFields, find?_upperFields n hs]

theorem wf_set {V : Type} (s : Struct V) (n : GoString) (v : V) (hwf : s.WF) :
    Struct.WF (⟨s.name, if hasField n s.fields then s.count else s.count + 1,
      lowerFields n s.fields ++ [(n, v)] ++ upperFields n s.fields⟩ : Struct V) := by
  have hl := length_fields n s.fields
  unfold Struct.WF at hwf ⊢
  simp only [List.length_append, List.length_cons, List.length_nil]
  split_ifs with hf <;> simp only [hf, if_true, if_false, Bool.false_eq_true] at hl <;> omega

theorem wf_delete {V : Type} (s : Struct V) (n : GoString) (hwf : s.WF)
    (hf : hasField n s.fields = true) :
    Struct.WF (⟨s.name, s.count - 1,
      lowerFields n s.fields ++ upperFields n s.fields⟩ : Struct V) := by
  have hl := length_fields n s.fields
  unfold Struct.WF at hwf ⊢
  simp only [List.length_append]
  simp only [hf, if_true] at hl
  omega

/-! ### C1 – C4 -/

/-- C1. Every struct obtained from `NewStruct`, or from `MakeStructTemplate`
followed by `StructTemplate.NewStruct`, by any sequence of `Set`, `Delete` and
`SetName` has field names that are all valid (`IsValidStructFieldName`) and
strictly ascending in byte order, hence pairwise distinct. -/
theorem struct_field_order_invariant {V : Type} (s : Struct V) (h : Reachable s) :
    (∀ n ∈ s.fieldNames, IsValidStructFieldName n = true) ∧
      Ascending s.fieldNames ∧ s.fieldNames.Nodup :=
  ⟨(Reachable.inv h).2.1, (Reachable.inv h).2.2, Ascending.nodup (Reachable.inv h).2.2⟩

/-- C2. For a struct name that is empty or valid and a `StructData` whose keys
are all valid field names, `NewStruct` returns a struct `s` with
`s.Name() = name`, `s.Len() = len(data)`, `s.MaybeGet(k) = (data[k], true)` for
every key `k` and `s.MaybeGet(k) = (nil, false)` for every other `k`. -/
theorem newStruct_name_len_maybeGet {V : Type} (name : GoString) (data : StructData V)
    (hname : name = [] ∨ IsValidStructFieldName name = true)
    (hkeys : ∀ k ∈ data.entries.map Prod.fst, IsValidStructFieldName k = true) :
    ∃ s, NewStruct name data = some s ∧ s.Name = name ∧ s.Len = data.len ∧
      (∀ k v, (k, v) ∈ data.entries → s.MaybeGet k = some (some v, true)) ∧
      (∀ k, k ∉ data.entries.map Prod.fst → s.MaybeGet k = some (none, false)) := by
  have hvs : verifyStructName name = true := by
    rcases hname with rfl | h
    · rfl
    · simp [verifyStructName, verifyName, h]
  have hall : (data.entries.map Prod.fst).all verifyFieldName = true :=
    List.all_eq_true.2 hkeys
  obtain ⟨fs, hfs, hg⟩ := writeFields_map data.get (sortStrings (data.entries.map Prod.fst))
    (fun k hk => by
      obtain ⟨e, he, rfl⟩ := List.mem_map.1 (mem_sortStrings.1 hk)
      exact ⟨e.2, data.get_of_mem he⟩)
  have hnames : fs.map Prod.fst = sortStrings (data.entries.map Prod.fst) :=
    writeFields_names hfs
  have hN : NewStruct name data
      = some ⟨name, (sortStrings (data.entries.map Prod.fst)).length, fs⟩ := by
    simp [NewStruct, hvs, hall, newStruct, hfs]
  have hwf : Struct.WF (⟨name, (sortStrings (data.entries.map Prod.fst)).length, fs⟩ :
      Struct V) := by
    unfold Struct.WF
    simp only
    rw [← hnames, List.length_map]
  have hsorted : Struct.Sorted (⟨name, (sortStrings (data.entries.map Prod.fst)).length, fs⟩ :
      Struct V) := by
    unfold Struct.Sorted Struct.fieldNames
    simp only
    rw [hnames]
    exact ascending_sortStrings data.nodup
  refine ⟨_, hN, rfl, ?_, ?_, ?_⟩
  · simp [Struct.Len, StructData.len, length_sortStrings]
  · intro k v hkv
    rw [Struct.MaybeGet_eq _ k hwf hsorted]
    have hk : k ∈ fs.map Prod.fst := by
      rw [hnames, mem_sortStrings]
      exact List.mem_map_of_mem Prod.fst hkv
    obtain ⟨f, hf, hfk, hl⟩ := lookupField_of_mem hk
    have h1 := hg f hf
    rw [hfk, data.get_of_mem hkv] at h1
    rw [hl, ← Option.some.inj h1]
  · intro k hk
    rw [Struct.MaybeGet_eq _ k hwf hsorted]
    have hk' : k ∉ fs.map Prod.fst := by
      rw [hnames, mem_sortStrings]
      exact hk
    rw [lookupField_of_not_mem hk']

/-- C3. For a struct `s` with sorted fields, a valid field name `n` and a value
`v`: `s.Set(n, v)` returns a struct whose `MaybeGet(n)` is `(v, true)`, whose
`MaybeGet(m)` is that of `s` for every `m != n`, whose name is that of `s`, and
whose `Len` is `s.Len() + 1` when `n` was not a field of `s` and `s.Len()`
otherwise. -/
theorem set_maybeGet_frame {V : Type} (s : Struct V) (n : GoString) (v : V)
    (hwf : s.WF) (hs : s.Sorted) (hn : IsValidStructFieldName n = true) :
    ∃ s', s.Set n v = some s' ∧ s'.MaybeGet n = some (some v, true) ∧
      (∀ m, m ≠ n → s'.MaybeGet m = s.MaybeGet m) ∧ s'.Name = s.Name ∧
      s'.Len = if n ∈ s.fieldNames then s.Len else s.Len + 1 := by
  have hwf' := wf_set s n v hwf
  have hs' : Struct.Sorted (⟨s.name, if hasField n s.fields then s.count else s.count + 1,
      lowerFields n s.fields ++ [(n, v)] ++ upperFields n s.fields⟩ : Struct V) :=
    ascending_set n v hs
  refine ⟨_, Struct.Set_eq s n v hwf hn, ?_, ?_, rfl, ?_⟩
  · rw [Struct.MaybeGet_eq _ n hwf' hs']
    exact congrArg some (lookupField_set_same n v s.fields)
  · intro m hm
    rw [Struct.MaybeGet_eq _ m hwf' hs', Struct.MaybeGet_eq _ m hwf hs]
    exact congrArg some (lookupField_set_other v s.fields hm)
  · simp only [Struct.Len, Struct.fieldNames]
    by_cases hf : hasField n s.fields = true
    · simp [hf, (hasField_iff hs).1 hf]
    · have : n ∉ s.fields.map Prod.fst := fun hm => hf ((hasField_iff hs).2 hm)
      simp [hf, this]

/-- C4. For a struct `s` with sorted fields and a name `n`: when `n` is not a
field of `s`, `s.Delete(n)` is `s` itself; otherwise `s.Delete(n)` has no field
`n`, has `Len = s.Len() - 1`, the name of `s`, and `MaybeGet(m)` unchanged for
every `m != n`. -/
theorem delete_spec {V : Type} (s : Struct V) (n : GoString) (hwf : s.WF) (hs : s.Sorted) :
    (n ∉ s.fieldNames → s.Delete n = some s) ∧
    (n ∈ s.fieldNames → ∃ s', s.Delete n = some s' ∧ n ∉ s'.fieldNames ∧
      s'.MaybeGet n = some (none, false) ∧ s'.Len = s.Len - 1 ∧ s'.Len + 1 = s.Len ∧ s'.Name = s.Name ∧
      ∀ m, m ≠ n → s'.MaybeGet m = s.MaybeGet m) := by
  constructor
  · intro hnot
    have hf : hasField n s.fields = false := by
      cases hc : hasField n s.fields with
      | false => rfl
      | true => exact absurd ((hasField_iff hs).1 hc) hnot
    rw [Struct.Delete_eq s n hwf, hf]
    rfl
  · intro hmem
    have hf : hasField n s.fields = true := (hasField_iff hs).2 hmem
    have hwf' := wf_delete s n hwf hf
    have hs' : Struct.Sorted (⟨s.name, s.count - 1,
        lowerFields n s.fields ++ upperFields n s.fields⟩ : Struct V) := ascending_delete n hs
    have hD : s.Delete n = some ⟨s.name, s.count - 1,
        lowerFields n s.fields ++ upperFields n s.fields⟩ := by
      rw [Struct.Delete_eq s n hwf, hf]
      rfl
    refine ⟨_, hD, ?_, ?_, rfl, ?_, rfl, ?_⟩
    · intro hin
      obtain ⟨f, -, hfn, hl⟩ := lookupField_of_mem hin
      rw [lookupField_delete_same n hs] at hl
      simp at hl
    · rw [Struct.MaybeGet_eq _ n hwf' hs']
      exact congrArg some (lookupField_delete_same n hs)
    · have hl := length_fields n s.fields
      simp only [hf, if_true] at hl
      unfold Struct.WF at hwf
      simp only [Struct.Len]
      omega
    · intro m hm
      rw [Struct.MaybeGet_eq _ m hwf' hs', Struct.MaybeGet_eq _ m hwf hs]
      exact congrArg some (lookupField_delete_other s.fields hm)

/-! ### Instances of C1 – C4 at concrete structs -/

theorem struct_field_order_invariant_witness :
    Reachable (⟨lit "U", 2, [(lit "b", 2), (lit "c", 3)]⟩ : Struct Nat) ∧
      ((∀ n ∈ (⟨lit "U", 2, [(lit "b", 2), (lit "c", 3)]⟩ : Struct Nat).fieldNames,
          IsValidStructFieldName n = true) ∧
        Ascending (⟨lit "U", 2, [(lit "b", 2), (lit "c", 3)]⟩ : Struct Nat).fieldNames ∧
        (⟨lit "U", 2, [(lit "b", 2), (lit "c", 3)]⟩ : Struct Nat).fieldNames.Nodup) :=
  have h : Reachable (⟨lit "U", 2, [(lit "b", 2), (lit "c", 3)]⟩ : Struct Nat) :=
    Reachable.setName ⟨lit "T", 2, [(lit "b", 2), (lit "c", 3)]⟩ (lit "U") _
      (Reachable.delete ⟨lit "T", 3, [(lit "a", 1), (lit "b", 2), (lit "c", 3)]⟩ (lit "a") _
        (Reachable.set ⟨lit "T", 2, [(lit "a", 1), (lit "b", 2)]⟩ (lit "c") 3 _
          (Reachable.ofNewStruct (lit "T") exampleData _ (by decide))
          (by decide))
        (by decide))
      (by decide)
  ⟨h, struct_field_order_invariant _ h⟩

theorem newStruct_name_len_maybeGet_witness :
    (lit "T" = [] ∨ IsValidStructFieldName (lit "T") = true) ∧
      (∀ k ∈ exampleData.entries.map Prod.fst, IsValidStructFieldName k = true) ∧
      ∃ s, NewStruct (lit "T") exampleData = some s ∧ s.Name = lit "T" ∧
        s.Len = exampleData.len ∧
        (∀ k v, (k, v) ∈ exampleData.entries → s.MaybeGet k = some (some v, true)) ∧
        (∀ k, k ∉ exampleData.entries.map Prod.fst → s.MaybeGet k = some (none, false)) :=
  ⟨Or.inr (by decide), by decide,
    newStruct_name_len_maybeGet (lit "T") exampleData (Or.inr (by decide)) (by decide)⟩

theorem set_maybeGet_frame_witness :
    exampleStruct.WF ∧ exampleStruct.Sorted ∧ IsValidStructFieldName (lit "ab") = true ∧
      ∃ s', exampleStruct.Set (lit "ab") 7 = some s' ∧
        s'.MaybeGet (lit "ab") = some (some 7, true) ∧
        (∀ m, m ≠ lit "ab" → s'.MaybeGet m = exampleStruct.MaybeGet m) ∧
        s'.Name = exampleStruct.Name ∧
        s'.Len = if lit "ab" ∈ exampleStruct.fieldNames then exampleStruct.Len
          else exampleStruct.Len + 1 :=
  ⟨by decide, by decide, by decide,
    set_maybeGet_frame exampleStruct (lit "ab") 7 (by decide) (by decide) (by decide)⟩

theorem delete_spec_witness :
    exampleStruct.WF ∧ exampleStruct.Sorted ∧
      ((lit "b" ∉ exampleStruct.fieldNames → exampleStruct.Delete (lit "b") = some exampleStruct) ∧
      (lit "b" ∈ exampleStruct.fieldNames → ∃ s', exampleStruct.Delete (lit "b") = some s' ∧
        lit "b" ∉ s'.fieldNames ∧ s'.MaybeGet (lit "b") = some (none, false) ∧
        s'.Len = exampleStruct.Len - 1 ∧ s'.Len + 1 = exampleStruct.Len ∧
        s'.Name = exampleStruct.Name ∧
        ∀ m, m ≠ lit "b" → s'.MaybeGet m = exampleStruct.MaybeGet m)) :=
  ⟨by decide, by decide, delete_spec exampleStruct (lit "b") (by decide) (by decide)⟩

/-! ### Field names -/

theorem decodeRune_ascii {b : Nat} (rest : GoString) (h : b < 0x80) :
    decodeRune (b :: rest) = (b, 1) := by
  simp [decodeRune, h]

theorem decodeRune_high {b : Nat} (rest : GoString) (h : ¬ b < 0x80) :
    0x80 ≤ (decodeRune (b :: rest)).1 ∧ 1 ≤ (decodeRune (b :: rest)).2 := by
  unfold decodeRune
  simp only [h, if_false, RuneError, isCont]
  constructor
  all_goals
    split_ifs <;> (try split) <;> (try split_ifs) <;>
      simp only [Bool.and_eq_true, decide_eq_true_eq] at * <;> omega

theorem isAlpha_high {c : Nat} (h : 0x80 ≤ c) : isAlpha c = false := by
  simp only [isAlpha, ge_iff_le, Bool.or_eq_false_iff, Bool.and_eq_false_imp, decide_eq_true_eq,
    decide_eq_false_iff_not, not_le]
  omega

theorem isAlphaNumOrUnderscore_high {c : Nat} (h : 0x80 ≤ c) :
    isAlphaNumOrUnderscore c = false := by
  simp only [isAlphaNumOrUnderscore, ge_iff_le, Bool.or_eq_false_iff, Bool.and_eq_false_imp,
    decide_eq_true_eq, decide_eq_false_iff_not, not_le]
  omega

theorem validLoop_tail (fuel i : Nat) (s : GoString) (hi : 0 < i) (hf : s.length ≤ fuel) :
    validLoop (rangeRunes fuel i s) = s.all tailFieldNameClass := by
  induction fuel generalizing i s with
  | zero =>
    have : s = [] := List.length_eq_zero.1 (Nat.le_zero.1 hf)
    subst this
    rfl
  | succ fuel ih =>
    cases s with
    | nil => rfl
    | cons b rest =>
      have hi0 : i ≠ 0 := Nat.pos_iff_ne_zero.1 hi
      simp only [rangeRunes, validLoop, hi0, if_false, List.all_cons]
      by_cases hb : b < 0x80
      · rw [decodeRune_ascii rest hb]
        simp only [List.drop_succ_cons, List.drop_zero]
        have hlen : rest.length ≤ fuel := by simpa using hf
        rw [ih (i + 1) rest (Nat.succ_pos _) hlen]
        have : isAlphaNumOrUnderscore b = tailFieldNameClass b := by
          simp [isAlphaNumOrUnderscore, tailFieldNameClass]
        rw [this]
        cases tailFieldNameClass b <;> simp
      · have hr := (decodeRune_high rest hb).1
        rw [isAlphaNumOrUnderscore_high hr]
        have : tailFieldNameClass b = false := by
          have := isAlphaNumOrUnderscore_high (Nat.le_of_not_lt hb)
          simpa [isAlphaNumOrUnderscore, tailFieldNameClass] using this
        simp [this]

theorem isValid_eq_match (name : GoString) :
    IsValidStructFieldName name = fieldNameReMatch name := by
  cases name with
  | nil => rfl
  | cons b rest =>
    simp only [IsValidStructFieldName, List.length_cons, rangeRunes, validLoop, if_true,
      fieldNameReMatch]
    by_cases hb : b < 0x80
    · rw [decodeRune_ascii rest hb]
      simp only [List.drop_succ_cons, List.drop_zero, Nat.zero_add]
      rw [validLoop_tail rest.length 1 rest Nat.one_pos (Nat.le_refl _)]
      have : isAlpha b = headFieldNameClass b := by simp [isAlpha, headFieldNameClass]
      rw [this]
      cases headFieldNameClass b <;> cases rest.all tailFieldNameClass <;> simp
    · have hr := (decodeRune_high rest hb).1
      rw [isAlpha_high hr]
      have : headFieldNameClass b = false := by
        have := isAlpha_high (Nat.le_of_not_lt hb)
        simpa [isAlpha, headFieldNameClass] using this
      simp [this]

theorem tailFieldNameClass_iff (b : Nat) :
    tailFieldNameClass b = true ↔
      ((0x61 ≤ b ∧ b ≤ 0x7A) ∨ (0x41 ≤ b ∧ b ≤ 0x5A)) ∨ (0x30 ≤ b ∧ b ≤ 0x39) ∨ b = 0x5F := by
  simp only [tailFieldNameClass, Bool.or_eq_true, Bool.and_eq_true, decide_eq_true_eq]
  tauto

theorem headFieldNameClass_iff (b : Nat) :
    headFieldNameClass b = true ↔ (0x61 ≤ b ∧ b ≤ 0x7A) ∨ (0x41 ≤ b ∧ b ≤ 0x5A) := by
  simp only [headFieldNameClass, Bool.or_eq_true, Bool.and_eq_true, decide_eq_true_eq]

theorem fieldNameReMatch_iff (name : GoString) :
    fieldNameReMatch name = true ↔
      ∃ c rest, name = c :: rest ∧ ((0x61 ≤ c ∧ c ≤ 0x7A) ∨ (0x41 ≤ c ∧ c ≤ 0x5A)) ∧
        ∀ b ∈ rest, ((0x61 ≤ b ∧ b ≤ 0x7A) ∨ (0x41 ≤ b ∧ b ≤ 0x5A)) ∨
          (0x30 ≤ b ∧ b ≤ 0x39) ∨ b = 0x5F := by
  cases name with
  | nil => simp [fieldNameReMatch]
  | cons c rest =>
    simp only [fieldNameReMatch, Bool.and_eq_true, List.all_eq_true, headFieldNameClass_iff,
      tailFieldNameClass_iff, List.cons.injEq]
    constructor
    · intro h
      exact ⟨c, rest, ⟨rfl, rfl⟩, h.1, h.2⟩
    · rintro ⟨c', rest', ⟨rfl, rfl⟩, h1, h2⟩
      exact ⟨h1, h2⟩

/-- C5. `IsValidStructFieldName(name)` is true exactly when `name` matches
`^[A-Za-z][A-Za-z0-9_]*$`: it is non-empty, its first character is an ASCII
letter and every later character is an ASCII letter, digit or underscore.  It
agrees with `fieldNameRe` on every string, and it rejects `_name`,
`99problems`, `one-hundred-bottles`, `key:` and every name with a non-ASCII
byte. -/
theorem isValidStructFieldName_iff_regex :
    (∀ name : GoString, IsValidStructFieldName name = true ↔
      ∃ c rest, name = c :: rest ∧ ((0x61 ≤ c ∧ c ≤ 0x7A) ∨ (0x41 ≤ c ∧ c ≤ 0x5A)) ∧
        ∀ b ∈ rest, ((0x61 ≤ b ∧ b ≤ 0x7A) ∨ (0x41 ≤ b ∧ b ≤ 0x5A)) ∨
          (0x30 ≤ b ∧ b ≤ 0x39) ∨ b = 0x5F) ∧
    (∀ name : GoString, IsValidStructFieldName name = fieldNameReMatch name) ∧
    IsValidStructFieldName (lit "_name") = false ∧
    IsValidStructFieldName (lit "99problems") = false ∧
    IsValidStructFieldName (lit "one-hundred-bottles") = false ∧
    IsValidStructFieldName (lit "key:") = false ∧
    (∀ name : GoString, (∃ b ∈ name, 0x80 ≤ b) → IsValidStructFieldName name = false) := by
  refine ⟨fun name => ?_, isValid_eq_match, by decide, by decide, by decide, by decide, ?_⟩
  · rw [isValid_eq_match, fieldNameReMatch_iff]
  · rintro name ⟨b, hb, hge⟩
    cases hv : IsValidStructFieldName name with
    | false => rfl
    | true =>
      rw [isValid_eq_match, fieldNameReMatch_iff] at hv
      obtain ⟨c, rest, rfl, hc, hrest⟩ := hv
      rcases List.mem_cons.1 hb with rfl | hb
      · omega
      · have := hrest b hb
        omega

/-! ### Parsing the strings of the grammar -/

theorem startsPart_cases {rest : GoString} (h : startsPart rest = true) :
    rest = [] ∨ ∃ c r, rest = c :: r ∧ (c = 0x2E ∨ c = 0x5B ∨ c = 0x40) := by
  cases rest with
  | nil => exact Or.inl rfl
  | cons c r =>
    right
    refine ⟨c, r, rfl, ?_⟩
    simpa [startsPart, or_assoc] using h

theorem takeWhile_append_stop {p : Nat → Bool} (l rest : GoString) (hl : ∀ a ∈ l, p a = true)
    (hr : ∀ c r, rest = c :: r → p c = false) : (l ++ rest).takeWhile p = l := by
  rw [List.takeWhile_append_of_pos hl]
  cases rest with
  | nil => simp
  | cons c r => simp [hr c r rfl]

theorem dropWhile_append_stop {p : Nat → Bool} (l rest : GoString) (hl : ∀ a ∈ l, p a = true)
    (hr : ∀ c r, rest = c :: r → p c = false) : (l ++ rest).dropWhile p = rest := by
  rw [List.dropWhile_append_of_pos hl]
  cases rest with
  | nil => simp
  | cons c r => simp [hr c r rfl]

theorem fieldNameComponentFindIndex_append (n rest : GoString)
    (hn : fieldNameReMatch n = true) (hr : startsPart rest = true) :
    fieldNameComponentFindIndex (n ++ rest) = some (0, n.length) := by
  cases n with
  | nil => simp [fieldNameReMatch] at hn
  | cons c n' =>
    simp only [fieldNameReMatch, Bool.and_eq_true, List.all_eq_true] at hn
    have hstop : ∀ c r, rest = c :: r → tailFieldNameClass c = false := by
      intro c r hrest
      subst hrest
      simp only [startsPart, Bool.or_eq_true, decide_eq_true_eq] at hr
      rcases hr with (rfl | rfl) | rfl <;> decide
    simp only [List.cons_append, fieldNameComponentFindIndex, hn.1, if_true,
      takeWhile_append_stop n' rest hn.2 hstop, List.length_cons]
    rw [Nat.add_comm]


theorem parseQuoted_escape (s buf rest : GoString) :
    parseQuoted (escapeString s ++ 0x22 :: rest) buf = .ok (buf ++ s, rest) := by
  induction s generalizing buf with
  | nil =>
    cases rest with
    | nil => simp [escapeString, parseQuoted]
    | cons c2 r => simp [escapeString, parseQuoted]
  | cons c s' ih =>
    by_cases hc : c = 0x22 ∨ c = 0x5C
    · simp only [escapeString, hc, if_true, List.cons_append, parseQuoted]
      rcases hc with rfl | rfl
      · simp [ih]
      · simp [ih]
    · simp only [escapeString, hc, if_false, List.cons_append]
      have hne : ∃ c2 r, escapeString s' ++ 0x22 :: rest = c2 :: r := by
        cases h : escapeString s' ++ 0x22 :: rest with
        | nil => simp at h
        | cons c2 r => exact ⟨c2, r, rfl⟩
      obtain ⟨c2, r, hcr⟩ := hne
      have ih' := ih (buf ++ [c])
      rw [hcr] at ih' ⊢
      simp only [not_or] at hc
      simp only [parseQuoted, hc.1, hc.2, if_false, ih']
      simp

theorem splitAtBracket_append (t rest : GoString) (ht : 0x5D ∉ t) :
    splitAtBracket (t ++ 0x5D :: rest) = some (t, 0x5D :: rest) := by
  have hl : ∀ a ∈ t, (decide (a ≠ 0x5D)) = true := by
    intro a ha
    simp only [ne_eq, decide_not, Bool.not_eq_eq_eq_not, Bool.not_true, decide_eq_false_iff_not]
    intro h
    exact ht (h ▸ ha)
  have hr : ∀ c r, (0x5D :: rest : GoString) = c :: r → (decide (c ≠ 0x5D)) = false := by
    intro c r h
    simp only [List.cons.injEq] at h
    simp [← h.1]
  simp only [splitAtBracket, List.mem_append, List.mem_cons, true_or, or_true, if_true]
  rw [takeWhile_append_stop t _ hl hr, dropWhile_append_stop t _ hl hr]

theorem base32Value_mem {acc v : Nat} {s : GoString} (h : base32Value acc s = some v) :
    ∀ c ∈ s, c ≠ 0x5D := by
  induction s generalizing acc with
  | nil => simp
  | cons b rest ih =>
    simp only [base32Value] at h
    cases hd : base32Digit b with
    | none => simp [hd] at h
    | some d =>
      simp only [hd] at h
      intro c hc
      rcases List.mem_cons.1 hc with rfl | hc
      · intro hb
        subst hb
        simp [base32Digit] at hd
      · exact ih h c hc

theorem hashMaybeParse_no_bracket {t : GoString} {h : Hash} (ht : hashMaybeParse t = some h) :
    0x5D ∉ t := by
  unfold hashMaybeParse at ht
  split_ifs at ht
  exact fun hm => base32Value_mem ht _ hm rfl

theorem parsePathIndex_render (fl : Floats) (iv : IndexValue) (rest : GoString)
    (hwf : iv.wf fl = true) :
    ∃ r, ParsePathIndex fl (iv.render ++ 0x5D :: rest) = .ok r ∧ r.rem = 0x5D :: rest ∧
      ((∃ idx, r.idx = some idx ∧ r.h = emptyHash ∧ ValueCanBePathIndex idx = true ∧
          ∀ key, iv.denote fl key = .IndexPath idx key) ∨
       (r.idx = none ∧ r.h.IsEmpty = false ∧ ∀ key, iv.denote fl key = .HashIndexPath r.h key)) := by
  cases iv with
  | number text =>
    cases text with
    | nil => simp [IndexValue.wf] at hwf
    | cons c t =>
      simp only [IndexValue.wf, ne_eq, decide_not, Bool.and_eq_true, Bool.not_eq_eq_eq_not,
        Bool.not_true, decide_eq_false_iff_not, List.contains_eq_any_beq, List.any_eq_false,
        beq_iff_eq, Option.isSome_iff_exists] at hwf
      obtain ⟨⟨⟨⟨⟨h1, h2⟩, h3⟩, h4⟩, h5⟩, q, hq⟩ := hwf
      have hno : (0x5D : Nat) ∉ c :: t := fun hm => h3 _ hm rfl
      have hsplit := splitAtBracket_append (c :: t) rest hno
      refine ⟨⟨some (.number q), emptyHash, 0x5D :: rest⟩, ?_, rfl, Or.inl ⟨_, rfl, rfl, rfl, ?_⟩⟩
      · simp only [IndexValue.render, ParsePathIndex, List.cons_append] at hsplit ⊢
        simp [h1, h2, hsplit, h4, h5, hq, parsePlainIndex]
      · intro key
        simp [IndexValue.denote, hq]
  | string s =>
    refine ⟨⟨some (.string s), emptyHash, 0x5D :: rest⟩, ?_, rfl, Or.inl ⟨_, rfl, rfl, rfl, ?_⟩⟩
    · have := parseQuoted_escape s [] (0x5D :: rest)
      simp only [IndexValue.render, ParsePathIndex, List.cons_append, List.append_assoc,
        List.singleton_append, List.nil_append, if_true]
      rw [this]
      rfl
    · intro key
      rfl
  | bool b =>
    refine ⟨⟨some (.bool b), emptyHash, 0x5D :: rest⟩, ?_, rfl, Or.inl ⟨_, rfl, rfl, rfl, ?_⟩⟩
    · cases b
      · have hsplit := splitAtBracket_append (lit "false") rest (by decide)
        have e : lit "false" = [0x66, 0x61, 0x6C, 0x73, 0x65] := by decide
        rw [e] at hsplit
        simp only [IndexValue.render, e, ParsePathIndex, List.cons_append, List.nil_append] at hsplit ⊢
        simp [hsplit, lit, utf8Encode, parsePlainIndex]
      · have hsplit := splitAtBracket_append (lit "true") rest (by decide)
        have e : lit "true" = [0x74, 0x72, 0x75, 0x65] := by decide
        rw [e] at hsplit
        simp only [IndexValue.render, e, ParsePathIndex, List.cons_append, List.nil_append] at hsplit ⊢
        simp [hsplit, parsePlainIndex, e]
    · intro key
      rfl
  | hash text =>
    simp only [IndexValue.wf] at hwf
    cases hp : hashMaybeParse text with
    | none => simp [hp] at hwf
    | some h =>
      simp only [hp, Bool.not_eq_eq_eq_not, Bool.not_true] at hwf
      have hno : (0x5D : Nat) ∉ (0x23 :: text : GoString) := by
        intro hm
        rcases List.mem_cons.1 hm with h0 | hm
        · exact absurd h0 (by decide)
        · exact hashMaybeParse_no_bracket hp hm
      have hsplit := splitAtBracket_append (0x23 :: text) rest hno
      refine ⟨⟨none, h, 0x5D :: rest⟩, ?_, rfl, Or.inr ⟨rfl, hwf, ?_⟩⟩
      · simp only [IndexValue.render, ParsePathIndex, List.cons_append] at hsplit ⊢
        simp [hsplit, hp, hwf, parsePlainIndex]
      · intro key
        simp [IndexValue.denote, hp]

theorem constructPath_index (fl : Floats) (iv : IndexValue) (fuel : Nat) (p : Path)
    (rest : GoString) (hwf : iv.wf fl = true) :
    constructPath fl (fuel + 1) p (0x5B :: (iv.render ++ 0x5D :: rest))
      = constructPath fl fuel (p ++ [iv.denote fl false]) rest := by
  obtain ⟨r, hr, hrem, hcase⟩ := parsePathIndex_render fl iv rest hwf
  have hlen : ¬ (iv.render ++ 0x5D :: rest).length = 0 := by simp
  rw [constructPath]
  simp only [show (0x5B : Nat) ≠ 0x2E by decide, if_false, if_true, hlen, hr, hrem, ne_eq,
    not_true_eq_false]
  rcases hcase with ⟨idx, hidx, hh, hcan, hden⟩ | ⟨hidx, hh, hden⟩
  · simp [hidx, hh, Hash.IsEmpty, NewIndexPath, newIndexPath, hcan, hden false]
  · simp [hidx, hh, NewHashIndexPath, newHashIndexPath, hden false]


/-- After an annotation name: the end of the text, or a character that is
neither a lower-case letter nor `(`. -/
theorem getAnnotation_name (name rest : GoString) (hne : name ≠ [])
    (hname : ∀ a ∈ name, annotationNameClass a = true)
    (hrest : ∀ c r, rest = c :: r → annotationNameClass c = false ∧ c ≠ 0x28) :
    getAnnotation (name ++ rest) = (name, false, [], rest) := by
  have ht := takeWhile_append_stop name rest hname (fun c r h => (hrest c r h).1)
  have hd := dropWhile_append_stop name rest hname (fun c r h => (hrest c r h).1)
  simp only [ getAnnotation, ht, hd, hne, if_false]
  cases rest with
  | nil => rfl
  | cons c r => simp [(hrest c r rfl).2]

theorem getAnnotation_arg (name arg rest : GoString) (hne : name ≠ [])
    (hname : ∀ a ∈ name, annotationNameClass a = true)
    (harg : ∀ a ∈ arg, annotationArgClass a = true) :
    getAnnotation (name ++ 0x28 :: (arg ++ 0x29 :: rest)) = (name, true, arg, rest) := by
  have hstop : ∀ c r, (0x28 :: (arg ++ 0x29 :: rest) : GoString) = c :: r →
      annotationNameClass c = false := by
    intro c r h
    simp only [List.cons.injEq] at h
    rw [← h.1]
    decide
  have hstop2 : ∀ c r, (0x29 :: rest : GoString) = c :: r → annotationArgClass c = false := by
    intro c r h
    simp only [List.cons.injEq] at h
    rw [← h.1]
    decide
  have ht := takeWhile_append_stop name _ hname hstop
  have hd := dropWhile_append_stop name _ hname hstop
  simp only [ getAnnotation, ht, hd, hne, if_false, if_true,
    takeWhile_append_stop arg _ harg hstop2, dropWhile_append_stop arg _ harg hstop2]

theorem startsPart_stop {rest : GoString} (h : startsPart rest = true) :
    ∀ c r, rest = c :: r → annotationNameClass c = false ∧ c ≠ 0x28 := by
  intro c r hrest
  subst hrest
  simp only [startsPart, Bool.or_eq_true, decide_eq_true_eq] at h
  rcases h with (rfl | rfl) | rfl <;> decide

theorem constructPath_key (fl : Floats) (fuel : Nat) (p : Path) (part ki : PathPart)
    (rest : GoString) (hki : setIntoKey part true = some ki)
    (hrest : ∀ c r, rest = c :: r → annotationNameClass c = false ∧ c ≠ 0x28) :
    constructPath fl (fuel + 1) (p ++ [part]) (lit "@key" ++ rest)
      = constructPath fl fuel (p ++ [ki]) rest := by
  have e : lit "@key" ++ rest = 0x40 :: (lit "key" ++ rest) := by
    simp [lit, utf8Encode]
  have hann := getAnnotation_name (lit "key") rest (by decide) (by decide) hrest
  rw [e, constructPath]
  simp only [show (0x40 : Nat) ≠ 0x2E by decide, show (0x40 : Nat) ≠ 0x5B by decide, if_false,
    if_true, hann, show lit "key" ≠ lit "at" by decide, List.getLast?_concat, hki,
    List.dropLast_concat]
  simp

theorem setIntoKey_denote (fl : Floats) (iv : IndexValue) :
    setIntoKey (iv.denote fl false) true = some (iv.denote fl true) := by
  cases iv with
  | number text => simp only [IndexValue.denote]; cases fl.parseFloat text <;> rfl
  | string s => rfl
  | bool b => rfl
  | hash text => simp only [IndexValue.denote]; cases hashMaybeParse text <;> rfl

theorem isDecimalInt_argClass {t : GoString} (h : isDecimalInt t = true) :
    t ≠ [] ∧ ∀ a ∈ t, annotationArgClass a = true := by
  have hdigit : ∀ b : Nat, (decide (0x30 ≤ b) && decide (b ≤ 0x39)) = true →
      annotationArgClass b = true := by
    intro b hb
    simp only [annotationArgClass, hb, Bool.true_or]
  cases t with
  | nil => simp [isDecimalInt] at h
  | cons c rest =>
    refine ⟨by simp, ?_⟩
    simp only [isDecimalInt] at h
    split_ifs at h with hc
    · simp only [ne_eq, decide_not, Bool.and_eq_true, Bool.not_eq_eq_eq_not, Bool.not_true,
        decide_eq_false_iff_not, List.all_eq_true] at h
      intro a ha
      rcases List.mem_cons.1 ha with rfl | ha
      · subst hc; decide
      · exact hdigit a (by simpa using h.2 a ha)
    · simp only [List.all_eq_true] at h
      intro a ha
      exact hdigit a (h a ha)

theorem render_ne_nil (part : PathSyntax) : ∃ c r, part.render = c :: r ∧
    (c = 0x2E ∨ c = 0x5B ∨ c = 0x40) := by
  cases part with
  | field n => exact ⟨_, _, rfl, Or.inl rfl⟩
  | index iv key => exact ⟨_, _, rfl, Or.inr (Or.inl rfl)⟩
  | typeAnn => exact ⟨0x40, lit "type", by decide, Or.inr (Or.inr rfl)⟩
  | targetAnn => exact ⟨0x40, lit "target", by decide, Or.inr (Or.inr rfl)⟩
  | atAnn int key =>
    refine ⟨0x40, lit "at(" ++ (int ++ 0x29 :: keySuffix key), ?_, Or.inr (Or.inr rfl)⟩
    simp [PathSyntax.render, lit, utf8Encode]

theorem startsPart_renderPath (parts : List PathSyntax) : startsPart (renderPath parts) = true := by
  cases parts with
  | nil => rfl
  | cons part rest =>
    obtain ⟨c, r, hc, h⟩ := render_ne_nil part
    simp only [renderPath, hc, List.cons_append, startsPart, Bool.or_eq_true, decide_eq_true_eq]
    tauto

/-- One part of the grammar is parsed into the part it stands for; `fuel`
exceeds the length of the text. -/
theorem constructPath_part (fl : Floats) (part : PathSyntax) (rest : GoString)
    (hwf : part.wf fl = true) (hr : startsPart rest = true)
    (K : Path → Except PathError Path)
    (ih : ∀ (p : Path) (fuel : Nat), rest.length < fuel → constructPath fl fuel p rest = K p)
    (p : Path) (fuel : Nat) (hfuel : (part.render ++ rest).length < fuel) :
    constructPath fl fuel p (part.render ++ rest) = K (p ++ [part.denote fl]) := by
  cases part with
  | field n =>
    obtain ⟨f, rfl⟩ : ∃ f, fuel = f + 1 := ⟨fuel - 1, by omega⟩
    simp only [PathSyntax.wf] at hwf
    simp only [PathSyntax.render, List.cons_append, List.length_cons, List.length_append] at hfuel ⊢
    rw [constructPath]
    simp only [if_true, fieldNameComponentFindIndex_append n rest hwf hr, List.take_left',
      List.drop_left']
    rw [ih _ f (by omega)]
    rfl
  | index iv key =>
    obtain ⟨f, rfl⟩ : ∃ f, fuel = f + 1 := ⟨fuel - 1, by omega⟩
    simp only [PathSyntax.wf] at hwf
    simp only [PathSyntax.render, List.cons_append, List.length_cons, List.length_append,
      List.append_assoc] at hfuel ⊢
    rw [constructPath_index fl iv f p _ hwf]
    cases key with
    | false =>
      simp only [keySuffix, Bool.false_eq_true, if_false, List.nil_append, List.length_nil] at hfuel ⊢
      rw [ih _ f (by omega)]
      rfl
    | true =>
      have hk : (lit "@key").length = 4 := by decide
      simp only [keySuffix, if_true, hk] at hfuel ⊢
      obtain ⟨f', rfl⟩ : ∃ f', f = f' + 1 := ⟨f - 1, by omega⟩
      rw [constructPath_key fl f' p _ _ rest (setIntoKey_denote fl iv) (startsPart_stop hr),
        ih _ f' (by omega)]
      rfl
  | typeAnn =>
    obtain ⟨f, rfl⟩ : ∃ f, fuel = f + 1 := ⟨fuel - 1, by omega⟩
    have e : PathSyntax.typeAnn.render ++ rest = 0x40 :: (lit "type" ++ rest) := by
      simp [PathSyntax.render, lit, utf8Encode]
    have hann := getAnnotation_name (lit "type") rest (by decide) (by decide) (startsPart_stop hr)
    rw [e] at hfuel ⊢
    simp only [List.length_cons] at hfuel
    rw [constructPath]
    simp only [show (0x40 : Nat) ≠ 0x2E by decide, show (0x40 : Nat) ≠ 0x5B by decide, if_false,
      if_true, hann, show lit "type" ≠ lit "at" by decide, show lit "type" ≠ lit "key" by decide,
      show lit "type" ≠ lit "target" by decide]
    have hl : rest.length < f := by
      simp only [List.length_append] at hfuel
      omega
    simp only [Bool.false_eq_true, if_false]
    rw [ih _ f hl]
    rfl
  | targetAnn =>
    obtain ⟨f, rfl⟩ : ∃ f, fuel = f + 1 := ⟨fuel - 1, by omega⟩
    have e : PathSyntax.targetAnn.render ++ rest = 0x40 :: (lit "target" ++ rest) := by
      simp [PathSyntax.render, lit, utf8Encode]
    have hann := getAnnotation_name (lit "target") rest (by decide) (by decide)
      (startsPart_stop hr)
    rw [e] at hfuel ⊢
    simp only [List.length_cons] at hfuel
    rw [constructPath]
    simp only [show (0x40 : Nat) ≠ 0x2E by decide, show (0x40 : Nat) ≠ 0x5B by decide, if_false,
      if_true, hann, show lit "target" ≠ lit "at" by decide,
      show lit "target" ≠ lit "key" by decide]
    have hl : rest.length < f := by
      simp only [List.length_append] at hfuel
      omega
    simp only [Bool.false_eq_true, if_false]
    rw [ih _ f hl]
    rfl
  | atAnn int key =>
    obtain ⟨f, rfl⟩ : ∃ f, fuel = f + 1 := ⟨fuel - 1, by omega⟩
    simp only [PathSyntax.wf, Bool.and_eq_true, Option.isSome_iff_exists] at hwf
    obtain ⟨hdec, n, hn⟩ := hwf
    obtain ⟨hne, hcls⟩ := isDecimalInt_argClass hdec
    have e : (PathSyntax.atAnn int key).render ++ rest
        = 0x40 :: (lit "at" ++ 0x28 :: (int ++ 0x29 :: (keySuffix key ++ rest))) := by
      simp [PathSyntax.render, lit, utf8Encode]
    have hann := getAnnotation_arg (lit "at") int (keySuffix key ++ rest) (by decide) (by decide)
      hcls
    rw [e] at hfuel ⊢
    simp only [List.length_cons, List.length_append] at hfuel
    rw [constructPath]
    simp only [show (0x40 : Nat) ≠ 0x2E by decide, show (0x40 : Nat) ≠ 0x5B by decide, if_false,
      if_true, hann, hne, hn, NewAtAnnotation, PathSyntax.denote]
    cases key with
    | false =>
      simp only [keySuffix, Bool.false_eq_true, if_false, List.nil_append, List.length_nil] at hfuel ⊢
      rw [ih _ f (by omega)]
    | true =>
      have hk : (lit "@key").length = 4 := by decide
      simp only [keySuffix, if_true, hk] at hfuel ⊢
      obtain ⟨f', rfl⟩ : ∃ f', f = f' + 1 := ⟨f - 1, by omega⟩
      rw [constructPath_key fl f' p _ _ rest (rfl : setIntoKey ( PathPart.AtAnnotation n false) true = _)
        (startsPart_stop hr), ih _ f' (by omega)]

theorem constructPath_renderPath (fl : Floats) (parts : List PathSyntax)
    (hwf : ∀ part ∈ parts, part.wf fl = true) (rest : GoString) (hr : startsPart rest = true)
    (K : Path → Except PathError Path)
    (hK : ∀ (p : Path) (fuel : Nat), rest.length < fuel → constructPath fl fuel p rest = K p)
    (p : Path) (fuel : Nat) (hfuel : (renderPath parts ++ rest).length < fuel) :
    constructPath fl fuel p (renderPath parts ++ rest)
      = K (p ++ parts.map (PathSyntax.denote fl)) := by
  induction parts generalizing p fuel with
  | nil => simpa [renderPath] using hK p fuel (by simpa [renderPath] using hfuel)
  | cons part parts ih =>
    have hparts : ∀ part ∈ parts, part.wf fl = true :=
      fun x hx => hwf x (List.mem_cons_of_mem _ hx)
    have hstart : startsPart (renderPath parts ++ rest) = true := by
      cases parts with
      | nil => simpa [renderPath] using hr
      | cons part' parts' =>
        obtain ⟨c, r, hc, h⟩ := render_ne_nil part'
        simp only [renderPath, hc, List.cons_append, startsPart, Bool.or_eq_true,
          decide_eq_true_eq]
        tauto
    have := constructPath_part fl part (renderPath parts ++ rest)
      (hwf part (List.mem_cons_self _ _)) hstart
      (fun p => K (p ++ parts.map (PathSyntax.denote fl)))
      (fun p fuel h => ih hparts p fuel h) p fuel
      (by simpa [renderPath, List.append_assoc] using hfuel)
    simpa [renderPath, List.append_assoc] using this

theorem constructPath_nil (fl : Floats) (p : Path) (fuel : Nat)
    (h : ([] : GoString).length < fuel) : constructPath fl fuel p [] = .ok p := by
  obtain ⟨f, rfl⟩ : ∃ f, fuel = f + 1 := ⟨fuel - 1, by simp at h; omega⟩
  rfl

theorem renderPath_append (a b : List PathSyntax) :
    renderPath (a ++ b) = renderPath a ++ renderPath b := by
  induction a with
  | nil => rfl
  | cons x a ih => simp [renderPath, ih]

theorem renderPath_ne_nil {parts : List PathSyntax} (h : parts ≠ []) : renderPath parts ≠ [] := by
  cases parts with
  | nil => exact absurd rfl h
  | cons part rest =>
    obtain ⟨c, r, hc, -⟩ := render_ne_nil part
    simp [renderPath, hc]

/-- The parse of a generated text, for any recursion budget above its
length. -/
theorem constructPath_generated (fl : Floats) (parts : List PathSyntax)
    (hwf : ∀ part ∈ parts, part.wf fl = true) (p : Path) (fuel : Nat)
    (hfuel : (renderPath parts).length < fuel) :
    constructPath fl fuel p (renderPath parts) = .ok (p ++ parts.map (PathSyntax.denote fl)) := by
  have := constructPath_renderPath fl parts hwf [] rfl (fun p => .ok p)
    (fun p fuel h => constructPath_nil fl p fuel h) p fuel (by simpa using hfuel)
  simpa using this

/-- The `"key"` case of `constructPath`. -/
theorem constructPath_atKey (fl : Floats) (fuel : Nat) (p : Path) (rem : GoString)
    (hrem : ∀ c r, rem = c :: r → annotationNameClass c = false ∧ c ≠ 0x28) :
    constructPath fl (fuel + 1) p (lit "@key" ++ rem) =
      match p.getLast? with
      | none => .error .keyAtBeginning
      | some lastPart =>
        match setIntoKey lastPart true with
        | some ki => constructPath fl fuel (p.dropLast ++ [ki]) rem
        | none => .error (.keyOnPart lastPart) := by
  have e : lit "@key" ++ rem = 0x40 :: (lit "key" ++ rem) := by
    simp [lit, utf8Encode]
  have hann := getAnnotation_name (lit "key") rem (by decide) (by decide) hrem
  rw [e, constructPath]
  simp only [show (0x40 : Nat) ≠ 0x2E by decide, show (0x40 : Nat) ≠ 0x5B by decide, if_false,
    if_true, hann, show lit "key" ≠ lit "at" by decide, Bool.false_eq_true]

/-! ### The recursion budget of `constructPath` is enough -/

theorem parseQuoted_spec : ∀ (n : Nat) (s buf : GoString), s.length ≤ n →
    (∀ e, parseQuoted s buf = .error e → e = .badEscape) ∧
    (∀ x rem, parseQuoted s buf = .ok (x, rem) → rem.length ≤ s.length)
  | 0, s, buf, hs => by
    have : s = [] := List.length_eq_zero.1 (Nat.le_zero.1 hs)
    subst this
    simp [parseQuoted]
  | n + 1, [], buf, _ => by simp [parseQuoted]
  | n + 1, [c], buf, _ => by
    simp only [parseQuoted]
    split_ifs <;> simp
  | n + 1, c :: c2 :: rest, buf, hs => by
    simp only [List.length_cons] at hs
    have ih1 := parseQuoted_spec n rest (buf ++ [c2]) (by omega)
    have ih2 := parseQuoted_spec n (c2 :: rest) (buf ++ [c]) (by simp only [List.length_cons]; omega)
    simp only [parseQuoted]
    split_ifs
    · simp
    · simp
    · refine ⟨ih1.1, fun x rem h => ?_⟩
      have := ih1.2 x rem h
      simp only [List.length_cons]
      omega
    · refine ⟨ih2.1, fun x rem h => ?_⟩
      have := ih2.2 x rem h
      simp only [List.length_cons] at this ⊢
      omega

theorem parsePlainIndex_spec (fl : Floats) (idxStr rem : GoString) :
    (parsePlainIndex fl idxStr rem ≠ .error .outOfFuel) ∧
    (∀ r, parsePlainIndex fl idxStr rem = .ok r → r.rem = rem) := by
  unfold parsePlainIndex
  split
  · simp
  · split_ifs
    · split
      · simp
      · split_ifs
        · simp
        · constructor
          · simp
          · intro r h
            simp only [Except.ok.injEq] at h
            rw [← h]
    · constructor
      · simp
      · intro r h
        simp only [Except.ok.injEq] at h
        rw [← h]
    · constructor
      · simp
      · intro r h
        simp only [Except.ok.injEq] at h
        rw [← h]
    · split
      · constructor
        · simp
        · intro r h
          simp only [Except.ok.injEq] at h
          rw [← h]
      · simp

theorem parsePathIndex_spec (fl : Floats) (str : GoString) :
    (ParsePathIndex fl str ≠ .error .outOfFuel) ∧
    (∀ r, ParsePathIndex fl str = .ok r → r.rem.length ≤ str.length) := by
  cases str with
  | nil => simp [ParsePathIndex]
  | cons c rest =>
    simp only [ParsePathIndex]
    split_ifs
    · have hq := parseQuoted_spec rest.length rest [] (Nat.le_refl _)
      split
      · rename_i e heq
        have := hq.1 e heq
        subst this
        simp
      · rename_i s rem heq
        have := hq.2 s rem heq
        constructor
        · simp
        · intro r h
          simp only [Except.ok.injEq] at h
          simp only [← h, List.length_cons]
          omega
    · split
      · rename_i idxStr rem heq
        refine ⟨(parsePlainIndex_spec fl idxStr rem).1, fun r h => ?_⟩
        rw [(parsePlainIndex_spec fl idxStr rem).2 r h]
        unfold splitAtBracket at heq
        split_ifs at heq
        simp only [Option.some.injEq, Prod.mk.injEq] at heq
        rw [← heq.2]
        exact (List.dropWhile_sublist _).length_le
      · refine ⟨(parsePlainIndex_spec fl _ []).1, fun r h => ?_⟩
        rw [(parsePlainIndex_spec fl _ []).2 r h]
        simp

theorem getAnnotation_rem_length (str : GoString) :
    ( getAnnotation str).2.2.2.length ≤ str.length := by
  have h1 : (str.dropWhile annotationNameClass).length ≤ str.length :=
    (List.dropWhile_sublist _).length_le
  unfold getAnnotation
  simp only
  generalize str.dropWhile annotationNameClass = rest at h1
  split_ifs
  · simp
  · cases rest with
    | nil => simp
    | cons c r =>
      simp only [List.length_cons] at h1
      have h2 : (r.dropWhile annotationArgClass).length ≤ r.length :=
        (List.dropWhile_sublist _).length_le
      simp only
      generalize r.dropWhile annotationArgClass = rest2 at h2
      split_ifs
      · cases rest2 with
        | nil => simp only [List.length_cons]; omega
        | cons c' rem =>
          simp only [List.length_cons] at h2
          simp only
          split_ifs <;> simp only [List.length_cons] <;> omega
      · simp only [List.length_cons]; omega

/-- With more steps than `str` has characters, `constructPath` never runs out
of its recursion budget: the result is the one of the Go function. -/
theorem constructPath_fuel (fl : Floats) (fuel : Nat) (p : Path) (str : GoString)
    (h : str.length < fuel) : constructPath fl fuel p str ≠ .error .outOfFuel := by
  induction fuel generalizing p str with
  | zero => omega
  | succ f ih =>
    cases str with
    | nil => simp [constructPath]
    | cons op tail =>
      simp only [List.length_cons] at h
      rw [constructPath]
      simp only
      by_cases h1 : op = 0x2E
      · simp only [h1, if_true]
        split
        · simp
        · apply ih
          simp only [List.length_drop]
          omega
      · by_cases h2 : op = 0x5B
        · simp only [h2, show (0x5B : Nat) ≠ 0x2E by decide, if_true, if_false]
          split_ifs
          · simp
          · split
            · rename_i e heq
              intro he
              simp only [Except.error.injEq] at he
              subst he
              exact (parsePathIndex_spec fl tail).1 heq
            · rename_i r heq
              have hlen := (parsePathIndex_spec fl tail).2 r heq
              split
              · simp
              · rename_i c rem1 hrem
                rw [hrem] at hlen
                simp only [List.length_cons] at hlen
                split_ifs
                · simp
                · simp
                · simp
                · split
                  · split
                    · simp
                    · exact ih _ _ (by omega)
                  · split
                    · simp
                    · exact ih _ _ (by omega)
        · by_cases h4 : op = 0x40
          · have hlen := getAnnotation_rem_length tail
            rcases hga : getAnnotation tail with ⟨ann, hasArg, arg, rem⟩
            rw [hga] at hlen
            simp only at hlen
            simp only [h4, show (0x40 : Nat) ≠ 0x2E by decide, show (0x40 : Nat) ≠ 0x5B by decide,
              if_true, if_false]
            split_ifs
            · simp
            · split
              · simp
              · exact ih _ _ (by omega)
            · simp
            · split
              · simp
              · split
                · exact ih _ _ (by omega)
                · simp
            · simp
            · exact ih _ _ (by omega)
            · simp
            · exact ih _ _ (by omega)
            · simp
          · simp only [h1, h2, h4, if_false]
            split_ifs <;> simp

/-- The result of `ParsePath` is never the recursion budget of the embedding. -/
theorem parsePath_fuel (fl : Floats) (str : GoString) :
    ParsePath fl str ≠ .error .outOfFuel := by
  unfold ParsePath
  split_ifs
  · simp
  · exact constructPath_fuel fl _ [] str (Nat.lt_succ_self _)

/-- The result of `ParsePath` on a generated text followed by `@key` and more generated
text. -/
theorem parsePath_key_generated (fl : Floats) (parts more : List PathSyntax)
    (hparts : ∀ part ∈ parts, part.wf fl = true) (hmore : ∀ part ∈ more, part.wf fl = true) :
    ParsePath fl (renderPath parts ++ (lit "@key" ++ renderPath more)) =
      match (parts.map (PathSyntax.denote fl)).getLast? with
      | none => .error .keyAtBeginning
      | some lastPart =>
        match setIntoKey lastPart true with
        | some ki =>
          .ok ((parts.map (PathSyntax.denote fl)).dropLast ++ ki :: more.map (PathSyntax.denote fl))
        | none => .error (.keyOnPart lastPart) := by
  have hne : renderPath parts ++ (lit "@key" ++ renderPath more) ≠ [] := by
    simp [lit, utf8Encode]
  have hstart : startsPart (lit "@key" ++ renderPath more) = true := by
    simp [lit, utf8Encode, startsPart]
  have hK : ∀ (p : Path) (fuel : Nat), (lit "@key" ++ renderPath more).length < fuel →
      constructPath fl fuel p (lit "@key" ++ renderPath more) =
        match p.getLast? with
        | none => .error .keyAtBeginning
        | some lastPart =>
          match setIntoKey lastPart true with
          | some ki => .ok (p.dropLast ++ ki :: more.map (PathSyntax.denote fl))
          | none => .error (.keyOnPart lastPart) := by
    intro p fuel hfuel
    have hk : (lit "@key").length = 4 := by decide
    simp only [List.length_append, hk] at hfuel
    obtain ⟨f, rfl⟩ : ∃ f, fuel = f + 1 := ⟨fuel - 1, by omega⟩
    rw [constructPath_atKey fl f p _ (startsPart_stop (startsPart_renderPath more))]
    cases p.getLast? with
    | none => rfl
    | some lastPart =>
      simp only
      cases setIntoKey lastPart true with
      | none => rfl
      | some ki =>
        simp only
        rw [constructPath_generated fl more hmore _ f (by omega)]
        simp
  unfold ParsePath
  rw [if_neg hne, constructPath_renderPath fl parts hparts _ hstart _ hK [] _ (Nat.lt_succ_self _)]
  simp

/-- C8 (as amended). `ParsePath` accepts every non-empty string generated by
the path grammar whose tokens are: a `fieldName` matching
`[A-Za-z][A-Za-z0-9_]*`; a `number` that `strconv.ParseFloat` accepts; any
quoted string with `"` and `\` escaped; `true`; `false`; a `hash` that is the
text of a non-empty address; an `int` that is a decimal integer of 64 bits.  It
returns the path with one part for each part of the text, and no error. -/
theorem parsePath_accepts_grammar (fl : Floats) (parts : List PathSyntax) (hne : parts ≠ [])
    (hwf : ∀ part ∈ parts, part.wf fl = true) :
    ParsePath fl (renderPath parts) = .ok (parts.map (PathSyntax.denote fl)) := by
  unfold ParsePath
  rw [if_neg (renderPath_ne_nil hne),
    constructPath_generated fl parts hwf [] _ (Nat.lt_succ_self _)]
  simp

/-- C8 fails as stated: the empty string is generated by `path := part*`, the
all-zero address is a `hash` and `9223372036854775808` is an `int`, and
`ParsePath` returns an error for each of the three. -/
theorem parsePath_rejects_generated :
    ParsePath decimalFloats (renderPath []) = .error .emptyPath ∧
    ParsePath decimalFloats
      (renderPath [.index (.hash (lit "00000000000000000000000000000000")) false])
        = .error .invalidHash ∧
    ParsePath decimalFloats (renderPath [.atAnn (lit "9223372036854775808") false])
        = .error .invalidPosition := by
  decide

theorem parsePath_accepts_grammar_witness :
    exampleParts ≠ [] ∧ (∀ part ∈ exampleParts, part.wf decimalFloats = true) ∧
      ParsePath decimalFloats (renderPath exampleParts)
        = .ok (exampleParts.map (PathSyntax.denote decimalFloats)) :=
  ⟨by decide, by decide, parsePath_accepts_grammar decimalFloats _ (by decide) (by decide)⟩

/-- C9. In `constructPath`, an `@key` annotation is accepted exactly when the
part parsed immediately before it is an `IndexPath`, a `HashIndexPath` or an
`AtAnnotation`; that part's `IntoKey` then becomes true and no part is
appended.  At the beginning of a path, or directly after a `FieldPath`, a
`TypeAnnotation` or a `TargetAnnotation`, it is an error; so it is for
`ParsePath` on every text of the grammar followed by `@key`. -/
theorem key_annotation_rule :
    (∀ (fl : Floats) (fuel : Nat) (p : Path) (rem : GoString),
      (∀ c r, rem = c :: r → annotationNameClass c = false ∧ c ≠ 0x28) →
      constructPath fl (fuel + 1) p (lit "@key" ++ rem) =
        match p.getLast? with
        | none => .error .keyAtBeginning
        | some (.IndexPath idx _) => constructPath fl fuel (p.dropLast ++ [.IndexPath idx true]) rem
        | some (.HashIndexPath h _) =>
          constructPath fl fuel (p.dropLast ++ [.HashIndexPath h true]) rem
        | some ( PathPart.AtAnnotation n _) =>
          constructPath fl fuel (p.dropLast ++ [ PathPart.AtAnnotation n true]) rem
        | some lastPart => .error (.keyOnPart lastPart)) ∧
    (∀ (fl : Floats) (parts more : List PathSyntax),
      (∀ part ∈ parts, part.wf fl = true) → (∀ part ∈ more, part.wf fl = true) →
      ParsePath fl (renderPath parts ++ (lit "@key" ++ renderPath more)) =
        match (parts.map (PathSyntax.denote fl)).getLast? with
        | none => .error .keyAtBeginning
        | some (.IndexPath idx _) =>
          .ok ((parts.map (PathSyntax.denote fl)).dropLast ++
            .IndexPath idx true :: more.map (PathSyntax.denote fl))
        | some (.HashIndexPath h _) =>
          .ok ((parts.map (PathSyntax.denote fl)).dropLast ++
            .HashIndexPath h true :: more.map (PathSyntax.denote fl))
        | some ( PathPart.AtAnnotation n _) =>
          .ok ((parts.map (PathSyntax.denote fl)).dropLast ++
             PathPart.AtAnnotation n true :: more.map (PathSyntax.denote fl))
        | some lastPart => .error (.keyOnPart lastPart)) ∧
    ParsePath decimalFloats (lit "@key") = .error .keyAtBeginning ∧
    ParsePath decimalFloats (lit ".a@key") = .error (.keyOnPart (.FieldPath (lit "a"))) ∧
    ParsePath decimalFloats (lit "@type@key") = .error (.keyOnPart PathPart.TypeAnnotation) ∧
    ParsePath decimalFloats (lit "@target@key") = .error (.keyOnPart PathPart.TargetAnnotation) ∧
    ParsePath decimalFloats (lit "[\"a\"]@key") = .ok [.IndexPath (.string (lit "a")) true] ∧
    ParsePath decimalFloats (lit "[#94a2oa20oka0jdv5lha03vuvvumul1vb]@key")
      = .ok [.HashIndexPath 417206187812080452649766134608423166114011973611 true] ∧
    ParsePath decimalFloats (lit "@at(2)@key") = .ok [ PathPart.AtAnnotation 2 true] := by
  refine ⟨?_, ?_, by decide, by decide, by decide, by decide, by decide, by decide, by decide⟩
  · intro fl fuel p rem hrem
    rw [constructPath_atKey fl fuel p rem hrem]
    cases p.getLast? with
    | none => rfl
    | some lastPart => cases lastPart <;> rfl
  · intro fl parts more hparts hmore
    rw [parsePath_key_generated fl parts more hparts hmore]
    cases (parts.map (PathSyntax.denote fl)).getLast? with
    | none => rfl
    | some lastPart => cases lastPart <;> rfl

theorem denote_key_true (fl : Floats) (last : PathSyntax)
    (hlast : (∃ iv, last = .index iv true) ∨ (∃ t, last = .atAnn t true)) :
    setIntoKey (last.denote fl) true = some (last.denote fl) := by
  rcases hlast with ⟨iv, rfl⟩ | ⟨t, rfl⟩
  · cases iv with
    | number text => simp only [PathSyntax.denote, IndexValue.denote]; cases fl.parseFloat text <;> rfl
    | string s => rfl
    | bool b => rfl
    | hash text =>
      simp only [PathSyntax.denote, IndexValue.denote]; cases hashMaybeParse text <;> rfl
  · simp only [PathSyntax.denote]
    cases parseInt64 t <;> rfl

/-- C10 (as amended). `ParsePath` does not limit the number of `@key`
annotations: on a text of the grammar, an `@key` that directly follows a part
that already ends in `@key` is accepted and leaves the parsed path as it is
without the repetition (`[1]@key@key` parses to the path of `[1]@key`). -/
theorem parsePath_repeated_key (fl : Floats) (init more : List PathSyntax) (last : PathSyntax)
    (hlast : (∃ iv, last = .index iv true) ∨ (∃ t, last = .atAnn t true))
    (hinit : ∀ part ∈ init, part.wf fl = true) (hl : last.wf fl = true)
    (hmore : ∀ part ∈ more, part.wf fl = true) :
    ParsePath fl (renderPath (init ++ [last]) ++ (lit "@key" ++ renderPath more))
        = .ok ((init ++ last :: more).map (PathSyntax.denote fl)) ∧
    ParsePath fl (renderPath (init ++ last :: more))
        = .ok ((init ++ last :: more).map (PathSyntax.denote fl)) := by
  have hall : ∀ part ∈ init ++ [last], part.wf fl = true := by
    intro part hp
    rcases List.mem_append.1 hp with h | h
    · exact hinit part h
    · rw [List.mem_singleton.1 h]; exact hl
  have hall2 : ∀ part ∈ init ++ last :: more, part.wf fl = true := by
    intro part hp
    rcases List.mem_append.1 hp with h | h
    · exact hinit part h
    · rcases List.mem_cons.1 h with rfl | h
      · exact hl
      · exact hmore part h
  constructor
  · rw [parsePath_key_generated fl (init ++ [last]) more hall hmore]
    simp only [List.map_append, List.map_cons, List.map_nil, List.getLast?_concat,
      denote_key_true fl last hlast, List.dropLast_concat]
  · unfold ParsePath
    rw [if_neg (renderPath_ne_nil (by simp)),
      constructPath_generated fl _ hall2 [] _ (Nat.lt_succ_self _)]
    simp

/-- C10 fails as stated: `ParsePath` returns a path, and no error, for
`[1]@key@key`, `["a"]@key@key` and `@at(1)@key@key`. -/
theorem parsePath_accepts_double_key :
    ParsePath decimalFloats (lit "[1]@key@key") = .ok [.IndexPath (.number 1) true] ∧
    ParsePath decimalFloats (lit "[\"a\"]@key@key") = .ok [.IndexPath (.string (lit "a")) true] ∧
    ParsePath decimalFloats (lit "@at(1)@key@key") = .ok [ PathPart.AtAnnotation 1 true] := by
  decide

theorem parsePath_repeated_key_witness :
    ((∃ iv, exampleKeyPart = .index iv true) ∨ (∃ t, exampleKeyPart = .atAnn t true)) ∧
    (∀ part ∈ [PathSyntax.field (lit "a")], part.wf decimalFloats = true) ∧
    exampleKeyPart.wf decimalFloats = true ∧
    (∀ part ∈ [PathSyntax.typeAnn], part.wf decimalFloats = true) ∧
    (ParsePath decimalFloats
        (renderPath ([PathSyntax.field (lit "a")] ++ [exampleKeyPart])
          ++ (lit "@key" ++ renderPath [PathSyntax.typeAnn]))
      = .ok (([PathSyntax.field (lit "a")] ++ exampleKeyPart :: [PathSyntax.typeAnn]).map
          (PathSyntax.denote decimalFloats)) ∧
    ParsePath decimalFloats
        (renderPath ([PathSyntax.field (lit "a")] ++ exampleKeyPart :: [PathSyntax.typeAnn]))
      = .ok (([PathSyntax.field (lit "a")] ++ exampleKeyPart :: [PathSyntax.typeAnn]).map
          (PathSyntax.denote decimalFloats))) :=
  ⟨Or.inl ⟨_, rfl⟩, by decide, by decide, by decide,
    parsePath_repeated_key decimalFloats [PathSyntax.field (lit "a")] [PathSyntax.typeAnn]
      exampleKeyPart (Or.inl ⟨_, rfl⟩) (by decide) (by decide) (by decide)⟩

/-! ### The recursion budgets of `Struct.Diff` and `differ.diff` are enough -/

/-- One more iteration than `count1 + count2 - i1 - i2` changes nothing: the
loop of `Struct.Diff` has ended by then. -/
theorem structDiffLoop_fuel (count1 count2 : Nat) (fuel : Nat) (st : StructDiffState)
    (h : (count1 - st.i1) + (count2 - st.i2) ≤ fuel) :
    structDiffLoop count1 count2 (fuel + 1) st = structDiffLoop count1 count2 fuel st := by
  induction fuel generalizing st with
  | zero =>
    have hc : ¬ (st.i1 < count1 ∧ st.i2 < count2) := by omega
    simp [structDiffLoop, hc]
  | succ f ih =>
    conv_lhs => rw [structDiffLoop]
    conv_rhs => rw [structDiffLoop]
    split_ifs with hc
    · split
      · rfl
      · split
        · rfl
        · split_ifs
          · split
            · rfl
            · split
              · rfl
              · exact ih _ (by simp only; omega)
          · split
            · rfl
            · exact ih _ (by simp only; omega)
          · split
            · rfl
            · exact ih _ (by simp only; omega)
    · rfl

theorem concatDiffs_ne_outOfFuel {rs : List DiffResult}
    (h : ∀ r ∈ rs, r ≠ .error .outOfFuel) : concatDiffs rs ≠ .error .outOfFuel := by
  induction rs with
  | nil => simp [concatDiffs]
  | cons r rest ih =>
    have hr := h r (List.mem_cons_self _ _)
    have hrest := ih (fun x hx => h x (List.mem_cons_of_mem _ hx))
    simp only [concatDiffs]
    cases r with
    | error e => simpa using hr
    | ok ds =>
      simp only
      cases hc : concatDiffs rest with
      | error e => simpa [hc] using hrest
      | ok ds' => simp

theorem valueList_depth_le : ∀ (l : ValueList) (v : Value), v ∈ l.toList → v.depth ≤ l.depth
  | .nil, v, h => by simp [ValueList.toList] at h
  | .cons x xs, v, h => by
    simp only [ValueList.toList, List.mem_cons] at h
    simp only [ValueList.depth]
    rcases h with rfl | h
    · exact Nat.le_max_left _ _
    · exact Nat.le_trans (valueList_depth_le xs v h) (Nat.le_max_right _ _)

theorem entryList_depth_le : ∀ (l : EntryList) (e : Value × Value), e ∈ l.toList →
    e.2.depth ≤ l.depth
  | .nil, e, h => by simp [EntryList.toList] at h
  | .cons k x xs, e, h => by
    simp only [EntryList.toList, List.mem_cons] at h
    simp only [EntryList.depth]
    rcases h with rfl | h
    · exact Nat.le_trans (Nat.le_max_right _ _) (Nat.le_max_left _ _)
    · exact Nat.le_trans (entryList_depth_le xs e h) (Nat.le_max_right _ _)

theorem fieldList_depth_le : ∀ (l : FieldList) (e : GoString × Value), e ∈ l.toList →
    e.2.depth ≤ l.depth
  | .nil, e, h => by simp [FieldList.toList] at h
  | .cons k x xs, e, h => by
    simp only [FieldList.toList, List.mem_cons] at h
    simp only [FieldList.depth]
    rcases h with rfl | h
    · exact Nat.le_max_left _ _
    · exact Nat.le_trans (fieldList_depth_le xs e h) (Nat.le_max_right _ _)

theorem maybeGetLoop_mem {V : Type} {n : GoString} {c : Nat} {dec : List (GoString × V)}
    {v : V} {b : Bool} (h : maybeGetLoop n c dec = some (some v, b)) :
    ∃ name, (name, v) ∈ dec := by
  induction c generalizing dec with
  | zero => simp [maybeGetLoop] at h
  | succ c ih =>
    cases dec with
    | nil => simp [maybeGetLoop] at h
    | cons f rest =>
      obtain ⟨name, w⟩ := f
      simp only [maybeGetLoop] at h
      split_ifs at h
      · simp only [Option.some.injEq, Prod.mk.injEq] at h
        exact ⟨name, by simp [h.1]⟩
      · simp at h
      · obtain ⟨name', hm⟩ := ih h
        exact ⟨name', List.mem_cons_of_mem _ hm⟩

theorem Struct.Get_mem {V : Type} {s : Struct V} {n : GoString} {v : V}
    (h : s.Get n = some v) : ∃ name, (name, v) ∈ s.fields := by
  unfold Struct.Get at h
  split at h
  · rename_i w heq
    simp only [Option.some.injEq] at h
    subst h
    exact maybeGetLoop_mem heq
  · simp at h

theorem mapGet_mem {m : List (Value × Value)} {k v : Value} (h : mapGet m k = some v) :
    ∃ e ∈ m, e.2 = v := by
  unfold mapGet at h
  split at h
  · rename_i e heq
    simp only [Option.some.injEq] at h
    exact ⟨e, List.mem_of_find?_eq_some heq, h⟩
  · simp at h

theorem diffOrdered_ne_outOfFuel (recDiff : Path → Value → Value → DiffResult) (p : Path)
    (ppf : Value → Option PathPart) (changes : List ValueChanged)
    (v1 v2 : Value → Option (Option Value))
    (h : ∀ c ∈ changes, c.ChangeType = .DiffChangeModified →
      ∀ k a, c.Key = some k → v1 k = some (some a) →
        ∀ q b, recDiff q a b ≠ .error .outOfFuel) :
    diffOrdered recDiff p ppf changes v1 v2 ≠ .error .outOfFuel := by
  apply concatDiffs_ne_outOfFuel
  intro r hr
  obtain ⟨c, hc, rfl⟩ := List.mem_map.1 hr
  obtain ⟨ct, key, old, new⟩ := c
  cases key with
  | none => simp [diffOrderedChange]
  | some k =>
    cases hp : ppf k with
    | none => simp [diffOrderedChange, hp]
    | some part =>
      cases ct with
      | DiffChangeAdded =>
        simp only [diffOrderedChange, hp]
        cases v2 k <;> simp
      | DiffChangeRemoved =>
        simp only [diffOrderedChange, hp]
        cases v1 k <;> simp
      | DiffChangeModified =>
        simp only [diffOrderedChange, hp]
        cases h1 : v1 k with
        | none => simp
        | some c1 =>
          cases h2 : v2 k with
          | none => simp
          | some c2 =>
            simp only
            cases c1 with
            | none => simp [shouldDescendNil]
            | some a =>
              cases c2 with
              | none =>
                simp only [shouldDescendNil]
                split_ifs <;> simp
              | some b =>
                simp only [shouldDescendNil]
                split_ifs
                · simp
                · cases shouldDescend a b
                  · simp
                  · simp only
                    exact h _ hc rfl k a rfl h1 _ b

/-- With one level of recursion for each level of nesting of `v1`, and one
more, `differ.diff` never runs out of its recursion budget. -/
theorem differDiff_fuel (sd : SequenceDiffs) (leftRight : Bool) (hset : SetDiffsPlain sd)
    (fuel : Nat) (p : Path) (v1 v2 : Value) (h : v1.depth < fuel) :
    differDiff sd leftRight fuel p v1 v2 ≠ .error .outOfFuel := by
  induction fuel generalizing p v1 v2 with
  | zero => omega
  | succ f ih =>
    unfold differDiff
    split
    · rename_i l1 l2
      simp only [Value.depth] at h
      apply concatDiffs_ne_outOfFuel
      intro r hr
      obtain ⟨splice, -, rfl⟩ := List.mem_map.1 hr
      unfold diffListsSplice
      split_ifs
      · apply concatDiffs_ne_outOfFuel
        intro r hr
        obtain ⟨i, -, rfl⟩ := List.mem_map.1 hr
        unfold diffListsModified
        split
        · rename_i lastEl newEl h1 h2
          split_ifs
          · apply ih
            have hm : lastEl ∈ l1.toList := List.get?_mem h1
            have := valueList_depth_le _ _ hm
            omega
          · simp
        · simp
      · apply concatDiffs_ne_outOfFuel
        intro r hr
        rcases List.mem_append.1 hr with hr | hr
        · obtain ⟨i, -, rfl⟩ := List.mem_map.1 hr
          unfold diffListsRemoved
          split <;> simp
        · obtain ⟨i, -, rfl⟩ := List.mem_map.1 hr
          unfold diffListsAdded
          split <;> simp
    · rename_i m1 m2
      simp only [Value.depth] at h
      unfold diffMaps
      apply diffOrdered_ne_outOfFuel
      intro c _ _ k a _ hv q b
      simp only [Option.some.injEq] at hv
      obtain ⟨e, he, rfl⟩ := mapGet_mem hv
      apply ih
      have := entryList_depth_le _ _ he
      omega
    · rename_i s1 s2
      unfold diffSets
      apply diffOrdered_ne_outOfFuel
      intro c hc hct
      exfalso
      split_ifs at hc
      · exact (hset _ _).1 c hc hct
      · exact (hset _ _).2 c hc hct
    · rename_i n1 c1 f1 n2 c2 f2
      simp only [Value.depth] at h
      unfold diffStructs
      split
      · simp
      · apply diffOrdered_ne_outOfFuel
        intro c _ _ k a _ hv q b
        unfold structValue at hv
        split at hv
        · simp at hv
        · split at hv
          · simp at hv
          · rename_i n _ v hget
            simp only [Option.some.injEq] at hv
            subst hv
            obtain ⟨name, hm⟩ := Struct.Get_mem hget
            apply ih
            have := fieldList_depth_le _ _ hm
            simp only at this
            omega
    · simp


/-- The function `Diff` never runs out of the recursion budget it gives to `differ.diff`. -/
theorem Diff_fuel (sd : SequenceDiffs) (hset : SetDiffsPlain sd) (v1 v2 : Value)
    (leftRight : Bool) : Diff sd v1 v2 leftRight ≠ .error .outOfFuel := by
  unfold Diff
  split_ifs
  · simp
  · exact differDiff_fuel sd leftRight hset _ [] v1 v2 (Nat.lt_succ_self _)
  · simp

/-! ### `Diff` -/

theorem shouldDescend_iff (v1 v2 : Value) :
    shouldDescend v1 v2 = true ↔
      (IsPrimitiveKind v1.Kind = false ∧ v1.Kind = v2.Kind ∧ v1.Kind ≠ .RefKind) := by
  simp [shouldDescend, and_assoc]

theorem shouldDescend_false {v1 v2 : Value}
    (h : IsPrimitiveKind v1.Kind = true ∨ v1.Kind ≠ v2.Kind ∨
      (v1.Kind = .RefKind ∧ v2.Kind = .RefKind)) : shouldDescend v1 v2 = false := by
  cases hd : shouldDescend v1 v2 with
  | false => rfl
  | true =>
    obtain ⟨h1, h2, h3⟩ := (shouldDescend_iff v1 v2).1 hd
    rcases h with h | h | h
    · rw [h1] at h; exact absurd h (by simp)
    · exact absurd h2 h
    · exact absurd h.1 h3

theorem diffOrderedChange_modified (recDiff : Path → Value → Value → DiffResult) (p : Path)
    (ppf : Value → Option PathPart) (v1 v2 : Value → Option (Option Value))
    (k : Value) (old new : Option Value) (part : PathPart) (c1 c2 : Value)
    (hp : ppf k = some part) (h1 : v1 k = some (some c1)) (h2 : v2 k = some (some c2)) :
    diffOrderedChange recDiff p ppf v1 v2 ⟨.DiffChangeModified, some k, old, new⟩ =
      if shouldDescend c1 c2 then recDiff (p ++ [part]) c1 c2
      else .ok [⟨p ++ [part], .DiffChangeModified, some c1, some c2, none⟩] := by
  simp only [diffOrderedChange, hp, h1, h2, shouldDescendNil]
  by_cases hprim : IsPrimitiveKind c1.Kind = true
  · have : shouldDescend c1 c2 = false := shouldDescend_false (Or.inl hprim)
    simp [hprim, this]
  · simp only [hprim, if_false]
    cases shouldDescend c1 c2 <;> simp

theorem diffListsModified_eq (recDiff : Path → Value → Value → DiffResult) (p : Path)
    (v1 v2 : List Value) (splice : Splice) (i : Nat) (lastEl newEl : Value)
    (h1 : listGet v1 (splice.SpAt + i) = some lastEl)
    (h2 : listGet v2 (splice.SpFrom + i) = some newEl) :
    diffListsModified recDiff p v1 v2 splice i =
      if shouldDescend lastEl newEl then
        recDiff (p ++ [listIndexPart (splice.SpAt + i)]) lastEl newEl
      else .ok [⟨p ++ [listIndexPart (splice.SpAt + i)], .DiffChangeModified, some lastEl,
        some newEl, none⟩] := by
  simp only [diffListsModified, h1, h2]

/-- C7. For unequal values `v1`, `v2` such that `v1` is of a primitive kind, or
the kinds of `v1` and `v2` differ, or both are Refs, `Diff(v1, v2)` sends exactly
one `Difference`: `Modified`, nil path, `OldValue` `v1`, `NewValue` `v2`.  It
descends (`shouldDescend`) exactly when both values have the same kind, which
is neither primitive nor Ref, and then `Diff` is `differ.diff` at the nil
path.  The same rule decides every `Modified` change of `diffOrdered` (maps,
sets, structs) and every pair of a list splice with as many elements removed
as added: a single `Modified` at the path of the entry, or the nested
diff. -/
theorem diff_single_modified_or_descend :
    (∀ (sd : SequenceDiffs) (v1 v2 : Value) (leftRight : Bool), v1.Equals v2 = false →
      (IsPrimitiveKind v1.Kind = true ∨ v1.Kind ≠ v2.Kind ∨
        (v1.Kind = .RefKind ∧ v2.Kind = .RefKind)) →
      Diff sd v1 v2 leftRight = .ok [⟨[], .DiffChangeModified, some v1, some v2, none⟩]) ∧
    (∀ v1 v2 : Value, shouldDescend v1 v2 = true ↔
      (IsPrimitiveKind v1.Kind = false ∧ v1.Kind = v2.Kind ∧ v1.Kind ≠ .RefKind)) ∧
    (∀ (sd : SequenceDiffs) (v1 v2 : Value) (leftRight : Bool), v1.Equals v2 = false →
      shouldDescend v1 v2 = true →
      Diff sd v1 v2 leftRight = differDiff sd leftRight (v1.depth + 1) [] v1 v2) ∧
    (∀ (recDiff : Path → Value → Value → DiffResult) (p : Path)
      (ppf : Value → Option PathPart) (v1 v2 : Value → Option (Option Value))
      (k : Value) (old new : Option Value) (part : PathPart) (c1 c2 : Value),
      ppf k = some part → v1 k = some (some c1) → v2 k = some (some c2) →
      diffOrderedChange recDiff p ppf v1 v2 ⟨.DiffChangeModified, some k, old, new⟩ =
        if shouldDescend c1 c2 then recDiff (p ++ [part]) c1 c2
        else .ok [⟨p ++ [part], .DiffChangeModified, some c1, some c2, none⟩]) ∧
    (∀ (recDiff : Path → Value → Value → DiffResult) (p : Path) (v1 v2 : List Value)
      (splice : Splice) (i : Nat) (lastEl newEl : Value),
      listGet v1 (splice.SpAt + i) = some lastEl → listGet v2 (splice.SpFrom + i) = some newEl →
      diffListsModified recDiff p v1 v2 splice i =
        if shouldDescend lastEl newEl then
          recDiff (p ++ [listIndexPart (splice.SpAt + i)]) lastEl newEl
        else .ok [⟨p ++ [listIndexPart (splice.SpAt + i)], .DiffChangeModified, some lastEl,
          some newEl, none⟩]) ∧
    Diff noSequenceDiffs (.bool true) (.bool false) true
      = .ok [⟨[], .DiffChangeModified, some (.bool true), some (.bool false), none⟩] ∧
    Diff noSequenceDiffs structA (.string (lit "A")) false
      = .ok [⟨[], .DiffChangeModified, some structA, some (.string (lit "A")), none⟩] ∧
    Diff noSequenceDiffs (.ref 1 (.primitive .BoolKind) 1) (.ref 2 (.primitive .BoolKind) 1) true
      = .ok [⟨[], .DiffChangeModified, some (.ref 1 (.primitive .BoolKind) 1),
          some (.ref 2 (.primitive .BoolKind) 1), none⟩] := by
  refine ⟨?_, shouldDescend_iff, ?_, diffOrderedChange_modified, diffListsModified_eq,
    by decide, by decide, by decide⟩
  · intro sd v1 v2 leftRight hne h
    simp [Diff, hne, shouldDescend_false h]
  · intro sd v1 v2 leftRight hne h
    simp [Diff, hne, h]

/-- C6, at two structs that differ in their names only: they are of the same
kind and not equal, yet `Diff` sends no `Difference` for them, in either
mode, just as for a value and itself.  Hence no function `Apply` of the old
value and the differences gives back the new value for all values of the
same kind. -/
theorem diff_empty_on_renamed_struct :
    structA.Kind = structB.Kind ∧ structA.Equals structB = false ∧
    (∀ (sd : SequenceDiffs) (leftRight : Bool), Diff sd structA structB leftRight = .ok []) ∧
    (∀ (sd : SequenceDiffs) (leftRight : Bool), Diff sd structA structA leftRight = .ok []) ∧
    ¬ ∃ Apply : Value → List Difference → Value,
      ∀ (sd : SequenceDiffs) (leftRight : Bool) (v1 v2 : Value) (ds : List Difference),
        v1.Kind = v2.Kind → Diff sd v1 v2 leftRight = .ok ds → (Apply v1 ds).Equals v2 = true := by
  have hAB : ∀ (sd : SequenceDiffs) (leftRight : Bool),
      Diff sd structA structB leftRight = .ok [] := fun _ _ => rfl
  have hAA : ∀ (sd : SequenceDiffs) (leftRight : Bool),
      Diff sd structA structA leftRight = .ok [] := fun _ _ => rfl
  refine ⟨rfl, by decide, hAB, hAA, ?_⟩
  rintro ⟨Apply, hlaw⟩
  have h1 := hlaw noSequenceDiffs true structA structB [] rfl (hAB _ _)
  have h2 := hlaw noSequenceDiffs true structA structA [] rfl (hAA _ _)
  simp only [Value.Equals, decide_eq_true_eq] at h1 h2
  rw [h2] at h1
  exact absurd h1 (by decide)

theorem getAnnotation_fst (str : GoString) :
    ( getAnnotation str).1 = str.takeWhile annotationNameClass := by
  unfold getAnnotation
  simp only
  split_ifs with h
  · exact h.symm
  · split
    · rfl
    · split_ifs
      · split
        · rfl
        · split_ifs <;> rfl
      · rfl

/-- An annotation name that no parenthesised argument follows. -/
theorem getAnnotation_noArg (name rest : GoString) (hne : name ≠ [])
    (hname : ∀ a ∈ name, annotationNameClass a = true)
    (hrest : ∀ c r, rest = c :: r → annotationNameClass c = false)
    (hno : ∀ t rem, (∀ a ∈ t, annotationArgClass a = true) → rest ≠ 0x28 :: (t ++ 0x29 :: rem)) :
    getAnnotation (name ++ rest) = (name, false, [], rest) := by
  have ht := takeWhile_append_stop name rest hname hrest
  have hd := dropWhile_append_stop name rest hname hrest
  simp only [ getAnnotation, ht, hd, hne, if_false]
  cases rest with
  | nil => rfl
  | cons c r =>
    simp only
    split_ifs with hc
    · subst hc
      have hsplit := List.takeWhile_append_dropWhile annotationArgClass r
      cases hdrop : r.dropWhile annotationArgClass with
      | nil => rfl
      | cons c2 rem =>
        simp only
        split_ifs with hc2
        · exfalso
          subst hc2
          rw [hdrop] at hsplit
          exact hno (r.takeWhile annotationArgClass) rem
            (fun a ha => List.mem_takeWhile_imp ha) (by rw [hsplit])
        · rfl
    · rfl

theorem lit_at_append (rest : GoString) : lit "@at" ++ rest = 0x40 :: (lit "at" ++ rest) := by
  simp [lit, utf8Encode]

/-- The `"at"` case of `constructPath` without an argument. -/
theorem constructPath_at_noArg (fl : Floats) (fuel : Nat) (p : Path) (rest : GoString)
    (hrest : ∀ c r, rest = c :: r → annotationNameClass c = false)
    (hno : ∀ t rem, (∀ a ∈ t, annotationArgClass a = true) → rest ≠ 0x28 :: (t ++ 0x29 :: rem)) :
    constructPath fl (fuel + 1) p (lit "@at" ++ rest) = .error .atNeedsArgument := by
  have hann := getAnnotation_noArg (lit "at") rest (by decide) (by decide) hrest hno
  rw [lit_at_append, constructPath]
  simp only [show (0x40 : Nat) ≠ 0x2E by decide, show (0x40 : Nat) ≠ 0x5B by decide, if_false,
    if_true, hann]

/-- The `"at"` case of `constructPath` with an argument. -/
theorem constructPath_at_arg (fl : Floats) (fuel : Nat) (p : Path) (t rem : GoString)
    (ht : ∀ a ∈ t, annotationArgClass a = true) :
    constructPath fl (fuel + 1) p (lit "@at(" ++ (t ++ 0x29 :: rem)) =
      if t = [] then .error .atNeedsArgument
      else
        match parseInt64 t with
        | none => .error .invalidPosition
        | some n => constructPath fl fuel (p ++ [ PathPart.AtAnnotation n false]) rem := by
  have e : lit "@at(" ++ (t ++ 0x29 :: rem) = 0x40 :: (lit "at" ++ 0x28 :: (t ++ 0x29 :: rem)) := by
    simp [lit, utf8Encode]
  have hann := getAnnotation_arg (lit "at") t rem (by decide) (by decide) ht
  rw [e, constructPath]
  simp only [show (0x40 : Nat) ≠ 0x2E by decide, show (0x40 : Nat) ≠ 0x5B by decide, if_false,
    if_true, hann, NewAtAnnotation]

/-- The cases `"key"`, `"target"` and `"type"` of `constructPath` with an argument. -/
theorem constructPath_named_arg (fl : Floats) (fuel : Nat) (p : Path) (t rem : GoString)
    (ht : ∀ a ∈ t, annotationArgClass a = true) :
    constructPath fl (fuel + 1) p (lit "@key(" ++ (t ++ 0x29 :: rem)) = .error .keyHasArgument ∧
    constructPath fl (fuel + 1) p (lit "@target(" ++ (t ++ 0x29 :: rem))
      = .error .targetHasArgument ∧
    constructPath fl (fuel + 1) p (lit "@type(" ++ (t ++ 0x29 :: rem))
      = .error .typeHasArgument := by
  have e1 : lit "@key(" ++ (t ++ 0x29 :: rem) = 0x40 :: (lit "key" ++ 0x28 :: (t ++ 0x29 :: rem)) := by
    simp [lit, utf8Encode]
  have e2 : lit "@target(" ++ (t ++ 0x29 :: rem)
      = 0x40 :: (lit "target" ++ 0x28 :: (t ++ 0x29 :: rem)) := by
    simp [lit, utf8Encode]
  have e3 : lit "@type(" ++ (t ++ 0x29 :: rem)
      = 0x40 :: (lit "type" ++ 0x28 :: (t ++ 0x29 :: rem)) := by
    simp [lit, utf8Encode]
  have h1 := getAnnotation_arg (lit "key") t rem (by decide) (by decide) ht
  have h2 := getAnnotation_arg (lit "target") t rem (by decide) (by decide) ht
  have h3 := getAnnotation_arg (lit "type") t rem (by decide) (by decide) ht
  refine ⟨?_, ?_, ?_⟩
  · rw [e1, constructPath]
    simp only [show (0x40 : Nat) ≠ 0x2E by decide, show (0x40 : Nat) ≠ 0x5B by decide, if_false,
      if_true, h1, show lit "key" ≠ lit "at" by decide]
  · rw [e2, constructPath]
    simp only [show (0x40 : Nat) ≠ 0x2E by decide, show (0x40 : Nat) ≠ 0x5B by decide, if_false,
      if_true, h2, show lit "target" ≠ lit "at" by decide, show lit "target" ≠ lit "key" by decide]
  · rw [e3, constructPath]
    simp only [show (0x40 : Nat) ≠ 0x2E by decide, show (0x40 : Nat) ≠ 0x5B by decide, if_false,
      if_true, h3, show lit "type" ≠ lit "at" by decide, show lit "type" ≠ lit "key" by decide,
      show lit "type" ≠ lit "target" by decide]

/-- The `default` case of the annotation switch of `constructPath`. -/
theorem constructPath_other (fl : Floats) (fuel : Nat) (p : Path) (tail : GoString)
    (hname : tail.takeWhile annotationNameClass ∉
      [lit "at", lit "key", lit "target", lit "type"]) :
    constructPath fl (fuel + 1) p (0x40 :: tail)
      = .error ( PathError.unsupportedAnnotation (tail.takeWhile annotationNameClass)) := by
  have hfst := getAnnotation_fst tail
  rcases hga : getAnnotation tail with ⟨ann, hasArg, arg, rem⟩
  rw [hga] at hfst
  simp only at hfst
  subst hfst
  simp only [List.mem_cons, List.mem_singleton, not_or, List.mem_nil_iff, or_false] at hname
  rw [constructPath]
  simp only [show (0x40 : Nat) ≠ 0x2E by decide, show (0x40 : Nat) ≠ 0x5B by decide, if_false,
    if_true, hga, hname.1, hname.2.1, hname.2.2.1, hname.2.2.2]

/-- The result of `ParsePath` on a generated text followed by more text, from
the result of `constructPath` on that text. -/
theorem parsePath_generated_then (fl : Floats) (parts : List PathSyntax)
    (hwf : ∀ part ∈ parts, part.wf fl = true) (rest : GoString) (hr : startsPart rest = true)
    (hne : rest ≠ []) (K : Path → Except PathError Path)
    (hK : ∀ (p : Path) (fuel : Nat), rest.length ≤ fuel →
      constructPath fl (fuel + 1) p rest = K p) :
    ParsePath fl (renderPath parts ++ rest) = K (parts.map (PathSyntax.denote fl)) := by
  unfold ParsePath
  rw [if_neg (by simp [hne])]
  have := constructPath_renderPath fl parts hwf rest hr K
    (fun p fuel h => by
      obtain ⟨f, rfl⟩ : ∃ f, fuel = f + 1 := ⟨fuel - 1, by omega⟩
      exact hK p f (by omega))
    [] _ (Nat.lt_succ_self _)
  simpa using this


theorem constructPath_paren (fl : Floats) (fuel : Nat) (p : Path) (rest : GoString) :
    constructPath fl (fuel + 1) p (0x28 :: rest) = .error (.invalidOperator 0x28) := by
  rw [constructPath]
  simp

/-- The cases `"key"`, `"target"` and `"type"` of `constructPath` before a `(`
that does not open an argument of `annotationRe`: the annotation is taken
without argument, and the `(` is not an operator. -/
theorem constructPath_named_noArg (fl : Floats) (fuel : Nat) (p : Path) (rest : GoString)
    (hno : ∀ t rem, (∀ a ∈ t, annotationArgClass a = true) →
      (0x28 :: rest : GoString) ≠ 0x28 :: (t ++ 0x29 :: rem)) :
    constructPath fl (fuel + 2) p (lit "@key" ++ 0x28 :: rest) =
      (match p.getLast? with
        | none => .error .keyAtBeginning
        | some lastPart =>
          match setIntoKey lastPart true with
          | some _ => .error (.invalidOperator 0x28)
          | none => .error (.keyOnPart lastPart)) ∧
    constructPath fl (fuel + 2) p (lit "@target" ++ 0x28 :: rest)
      = .error (.invalidOperator 0x28) ∧
    constructPath fl (fuel + 2) p (lit "@type" ++ 0x28 :: rest)
      = .error (.invalidOperator 0x28) := by
  have hstop : ∀ c r, (0x28 :: rest : GoString) = c :: r → annotationNameClass c = false := by
    intro c r h
    simp only [List.cons.injEq] at h
    rw [← h.1]
    decide
  have e1 : lit "@key" ++ 0x28 :: rest = 0x40 :: (lit "key" ++ 0x28 :: rest) := by
    simp [lit, utf8Encode]
  have e2 : lit "@target" ++ 0x28 :: rest = 0x40 :: (lit "target" ++ 0x28 :: rest) := by
    simp [lit, utf8Encode]
  have e3 : lit "@type" ++ 0x28 :: rest = 0x40 :: (lit "type" ++ 0x28 :: rest) := by
    simp [lit, utf8Encode]
  have h1 := getAnnotation_noArg (lit "key") (0x28 :: rest) (by decide) (by decide) hstop hno
  have h2 := getAnnotation_noArg (lit "target") (0x28 :: rest) (by decide) (by decide) hstop hno
  have h3 := getAnnotation_noArg (lit "type") (0x28 :: rest) (by decide) (by decide) hstop hno
  refine ⟨?_, ?_, ?_⟩
  · rw [e1, constructPath]
    simp only [show (0x40 : Nat) ≠ 0x2E by decide, show (0x40 : Nat) ≠ 0x5B by decide, if_false,
      if_true, h1, show lit "key" ≠ lit "at" by decide, Bool.false_eq_true]
    cases p.getLast? with
    | none => rfl
    | some lastPart =>
      cases hk : setIntoKey lastPart true with
      | none => simp only [hk]
      | some ki => simp only [hk, constructPath_paren]
  · rw [e2, constructPath]
    simp only [show (0x40 : Nat) ≠ 0x2E by decide, show (0x40 : Nat) ≠ 0x5B by decide, if_false,
      if_true, h2, show lit "target" ≠ lit "at" by decide, show lit "target" ≠ lit "key" by decide,
      Bool.false_eq_true, constructPath_paren]
  · rw [e3, constructPath]
    simp only [show (0x40 : Nat) ≠ 0x2E by decide, show (0x40 : Nat) ≠ 0x5B by decide, if_false,
      if_true, h3, show lit "type" ≠ lit "at" by decide, show lit "type" ≠ lit "key" by decide,
      show lit "type" ≠ lit "target" by decide, Bool.false_eq_true, constructPath_paren]

/-- After `@key`, `@target` or `@type`, a `(` is an error whatever follows
it. -/
theorem constructPath_named_paren (fl : Floats) (fuel : Nat) (p : Path) (rest : GoString) :
    (∃ e, constructPath fl (fuel + 2) p (lit "@key" ++ 0x28 :: rest) = .error e) ∧
    (∃ e, constructPath fl (fuel + 2) p (lit "@target" ++ 0x28 :: rest) = .error e) ∧
    (∃ e, constructPath fl (fuel + 2) p (lit "@type" ++ 0x28 :: rest) = .error e) := by
  by_cases harg : ∃ t rem, (∀ a ∈ t, annotationArgClass a = true) ∧ rest = t ++ 0x29 :: rem
  · obtain ⟨t, rem, ht, rfl⟩ := harg
    obtain ⟨h1, h2, h3⟩ := constructPath_named_arg fl (fuel + 1) p t rem ht
    have e1 : lit "@key" ++ 0x28 :: (t ++ 0x29 :: rem) = lit "@key(" ++ (t ++ 0x29 :: rem) := by
      simp [lit, utf8Encode]
    have e2 : lit "@target" ++ 0x28 :: (t ++ 0x29 :: rem)
        = lit "@target(" ++ (t ++ 0x29 :: rem) := by
      simp [lit, utf8Encode]
    have e3 : lit "@type" ++ 0x28 :: (t ++ 0x29 :: rem) = lit "@type(" ++ (t ++ 0x29 :: rem) := by
      simp [lit, utf8Encode]
    rw [e1, e2, e3]
    exact ⟨⟨_, h1⟩, ⟨_, h2⟩, ⟨_, h3⟩⟩
  · have hno : ∀ t rem, (∀ a ∈ t, annotationArgClass a = true) →
        (0x28 :: rest : GoString) ≠ 0x28 :: (t ++ 0x29 :: rem) := by
      intro t rem ht h
      simp only [List.cons.injEq, true_and] at h
      exact harg ⟨t, rem, ht, h⟩
    obtain ⟨h1, h2, h3⟩ := constructPath_named_noArg fl fuel p rest hno
    refine ⟨?_, ⟨_, h2⟩, ⟨_, h3⟩⟩
    rw [h1]
    cases p.getLast? with
    | none => exact ⟨_, rfl⟩
    | some lastPart =>
      cases hk : setIntoKey lastPart true with
      | none => exact ⟨.keyOnPart lastPart, by simp only [hk]⟩
      | some ki => exact ⟨.invalidOperator 0x28, by simp only [hk]⟩

theorem parsePath_named_paren (fl : Floats) (parts : List PathSyntax)
    (hparts : ∀ part ∈ parts, part.wf fl = true) (rest : GoString) :
    (∃ e, ParsePath fl (renderPath parts ++ (lit "@key" ++ 0x28 :: rest)) = .error e) ∧
    (∃ e, ParsePath fl (renderPath parts ++ (lit "@target" ++ 0x28 :: rest)) = .error e) ∧
    (∃ e, ParsePath fl (renderPath parts ++ (lit "@type" ++ 0x28 :: rest)) = .error e) := by
  have hs1 : startsPart (lit "@key" ++ 0x28 :: rest) = true := by
    simp [lit, utf8Encode, startsPart]
  have hs2 : startsPart (lit "@target" ++ 0x28 :: rest) = true := by
    simp [lit, utf8Encode, startsPart]
  have hs3 : startsPart (lit "@type" ++ 0x28 :: rest) = true := by
    simp [lit, utf8Encode, startsPart]
  by_cases harg : ∃ t rem, (∀ a ∈ t, annotationArgClass a = true) ∧ rest = t ++ 0x29 :: rem
  · obtain ⟨t, rem, ht, rfl⟩ := harg
    have e1 : lit "@key" ++ 0x28 :: (t ++ 0x29 :: rem) = lit "@key(" ++ (t ++ 0x29 :: rem) := by
      simp [lit, utf8Encode]
    have e2 : lit "@target" ++ 0x28 :: (t ++ 0x29 :: rem)
        = lit "@target(" ++ (t ++ 0x29 :: rem) := by
      simp [lit, utf8Encode]
    have e3 : lit "@type" ++ 0x28 :: (t ++ 0x29 :: rem) = lit "@type(" ++ (t ++ 0x29 :: rem) := by
      simp [lit, utf8Encode]
    refine ⟨⟨.keyHasArgument, ?_⟩, ⟨.targetHasArgument, ?_⟩, ⟨.typeHasArgument, ?_⟩⟩
    · rw [parsePath_generated_then fl parts hparts _ hs1 (by simp [lit, utf8Encode])
        (fun _ => .error .keyHasArgument)]
      intro p fuel _
      rw [e1]
      exact (constructPath_named_arg fl fuel p t rem ht).1
    · rw [parsePath_generated_then fl parts hparts _ hs2 (by simp [lit, utf8Encode])
        (fun _ => .error .targetHasArgument)]
      intro p fuel _
      rw [e2]
      exact (constructPath_named_arg fl fuel p t rem ht).2.1
    · rw [parsePath_generated_then fl parts hparts _ hs3 (by simp [lit, utf8Encode])
        (fun _ => .error .typeHasArgument)]
      intro p fuel _
      rw [e3]
      exact (constructPath_named_arg fl fuel p t rem ht).2.2
  · have hno : ∀ t rem, (∀ a ∈ t, annotationArgClass a = true) →
        (0x28 :: rest : GoString) ≠ 0x28 :: (t ++ 0x29 :: rem) := by
      intro t rem ht h
      simp only [List.cons.injEq, true_and] at h
      exact harg ⟨t, rem, ht, h⟩
    refine ⟨?_, ⟨.invalidOperator 0x28, ?_⟩, ⟨.invalidOperator 0x28, ?_⟩⟩
    · have hK := parsePath_generated_then fl parts hparts _ hs1 (by simp [lit, utf8Encode])
        (fun p => match p.getLast? with
          | none => .error .keyAtBeginning
          | some lastPart =>
            match setIntoKey lastPart true with
            | some _ => .error (.invalidOperator 0x28)
            | none => .error (.keyOnPart lastPart))
        (by
          intro p fuel hfuel
          obtain ⟨f, hf⟩ : ∃ f, fuel + 1 = f + 2 :=
            ⟨fuel - 1, by simp [lit, utf8Encode] at hfuel; omega⟩
          rw [hf]
          exact (constructPath_named_noArg fl f p rest hno).1)
      rw [hK]
      beta_reduce
      generalize (parts.map (PathSyntax.denote fl)).getLast? = o
      cases o with
      | none => exact ⟨_, rfl⟩
      | some lastPart =>
        cases hk : setIntoKey lastPart true with
        | none => exact ⟨.keyOnPart lastPart, by simp only [hk]⟩
        | some ki => exact ⟨.invalidOperator 0x28, by simp only [hk]⟩
    · rw [parsePath_generated_then fl parts hparts _ hs2 (by simp [lit, utf8Encode])
        (fun _ => .error (.invalidOperator 0x28))]
      intro p fuel hfuel
      obtain ⟨f, hf⟩ : ∃ f, fuel + 1 = f + 2 :=
        ⟨fuel - 1, by simp [lit, utf8Encode] at hfuel; omega⟩
      rw [hf]
      exact (constructPath_named_noArg fl f p rest hno).2.1
    · rw [parsePath_generated_then fl parts hparts _ hs3 (by simp [lit, utf8Encode])
        (fun _ => .error (.invalidOperator 0x28))]
      intro p fuel hfuel
      obtain ⟨f, hf⟩ : ∃ f, fuel + 1 = f + 2 :=
        ⟨fuel - 1, by simp [lit, utf8Encode] at hfuel; omega⟩
      rw [hf]
      exact (constructPath_named_noArg fl f p rest hno).2.2

/-- C11. In `constructPath`, and so in `ParsePath` after any text of the
grammar: `@at` that no parenthesised argument follows, `@at()`, and `@at(t)`
whose `t` `strconv.ParseInt(t, 10, 64)` refuses are errors; `@at(t)` whose
`t` is a decimal integer of 64 bits appends `AtAnnotation{Index: n, IntoKey:
false}` and parsing goes on after the `)`; `@key`, `@target` and `@type`
followed by a parenthesised argument are errors, and so are they followed by
a `(` of any kind; every annotation name other than `at`, `key`, `target`
and `type` is an error.  A parenthesised argument is what `annotationRe`
matches: `(`, characters of `[\w\-"']`, `)`. -/
theorem at_annotation_rule :
    (∀ (fl : Floats) (fuel : Nat) (p : Path) (rest : GoString),
      (∀ c r, rest = c :: r → annotationNameClass c = false) →
      (∀ t rem, (∀ a ∈ t, annotationArgClass a = true) → rest ≠ 0x28 :: (t ++ 0x29 :: rem)) →
      constructPath fl (fuel + 1) p (lit "@at" ++ rest) = .error .atNeedsArgument) ∧
    (∀ (fl : Floats) (fuel : Nat) (p : Path) (t rem : GoString),
      (∀ a ∈ t, annotationArgClass a = true) →
      constructPath fl (fuel + 1) p (lit "@at(" ++ (t ++ 0x29 :: rem)) =
        if t = [] then .error .atNeedsArgument
        else
          match parseInt64 t with
          | none => .error .invalidPosition
          | some n => constructPath fl fuel (p ++ [ PathPart.AtAnnotation n false]) rem) ∧
    (∀ (fl : Floats) (fuel : Nat) (p : Path) (t rem : GoString),
      (∀ a ∈ t, annotationArgClass a = true) →
      constructPath fl (fuel + 1) p (lit "@key(" ++ (t ++ 0x29 :: rem))
        = .error .keyHasArgument ∧
      constructPath fl (fuel + 1) p (lit "@target(" ++ (t ++ 0x29 :: rem))
        = .error .targetHasArgument ∧
      constructPath fl (fuel + 1) p (lit "@type(" ++ (t ++ 0x29 :: rem))
        = .error .typeHasArgument) ∧
    (∀ (fl : Floats) (fuel : Nat) (p : Path) (rest : GoString),
      (∃ e, constructPath fl (fuel + 2) p (lit "@key" ++ 0x28 :: rest) = .error e) ∧
      (∃ e, constructPath fl (fuel + 2) p (lit "@target" ++ 0x28 :: rest) = .error e) ∧
      (∃ e, constructPath fl (fuel + 2) p (lit "@type" ++ 0x28 :: rest) = .error e)) ∧
    (∀ (fl : Floats) (parts : List PathSyntax) (rest : GoString),
      (∀ part ∈ parts, part.wf fl = true) →
      (∃ e, ParsePath fl (renderPath parts ++ (lit "@key" ++ 0x28 :: rest)) = .error e) ∧
      (∃ e, ParsePath fl (renderPath parts ++ (lit "@target" ++ 0x28 :: rest)) = .error e) ∧
      (∃ e, ParsePath fl (renderPath parts ++ (lit "@type" ++ 0x28 :: rest)) = .error e)) ∧
    (∀ (fl : Floats) (fuel : Nat) (p : Path) (tail : GoString),
      tail.takeWhile annotationNameClass ∉ [lit "at", lit "key", lit "target", lit "type"] →
      constructPath fl (fuel + 1) p (0x40 :: tail)
        = .error ( PathError.unsupportedAnnotation (tail.takeWhile annotationNameClass))) ∧
    (∀ (fl : Floats) (parts more : List PathSyntax) (t : GoString) (n : Int),
      (∀ part ∈ parts, part.wf fl = true) → (∀ part ∈ more, part.wf fl = true) →
      isDecimalInt t = true → parseInt64 t = some n →
      ParsePath fl (renderPath parts ++ (lit "@at(" ++ (t ++ 0x29 :: renderPath more)))
        = .ok (parts.map (PathSyntax.denote fl) ++
             PathPart.AtAnnotation n false :: more.map (PathSyntax.denote fl))) ∧
    (∀ (fl : Floats) (parts : List PathSyntax) (t rem : GoString),
      (∀ part ∈ parts, part.wf fl = true) → (∀ a ∈ t, annotationArgClass a = true) →
      (t = [] ∨ parseInt64 t = none) →
      ∃ e, ParsePath fl (renderPath parts ++ (lit "@at(" ++ (t ++ 0x29 :: rem))) = .error e) ∧
    (∀ (fl : Floats) (parts : List PathSyntax) (rest : GoString),
      (∀ part ∈ parts, part.wf fl = true) →
      (∀ c r, rest = c :: r → annotationNameClass c = false) →
      (∀ t rem, (∀ a ∈ t, annotationArgClass a = true) → rest ≠ 0x28 :: (t ++ 0x29 :: rem)) →
      ParsePath fl (renderPath parts ++ (lit "@at" ++ rest)) = .error .atNeedsArgument) ∧
    (∀ (fl : Floats) (parts : List PathSyntax) (t rem : GoString),
      (∀ part ∈ parts, part.wf fl = true) → (∀ a ∈ t, annotationArgClass a = true) →
      ParsePath fl (renderPath parts ++ (lit "@key(" ++ (t ++ 0x29 :: rem)))
        = .error .keyHasArgument ∧
      ParsePath fl (renderPath parts ++ (lit "@target(" ++ (t ++ 0x29 :: rem)))
        = .error .targetHasArgument ∧
      ParsePath fl (renderPath parts ++ (lit "@type(" ++ (t ++ 0x29 :: rem)))
        = .error .typeHasArgument) ∧
    (∀ (fl : Floats) (parts : List PathSyntax) (tail : GoString),
      (∀ part ∈ parts, part.wf fl = true) →
      tail.takeWhile annotationNameClass ∉ [lit "at", lit "key", lit "target", lit "type"] →
      ParsePath fl (renderPath parts ++ 0x40 :: tail)
        = .error ( PathError.unsupportedAnnotation (tail.takeWhile annotationNameClass))) ∧
    ParsePath decimalFloats (lit "@at") = .error .atNeedsArgument ∧
    ParsePath decimalFloats (lit "[1]@at()") = .error .atNeedsArgument ∧
    ParsePath decimalFloats (lit "@at(x)") = .error .invalidPosition ∧
    ParsePath decimalFloats (lit "@at(9223372036854775808)") = .error .invalidPosition ∧
    ParsePath decimalFloats (lit "@at(1.5)") = .error .atNeedsArgument ∧
    ParsePath decimalFloats (lit "@at(+5)") = .error .atNeedsArgument ∧
    ParsePath decimalFloats (lit ".a@at(-9223372036854775808)[1]")
      = .ok [.FieldPath (lit "a"), PathPart.AtAnnotation (-9223372036854775808) false,
          .IndexPath (.number 1) false] ∧
    ParsePath decimalFloats (lit "[1]@key(1)") = .error .keyHasArgument ∧
    ParsePath decimalFloats (lit "@type()") = .error .typeHasArgument ∧
    ParsePath decimalFloats (lit "@target(a)") = .error .targetHasArgument ∧
    ParsePath decimalFloats (lit "@type(+)") = .error (.invalidOperator 0x28) ∧
    ParsePath decimalFloats (lit "[1]@key(1") = .error (.invalidOperator 0x28) ∧
    ParsePath decimalFloats (lit "@foo") = .error ( PathError.unsupportedAnnotation (lit "foo")) ∧
    ParsePath decimalFloats (lit "@") = .error ( PathError.unsupportedAnnotation []) := by
  refine ⟨constructPath_at_noArg, constructPath_at_arg, constructPath_named_arg,
    constructPath_named_paren, fun fl parts rest h => parsePath_named_paren fl parts h rest,
    constructPath_other, ?_, ?_, ?_, ?_, ?_, by decide, by decide, by decide, by decide,
    by decide, by decide, by decide, by decide, by decide, by decide, by decide, by decide,
    by decide, by decide⟩
  · intro fl parts more t n hparts hmore ht hn
    have hstart : startsPart (lit "@at(" ++ (t ++ 0x29 :: renderPath more)) = true := by
      simp [lit, utf8Encode, startsPart]
    rw [parsePath_generated_then fl parts hparts _ hstart (by simp [lit, utf8Encode])
      (fun p => .ok (p ++ PathPart.AtAnnotation n false :: more.map (PathSyntax.denote fl)))]
    intro p fuel hfuel
    rw [constructPath_at_arg fl fuel p t _ (isDecimalInt_argClass ht).2]
    simp only [(isDecimalInt_argClass ht).1, if_false, hn]
    rw [constructPath_generated fl more hmore _ fuel
      (by simp [lit, utf8Encode] at hfuel; omega)]
    simp
  · intro fl parts t rem hparts ht hbad
    have hstart : startsPart (lit "@at(" ++ (t ++ 0x29 :: rem)) = true := by
      simp [lit, utf8Encode, startsPart]
    refine ⟨if t = [] then .atNeedsArgument else .invalidPosition, ?_⟩
    rw [parsePath_generated_then fl parts hparts _ hstart (by simp [lit, utf8Encode])
      (fun _ => .error (if t = [] then .atNeedsArgument else .invalidPosition))]
    intro p fuel _
    rw [constructPath_at_arg fl fuel p t _ ht]
    rcases hbad with h | h
    · simp [h]
    · simp only [h]
      split_ifs <;> rfl
  · intro fl parts rest hparts hrest hno
    have hstart : startsPart (lit "@at" ++ rest) = true := by
      simp [lit, utf8Encode, startsPart]
    rw [parsePath_generated_then fl parts hparts _ hstart (by simp [lit, utf8Encode])
      (fun _ => .error .atNeedsArgument)]
    intro p fuel _
    exact constructPath_at_noArg fl fuel p rest hrest hno
  · intro fl parts t rem hparts ht
    refine ⟨?_, ?_, ?_⟩
    · rw [parsePath_generated_then fl parts hparts _ (by simp [lit, utf8Encode, startsPart])
        (by simp [lit, utf8Encode]) (fun _ => .error .keyHasArgument)]
      intro p fuel _
      exact (constructPath_named_arg fl fuel p t rem ht).1
    · rw [parsePath_generated_then fl parts hparts _ (by simp [lit, utf8Encode, startsPart])
        (by simp [lit, utf8Encode]) (fun _ => .error .targetHasArgument)]
      intro p fuel _
      exact (constructPath_named_arg fl fuel p t rem ht).2.1
    · rw [parsePath_generated_then fl parts hparts _ (by simp [lit, utf8Encode, startsPart])
        (by simp [lit, utf8Encode]) (fun _ => .error .typeHasArgument)]
      intro p fuel _
      exact (constructPath_named_arg fl fuel p t rem ht).2.2
  · intro fl parts tail hparts hname
    rw [parsePath_generated_then fl parts hparts _ (by simp [startsPart])
        (by simp) (fun _ => .error ( PathError.unsupportedAnnotation
          (tail.takeWhile annotationNameClass)))]
    intro p fuel _
    exact constructPath_other fl fuel p tail hname

/-- The index arithmetic of `getAbsoluteIndex` without the machine
integers. -/
theorem absoluteIndexOf_eq (l : Nat) (r : Int) (hl : l < 2 ^ 64)
    (hr : -2 ^ 63 ≤ r ∧ r < 2 ^ 63) :
    absoluteIndexOf l r =
      if 0 ≤ r ∧ r < l then (r.toNat, true)
      else if r < 0 ∧ -r ≤ l then ((l + r).toNat, true)
      else (0, false) := by
  obtain ⟨hr1, hr2⟩ := hr
  have h63 : (2 : Int) ^ 63 = 9223372036854775808 := by norm_num
  have h64 : (2 : Int) ^ 64 = 18446744073709551616 := by norm_num
  have n64 : (2 : Nat) ^ 64 = 18446744073709551616 := by norm_num
  rw [h63] at hr1 hr2
  rw [n64] at hl
  unfold absoluteIndexOf toUint64 wrapInt64
  rw [h63, h64, n64]
  by_cases hneg : r < 0
  · have e1 : ((-r + 9223372036854775808) % 18446744073709551616 - 9223372036854775808)
        % 18446744073709551616 = -r := by omega
    rw [if_pos hneg, e1, if_neg (show ¬ (0 ≤ r ∧ r < (l : Int)) by omega)]
    by_cases h1 : (-r).toNat > l
    · rw [if_pos h1, if_neg (show ¬ (r < 0 ∧ -r ≤ (l : Int)) by omega)]
    · rw [if_neg h1, if_pos (show r < 0 ∧ -r ≤ (l : Int) from ⟨hneg, by omega⟩)]
      congr 1
      omega
  · have e1 : r % 18446744073709551616 = r := by omega
    rw [if_neg hneg, e1]
    by_cases h1 : r.toNat ≥ l
    · rw [if_pos h1, if_neg (show ¬ (0 ≤ r ∧ r < (l : Int)) by omega),
        if_neg (show ¬ (r < 0 ∧ -r ≤ (l : Int)) by omega)]
    · rw [if_neg h1, if_pos (show 0 ≤ r ∧ r < (l : Int) from ⟨by omega, by omega⟩)]

theorem getAbsoluteIndex_collection {v : Value} {l : Nat} (hv : collectionLen v = some l)
    (r : Int) : getAbsoluteIndex v r = absoluteIndexOf l r := by
  cases v <;> simp only [collectionLen, Option.some.injEq] at hv <;>
    first
    | exact absurd hv (by simp)
    | (subst hv; rfl)

/-- C12. For a collection `v` of length `l` (`l < 2^64`) and an `int64` `r`,
`getAbsoluteIndex(v, r)` is ok exactly when `0 ≤ r < l`, or `r < 0` and
`-r ≤ l` over the integers; then `absIdx` is `r` in the first case and
`l + r` in the second, and `absIdx < l`.  This includes `r = -2^63`, whose
`int64` negation overflows. -/
theorem getAbsoluteIndex_spec (v : Value) (l : Nat) (r : Int) (hv : collectionLen v = some l)
    (hl : l < 2 ^ 64) (hr : -2 ^ 63 ≤ r ∧ r < 2 ^ 63) :
    ((getAbsoluteIndex v r).2 = true ↔ (0 ≤ r ∧ r < l) ∨ (r < 0 ∧ -r ≤ l)) ∧
    ((getAbsoluteIndex v r).2 = true →
      ((getAbsoluteIndex v r).1 : Int) = (if 0 ≤ r then r else l + r) ∧
      (getAbsoluteIndex v r).1 < l) := by
  rw [getAbsoluteIndex_collection hv, absoluteIndexOf_eq l r hl hr]
  by_cases h1 : 0 ≤ r ∧ r < l
  · rw [if_pos h1, if_pos h1.1]
    simp only [true_iff, true_implies]
    exact ⟨Or.inl h1, by omega, by omega⟩
  · rw [if_neg h1]
    by_cases h2 : r < 0 ∧ -r ≤ l
    · rw [if_pos h2, if_neg (by omega)]
      simp only [true_iff, true_implies]
      exact ⟨Or.inr h2, by omega, by omega⟩
    · rw [if_neg h2]
      simp only [Bool.false_eq_true, false_iff, false_implies, and_true]
      tauto

theorem getAbsoluteIndex_spec_witness :
    collectionLen exampleList = some 3 ∧ (3 : Nat) < 2 ^ 64 ∧
    (-2 ^ 63 ≤ (-2 : Int) ∧ (-2 : Int) < 2 ^ 63) ∧
    ((getAbsoluteIndex exampleList (-2)).2 = true ↔
      (0 ≤ (-2 : Int) ∧ (-2 : Int) < (3 : Nat)) ∨ ((-2 : Int) < 0 ∧ -(-2 : Int) ≤ (3 : Nat))) ∧
    ((getAbsoluteIndex exampleList (-2)).2 = true →
      ((getAbsoluteIndex exampleList (-2)).1 : Int)
        = (if 0 ≤ (-2 : Int) then (-2 : Int) else (3 : Nat) + (-2 : Int)) ∧
      (getAbsoluteIndex exampleList (-2)).1 < 3) :=
  ⟨by decide, by decide, by decide,
    getAbsoluteIndex_spec exampleList 3 (-2) (by decide) (by decide) (by decide)⟩


theorem mapHas_iff (m : List (Value × Value)) (k : Value) :
    mapHas m k = true ↔ k ∈ m.map Prod.fst := by
  simp only [mapHas, List.any_eq_true, decide_eq_true_eq, List.mem_map]

theorem mapGet_of_mem (m : List (Value × Value)) (k : Value) (h : k ∈ m.map Prod.fst) :
    ∃ v, (k, v) ∈ m ∧ mapGet m k = some v := by
  induction m with
  | nil => simp at h
  | cons e rest ih =>
    by_cases he : e.1 = k
    · refine ⟨e.2, ?_, ?_⟩
      · rw [← he]
        exact List.mem_cons_self _ _
      · simp [mapGet, List.find?, he]
    · have hk : k ∈ rest.map Prod.fst := by
        simp only [List.map_cons, List.mem_cons] at h
        rcases h with h | h
        · exact absurd h.symm he
        · exact h
      obtain ⟨v, hv, hg⟩ := ih hk
      refine ⟨v, List.mem_cons_of_mem _ hv, ?_⟩
      simpa [mapGet, List.find?, he] using hg

theorem mapGet_of_not_mem (m : List (Value × Value)) (k : Value) (h : k ∉ m.map Prod.fst) :
    mapGet m k = none := by
  induction m with
  | nil => rfl
  | cons e rest ih =>
    simp only [List.map_cons, List.mem_cons, not_or] at h
    have he : ¬ e.1 = k := fun h' => h.1 h'.symm
    simpa [mapGet, List.find?, he] using ih h.2

/-- C13. Resolving `IndexPath{Index: k, IntoKey}` in a map `m`: with `IntoKey`
false the result is `m.Get(k)`, the value of an entry of key `k` when `m` has
one and nil when it has none; with `IntoKey` true the result is `k` itself
when `m` has the key `k`, and nil otherwise. -/
theorem indexPath_resolve_map (outOfRange : ℚ → Int) (entries : EntryList) (k : Value) :
    IndexPath.Resolve outOfRange k false (.map entries) = mapGet entries.toList k ∧
    (mapGet entries.toList k =
      if k ∈ entries.toList.map Prod.fst then
        ((entries.toList.find? fun e => e.1 = k).map Prod.snd)
      else none) ∧
    (k ∈ entries.toList.map Prod.fst →
      ∃ v, (k, v) ∈ entries.toList ∧
        IndexPath.Resolve outOfRange k false (.map entries) = some v) ∧
    IndexPath.Resolve outOfRange k true (.map entries)
      = (if k ∈ entries.toList.map Prod.fst then some k else none) ∧
    IndexPath.Resolve (fun _ => 0) (.string (lit "a")) false exampleMap = some (.number 1) ∧
    IndexPath.Resolve (fun _ => 0) (.string (lit "a")) true exampleMap
      = some (.string (lit "a")) ∧
    IndexPath.Resolve (fun _ => 0) (.string (lit "c")) false exampleMap = none ∧
    IndexPath.Resolve (fun _ => 0) (.string (lit "c")) true exampleMap = none := by
  refine ⟨rfl, ?_, ?_, ?_, by decide, by decide, by decide, by decide⟩
  · split_ifs with h
    · obtain ⟨v, -, hv⟩ := mapGet_of_mem _ k h
      rw [hv]
      simp only [mapGet] at hv
      split at hv
      · rename_i e he
        rw [he]
        simpa using hv.symm
      · exact absurd hv (by simp)
    · exact mapGet_of_not_mem _ k h
  · intro h
    exact mapGet_of_mem _ k h
  · simp only [IndexPath.Resolve, Bool.not_true, Bool.false_eq_true, if_false]
    by_cases h : k ∈ entries.toList.map Prod.fst
    · rw [if_pos ((mapHas_iff _ k).2 h), if_pos h]
    · rw [if_neg (fun h' => h ((mapHas_iff _ k).1 h')), if_neg h]

/-- C14 fails as stated: the set `{true, 7, "a"}` has the element `"a"`, and
`IndexPath{Index: "a", IntoKey: true}` resolves to nil in it, not to `"a"`;
so do the paths of the elements `true` and `7`. -/
theorem indexPath_set_element_nil :
    setHas [.bool true, .number 7, .string (lit "a")] (.string (lit "a")) = true ∧
    exampleSet = .set (ValueList.ofList [.bool true, .number 7, .string (lit "a")]) ∧
    IndexPath.Resolve (fun _ => 0) (.string (lit "a")) true exampleSet = none ∧
    IndexPath.Resolve (fun _ => 0) (.bool true) true exampleSet = none ∧
    IndexPath.Resolve (fun _ => 0) (.number 7) true exampleSet = none ∧
    IndexPath.Resolve (fun _ => 0) (.string (lit "a")) true exampleSet
      ≠ some (.string (lit "a")) := by
  decide

/-- C14 (as amended). `IndexPath.Resolve` has cases for a list, a compound type
and a map only: in a set `s`, `IndexPath{Index: x, IntoKey}` resolves to nil
for every value `x`, element of `s` or not, and either `IntoKey`. -/
theorem indexPath_resolve_set (outOfRange : ℚ → Int) (x : Value) (IntoKey : Bool)
    (elems : ValueList) :
    IndexPath.Resolve outOfRange x IntoKey (.set elems) = none := by
  rfl

theorem float64ToInt64_intCast (outOfRange : ℚ → Int) (n : Int)
    (hn : -2 ^ 63 ≤ n ∧ n < 2 ^ 63) : float64ToInt64 outOfRange (n : ℚ) = n := by
  simp only [float64ToInt64, Rat.intCast_num]
  rw [if_pos hn]

/-- C15: the code departs from the comment on `AtAnnotation`.  In the list
`[10, 20, 30]`, `AtAnnotation{0, true}` resolves to nil and
`IndexPath{Number(0), true}` to `Number(0)`.  For every list and every `int64`
`n`: with `IntoKey` false the two parts resolve alike; with `IntoKey` true
the annotation resolves to nil, and the index path to the number of the
absolute index whenever `n` is in range. -/
theorem atAnnotation_differs_on_list_key :
    AtAnnotation.Resolve 0 true exampleList = none ∧
    IndexPath.Resolve (fun _ => 0) (.number 0) true exampleList = some (.number 0) ∧
    AtAnnotation.Resolve (-1) true exampleList = none ∧
    IndexPath.Resolve (fun _ => 0) (.number (-1)) true exampleList = some (.number 2) ∧
    (∀ (outOfRange : ℚ → Int) (elems : ValueList) (n : Int), -2 ^ 63 ≤ n ∧ n < 2 ^ 63 →
      AtAnnotation.Resolve n false (.list elems)
        = IndexPath.Resolve outOfRange (.number (n : ℚ)) false (.list elems)) ∧
    (∀ (elems : ValueList) (n : Int), AtAnnotation.Resolve n true (.list elems) = none) ∧
    (∀ (outOfRange : ℚ → Int) (elems : ValueList) (n : Int), -2 ^ 63 ≤ n ∧ n < 2 ^ 63 →
      IndexPath.Resolve outOfRange (.number (n : ℚ)) true (.list elems) =
        if (getAbsoluteIndex (.list elems) n).2 then
          some (.number ((getAbsoluteIndex (.list elems) n).1 : ℚ))
        else none) := by
  refine ⟨by decide, by decide, by decide, by decide, ?_, ?_, ?_⟩
  · intro outOfRange elems n hn
    simp only [ AtAnnotation.Resolve, IndexPath.Resolve, seqIndex, Rat.intCast_den,
      ne_eq, not_true_eq_false, if_false, float64ToInt64_intCast outOfRange n hn]
    rcases getAbsoluteIndex (.list elems) n with ⟨ai, _ | _⟩ <;> simp
  · intro elems n
    simp only [ AtAnnotation.Resolve]
    rcases getAbsoluteIndex (.list elems) n with ⟨ai, _ | _⟩ <;> simp
  · intro outOfRange elems n hn
    simp only [IndexPath.Resolve, seqIndex, Rat.intCast_den,
      ne_eq, not_true_eq_false, if_false, float64ToInt64_intCast outOfRange n hn]
    rcases getAbsoluteIndex (.list elems) n with ⟨ai, _ | _⟩ <;> simp

theorem rangesCover_sum {start : Nat} {readers : List (Nat × Nat)} {fileSize : Nat}
    (h : rangesCover start readers fileSize = true) :
    start + (readers.map Prod.snd).sum = fileSize := by
  induction readers generalizing start with
  | nil => simpa [rangesCover] using h
  | cons r rest ih =>
    obtain ⟨offset, limit⟩ := r
    simp only [rangesCover, Bool.and_eq_true, decide_eq_true_eq] at h
    have := ih h.2
    simp only [List.map_cons, List.sum_cons]
    omega

theorem rangesCover_content {start : Nat} {readers : List (Nat × Nat)} (file : List Nat)
    (h : rangesCover start readers file.length = true) :
    blobPutContent file readers = file.drop start := by
  induction readers generalizing start with
  | nil =>
    simp only [rangesCover, decide_eq_true_eq] at h
    simp [blobPutContent, h]
  | cons r rest ih =>
    obtain ⟨offset, limit⟩ := r
    simp only [rangesCover, Bool.and_eq_true, decide_eq_true_eq] at h
    have := ih h.2
    simp only [blobPutContent, List.flatMap_cons] at this ⊢
    rw [this, h.1, ← List.drop_drop, List.take_append_drop]

/-- The readers `k, k+1, .., n-1` of `n` readers of `chunkSize` bytes, the last
one lengthened by `extra`, go from `k * chunkSize` to the end. -/
theorem rangesCover_range (chunkSize extra n : Nat) (m k : Nat) (hm : 1 ≤ m) (hk : k + m = n) :
    rangesCover (k * chunkSize)
      ((List.range' k m).map fun i =>
        (i * chunkSize, if i = n - 1 then chunkSize + extra else chunkSize))
      (n * chunkSize + extra) = true := by
  induction m generalizing k with
  | zero => omega
  | succ m ih =>
    rw [List.range'_succ, List.map_cons]
    simp only [rangesCover, decide_True, Bool.true_and]
    by_cases hm0 : m = 0
    · subst hm0
      have hkn : k = n - 1 := by omega
      have hn : n = k + 1 := by omega
      simp only [List.range'_zero, List.map_nil, rangesCover, hkn, if_true, decide_eq_true_eq]
      rw [← hkn, hn, Nat.add_mul]
      omega
    · have hkn : k ≠ n - 1 := by omega
      rw [if_neg hkn]
      have := ih (k + 1) (by omega) (by omega)
      rw [Nat.add_mul, Nat.one_mul] at this
      exact this

theorem blobPutChunkSize_pos (fileSize : Nat) (concurrency : Int) :
    2 ^ 20 ≤ blobPutChunkSize fileSize concurrency := by
  unfold blobPutChunkSize
  split_ifs with h
  · exact Nat.le_refl _
  · have h2 : (2 : Int) ^ 20 ≤ (fileSize : Int).tdiv concurrency := not_lt.1 h
    have h3 : (((2 : Nat) ^ 20 : Nat) : Int) = (2 : Int) ^ 20 := by norm_num
    omega

theorem blobPutChunkSize_le (fileSize : Nat) (concurrency : Int) (hc : 1 ≤ concurrency)
    (hf : 2 ^ 20 ≤ fileSize) : blobPutChunkSize fileSize concurrency ≤ fileSize := by
  unfold blobPutChunkSize
  split_ifs with h
  · exact hf
  · have h1 : (fileSize : Int).tdiv concurrency ≤ fileSize := by
      rw [Int.tdiv_eq_ediv (Int.ofNat_nonneg _) (by omega)]
      exact Int.ediv_le_self _ (Int.ofNat_nonneg _)
    omega

/-- The readers of `nomsBlobPut` for `concurrency ≥ 1`: their ranges are
contiguous and end at `fileSize` exactly when the file is empty or holds
`2^20` bytes at least; a smaller file that is not empty gets no reader. -/
theorem nomsBlobPutReaders_spec (fileSize : Nat) (concurrency : Int) (hc : 1 ≤ concurrency) :
    ∃ readers, nomsBlobPutReaders fileSize concurrency = some readers ∧
      (rangesCover 0 readers fileSize = true ↔ fileSize = 0 ∨ 2 ^ 20 ≤ fileSize) ∧
      (fileSize < 2 ^ 20 → readers = []) := by
  have hpos := blobPutChunkSize_pos fileSize concurrency
  have heq : nomsBlobPutReaders fileSize concurrency =
      some ((List.range (fileSize / blobPutChunkSize fileSize concurrency)).map fun i =>
        (i * blobPutChunkSize fileSize concurrency,
          if i = fileSize / blobPutChunkSize fileSize concurrency - 1 then
            blobPutChunkSize fileSize concurrency
              + fileSize % blobPutChunkSize fileSize concurrency
          else blobPutChunkSize fileSize concurrency)) := by
    simp only [nomsBlobPutReaders, show concurrency ≠ 0 by omega, if_false]
  refine ⟨_, heq, ?_, ?_⟩
  · by_cases hf : 2 ^ 20 ≤ fileSize
    · have hle := blobPutChunkSize_le fileSize concurrency hc hf
      have hn : 1 ≤ fileSize / blobPutChunkSize fileSize concurrency :=
        (Nat.one_le_div_iff (by omega)).2 hle
      have := rangesCover_range (blobPutChunkSize fileSize concurrency)
        (fileSize % blobPutChunkSize fileSize concurrency)
        (fileSize / blobPutChunkSize fileSize concurrency) _ 0 hn (Nat.zero_add _)
      rw [Nat.zero_mul, Nat.div_add_mod'] at this
      simp only [List.range_eq_range', this, hf, or_true]
    · have h0 : fileSize / blobPutChunkSize fileSize concurrency = 0 :=
        Nat.div_eq_of_lt (by omega)
      simp only [h0, List.range_zero, List.map_nil, rangesCover, decide_eq_true_eq, hf, or_false]
      exact eq_comm
  · intro hf
    have h0 : fileSize / blobPutChunkSize fileSize concurrency = 0 :=
      Nat.div_eq_of_lt (by omega)
    simp only [h0, List.range_zero, List.map_nil]

/-- C16: `nomsBlobPut` drops a file of fewer than `2^20` bytes.  For a file of
5 bytes and `concurrency` 1, `chunkSize` is `2^20` and `fileSize/chunkSize` is
0: no reader is made, the ranges cover nothing of `[0, 5)` and the blob read
from `hello` is empty.  For every `concurrency ≥ 1`, the ranges of the
readers are contiguous, disjoint and cover `[0, fileSize)` (and their lengths
sum to `fileSize`, and the blob is the file) exactly when `fileSize` is 0 or
at least `2^20`. -/
theorem blobPut_small_file_dropped :
    nomsBlobPutReaders 5 1 = some [] ∧
    rangesCover 0 [] 5 = false ∧
    blobPutContent (lit "hello") [] = [] ∧
    (∀ (fileSize : Nat) (concurrency : Int), 1 ≤ concurrency →
      ∃ readers, nomsBlobPutReaders fileSize concurrency = some readers ∧
        (rangesCover 0 readers fileSize = true ↔ fileSize = 0 ∨ 2 ^ 20 ≤ fileSize) ∧
        ((readers.map Prod.snd).sum = fileSize ↔ fileSize = 0 ∨ 2 ^ 20 ≤ fileSize) ∧
        (∀ file : List Nat, file.length = fileSize →
          (blobPutContent file readers = file ↔ fileSize = 0 ∨ 2 ^ 20 ≤ fileSize))) := by
  refine ⟨by decide, by decide, by decide, ?_⟩
  intro fileSize concurrency hc
  obtain ⟨readers, hr, hcover, hsmall⟩ := nomsBlobPutReaders_spec fileSize concurrency hc
  refine ⟨readers, hr, hcover, ?_, ?_⟩
  · constructor
    · intro hsum
      by_contra hcon
      have hlt : fileSize < 2 ^ 20 := by omega
      rw [hsmall hlt] at hsum
      simp only [List.map_nil, List.sum_nil] at hsum
      omega
    · intro h
      have := rangesCover_sum (hcover.2 h)
      omega
  · intro file hlen
    constructor
    · intro hcontent
      by_contra hcon
      have hlt : fileSize < 2 ^ 20 := by omega
      rw [hsmall hlt] at hcontent
      simp only [blobPutContent, List.flatMap_nil] at hcontent
      rw [← hcontent] at hlen
      simp only [List.length_nil] at hlen
      omega
    · intro h
      have hc2 := hcover.2 h
      rw [← hlen] at hc2
      simpa using rangesCover_content file hc2

theorem utf8Encode_high {c : Nat} (h : ¬ c < 0x80) : ∀ b ∈ utf8Encode c, 0x80 ≤ b := by
  intro b hb
  unfold utf8Encode at hb
  rw [if_neg h] at hb
  split_ifs at hb <;> simp only [List.mem_cons, List.mem_singleton, List.mem_nil_iff,
    or_false] at hb <;> omega

theorem utf8Encode_byte {c : Nat} (h : c < 0x110000) : ∀ b ∈ utf8Encode c, b < 256 := by
  intro b hb
  unfold utf8Encode at hb
  split_ifs at hb <;> simp only [List.mem_cons, List.mem_singleton, List.mem_nil_iff,
    or_false] at hb <;> omega

theorem utf8Encode_ne_nil (c : Nat) : utf8Encode c ≠ [] := by
  unfold utf8Encode
  split_ifs <;> simp

theorem runeToString_ascii {ch : Nat} (h : ch < 0x80) : runeToString ch = [ch] := by
  simp only [runeToString, utf8Encode, h, if_true]
  rw [if_pos (Or.inl (by omega))]

theorem runeToString_high {ch : Nat} (h : ¬ ch < 0x80) : ∀ b ∈ runeToString ch, 0x80 ≤ b := by
  unfold runeToString
  split_ifs
  · exact utf8Encode_high h
  · exact utf8Encode_high (by decide)

theorem runeToString_byte (ch : Nat) : ∀ b ∈ runeToString ch, b < 256 := by
  unfold runeToString
  split_ifs with h
  · exact utf8Encode_byte (by omega)
  · exact utf8Encode_byte (by decide)

theorem runeToString_ne_nil (ch : Nat) : runeToString ch ≠ [] := by
  unfold runeToString
  split_ifs <;> exact utf8Encode_ne_nil _

theorem tailFieldNameClass_lt {b : Nat} (h : tailFieldNameClass b = true) : b < 0x80 := by
  simp only [tailFieldNameClass, Bool.or_eq_true, Bool.and_eq_true, decide_eq_true_eq] at h
  omega

theorem headFieldNameClass_tail {b : Nat} (h : headFieldNameClass b = true) :
    tailFieldNameClass b = true := by
  simp only [headFieldNameClass, Bool.or_eq_true, Bool.and_eq_true, decide_eq_true_eq] at h
  simp only [tailFieldNameClass, Bool.or_eq_true, Bool.and_eq_true, decide_eq_true_eq]
  omega

/-- A class of ASCII characters matches the string of one rune exactly when
the rune is in the class. -/
theorem classMatchString_rune (p : Nat → Bool) (hp : ∀ b, p b = true → b < 0x80) (ch : Nat) :
    classMatchString p (runeToString ch) = p ch := by
  by_cases h : ch < 0x80
  · simp [classMatchString, runeToString_ascii h]
  · have h1 : classMatchString p (runeToString ch) = false := by
      simp only [classMatchString, List.any_eq_false]
      intro b hb hpb
      have := hp b hpb
      have := runeToString_high h b hb
      omega
    have h2 : p ch = false := by
      by_contra hc
      exact h (hp ch (by simpa using hc))
    rw [h1, h2]

theorem runeToString_eq_escapeChar (ch : Nat) : runeToString ch = escapeChar ↔ ch = 0x51 := by
  by_cases h : ch < 0x80
  · simp [runeToString_ascii h, escapeChar]
  · constructor
    · intro he
      have := runeToString_high h 0x51 (by rw [he]; simp [escapeChar])
      omega
    · intro he
      omega

theorem sprintfX_length (s : GoString) : (sprintfX s).length = 2 * s.length := by
  induction s with
  | nil => rfl
  | cons b rest ih =>
    simp only [sprintfX, List.flatMap_cons, List.length_append, List.length_cons,
      List.length_nil] at ih ⊢
    omega

theorem hexDigitUpper_class {d : Nat} (h : d < 16) : tailFieldNameClass (hexDigitUpper d) = true := by
  unfold hexDigitUpper
  simp only [tailFieldNameClass, Bool.or_eq_true, Bool.and_eq_true, decide_eq_true_eq]
  split_ifs <;> omega

theorem sprintfX_class (s : GoString) (hs : ∀ b ∈ s, b < 256) :
    ∀ b ∈ sprintfX s, tailFieldNameClass b = true := by
  intro b hb
  simp only [sprintfX, List.mem_flatMap, List.mem_cons, List.mem_singleton, List.mem_nil_iff,
    or_false] at hb
  obtain ⟨a, ha, rfl | rfl⟩ := hb
  · exact hexDigitUpper_class (by have := hs a ha; omega)
  · exact hexDigitUpper_class (by omega)

/-- The closure `encode` on the string of one rune is the escape of the
specification. -/
theorem encode_head (ch : Nat) :
    encode (runeToString ch) headFieldNameClass = escapeRuneSpec true ch := by
  have hlen : (sprintfX (runeToString ch)).length ≠ 1 := by
    rw [sprintfX_length]
    omega
  have halpha : isAlpha ch = headFieldNameClass ch := by simp [isAlpha, headFieldNameClass]
  have hq : runeToString ch = [0x51] ↔ ch = 0x51 := runeToString_eq_escapeChar ch
  simp only [encode, escapeRuneSpec, if_true, halpha,
    classMatchString_rune headFieldNameClass
      (fun b hb => tailFieldNameClass_lt (headFieldNameClass_tail hb)) ch,
    Bool.and_eq_true, decide_eq_true_eq, ne_eq, hlen, if_false,
    List.nil_append, escapeChar, decide_not, Bool.not_eq_true', decide_eq_false_iff_not, hq,
    List.singleton_append]

theorem encode_tail (ch : Nat) :
    encode (runeToString ch) tailFieldNameClass = escapeRuneSpec false ch := by
  have hlen : (sprintfX (runeToString ch)).length ≠ 1 := by
    rw [sprintfX_length]
    omega
  have halpha : isAlphaNumOrUnderscore ch = tailFieldNameClass ch := by
    simp [isAlphaNumOrUnderscore, tailFieldNameClass]
  have hq : runeToString ch = [0x51] ↔ ch = 0x51 := runeToString_eq_escapeChar ch
  simp only [encode, escapeRuneSpec, if_false, halpha,
    classMatchString_rune tailFieldNameClass (fun b hb => tailFieldNameClass_lt hb) ch,
    Bool.and_eq_true, decide_eq_true_eq, ne_eq, hlen, Bool.false_eq_true,
    List.nil_append, escapeChar, decide_not, Bool.not_eq_true', decide_eq_false_iff_not, hq,
    List.singleton_append]


theorem escapeFieldLoop_spec (runes : List (Nat × Nat)) (output : GoString) :
    escapeFieldLoop encode runes tailFieldNameClass output
      = output ++ escapeRunesSpec false (runes.map Prod.snd) := by
  induction runes generalizing output with
  | nil => simp [escapeFieldLoop, escapeRunesSpec]
  | cons r rest ih =>
    obtain ⟨i, ch⟩ := r
    simp only [escapeFieldLoop, List.map_cons, escapeRunesSpec, ih, encode_tail,
      List.append_assoc]

theorem escapeField_spec (input : GoString) :
    escapeField input encode = escapeStructFieldSpec input := by
  unfold escapeField escapeStructFieldSpec
  cases rangeRunes input.length 0 input with
  | nil => rfl
  | cons r rest =>
    obtain ⟨i, ch⟩ := r
    simp only [escapeFieldLoop, List.map_cons, escapeRunesSpec, escapeFieldLoop_spec,
      encode_head, List.nil_append]

theorem rangeRunes_ascii (fuel i : Nat) (s : GoString) (hs : ∀ b ∈ s, b < 0x80)
    (hf : s.length ≤ fuel) : (rangeRunes fuel i s).map Prod.snd = s := by
  induction fuel generalizing i s with
  | zero =>
    have : s = [] := List.length_eq_zero.1 (Nat.le_zero.1 hf)
    subst this
    rfl
  | succ fuel ih =>
    cases s with
    | nil => rfl
    | cons b rest =>
      have hb : b < 0x80 := hs b (List.mem_cons_self _ _)
      simp only [rangeRunes, decodeRune_ascii rest hb, List.map_cons, List.drop_succ_cons,
        List.drop_zero, List.cons.injEq, true_and]
      exact ih _ rest (fun x hx => hs x (List.mem_cons_of_mem _ hx))
        (by simpa using hf)

theorem escapeRunesSpec_tail_id (s : GoString)
    (hs : ∀ b ∈ s, tailFieldNameClass b = true ∧ b ≠ 0x51) : escapeRunesSpec false s = s := by
  induction s with
  | nil => rfl
  | cons b rest ih =>
    have hb := hs b (List.mem_cons_self _ _)
    have h1 : isAlphaNumOrUnderscore b = true := by
      have := hb.1
      simpa [isAlphaNumOrUnderscore, tailFieldNameClass] using this
    simp only [escapeRunesSpec, escapeRuneSpec, Bool.false_eq_true, if_false, h1, hb.2, ne_eq,
      not_false_eq_true, and_self, if_true, runeToString_ascii (tailFieldNameClass_lt hb.1),
      ih (fun x hx => hs x (List.mem_cons_of_mem _ hx)), List.singleton_append]

/-- A valid name without `Q` is its own escape under the wording of the
specification. -/
theorem escapeStructFieldSpec_valid (input : GoString)
    (hv : IsValidStructFieldName input = true) (hq : escapeRegexMatchString input = false) :
    escapeStructFieldSpec input = input := by
  rw [isValid_eq_match] at hv
  cases input with
  | nil => simp [fieldNameReMatch] at hv
  | cons c rest =>
    simp only [fieldNameReMatch, Bool.and_eq_true, List.all_eq_true] at hv
    simp only [escapeRegexMatchString, List.any_eq_false, decide_eq_true_eq] at hq
    have hall : ∀ b ∈ c :: rest, b < 0x80 := by
      intro b hb
      rcases List.mem_cons.1 hb with rfl | hb
      · exact tailFieldNameClass_lt (headFieldNameClass_tail hv.1)
      · exact tailFieldNameClass_lt (hv.2 b hb)
    unfold escapeStructFieldSpec
    rw [rangeRunes_ascii _ 0 _ hall (Nat.le_refl _)]
    have h1 : isAlpha c = true := by
      have := hv.1
      simpa [isAlpha, headFieldNameClass] using this
    simp only [escapeRunesSpec, escapeRuneSpec, if_true, h1,
      hq c (List.mem_cons_self _ _), ne_eq, not_false_eq_true, and_self,
      runeToString_ascii (hall c (List.mem_cons_self _ _)), List.singleton_append,
      escapeRunesSpec_tail_id rest
        (fun b hb => ⟨hv.2 b hb, hq b (List.mem_cons_of_mem _ hb)⟩)]

theorem escapeRuneSpec_class (first : Bool) (ch : Nat) :
    ∀ b ∈ escapeRuneSpec first ch, tailFieldNameClass b = true := by
  intro b hb
  have hesc : ∀ b ∈ (0x51 :: sprintfX (runeToString ch) : GoString),
      tailFieldNameClass b = true := by
    intro b hb
    rcases List.mem_cons.1 hb with rfl | hb
    · decide
    · exact sprintfX_class _ (runeToString_byte ch) b hb
  cases first
  · simp only [escapeRuneSpec, Bool.false_eq_true, if_false] at hb
    by_cases h : isAlphaNumOrUnderscore ch = true ∧ ch ≠ 0x51
    · rw [if_pos h] at hb
      have h1 : tailFieldNameClass ch = true := by
        have := h.1
        simpa [isAlphaNumOrUnderscore, tailFieldNameClass] using this
      rw [runeToString_ascii (tailFieldNameClass_lt h1), List.mem_singleton] at hb
      rw [hb]
      exact h1
    · rw [if_neg h] at hb
      exact hesc b hb
  · simp only [escapeRuneSpec, if_true] at hb
    by_cases h : isAlpha ch = true ∧ ch ≠ 0x51
    · rw [if_pos h] at hb
      have h1 : headFieldNameClass ch = true := by
        have := h.1
        simpa [isAlpha, headFieldNameClass] using this
      have h2 := headFieldNameClass_tail h1
      rw [runeToString_ascii (tailFieldNameClass_lt h2), List.mem_singleton] at hb
      rw [hb]
      exact h2
    · rw [if_neg h] at hb
      exact hesc b hb

theorem escapeRunesSpec_class (first : Bool) (runes : List Nat) :
    ∀ b ∈ escapeRunesSpec first runes, tailFieldNameClass b = true := by
  induction runes generalizing first with
  | nil => simp [escapeRunesSpec]
  | cons ch rest ih =>
    intro b hb
    simp only [escapeRunesSpec, List.mem_append] at hb
    rcases hb with hb | hb
    · exact escapeRuneSpec_class first ch b hb
    · exact ih false b hb

theorem escapeRuneSpec_head (ch : Nat) :
    ∃ c rest, escapeRuneSpec true ch = c :: rest ∧ headFieldNameClass c = true := by
  simp only [escapeRuneSpec, if_true]
  by_cases h : isAlpha ch = true ∧ ch ≠ 0x51
  · rw [if_pos h]
    have h1 : headFieldNameClass ch = true := by
      have := h.1
      simpa [isAlpha, headFieldNameClass] using this
    exact ⟨ch, [], runeToString_ascii (tailFieldNameClass_lt (headFieldNameClass_tail h1)), h1⟩
  · rw [if_neg h]
    exact ⟨0x51, _, rfl, by decide⟩

/-- The escape of a non-empty name, under the wording of the specification,
is a valid field name. -/
theorem escapeStructFieldSpec_isValid (input : GoString) (hne : input ≠ []) :
    IsValidStructFieldName (escapeStructFieldSpec input) = true := by
  rw [isValid_eq_match]
  cases input with
  | nil => exact absurd rfl hne
  | cons b rest =>
    unfold escapeStructFieldSpec
    simp only [List.length_cons, rangeRunes, List.map_cons, escapeRunesSpec]
    obtain ⟨c, r, hc, hhead⟩ := escapeRuneSpec_head (decodeRune (b :: rest)).1
    have hcls := escapeRuneSpec_class true (decodeRune (b :: rest)).1
    rw [hc] at hcls ⊢
    simp only [List.cons_append, fieldNameReMatch, hhead, Bool.true_and, List.all_eq_true,
      List.mem_append]
    rintro x (hx | hx)
    · exact hcls x (List.mem_cons_of_mem _ hx)
    · exact escapeRunesSpec_class false _ x hx

/-- C17. `EscapeStructField` returns, for every input, the escape that the
specification words: every character that is not allowed at its position
(`[a-zA-Z]` first, `[a-zA-Z0-9_]` after) and every `Q` is replaced by `Q`
followed by the upper-case hexadecimal digits of its UTF-8 bytes, the other
characters stay.  For a non-empty input the result is a valid struct field
name; an input that is valid and has no `Q` is returned unchanged. -/
theorem escapeStructField_spec (input : GoString) :
    EscapeStructField input = escapeStructFieldSpec input ∧
    (input ≠ [] → IsValidStructFieldName (EscapeStructField input) = true) ∧
    (IsValidStructFieldName input = true → escapeRegexMatchString input = false →
      EscapeStructField input = input) := by
  have h1 : EscapeStructField input = escapeStructFieldSpec input := by
    unfold EscapeStructField
    split_ifs with h
    · simp only [Bool.and_eq_true, Bool.not_eq_true'] at h
      exact (escapeStructFieldSpec_valid input h.2 h.1).symm
    · exact escapeField_spec input
  refine ⟨h1, ?_, ?_⟩
  · intro hne
    rw [h1]
    exact escapeStructFieldSpec_isValid input hne
  · intro hv hq
    rw [h1]
    exact escapeStructFieldSpec_valid input hv hq

theorem escapeStructField_spec_witness :
    lit "a b" ≠ [] ∧
    IsValidStructFieldName (EscapeStructField (lit "a b")) = true ∧
    EscapeStructField (lit "a b") = lit "aQ20b" ∧
    EscapeStructField (lit "1Qé") = lit "Q31Q51QC3A9" ∧
    IsValidStructFieldName (lit "abc") = true ∧ escapeRegexMatchString (lit "abc") = false ∧
    EscapeStructField (lit "abc") = lit "abc" :=
  ⟨by decide, (escapeStructField_spec (lit "a b")).2.1 (by decide), by decide, by decide,
    by decide, by decide, (escapeStructField_spec (lit "abc")).2.2 (by decide) (by decide)⟩

theorem sumLen_take_succ {α : Type} (l : List (List α)) (p : Nat) :
    ((l.take (p + 1)).map List.length).sum
      = ((l.take p).map List.length).sum + ((l.get? p).getD []).length := by
  induction l generalizing p with
  | nil => simp
  | cons c rest ih =>
    cases p with
    | zero => simp
    | succ p =>
      simp only [List.take_succ_cons, List.map_cons, List.sum_cons, List.get?_cons_succ]
      rw [ih p]
      omega

theorem sumLen_take_le {α : Type} (l : List (List α)) (p : Nat) :
    ((l.take p).map List.length).sum ≤ (l.map List.length).sum := by
  have := List.sum_take_add_sum_drop (l.map List.length) p
  rw [List.map_take]
  omega

theorem sumLen_take_all {α : Type} (l : List (List α)) (p : Nat) (hp : l.length ≤ p) :
    ((l.take p).map List.length).sum = (l.map List.length).sum := by
  rw [List.take_of_length_le hp]

theorem chunk_ne_nil {α : Type} (l : List (List α)) (hne : ∀ c ∈ l, c ≠ []) (p : Nat)
    (hp : p < l.length) : 1 ≤ ((l.get? p).getD []).length := by
  have hget : l.get? p = some (l.get ⟨p, hp⟩) := List.get?_eq_get hp
  rw [hget]
  have := hne _ (List.get_mem l p hp)
  simp only [Option.getD_some]
  exact List.length_pos.2 this

theorem flatten_get {α : Type} (l : List (List α)) (p i : Nat)
    (hi : i < ((l.get? p).getD []).length) :
    l.flatten.get? (((l.take p).map List.length).sum + i) = ((l.get? p).getD []).get? i := by
  induction l generalizing p with
  | nil => simp at hi
  | cons c rest ih =>
    cases p with
    | zero =>
      simp only [List.get?_cons_zero, Option.getD_some] at hi
      simp only [List.flatten_cons, List.take_zero, List.map_nil, List.sum_nil, Nat.zero_add,
        List.get?_cons_zero, Option.getD_some, List.get?_eq_getElem?, List.getElem?_cons_zero]
      exact List.getElem?_append_left hi
    | succ p =>
      simp only [List.get?_cons_succ] at hi
      have := ih p hi
      simp only [List.flatten_cons, List.take_succ_cons, List.map_cons, List.sum_cons,
        List.get?_cons_succ, List.get?_eq_getElem?, List.getElem?_cons_succ] at this ⊢
      rw [List.getElem?_append_right (by omega), ← this]
      congr 1
      omega


/-- The chunk at the index `p` of the parent sequence. -/
theorem leaf_mk {α : Type} (chunks : List (List α)) (p : Nat) (idx : Int) :
    (sequenceCursor.mk chunks (p : Int) idx).leaf = (chunks.get? p).getD [] := by
  simp [sequenceCursor.leaf]

/-- A valid cursor is at the item of its position in document order. -/
theorem cursor_at {α : Type} (chunks : List (List α)) (p i : Nat)
    (hi : i < ((chunks.get? p).getD []).length) :
    (sequenceCursor.mk chunks (p : Int) (i : Int)).valid = true ∧
    (sequenceCursor.mk chunks (p : Int) (i : Int)).position
      = ((((chunks.take p).map List.length).sum + i : Nat) : Int) ∧
    (sequenceCursor.mk chunks (p : Int) (i : Int)).current
      = chunks.flatten.get? (((chunks.take p).map List.length).sum + i) := by
  have hval : (sequenceCursor.mk chunks (p : Int) (i : Int)).valid = true := by
    simp only [sequenceCursor.valid, leaf_mk, Bool.and_eq_true, decide_eq_true_eq]
    omega
  refine ⟨hval, ?_, ?_⟩
  · simp [sequenceCursor.position]
  · simp only [sequenceCursor.current, hval, if_true, leaf_mk, Int.toNat_ofNat]
    exact (flatten_get chunks p i hi).symm

theorem position_lt_count {α : Type} (chunks : List (List α)) (p i : Nat)
    (hi : i < ((chunks.get? p).getD []).length) :
    ((chunks.take p).map List.length).sum + i < (chunks.map List.length).sum := by
  have h1 := sumLen_take_succ chunks p
  have h2 := sumLen_take_le chunks (p + 1)
  omega


/-- The moves of a valid cursor, by the place of its item. -/
theorem cursor_moves {α : Type} (chunks : List (List α)) (p i : Nat)
    (hne : ∀ c ∈ chunks, c ≠ []) (hp : p < chunks.length) :
    (i + 1 < ((chunks.get? p).getD []).length →
      (sequenceCursor.mk chunks (p : Int) (i : Int)).advance
        = (⟨chunks, (p : Int), ((i + 1 : Nat) : Int)⟩, true)) ∧
    (i + 1 = ((chunks.get? p).getD []).length → p + 1 < chunks.length →
      (sequenceCursor.mk chunks (p : Int) (i : Int)).advance
        = (⟨chunks, ((p + 1 : Nat) : Int), ((0 : Nat) : Int)⟩, true)) ∧
    (i + 1 = ((chunks.get? p).getD []).length → p + 1 = chunks.length →
      (sequenceCursor.mk chunks (p : Int) (i : Int)).advance
        = (⟨chunks, (p : Int), (((chunks.get? p).getD []).length : Int)⟩, false)) ∧
    (sequenceCursor.mk chunks (p : Int) (((chunks.get? p).getD []).length : Int)).advance
        = (⟨chunks, (p : Int), (((chunks.get? p).getD []).length : Int)⟩, false) ∧
    (i + 1 = ((chunks.get? p).getD []).length →
      (sequenceCursor.mk chunks (p : Int) (((chunks.get? p).getD []).length : Int)).retreat
        = (⟨chunks, (p : Int), (i : Int)⟩, true)) ∧
    (0 < i →
      (sequenceCursor.mk chunks (p : Int) (i : Int)).retreat
        = (⟨chunks, (p : Int), ((i - 1 : Nat) : Int)⟩, true)) ∧
    (i = 0 → 0 < p →
      (sequenceCursor.mk chunks (p : Int) (i : Int)).retreat
        = (⟨chunks, ((p - 1 : Nat) : Int),
            ((((chunks.get? (p - 1)).getD []).length - 1 : Nat) : Int)⟩, true)) ∧
    (i = 0 → p = 0 →
      (sequenceCursor.mk chunks (p : Int) (i : Int)).retreat
        = (⟨chunks, (p : Int), -1⟩, false)) ∧
    (sequenceCursor.mk chunks (p : Int) (-1)).retreat = (⟨chunks, (p : Int), -1⟩, false) ∧
    (i = 0 →
      (sequenceCursor.mk chunks (p : Int) (-1)).advance = (⟨chunks, (p : Int), (i : Int)⟩, true)) := by
  have hlen := chunk_ne_nil chunks hne p hp
  refine ⟨?_, ?_, ?_, ?_, ?_, ?_, ?_, ?_, ?_, ?_⟩
  · intro h
    simp only [sequenceCursor.advance, leaf_mk]
    rw [if_pos (by omega)]
    simp
  · intro h h2
    simp only [sequenceCursor.advance, leaf_mk]
    rw [if_neg (by omega), if_neg (by omega), if_pos (by omega)]
    simp
  · intro h h2
    simp only [sequenceCursor.advance, leaf_mk]
    rw [if_neg (by omega), if_neg (by omega), if_neg (by omega)]
    simp only [Prod.mk.injEq, sequenceCursor.mk.injEq, true_and, and_true]
    omega
  · simp only [sequenceCursor.advance, leaf_mk]
    rw [if_neg (by omega), if_pos trivial]
  · intro h
    simp only [sequenceCursor.retreat]
    rw [if_pos (by omega)]
    simp only [Prod.mk.injEq, sequenceCursor.mk.injEq, true_and, and_true]
    omega
  · intro h
    simp only [sequenceCursor.retreat]
    rw [if_pos (by omega)]
    simp only [Prod.mk.injEq, sequenceCursor.mk.injEq, true_and, and_true]
    omega
  · intro h h2
    have hlen2 := chunk_ne_nil chunks hne (p - 1) (by omega)
    simp only [sequenceCursor.retreat]
    rw [if_neg (by omega), if_neg (by omega), if_pos (by omega)]
    have e : ((p : Int) - 1).toNat = p - 1 := by omega
    simp only [e, Prod.mk.injEq, sequenceCursor.mk.injEq, true_and, and_true]
    omega
  · intro h h2
    simp only [sequenceCursor.retreat]
    rw [if_neg (by omega), if_neg (by omega), if_neg (by omega)]
    simp only [Prod.mk.injEq, sequenceCursor.mk.injEq, true_and, and_true]
    omega
  · simp only [sequenceCursor.retreat]
    rw [if_neg (by omega), if_pos trivial]
  · intro h
    simp only [sequenceCursor.advance, leaf_mk]
    rw [if_pos (by omega)]
    simp only [Prod.mk.injEq, sequenceCursor.mk.injEq, true_and, and_true]
    omega


/-- C18. Over a two-level tree whose leaf chunks are not empty, a valid cursor
is at the item of its position in document order.  `advance` from an item
that is not the last returns true and moves to the next item; from the last
item it returns false and leaves the cursor invalid, its index equal to the
length of the last leaf and the parent index unchanged; a further `advance`
returns false and changes nothing, and one `retreat` from that state lands
on the last item.  `retreat` is symmetric: from an item that is not the
first it returns true and moves to the item before; from the first item it
returns false and leaves the cursor invalid at index `-1`, the parent index
0; a further `retreat` returns false and changes nothing, and one `advance`
from that state lands on the first item. -/
theorem cursor_boundary {α : Type} (cur : sequenceCursor α)
    (hne : ∀ c ∈ cur.chunks, c ≠ [])
    (hp : 0 ≤ cur.parentIdx ∧ cur.parentIdx < cur.chunks.length)
    (hv : cur.valid = true) :
    (0 ≤ cur.position ∧ cur.position < cur.count ∧
      cur.current = cur.chunks.flatten.get? cur.position.toNat) ∧
    (cur.position + 1 < cur.count →
      cur.advance.2 = true ∧ cur.advance.1.chunks = cur.chunks ∧
      (0 ≤ cur.advance.1.parentIdx ∧ cur.advance.1.parentIdx < cur.chunks.length) ∧
      cur.advance.1.valid = true ∧ cur.advance.1.position = cur.position + 1 ∧
      cur.advance.1.current = cur.chunks.flatten.get? (cur.position.toNat + 1)) ∧
    (cur.position + 1 = cur.count →
      cur.parentIdx + 1 = cur.chunks.length ∧
      cur.advance = ({ cur with idx := cur.leaf.length }, false) ∧
      sequenceCursor.valid { cur with idx := cur.leaf.length } = false ∧
      sequenceCursor.advance { cur with idx := cur.leaf.length }
        = ({ cur with idx := cur.leaf.length }, false) ∧
      sequenceCursor.retreat { cur with idx := cur.leaf.length } = (cur, true)) ∧
    (0 < cur.position →
      cur.retreat.2 = true ∧ cur.retreat.1.chunks = cur.chunks ∧
      (0 ≤ cur.retreat.1.parentIdx ∧ cur.retreat.1.parentIdx < cur.chunks.length) ∧
      cur.retreat.1.valid = true ∧ cur.retreat.1.position = cur.position - 1 ∧
      cur.retreat.1.current = cur.chunks.flatten.get? (cur.position.toNat - 1)) ∧
    (cur.position = 0 →
      cur.parentIdx = 0 ∧
      cur.retreat = ({ cur with idx := -1 }, false) ∧
      sequenceCursor.valid { cur with idx := -1 } = false ∧
      sequenceCursor.retreat { cur with idx := -1 } = ({ cur with idx := -1 }, false) ∧
      sequenceCursor.advance { cur with idx := -1 } = (cur, true)) := by
  obtain ⟨chunks, parentIdx, idx⟩ := cur
  simp only at hne hp
  obtain ⟨p, rfl⟩ := Int.eq_ofNat_of_zero_le hp.1
  have hp2 : p < chunks.length := by omega
  simp only [sequenceCursor.valid, leaf_mk, Bool.and_eq_true, decide_eq_true_eq] at hv
  obtain ⟨i, rfl⟩ := Int.eq_ofNat_of_zero_le hv.1
  have hi : i < ((chunks.get? p).getD []).length := by omega
  obtain ⟨hA1, hA2, hA3⟩ := cursor_at chunks p i hi
  obtain ⟨m1, m2, m3, m4, m5, m6, m7, m8, m9, m10⟩ := cursor_moves chunks p i hne hp2
  have hlt := position_lt_count chunks p i hi
  have hsucc := sumLen_take_succ chunks p
  have hle := sumLen_take_le chunks (p + 1)
  have hcount : (sequenceCursor.mk chunks (p : Int) (i : Int)).count
      = (((chunks.map List.length).sum : Nat) : Int) := rfl
  simp only [leaf_mk, hcount, hA2, hA3, Int.toNat_ofNat]
  refine ⟨⟨by omega, by omega, trivial⟩, ?_, ?_, ?_, ?_⟩
  · intro hpos
    by_cases h1 : i + 1 < ((chunks.get? p).getD []).length
    · obtain ⟨hB1, hB2, hB3⟩ := cursor_at chunks p (i + 1) h1
      rw [m1 h1]
      refine ⟨rfl, rfl, ⟨by simp only; omega, by simp only; omega⟩, hB1, ?_, ?_⟩
      · rw [hB2]
        omega
      · rw [hB3]
        rfl
    · have h2 : i + 1 = ((chunks.get? p).getD []).length := by omega
      have h3 : p + 1 < chunks.length := by
        by_contra hcon
        have : p + 1 = chunks.length := by omega
        have := sumLen_take_all chunks (p + 1) (by omega)
        omega
      have hlen := chunk_ne_nil chunks hne (p + 1) h3
      obtain ⟨hB1, hB2, hB3⟩ := cursor_at chunks (p + 1) 0 (by omega)
      rw [m2 h2 h3]
      refine ⟨rfl, rfl, ⟨by simp only; omega, by simp only; omega⟩, hB1, ?_, ?_⟩
      · rw [hB2]
        omega
      · rw [hB3]
        congr 1
        omega
  · intro hpos
    have h2 : i + 1 = ((chunks.get? p).getD []).length := by omega
    have h3 : p + 1 = chunks.length := by
      by_contra hcon
      have h4 : p + 1 < chunks.length := by omega
      have hlen := chunk_ne_nil chunks hne (p + 1) h4
      have := sumLen_take_succ chunks (p + 1)
      have := sumLen_take_le chunks (p + 1 + 1)
      omega
    refine ⟨by omega, m3 h2 h3, ?_, m4, m5 h2⟩
    simp [sequenceCursor.valid, leaf_mk]
  · intro hpos
    by_cases h1 : 0 < i
    · obtain ⟨hB1, hB2, hB3⟩ := cursor_at chunks p (i - 1) (by omega)
      rw [m6 h1]
      refine ⟨rfl, rfl, ⟨by simp only; omega, by simp only; omega⟩, hB1, ?_, ?_⟩
      · rw [hB2]
        omega
      · rw [hB3]
        congr 1
        omega
    · have h2 : i = 0 := by omega
      have h3 : 0 < p := by
        by_contra hcon
        have : p = 0 := by omega
        subst this
        simp at hpos
        omega
      have hlen := chunk_ne_nil chunks hne (p - 1) (by omega)
      have hs := sumLen_take_succ chunks (p - 1)
      have e : p - 1 + 1 = p := by omega
      rw [e] at hs
      obtain ⟨hB1, hB2, hB3⟩ := cursor_at chunks (p - 1)
        (((chunks.get? (p - 1)).getD []).length - 1) (by omega)
      rw [m7 h2 h3]
      refine ⟨rfl, rfl, ⟨by simp only; omega, by simp only; omega⟩, hB1, ?_, ?_⟩
      · rw [hB2]
        omega
      · rw [hB3]
        congr 1
        omega
  · intro hpos
    have h2 : i = 0 := by omega
    have h3 : p = 0 := by
      by_contra hcon
      have hlen := chunk_ne_nil chunks hne (p - 1) (by omega)
      have hs := sumLen_take_succ chunks (p - 1)
      have e : p - 1 + 1 = p := by omega
      rw [e] at hs
      omega
    refine ⟨by omega, m8 h2 h3, ?_, m9, m10 h2⟩
    simp [sequenceCursor.valid, leaf_mk]

theorem cursor_boundary_witness :
    (∀ c ∈ (newTestSequenceCursor testTree).advance.1.chunks, c ≠ []) ∧
    (0 ≤ (newTestSequenceCursor testTree).advance.1.parentIdx ∧
      (newTestSequenceCursor testTree).advance.1.parentIdx
        < (newTestSequenceCursor testTree).advance.1.chunks.length) ∧
    (newTestSequenceCursor testTree).advance.1.valid = true ∧
    (newTestSequenceCursor testTree).advance.1.position + 1
      < (newTestSequenceCursor testTree).advance.1.count ∧
    (newTestSequenceCursor testTree).advance.1.advance.2 = true ∧
    (newTestSequenceCursor testTree).advance.1.advance.1.current
      = testTree.flatten.get? (1 + 1) ∧
    expectOf (newTestSequenceCursor testTree).advance.1.advance.1 = (0, 1, true, some 102) :=
  ⟨by decide, by decide, by decide, by decide,
    ((cursor_boundary (newTestSequenceCursor testTree).advance.1 (by decide) (by decide)
      (by decide)).2.1 (by decide)).1,
    ((cursor_boundary (newTestSequenceCursor testTree).advance.1 (by decide) (by decide)
      (by decide)).2.1 (by decide)).2.2.2.2.2,
    by decide⟩

theorem queueTop_none (g : CommitGraph) (q : List Nat) (h : queueTop g q = none) : q = [] := by
  cases q with
  | nil => rfl
  | cons y ys =>
    exfalso
    simp only [queueTop] at h
    cases h2 : queueTop g ys with
    | none => simp [h2] at h
    | some r =>
      simp only [h2] at h
      by_cases hlt : g.height y < g.height r
      · simp [hlt] at h
      · simp [hlt] at h

theorem queueTop_spec (g : CommitGraph) (q : List Nat) (r : Nat) (h : queueTop g q = some r) :
    r ∈ q ∧ ∀ u ∈ q, g.height u ≤ g.height r := by
  induction q generalizing r with
  | nil => simp [queueTop] at h
  | cons x rest ih =>
    simp only [queueTop] at h
    cases hq : queueTop g rest with
    | none =>
      have hrest := queueTop_none g rest hq
      subst hrest
      simp only [hq, Option.some.injEq] at h
      subst h
      simp
    | some r2 =>
      obtain ⟨hmem, hmax⟩ := ih r2 hq
      simp only [hq] at h
      by_cases hlt : g.height x < g.height r2
      · simp only [hlt, if_true, Option.some.injEq] at h
        subst h
        refine ⟨List.mem_cons_of_mem _ hmem, ?_⟩
        intro u hu
        rcases List.mem_cons.1 hu with rfl | hu
        · omega
        · exact hmax u hu
      · simp only [hlt, if_false, Option.some.injEq] at h
        subst h
        refine ⟨List.mem_cons_self _ _, ?_⟩
        intro u hu
        rcases List.mem_cons.1 hu with rfl | hu
        · exact Nat.le_refl _
        · have := hmax u hu
          omega

theorem mem_seen_pushParents (ps : List Nat) (s : SearchSide) (v : Nat) :
    v ∈ (pushParents ps s).seen ↔ v ∈ s.seen ∨ v ∈ ps := by
  induction ps generalizing s with
  | nil => simp [pushParents]
  | cons p ps ih =>
    simp only [pushParents, ih, List.mem_cons]
    split_ifs with hp
    · constructor
      · rintro (h | h)
        · exact Or.inl h
        · exact Or.inr (Or.inr h)
      · rintro (h | rfl | h)
        · exact Or.inl h
        · exact Or.inl hp
        · exact Or.inr h
    · simp only [List.mem_cons]
      tauto

theorem mem_queue_pushParents (ps : List Nat) (s : SearchSide) (v : Nat) :
    v ∈ (pushParents ps s).queue ↔ v ∈ s.queue ∨ (v ∈ ps ∧ v ∉ s.seen) := by
  induction ps generalizing s with
  | nil => simp [pushParents]
  | cons p ps ih =>
    simp only [pushParents, ih, List.mem_cons]
    split_ifs with hp
    · constructor
      · rintro (h | ⟨h1, h2⟩)
        · exact Or.inl h
        · exact Or.inr ⟨Or.inr h1, h2⟩
      · rintro (h | ⟨rfl | h1, h2⟩)
        · exact Or.inl h
        · exact absurd hp h2
        · exact Or.inr ⟨h1, h2⟩
    · simp only [List.mem_cons, not_or]
      constructor
      · rintro ((rfl | h) | ⟨h1, h2, h3⟩)
        · exact Or.inr ⟨Or.inl rfl, hp⟩
        · exact Or.inl h
        · exact Or.inr ⟨Or.inr h1, h3⟩
      · rintro (h | ⟨rfl | h1, h2⟩)
        · exact Or.inl (Or.inr h)
        · exact Or.inl (Or.inl rfl)
        · by_cases hv : v = p
          · exact Or.inl (Or.inl hv)
          · exact Or.inr ⟨h1, hv, h2⟩

theorem nodup_queue_pushParents (ps : List Nat) (s : SearchSide) (hn : s.queue.Nodup)
    (hsub : ∀ u ∈ s.queue, u ∈ s.seen) : (pushParents ps s).queue.Nodup := by
  induction ps generalizing s with
  | nil => simpa [pushParents] using hn
  | cons p ps ih =>
    simp only [pushParents]
    split_ifs with hp
    · exact ih s hn hsub
    · apply ih
      · simp only [List.nodup_cons]
        exact ⟨fun h => hp (hsub p h), hn⟩
      · intro u hu
        simp only [List.mem_cons] at hu ⊢
        rcases hu with rfl | hu
        · exact Or.inl rfl
        · exact Or.inr (hsub u hu)

theorem unseenCount_cons_le (n p : Nat) (seen : List Nat) :
    unseenCount n (p :: seen) ≤ unseenCount n seen := by
  unfold unseenCount
  apply List.Sublist.length_le
  apply List.monotone_filter_right
  intro c hc
  simp only [List.mem_cons, not_or, decide_eq_true_eq] at hc ⊢
  exact hc.2

theorem unseenCount_cons_lt (n p : Nat) (seen : List Nat) (hp : p < n) (hs : p ∉ seen) :
    unseenCount n (p :: seen) < unseenCount n seen := by
  unfold unseenCount
  have e : (List.range n).filter (fun c => c ∉ p :: seen)
      = ((List.range n).filter fun c => c ∉ seen).filter fun c => c ≠ p := by
    rw [List.filter_filter]
    congr 1
    funext c
    simp only [List.mem_cons, not_or, ne_eq, decide_not, Bool.decide_and]
  rw [e]
  apply List.length_filter_lt_length_iff_exists.2
  refine ⟨p, ?_, by simp⟩
  simp only [List.mem_filter, List.mem_range, decide_eq_true_eq]
  exact ⟨hp, hs⟩

theorem sideMeasure_pushParents (n : Nat) (ps : List Nat) (s : SearchSide)
    (hps : ∀ p ∈ ps, p < n) : sideMeasure n (pushParents ps s) ≤ sideMeasure n s := by
  induction ps generalizing s with
  | nil => exact Nat.le_refl _
  | cons p ps ih =>
    simp only [pushParents]
    have hps2 : ∀ q ∈ ps, q < n := fun q hq => hps q (List.mem_cons_of_mem _ hq)
    split_ifs with hp
    · exact ih s hps2
    · refine Nat.le_trans (ih _ hps2) ?_
      have := unseenCount_cons_lt n p s.seen (hps p (List.mem_cons_self _ _)) hp
      simp only [sideMeasure, List.length_cons]
      omega

theorem sideMeasure_popRef (g : CommitGraph) (r : Nat) (s : SearchSide)
    (hps : ∀ p ∈ g.parents r, p < g.size) (hr : r ∈ s.queue) :
    sideMeasure g.size (popRef g r s) < sideMeasure g.size s := by
  have h1 := sideMeasure_pushParents g.size (g.parents r) ⟨s.queue.erase r, s.seen⟩ hps
  have h2 : (s.queue.erase r).length = s.queue.length - 1 := List.length_erase_of_mem hr
  have h3 : 0 < s.queue.length := List.length_pos_of_mem hr
  simp only [sideMeasure, popRef] at h1 ⊢
  omega


theorem wf_parents {g : CommitGraph} (hwf : g.WF) {c p : Nat} (hp : p ∈ g.parents c) :
    p < g.size ∧ g.height p < g.height c := by
  by_cases hc : c < g.size
  · exact hwf c hc p hp
  · have : g.parents c = [] := by
      simp only [CommitGraph.parents, CommitGraph.size] at hc ⊢
      rw [List.getD_eq_default _ _ (by omega)]
    rw [this] at hp
    simp at hp

theorem reach_tail {g : CommitGraph} {c d p : Nat} (h : Reach g c d) (hp : p ∈ g.parents d) :
    Reach g c p := by
  induction h with
  | refl c => exact Reach.step hp (Reach.refl p)
  | step hq _ ih => exact Reach.step hq (ih hp)

theorem reach_height {g : CommitGraph} (hwf : g.WF) {c d : Nat} (h : Reach g c d) :
    g.height d ≤ g.height c ∧ (c ≠ d → g.height d < g.height c) := by
  induction h with
  | refl c => exact ⟨Nat.le_refl _, fun h => absurd rfl h⟩
  | step hp _ ih =>
    have := (wf_parents hwf hp).2
    exact ⟨by omega, fun _ => by omega⟩

theorem sideInv_start (g : CommitGraph) (x : Nat) : SideInv g x ⟨[x], [x]⟩ where
  root := List.mem_singleton.2 rfl
  queue_seen := fun _ hu => hu
  seen_reach := fun v hv => by
    rw [List.mem_singleton.1 hv]
    exact Reach.refl x
  nodup := List.nodup_singleton x
  closed := fun _ hw => Or.inl hw

theorem sideInv_popRef {g : CommitGraph} {x : Nat} {s : SearchSide} (h : SideInv g x s)
    {r : Nat} (hr : r ∈ s.queue) : SideInv g x (popRef g r s) where
  root := (mem_seen_pushParents _ _ _).2 (Or.inl h.root)
  queue_seen := by
    intro u hu
    rcases (mem_queue_pushParents _ _ _).1 hu with hu | hu
    · exact (mem_seen_pushParents _ _ _).2 (Or.inl (h.queue_seen u (List.mem_of_mem_erase hu)))
    · exact (mem_seen_pushParents _ _ _).2 (Or.inr hu.1)
  seen_reach := by
    intro v hv
    rcases (mem_seen_pushParents _ _ _).1 hv with hv | hv
    · exact h.seen_reach v hv
    · exact reach_tail (h.seen_reach r (h.queue_seen r hr)) hv
  nodup := nodup_queue_pushParents _ _ (h.nodup.erase r)
    (fun u hu => h.queue_seen u (List.mem_of_mem_erase hu))
  closed := by
    intro w hw
    by_cases hws : w ∈ s.seen
    · rcases h.closed w hws with hq | hpar
      · by_cases hwr : w = r
        · right
          intro p hp
          rw [hwr] at hp
          exact (mem_seen_pushParents _ _ _).2 (Or.inr hp)
        · left
          exact (mem_queue_pushParents _ _ _).2 (Or.inl ((List.mem_erase_of_ne hwr).2 hq))
      · right
        intro p hp
        exact (mem_seen_pushParents _ _ _).2 (Or.inl (hpar p hp))
    · left
      rcases (mem_seen_pushParents _ _ _).1 hw with hw | hw
      · exact absurd hw hws
      · exact (mem_queue_pushParents _ _ _).2 (Or.inr ⟨hw, hws⟩)

theorem sideInv_cover_from {g : CommitGraph} (hwf : g.WF) {x : Nat} {s : SearchSide}
    (h : SideInv g x s) {w v : Nat} (hwv : Reach g w v) (hw : w ∈ s.seen) :
    v ∈ s.seen ∨ ∃ u ∈ s.queue, g.height v < g.height u := by
  induction hwv with
  | refl c => exact Or.inl hw
  | @step c p d hp hpd ih =>
    rcases h.closed c hw with hq | hpar
    · right
      have h1 := (wf_parents hwf hp).2
      have h2 := (reach_height hwf hpd).1
      exact ⟨c, hq, by omega⟩
    · exact ih (hpar p hp)

/-- Every commit reachable from `x` has been seen, or is lower than a ref of
the queue. -/
theorem sideInv_cover {g : CommitGraph} (hwf : g.WF) {x : Nat} {s : SearchSide}
    (h : SideInv g x s) {v : Nat} (hv : Reach g x v) :
    v ∈ s.seen ∨ ∃ u ∈ s.queue, g.height v < g.height u :=
  sideInv_cover_from hwf h hv h.root

theorem cross_popRef {g : CommitGraph} (hwf : g.WF) {s t : SearchSide}
    (hst : Cross g s t) (hts : Cross g t s) {r : Nat} (hr : r ∈ s.queue)
    (hrt : r ∉ t.seen) (htop : ∀ u ∈ t.queue, g.height u ≤ g.height r) :
    Cross g (popRef g r s) t ∧ Cross g t (popRef g r s) := by
  constructor
  · intro v hv hvq
    have hvs : v ∈ s.seen := by
      rcases (mem_seen_pushParents _ _ _).1 hv with hv | hv
      · exact hv
      · by_contra hcon
        exact hvq ((mem_queue_pushParents _ _ _).2 (Or.inr ⟨hv, hcon⟩))
    by_cases hq : v ∈ s.queue
    · have hvr : v = r := by
        by_contra hne
        exact hvq ((mem_queue_pushParents _ _ _).2 (Or.inl ((List.mem_erase_of_ne hne).2 hq)))
      rw [hvr]
      exact ⟨hrt, htop⟩
    · exact hst v hvs hq
  · intro w hw hwq
    obtain ⟨h1, h2⟩ := hts w hw hwq
    have hrw := h2 r hr
    constructor
    · intro hcon
      rcases (mem_seen_pushParents _ _ _).1 hcon with hcon | hcon
      · exact h1 hcon
      · have := (wf_parents hwf hcon).2
        omega
    · intro u hu
      rcases (mem_queue_pushParents _ _ _).1 hu with hu | hu
      · exact h2 u (List.mem_of_mem_erase hu)
      · have := (wf_parents hwf hu.1).2
        omega

/-- A ref at the top of the queue of one side that was seen from the other
side is a common ancestor, and no common ancestor is higher. -/
theorem top_seen_spec {g : CommitGraph} (hwf : g.WF) {a b : Nat} {sa sb : SearchSide}
    (ha : SideInv g a sa) (hb : SideInv g b sb) (hab : Cross g sa sb) {r : Nat}
    (htop : queueTop g sa.queue = some r) (hr : r ∈ sb.seen) :
    (Reach g a r ∧ Reach g b r) ∧
      ∀ c, Reach g a c → Reach g b c → g.height c ≤ g.height r := by
  obtain ⟨hrq, hmax⟩ := queueTop_spec g _ r htop
  refine ⟨⟨ha.seen_reach r (ha.queue_seen r hrq), hb.seen_reach r hr⟩, ?_⟩
  intro c hca hcb
  rcases sideInv_cover hwf ha hca with hc | ⟨u, hu, hlt⟩
  · by_cases hq : c ∈ sa.queue
    · exact hmax c hq
    · obtain ⟨h1, h2⟩ := hab c hc hq
      rcases sideInv_cover hwf hb hcb with hc2 | ⟨u, hu, hlt⟩
      · exact absurd hc2 h1
      · have := h2 u hu
        omega
  · have := hmax u hu
    omega


theorem search_spec {g : CommitGraph} (hwf : g.WF) (a b : Nat) (fuel : Nat) :
    ∀ (sa sb : SearchSide) (res : Option Nat), SideInv g a sa → SideInv g b sb →
      Cross g sa sb → Cross g sb sa → searchCommonAncestor g fuel sa sb = some res →
      SearchPost g a b res := by
  induction fuel with
  | zero =>
    intro sa sb res _ _ _ _ h
    simp [searchCommonAncestor] at h
  | succ fuel ih =>
    intro sa sb res ha hb hab hba h
    have retA : ∀ r, queueTop g sa.queue = some r → r ∈ sb.seen →
        SearchPost g a b (some r) := by
      intro r htop hr
      obtain ⟨h1, h2⟩ := top_seen_spec hwf ha hb hab htop hr
      exact ⟨h1, fun c hc => h2 c hc.1 hc.2⟩
    have retB : ∀ r, queueTop g sb.queue = some r → r ∈ sa.seen →
        SearchPost g a b (some r) := by
      intro r htop hr
      obtain ⟨h1, h2⟩ := top_seen_spec hwf hb ha hba htop hr
      exact ⟨⟨h1.2, h1.1⟩, fun c hc => h2 c hc.2 hc.1⟩
    have popA : ∀ r, queueTop g sa.queue = some r → r ∉ sb.seen →
        (∀ u ∈ sb.queue, g.height u ≤ g.height r) →
        searchCommonAncestor g fuel (popRef g r sa) sb = some res → SearchPost g a b res := by
      intro r htop hr hle hres
      have hrq := (queueTop_spec g _ r htop).1
      obtain ⟨c1, c2⟩ := cross_popRef hwf hab hba hrq hr hle
      exact ih _ _ res (sideInv_popRef ha hrq) hb c1 c2 hres
    have popB : ∀ r, queueTop g sb.queue = some r → r ∉ sa.seen →
        (∀ u ∈ sa.queue, g.height u ≤ g.height r) →
        searchCommonAncestor g fuel sa (popRef g r sb) = some res → SearchPost g a b res := by
      intro r htop hr hle hres
      have hrq := (queueTop_spec g _ r htop).1
      obtain ⟨c1, c2⟩ := cross_popRef hwf hba hab hrq hr hle
      exact ih _ _ res ha (sideInv_popRef hb hrq) c2 c1 hres
    rw [searchCommonAncestor] at h
    cases hta : queueTop g sa.queue with
    | none =>
      have hqa := queueTop_none g _ hta
      cases htb : queueTop g sb.queue with
      | none =>
        have hqb := queueTop_none g _ htb
        simp only [hta, htb, Option.some.injEq] at h
        subst h
        intro c hc
        rcases sideInv_cover hwf ha hc.1 with h1 | ⟨u, hu, _⟩
        · have := (hab c h1 (by rw [hqa]; simp)).1
          rcases sideInv_cover hwf hb hc.2 with h2 | ⟨u, hu, _⟩
          · exact this h2
          · rw [hqb] at hu
            simp at hu
        · rw [hqa] at hu
          simp at hu
      | some rb =>
        simp only [hta, htb] at h
        by_cases hs : rb ∈ sa.seen
        · simp only [hs, if_true, Option.some.injEq] at h
          subst h
          exact retB rb htb hs
        · simp only [hs, if_false] at h
          exact popB rb htb hs (by rw [hqa]; simp) h
    | some ra =>
      cases htb : queueTop g sb.queue with
      | none =>
        have hqb := queueTop_none g _ htb
        simp only [hta, htb] at h
        by_cases hs : ra ∈ sb.seen
        · simp only [hs, if_true, Option.some.injEq] at h
          subst h
          exact retA ra hta hs
        · simp only [hs, if_false] at h
          exact popA ra hta hs (by rw [hqb]; simp) h
      | some rb =>
        have hmaxA := (queueTop_spec g _ ra hta).2
        have hmaxB := (queueTop_spec g _ rb htb).2
        simp only [hta, htb] at h
        by_cases h1 : g.height rb < g.height ra
        · simp only [h1, if_true] at h
          by_cases hs : ra ∈ sb.seen
          · simp only [hs, if_true, Option.some.injEq] at h
            subst h
            exact retA ra hta hs
          · simp only [hs, if_false] at h
            exact popA ra hta hs (fun u hu => by have := hmaxB u hu; omega) h
        · simp only [h1, if_false] at h
          by_cases h2 : g.height ra < g.height rb
          · simp only [h2, if_true] at h
            by_cases hs : rb ∈ sa.seen
            · simp only [hs, if_true, Option.some.injEq] at h
              subst h
              exact retB rb htb hs
            · simp only [hs, if_false] at h
              exact popB rb htb hs (fun u hu => by have := hmaxA u hu; omega) h
          · simp only [h2, if_false] at h
            by_cases hs : ra ∈ sb.seen
            · simp only [hs, if_true, Option.some.injEq] at h
              subst h
              exact retA ra hta hs
            · simp only [hs, if_false] at h
              by_cases hs2 : rb ∈ sa.seen
              · simp only [hs2, if_true, Option.some.injEq] at h
                subst h
                exact retB rb htb hs2
              · simp only [hs2, if_false] at h
                have hra := (queueTop_spec g _ ra hta).1
                have hrb := (queueTop_spec g _ rb htb).1
                obtain ⟨c1, c2⟩ := cross_popRef hwf hab hba hra hs
                  (fun u hu => by have := hmaxB u hu; omega)
                have hs3 : rb ∉ (popRef g ra sa).seen := by
                  intro hcon
                  rcases (mem_seen_pushParents _ _ _).1 hcon with hcon | hcon
                  · exact hs2 hcon
                  · have := (wf_parents hwf hcon).2
                    omega
                have hle3 : ∀ u ∈ (popRef g ra sa).queue, g.height u ≤ g.height rb := by
                  intro u hu
                  rcases (mem_queue_pushParents _ _ _).1 hu with hu | hu
                  · have := hmaxA u (List.mem_of_mem_erase hu)
                    omega
                  · have := (wf_parents hwf hu.1).2
                    omega
                obtain ⟨d1, d2⟩ := cross_popRef hwf c2 c1 hrb hs3 hle3
                exact ih _ _ res (sideInv_popRef ha hra) (sideInv_popRef hb hrb) d2 d1 h

/-- The search ends within as many steps as the two sides can take. -/
theorem search_fuel {g : CommitGraph} (hwf : g.WF) (fuel : Nat) :
    ∀ (sa sb : SearchSide), sideMeasure g.size sa + sideMeasure g.size sb < fuel →
      searchCommonAncestor g fuel sa sb ≠ none := by
  induction fuel with
  | zero =>
    intro sa sb h
    omega
  | succ fuel ih =>
    intro sa sb hm
    have popA : ∀ r, queueTop g sa.queue = some r →
        searchCommonAncestor g fuel (popRef g r sa) sb ≠ none := by
      intro r htop
      have := sideMeasure_popRef g r sa (fun p hp => (wf_parents hwf hp).1)
        (queueTop_spec g _ r htop).1
      exact ih _ _ (by omega)
    have popB : ∀ r, queueTop g sb.queue = some r →
        searchCommonAncestor g fuel sa (popRef g r sb) ≠ none := by
      intro r htop
      have := sideMeasure_popRef g r sb (fun p hp => (wf_parents hwf hp).1)
        (queueTop_spec g _ r htop).1
      exact ih _ _ (by omega)
    rw [searchCommonAncestor]
    cases hta : queueTop g sa.queue with
    | none =>
      cases htb : queueTop g sb.queue with
      | none => simp
      | some rb =>
        simp only
        split_ifs
        · simp
        · exact popB rb htb
    | some ra =>
      cases htb : queueTop g sb.queue with
      | none =>
        simp only
        split_ifs
        · simp
        · exact popA ra hta
      | some rb =>
        simp only
        split_ifs
        · simp
        · exact popA ra hta
        · simp
        · exact popB rb htb
        · simp
        · simp
        · have h1 := sideMeasure_popRef g ra sa (fun p hp => (wf_parents hwf hp).1)
            (queueTop_spec g _ ra hta).1
          have h2 := sideMeasure_popRef g rb sb (fun p hp => (wf_parents hwf hp).1)
            (queueTop_spec g _ rb htb).1
          exact ih _ _ (by omega)

theorem unseenCount_le (n : Nat) (seen : List Nat) : unseenCount n seen ≤ n := by
  unfold unseenCount
  have := List.length_filter_le (fun c => decide (c ∉ seen)) (List.range n)
  simpa using this

/-- `FindCommonAncestor` returns, and its result is right: a ref returned is a
common ancestor of greatest height, none is returned when there is no common
ancestor. -/
theorem findCommonAncestor_spec {g : CommitGraph} (hwf : g.WF) (a b : Nat) :
    ∃ res, FindCommonAncestor g a b = some res ∧ SearchPost g a b res := by
  have hfuel : sideMeasure g.size ⟨[a], [a]⟩ + sideMeasure g.size ⟨[b], [b]⟩
      < 4 * g.size + 3 := by
    have h1 := unseenCount_le g.size [a]
    have h2 := unseenCount_le g.size [b]
    simp only [sideMeasure, List.length_singleton]
    omega
  have hne := search_fuel hwf (4 * g.size + 3) ⟨[a], [a]⟩ ⟨[b], [b]⟩ hfuel
  cases hres : searchCommonAncestor g (4 * g.size + 3) ⟨[a], [a]⟩ ⟨[b], [b]⟩ with
  | none => exact absurd hres hne
  | some res =>
    refine ⟨res, hres, ?_⟩
    exact search_spec hwf a b _ _ _ res (sideInv_start g a) (sideInv_start g b)
      (fun v hv hvq => absurd hv hvq) (fun v hv hvq => absurd hv hvq) hres


theorem reach_mem_ancestors {g : CommitGraph} (hwf : g.WF) {c d : Nat} (h : Reach g c d) :
    ∀ fuel, g.height c ≤ fuel → d ∈ ancestors g fuel c := by
  induction h with
  | refl c =>
    intro fuel _
    cases fuel <;> simp [ancestors]
  | @step c p d hp _ ih =>
    intro fuel hf
    have hlt := (wf_parents hwf hp).2
    cases fuel with
    | zero => omega
    | succ fuel =>
      simp only [ancestors, List.mem_cons, List.mem_flatMap]
      exact Or.inr ⟨p, hp, ih fuel (by omega)⟩

theorem reach_of_mem_ancestors {g : CommitGraph} (fuel : Nat) :
    ∀ c d, d ∈ ancestors g fuel c → Reach g c d := by
  induction fuel with
  | zero =>
    intro c d h
    simp only [ancestors, List.mem_singleton] at h
    rw [h]
    exact Reach.refl c
  | succ fuel ih =>
    intro c d h
    simp only [ancestors, List.mem_cons, List.mem_flatMap] at h
    rcases h with rfl | ⟨p, hp, hd⟩
    · exact Reach.refl _
    · exact Reach.step hp (ih p d hd)

theorem reach_iff {g : CommitGraph} (hwf : g.WF) (c d : Nat) :
    Reach g c d ↔ d ∈ ancestors g (g.height c) c :=
  ⟨fun h => reach_mem_ancestors hwf h _ (Nat.le_refl _), reach_of_mem_ancestors _ c d⟩

theorem lowestCommonAncestor_iff {g : CommitGraph} (hwf : g.WF) (a b c : Nat) :
    LowestCommonAncestor g a b c ↔ isLowestCommonAncestor g a b c = true := by
  simp only [LowestCommonAncestor, CommonAncestor, isLowestCommonAncestor, reach_iff hwf,
    Bool.and_eq_true, decide_eq_true_eq, List.all_eq_true, Bool.or_eq_true, Bool.not_eq_true',
    Bool.and_eq_false_imp]
  constructor
  · rintro ⟨⟨h1, h2⟩, h3⟩
    refine ⟨⟨h1, h2⟩, ?_⟩
    intro d hd
    by_cases hdc : d = c
    · exact Or.inr hdc
    · left
      intro hdb
      by_contra hcon
      exact hdc (h3 d ⟨hd, hdb⟩ (by simpa using hcon))
  · rintro ⟨⟨h1, h2⟩, h3⟩
    refine ⟨⟨h1, h2⟩, ?_⟩
    rintro d ⟨hd, hdb⟩ hdc
    rcases h3 d hd with h | h
    · have := h hdb
      simp [hdc] at this
    · exact h

/-- C19. Over a finite commit graph whose refs carry heights, the search of
`FindCommonAncestor(a, b)` ends, and it returns a ref (`ok = true`) exactly
when some commit is reachable through parent links, in zero or more steps,
from both `a` and `b`; the ref returned is such a common ancestor.
`FindCommonAncestor(a, a)` is `a`, and for commits without a common ancestor
the result is `ok = false`. -/
theorem findCommonAncestor_common (g : CommitGraph) (hwf : g.WF) (a b : Nat) :
    (∃ res, FindCommonAncestor g a b = some res ∧
      (res.isSome = true ↔ ∃ c, CommonAncestor g a b c) ∧
      (∀ r, res = some r → CommonAncestor g a b r)) ∧
    FindCommonAncestor g a a = some (some a) ∧
    ((¬ ∃ c, CommonAncestor g a b c) → FindCommonAncestor g a b = some none) := by
  obtain ⟨res, hres, hpost⟩ := findCommonAncestor_spec hwf a b
  refine ⟨⟨res, hres, ?_, ?_⟩, ?_, ?_⟩
  · cases res with
    | none =>
      simp only [Option.isSome_none, Bool.false_eq_true, false_iff, not_exists]
      exact hpost
    | some r =>
      simp only [Option.isSome_some, true_iff]
      exact ⟨r, hpost.1⟩
  · intro r hr
    subst hr
    exact hpost.1
  · obtain ⟨res2, hres2, hpost2⟩ := findCommonAncestor_spec hwf a a
    cases res2 with
    | none => exact absurd ⟨Reach.refl a, Reach.refl a⟩ (hpost2 a)
    | some r =>
      have h1 := hpost2.2 a ⟨Reach.refl a, Reach.refl a⟩
      have h2 := reach_height hwf hpost2.1.1
      have hra : a = r := by
        by_contra hne
        have := h2.2 hne
        omega
      rw [hres2, hra]
  · intro hno
    cases res with
    | none => exact hres
    | some r => exact absurd ⟨r, hpost.1⟩ hno

theorem findCommonAncestor_common_witness :
    testGraph.WF ∧
    ((∃ res, FindCommonAncestor testGraph 12 7 = some res ∧
      (res.isSome = true ↔ ∃ c, CommonAncestor testGraph 12 7 c) ∧
      (∀ r, res = some r → CommonAncestor testGraph 12 7 r)) ∧
    FindCommonAncestor testGraph 12 12 = some (some 12) ∧
    ((¬ ∃ c, CommonAncestor testGraph 12 7 c) →
      FindCommonAncestor testGraph 12 7 = some none)) ∧
    FindCommonAncestor testGraph 0 0 = some (some 0) ∧
    FindCommonAncestor testGraph 0 2 = some (some 0) ∧
    FindCommonAncestor testGraph 5 6 = some (some 2) ∧
    FindCommonAncestor testGraph 8 9 = some (some 2) ∧
    FindCommonAncestor testGraph 12 7 = some (some 0) ∧
    FindCommonAncestor testGraph 4 12 = some none :=
  ⟨by decide, findCommonAncestor_common testGraph (by decide) 12 7, by decide, by decide,
    by decide, by decide, by decide, by decide⟩

/-- C20. The ref that `FindCommonAncestor(a, b)` returns has the greatest
height among the common ancestors of `a` and `b`; when `a` and `b` have a
unique lowest common ancestor `c`, the result is `c`. -/
theorem findCommonAncestor_lowest (g : CommitGraph) (hwf : g.WF) (a b c : Nat)
    (hc : LowestCommonAncestor g a b c)
    (huniq : ∀ d, LowestCommonAncestor g a b d → d = c) :
    FindCommonAncestor g a b = some (some c) ∧
    (∀ d, CommonAncestor g a b d → g.height d ≤ g.height c) ∧
    (∀ a2 b2 r, FindCommonAncestor g a2 b2 = some (some r) →
      CommonAncestor g a2 b2 r ∧ ∀ d, CommonAncestor g a2 b2 d → g.height d ≤ g.height r) := by
  have general : ∀ a2 b2 r, FindCommonAncestor g a2 b2 = some (some r) →
      CommonAncestor g a2 b2 r ∧
        ∀ d, CommonAncestor g a2 b2 d → g.height d ≤ g.height r := by
    intro a2 b2 r hr
    obtain ⟨res, hres, hpost⟩ := findCommonAncestor_spec hwf a2 b2
    rw [hr] at hres
    simp only [Option.some.injEq] at hres
    subst hres
    exact hpost
  obtain ⟨res, hres, hpost⟩ := findCommonAncestor_spec hwf a b
  cases res with
  | none => exact absurd hc.1 (hpost c)
  | some r =>
    have hlow : LowestCommonAncestor g a b r := by
      refine ⟨hpost.1, ?_⟩
      intro d hd hdr
      by_contra hne
      have h1 := (reach_height hwf hdr).2 hne
      have h2 := hpost.2 d hd
      omega
    have hrc := huniq r hlow
    subst hrc
    exact ⟨hres, hpost.2, general⟩

theorem findCommonAncestor_lowest_witness :
    specGraph.WF ∧ LowestCommonAncestor specGraph 4 5 1 ∧
    (∀ d, LowestCommonAncestor specGraph 4 5 d → d = 1) ∧
    FindCommonAncestor specGraph 4 5 = some (some 1) ∧
    (∀ d, CommonAncestor specGraph 4 5 d → specGraph.height d ≤ specGraph.height 1) ∧
    FindCommonAncestor specGraph 8 7 = some (some 7) ∧
    FindCommonAncestor testGraph 8 9 = some (some 2) ∧
    FindCommonAncestor testGraph 12 11 = some (some 11) :=
  have hwf : specGraph.WF := by decide
  have hc : LowestCommonAncestor specGraph 4 5 1 :=
    (lowestCommonAncestor_iff hwf 4 5 1).2 (by decide)
  have huniq : ∀ d, LowestCommonAncestor specGraph 4 5 d → d = 1 := by
    intro d hd
    have hmem := (reach_iff hwf 4 d).1 hd.1.1
    have hlow := (lowestCommonAncestor_iff hwf 4 5 d).1 hd
    have hall : ∀ x ∈ ancestors specGraph (specGraph.height 4) 4,
        isLowestCommonAncestor specGraph 4 5 x = true → x = 1 := by decide
    exact hall d hmem hlow
  ⟨hwf, hc, huniq, (findCommonAncestor_lowest specGraph hwf 4 5 1 hc huniq).1,
    (findCommonAncestor_lowest specGraph hwf 4 5 1 hc huniq).2.1, by decide, by decide,
    by decide⟩

/-! ## `Struct.Diff` on fields with the same names, and on trailing fields -/

theorem modifiedChangesSpec_self (f : List (GoString × Value)) : modifiedChangesSpec f f = [] := by
  induction f with
  | nil => rfl
  | cons a r ih => obtain ⟨n, v⟩ := a; simp [modifiedChangesSpec, ih]

theorem modifiedChangesSpec_keys (f1 : List (GoString × Value)) :
    ∀ f2 : List (GoString × Value),
      List.Sublist ((modifiedChangesSpec f1 f2).map fun c => c.Key)
        (f1.map fun f => some (Value.string f.1)) := by
  induction f1 with
  | nil => intro f2; simp [modifiedChangesSpec]
  | cons a r ih =>
    intro f2
    obtain ⟨n, v1⟩ := a
    cases f2 with
    | nil => simp [modifiedChangesSpec]
    | cons b r2 =>
      obtain ⟨m, v2⟩ := b
      by_cases hv : v1 = v2
      · simpa [modifiedChangesSpec, hv] using (ih r2).cons (some (Value.string n))
      · simpa [modifiedChangesSpec, hv] using (ih r2).cons₂ (some (Value.string n))

/-- The main loop of `Struct.Diff` over a run of fields with the same names
on both sides, whatever follows the run in the two buffers: it sends the
`Modified` changes of the run and leaves both decoders after it. -/
theorem structDiffLoop_common (count1 count2 : Nat) (f1 : List (GoString × Value)) :
    ∀ (f2 : List (GoString × Value)) (fuel i1 i2 : Nat) (sent : List ValueChanged)
      (d1 d2 : List Token),
      f1.map Prod.fst = f2.map Prod.fst →
      i1 + f1.length ≤ count1 → i2 + f2.length ≤ count2 →
      structDiffLoop count1 count2 (f1.length + fuel)
          ⟨fieldTokens f1 ++ d1, fieldTokens f2 ++ d2, i1, i2, [], [], sent⟩ =
        structDiffLoop count1 count2 fuel
          ⟨d1, d2, i1 + f1.length, i2 + f2.length, [], [], sent ++ modifiedChangesSpec f1 f2⟩ := by
  induction f1 with
  | nil =>
    intro f2 fuel i1 i2 sent d1 d2 hn h1 h2
    cases f2 with
    | cons b r => simp at hn
    | nil => simp [fieldTokens, modifiedChangesSpec]
  | cons a r1 ih =>
    intro f2 fuel i1 i2 sent d1 d2 hn h1 h2
    cases f2 with
    | nil => simp at hn
    | cons b r2 =>
      obtain ⟨n1, v1⟩ := a
      obtain ⟨n2, v2⟩ := b
      simp only [List.map_cons, List.cons.injEq] at hn
      obtain ⟨hname, hrest⟩ := hn
      subst hname
      simp only [List.length_cons] at h1 h2
      have hc : i1 < count1 ∧ i2 < count2 := by omega
      have hfuel : (n1, v1) :: r1 = (n1, v1) :: r1 → ((n1, v1) :: r1).length + fuel =
          (r1.length + fuel) + 1 := fun _ => by simp only [List.length_cons]; omega
      rw [hfuel rfl, structDiffLoop]
      simp only [hc, and_self, if_true, fieldTokens, readNameIfEmpty, readString, readValue,
        List.cons_append]
      rw [ih r2 fuel (i1 + 1) (i2 + 1) _ d1 d2 hrest (by omega) (by omega)]
      have e1 : i1 + 1 + r1.length = i1 + ((n1, v1) :: r1).length := by
        simp only [List.length_cons]; omega
      have e2 : i2 + 1 + r2.length = i2 + ((n1, v2) :: r2).length := by
        simp only [List.length_cons]; omega
      rw [e1, e2]
      by_cases hv : v1 = v2
      · simp [modifiedChangesSpec, Value.Equals, hv]
      · simp [modifiedChangesSpec, Value.Equals, hv]

/-- What `Struct.Diff` sends for two structs with the same field names. -/
theorem structDiff_sameNames (s last : Struct Value) (hs : s.WF) (hl : last.WF)
    (hn : s.fieldNames = last.fieldNames) :
    s.Diff last = some (modifiedChangesSpec s.fields last.fields) := by
  unfold Struct.Diff
  by_cases he : s = last
  · subst he; simp [modifiedChangesSpec_self]
  · rw [if_neg he]
    unfold Struct.WF at hs hl
    unfold Struct.fieldNames at hn
    have hfuel : s.count + last.count = s.fields.length + last.count := by omega
    have h := structDiffLoop_common s.count last.count s.fields last.fields last.count 0 0 []
      [] [] hn (by omega) (by omega)
    simp only [List.append_nil, Nat.zero_add, List.nil_append] at h
    rw [hfuel, h]
    have hend : ∀ fuel st, st.i1 = s.count →
        structDiffLoop s.count last.count fuel st = some st := by
      intro fuel st hst
      cases fuel <;> simp [structDiffLoop, hst]
    rw [hend _ _ hs.symm]
    simp [structDiffAdded, structDiffRemoved, hs, hl]

/-- The loop `for ; i1 < count1; i1++` of `Struct.Diff` fails in its second
round: the name read in the first round is still in `fn1`, so no name is
read and the decoder is asked for a value where the next name is. -/
theorem structDiffAdded_second_round (n : Nat) (n1 n2 : GoString) (v1 v2 : Value)
    (rest : List (GoString × Value)) (sent : List ValueChanged) (h : n1 ≠ []) :
    structDiffAdded (n + 2) [] (fieldTokens ((n1, v1) :: (n2, v2) :: rest)) sent = none := by
  simp [structDiffAdded, fieldTokens, readNameIfEmpty, readString, readValue, h]

/-- C25: for two structs with the same field names (each with as many fields
as its count says), `s.Diff(last)` sends exactly the changes of the
description: one `Modified` change, with the field name as key, the value of
`last` as old value and the value of `s` as new value, for each field whose
two values differ, nothing for the other fields, in the order of the fields;
so the keys sent are in the order of the field names, which is ascending for
sorted fields. -/
theorem structDiff_modified_per_field (s last : Struct Value) (hs : s.WF) (hl : last.WF)
    (hn : s.fieldNames = last.fieldNames) :
    s.Diff last = some (modifiedChangesSpec s.fields last.fields) ∧
    List.Sublist ((modifiedChangesSpec s.fields last.fields).map fun c => c.Key)
      (s.fieldNames.map fun n => some (Value.string n)) ∧
    (s.Sorted → ((modifiedChangesSpec s.fields last.fields).map fun c => c.Key).Pairwise
      fun a b => ∃ x y, a = some (Value.string x) ∧ b = some (Value.string y) ∧
        strLt x y = true) := by
  have hsub := modifiedChangesSpec_keys s.fields last.fields
  have hsub' : List.Sublist ((modifiedChangesSpec s.fields last.fields).map fun c => c.Key)
      (s.fieldNames.map fun n => some (Value.string n)) := by
    simpa [Struct.fieldNames, List.map_map, Function.comp_def] using hsub
  refine ⟨structDiff_sameNames s last hs hl hn, hsub', fun hsorted => ?_⟩
  refine List.Pairwise.sublist hsub' ?_
  unfold Struct.Sorted Ascending at hsorted
  rw [List.pairwise_map]
  exact hsorted.imp fun {a b} hab => ⟨a, b, rfl, rfl, hab⟩

theorem structDiff_modified_per_field_witness :
    structXYZ.WF ∧ structXYZ2.WF ∧ structXYZ.fieldNames = structXYZ2.fieldNames ∧
    structXYZ.Diff structXYZ2 = some
      [⟨.DiffChangeModified, some (.string (lit "y")), some (.number 5), some (.number 2)⟩,
       ⟨.DiffChangeModified, some (.string (lit "z")), some (.number 7), some (.number 3)⟩] :=
  ⟨by decide, by decide, by decide,
    (structDiff_modified_per_field structXYZ structXYZ2 (by decide) (by decide)
      (by decide)).1.trans (by decide)⟩

/-- C26, where the description fails: when two or more fields of `s` are left
after the fields that `s` and `last` have in common, `s.Diff(last)` does not
send the `Added` changes of the description.  It sends the first, keeps its
name in `fn1`, and in the next round reads a value where the name of the next
field is.  So it is for `S {a: 1, b: 2, c: 3}` against `S {a: 1}`, both
sorted, and the other way round for the `Removed` changes; with one field
left, as for `S {a: 1, b: 2}`, the changes are those of the description. -/
theorem structDiff_trailing_fields_misread :
    (∀ (name1 name2 : GoString) (common rest : List (GoString × Value)) (n1 n2 : GoString)
        (v1 v2 : Value), n1 ≠ [] →
      Struct.Diff ⟨name1, common.length + (rest.length + 2),
          common ++ (n1, v1) :: (n2, v2) :: rest⟩ ⟨name2, common.length, common⟩ = none) ∧
    structABC.WF ∧ structABC.Sorted ∧ structOnlyA.WF ∧ structOnlyA.Sorted ∧
    structABC.Diff structOnlyA = none ∧
    structChangesSpec structABC structOnlyA =
      [⟨.DiffChangeAdded, some (.string (lit "b")), none, some (.number 2)⟩,
       ⟨.DiffChangeAdded, some (.string (lit "c")), none, some (.number 3)⟩] ∧
    structOnlyA.Diff structABC = none ∧
    structChangesSpec structOnlyA structABC =
      [⟨.DiffChangeRemoved, some (.string (lit "b")), some (.number 2), none⟩,
       ⟨.DiffChangeRemoved, some (.string (lit "c")), some (.number 3), none⟩] ∧
    structAB.Diff structOnlyA = some (structChangesSpec structAB structOnlyA) := by
  refine ⟨?_, by decide, by decide, by decide, by decide, by decide, by decide, by decide,
    by decide, by decide⟩
  intro name1 name2 common rest n1 n2 v1 v2 hne
  unfold Struct.Diff
  have he : ¬ ((⟨name1, common.length + (rest.length + 2),
      common ++ (n1, v1) :: (n2, v2) :: rest⟩ : Struct Value) = ⟨name2, common.length, common⟩) := by
    intro h
    have := congrArg Struct.count h
    simp only at this
    omega
  rw [if_neg he]
  simp only
  have hfuel : common.length + (rest.length + 2) + common.length =
      common.length + (common.length + (rest.length + 2)) := by omega
  have hT : ∀ (a b : List (GoString × Value)), fieldTokens (a ++ b) =
      fieldTokens a ++ fieldTokens b := by
    intro a b
    induction a with
    | nil => rfl
    | cons x r ih => obtain ⟨n, v⟩ := x; simp [fieldTokens, ih]
  have h := structDiffLoop_common (common.length + (rest.length + 2)) common.length common common
    (common.length + (rest.length + 2)) 0 0 []
    (fieldTokens ((n1, v1) :: (n2, v2) :: rest)) [] rfl (by omega) (by omega)
  simp only [List.append_nil, Nat.zero_add, List.nil_append] at h
  rw [hfuel, hT, h]
  have hend : ∀ fuel st, st.i2 = common.length →
      structDiffLoop (common.length + (rest.length + 2)) common.length fuel st = some st := by
    intro fuel st hst
    cases fuel <;> simp [structDiffLoop, hst]
  rw [hend _ _ rfl]
  simp only
  have hn : common.length + (rest.length + 2) - common.length = rest.length + 2 := by omega
  rw [hn, structDiffAdded_second_round _ _ _ _ _ _ _ hne]

/-! ## `Diff` on equal values and on structs that differ in name only -/

/-- C27: `Struct.Diff` ignores struct names.  Two structs with the same count
and the same fields (as many as the count says) and different names are not
equal, `Struct.Diff` sends no change for them, and `Diff` sends no
`Difference` for them, in left-right and in hybrid mode. -/
theorem structDiff_ignores_names (name1 name2 : GoString) (count : Nat) (fields : FieldList)
    (hne : name1 ≠ name2) (hwf : count = fields.toList.length) :
    (Value.struct name1 count fields).Equals (.struct name2 count fields) = false ∧
    Struct.Diff ⟨name1, count, fields.toList⟩ ⟨name2, count, fields.toList⟩ = some [] ∧
    ∀ (sd : SequenceDiffs) (leftRight : Bool),
      Diff sd (.struct name1 count fields) (.struct name2 count fields) leftRight = .ok [] := by
  have hd : ∀ a b : GoString,
      Struct.Diff ⟨a, count, fields.toList⟩ ⟨b, count, fields.toList⟩ = some [] := by
    intro a b
    have hw : (⟨a, count, fields.toList⟩ : Struct Value).WF := hwf
    have hw2 : (⟨b, count, fields.toList⟩ : Struct Value).WF := hwf
    rw [structDiff_sameNames _ _ hw hw2 rfl]
    simp [modifiedChangesSpec_self]
  have he : (Value.struct name1 count fields).Equals (.struct name2 count fields) = false := by
    simp [Value.Equals, hne]
  have hs : shouldDescend (Value.struct name1 count fields) (.struct name2 count fields)
      = true := by
    simp [shouldDescend, Value.Kind, IsPrimitiveKind]
  refine ⟨he, hd _ _, fun sd leftRight => ?_⟩
  simp only [Diff, he, hs, Bool.not_false, Bool.not_true, if_true, Bool.false_eq_true, if_false,
    differDiff, diffStructs, hd, diffOrdered, List.map_nil, concatDiffs]

theorem structDiff_ignores_names_witness :
    lit "A" ≠ lit "B" ∧ structA.Equals structB = false ∧
    ∀ (sd : SequenceDiffs) (leftRight : Bool), Diff sd structA structB leftRight = .ok [] :=
  ⟨by decide,
    (structDiff_ignores_names (lit "A") (lit "B") 1 (.cons (lit "x") (.number 1) .nil)
      (by decide) (by decide)).1,
    (structDiff_ignores_names (lit "A") (lit "B") 1 (.cons (lit "x") (.number 1) .nil)
      (by decide) (by decide)).2.2⟩

/-- C28: `Diff(v, w)` sends no `Difference` when `v.Equals(w)`, whatever the
kind of the values, the sequence diffs and the mode; the values are then the
same value. -/
theorem diff_of_equal_is_empty (sd : SequenceDiffs) (v w : Value) (leftRight : Bool)
    (h : v.Equals w = true) : Diff sd v w leftRight = .ok [] ∧ v = w := by
  refine ⟨?_, by simpa [Value.Equals] using h⟩
  simp [Diff, h]

theorem diff_of_equal_is_empty_witness :
    exampleMap.Equals exampleMap = true ∧
    Diff noSequenceDiffs exampleMap exampleMap true = .ok [] ∧
    Diff noSequenceDiffs exampleMap exampleMap false = .ok [] :=
  ⟨by decide, (diff_of_equal_is_empty noSequenceDiffs exampleMap exampleMap true (by decide)).1,
    (diff_of_equal_is_empty noSequenceDiffs exampleMap exampleMap false (by decide)).1⟩

/-! ## `diffOrdered` and `diffLists`, change by change -/

theorem concatDiffs_ok (rs : List DiffResult) :
    ∀ dss : List (List Difference), List.Forall₂ (fun r ds => r = .ok ds) rs dss →
      concatDiffs rs = .ok dss.flatten := by
  induction rs with
  | nil => intro dss h; cases h; rfl
  | cons r rest ih =>
    intro dss h
    cases h with
    | cons hr hrest =>
      subst hr
      simp [concatDiffs, ih _ hrest]

theorem concatDiffs_append_ok (rs1 rs2 : List DiffResult) (ds1 ds2 : List Difference)
    (h1 : concatDiffs rs1 = .ok ds1) (h2 : concatDiffs rs2 = .ok ds2) :
    concatDiffs (rs1 ++ rs2) = .ok (ds1 ++ ds2) := by
  induction rs1 generalizing ds1 with
  | nil =>
    simp only [concatDiffs, Except.ok.injEq] at h1
    subst h1
    simpa using h2
  | cons r rest ih =>
    cases r with
    | error e => simp [concatDiffs] at h1
    | ok ds =>
      simp only [concatDiffs] at h1
      cases hrest : concatDiffs rest with
      | error e => simp [hrest] at h1
      | ok ds' =>
        simp only [hrest, Except.ok.injEq] at h1
        subst h1
        simp [concatDiffs, ih ds' hrest]

theorem concatDiffs_map_single {α : Type} (l : List α) (f : α → DiffResult) (g : α → Difference)
    (h : ∀ x ∈ l, f x = .ok [g x]) : concatDiffs (l.map f) = .ok (l.map g) := by
  induction l with
  | nil => rfl
  | cons a r ih =>
    have ha := h a (List.mem_cons_self _ _)
    have hr := ih fun x hx => h x (List.mem_cons_of_mem _ hx)
    simp [concatDiffs, ha, hr]

theorem keyPathPart_index (sd : SequenceDiffs) (k : Value)
    (h : k.Kind = .BoolKind ∨ k.Kind = .NumberKind ∨ k.Kind = .StringKind) :
    keyPathPart sd k = some (.IndexPath k false) := by
  have hc : ValueCanBePathIndex k = true := by
    rcases h with h | h | h <;> simp [ValueCanBePathIndex, h]
  simp [keyPathPart, NewIndexPath, newIndexPath, hc]

theorem keyPathPart_hash (sd : SequenceDiffs) (k : Value)
    (h : ¬ (k.Kind = .BoolKind ∨ k.Kind = .NumberKind ∨ k.Kind = .StringKind))
    (hh : sd.hashOf k ≠ emptyHash) :
    keyPathPart sd k = some (.HashIndexPath (sd.hashOf k) false) := by
  have hc : ValueCanBePathIndex k = false := by
    simp only [not_or] at h
    simp [ValueCanBePathIndex, h.1, h.2.1, h.2.2]
  simp [keyPathPart, NewHashIndexPath, newHashIndexPath, hc, Hash.IsEmpty, hh]

/-- C29: what `diffOrdered` at path `p` sends for the changes of a map, set or
struct, when the receiver never stops.  For a change of key `k` with path
part `part`: `Added` gives one `Difference` at `p + part` with nil old value,
the value of the new side for `k` and new key `k`; `Removed` gives one at
`p + part` with the value of the old side, nil new value and nil new key;
`Modified` gives the nested diff at `p + part` when the two values are of the
same kind, neither primitive nor Ref, and otherwise one `Modified` with the
two values.  The differences of the changes follow one another in the order
of the changes.  For maps and sets the part is `IndexPath` of `k` when `k` is
a Bool, Number or String and `HashIndexPath` of its hash otherwise, the
values are those under `k` in the two maps, and `k` itself for sets; for
structs the part is `FieldPath` of the name and the values are those of the
field. -/
theorem diffOrdered_change_rules :
    (∀ (recDiff : Path → Value → Value → DiffResult) (p : Path)
      (ppf : Value → Option PathPart) (v1 v2 : Value → Option (Option Value))
      (k : Value) (old new nv : Option Value) (part : PathPart),
      ppf k = some part → v2 k = some nv →
      diffOrderedChange recDiff p ppf v1 v2 ⟨.DiffChangeAdded, some k, old, new⟩ =
        .ok [⟨p ++ [part], .DiffChangeAdded, none, nv, some k⟩]) ∧
    (∀ (recDiff : Path → Value → Value → DiffResult) (p : Path)
      (ppf : Value → Option PathPart) (v1 v2 : Value → Option (Option Value))
      (k : Value) (old new ov : Option Value) (part : PathPart),
      ppf k = some part → v1 k = some ov →
      diffOrderedChange recDiff p ppf v1 v2 ⟨.DiffChangeRemoved, some k, old, new⟩ =
        .ok [⟨p ++ [part], .DiffChangeRemoved, ov, none, none⟩]) ∧
    (∀ (recDiff : Path → Value → Value → DiffResult) (p : Path)
      (ppf : Value → Option PathPart) (v1 v2 : Value → Option (Option Value))
      (k : Value) (old new : Option Value) (part : PathPart) (c1 c2 : Value),
      ppf k = some part → v1 k = some (some c1) → v2 k = some (some c2) →
      diffOrderedChange recDiff p ppf v1 v2 ⟨.DiffChangeModified, some k, old, new⟩ =
        if IsPrimitiveKind c1.Kind = false ∧ c1.Kind = c2.Kind ∧ c1.Kind ≠ .RefKind then
          recDiff (p ++ [part]) c1 c2
        else .ok [⟨p ++ [part], .DiffChangeModified, some c1, some c2, none⟩]) ∧
    (∀ (recDiff : Path → Value → Value → DiffResult) (p : Path)
      (ppf : Value → Option PathPart) (v1 v2 : Value → Option (Option Value))
      (changes : List ValueChanged) (dss : List (List Difference)),
      List.Forall₂ (fun c ds => diffOrderedChange recDiff p ppf v1 v2 c = .ok ds) changes dss →
      diffOrdered recDiff p ppf changes v1 v2 = .ok dss.flatten) ∧
    (∀ (sd : SequenceDiffs) (k : Value),
      (k.Kind = .BoolKind ∨ k.Kind = .NumberKind ∨ k.Kind = .StringKind) →
      keyPathPart sd k = some (.IndexPath k false)) ∧
    (∀ (sd : SequenceDiffs) (k : Value),
      ¬ (k.Kind = .BoolKind ∨ k.Kind = .NumberKind ∨ k.Kind = .StringKind) →
      sd.hashOf k ≠ emptyHash →
      keyPathPart sd k = some (.HashIndexPath (sd.hashOf k) false)) ∧
    (∀ (sd : SequenceDiffs) (leftRight : Bool) (recDiff : Path → Value → Value → DiffResult)
      (p : Path) (m1 m2 : List (Value × Value)),
      diffMaps sd leftRight recDiff p m1 m2 =
        diffOrdered recDiff p (keyPathPart sd)
          (if leftRight then sd.mapDiffLeftRight m2 m1 else sd.mapDiffHybrid m2 m1)
          (fun k => some (mapGet m1 k)) (fun k => some (mapGet m2 k))) ∧
    (∀ (sd : SequenceDiffs) (leftRight : Bool) (recDiff : Path → Value → Value → DiffResult)
      (p : Path) (s1 s2 : List Value),
      diffSets sd leftRight recDiff p s1 s2 =
        diffOrdered recDiff p (keyPathPart sd)
          (if leftRight then sd.setDiffLeftRight s2 s1 else sd.setDiffHybrid s2 s1)
          (fun k => some (some k)) (fun k => some (some k))) ∧
    (∀ (recDiff : Path → Value → Value → DiffResult) (p : Path) (s1 s2 : Struct Value)
      (changes : List ValueChanged), s2.Diff s1 = some changes →
      diffStructs recDiff p s1 s2 =
        diffOrdered recDiff p (fun k => (keyString k).map PathPart.FieldPath) changes
          (fun k => (keyString k).bind fun n => (s1.Get n).map some)
          (fun k => (keyString k).bind fun n => (s2.Get n).map some)) ∧
    (∀ n : GoString, (keyString (.string n)).map PathPart.FieldPath = some (.FieldPath n)) ∧
    Diff exampleSequenceDiffs mapOld mapNew true = .ok
      [⟨[.IndexPath (.number 1) false], .DiffChangeModified, some (.string (lit "one")),
          some (.string (lit "uno")), none⟩,
       ⟨[.HashIndexPath 7 false, .IndexPath (.number 2) false], .DiffChangeAdded, none,
          some (.number 2), some (.number 2)⟩,
       ⟨[.IndexPath (.string (lit "gone")) false], .DiffChangeRemoved, some (.number 0), none,
          none⟩,
       ⟨[.IndexPath (.bool true) false], .DiffChangeAdded, none, some (.number 3),
          some (.bool true)⟩] := by
  refine ⟨?_, ?_, ?_, ?_, keyPathPart_index, keyPathPart_hash, fun _ _ _ _ _ _ => rfl,
    fun _ _ _ _ _ _ => rfl, ?_, fun _ => rfl, by decide⟩
  · intro recDiff p ppf v1 v2 k old new nv part hp h2
    simp only [diffOrderedChange, hp, h2]
  · intro recDiff p ppf v1 v2 k old new ov part hp h1
    simp only [diffOrderedChange, hp, h1]
  · intro recDiff p ppf v1 v2 k old new part c1 c2 hp h1 h2
    rw [diffOrderedChange_modified recDiff p ppf v1 v2 k old new part c1 c2 hp h1 h2]
    by_cases hd : shouldDescend c1 c2 = true
    · rw [if_pos hd, if_pos ((shouldDescend_iff c1 c2).1 hd)]
    · rw [if_neg hd, if_neg (fun h => hd ((shouldDescend_iff c1 c2).2 h))]
  · intro recDiff p ppf v1 v2 changes dss h
    unfold diffOrdered
    apply concatDiffs_ok
    rw [List.forall₂_map_left_iff]
    exact h
  · intro recDiff p s1 s2 changes h
    have hv : ∀ s : Struct Value, structValue s =
        fun k => (keyString k).bind fun n => (s.Get n).map some := by
      intro s
      funext k
      unfold structValue
      cases keyString k with
      | none => rfl
      | some n =>
        show (match s.Get n with
          | none => none
          | some v => some (some v)) = (s.Get n).map some
        cases s.Get n <;> rfl
    simp only [diffStructs, h, hv]

/-- C30: what `diffLists` at path `p` sends for one splice, when the receiver
never stops and the splice lies inside the two lists.  When `SpRemoved` and
`SpAdded` differ: a `Removed` at `p[SpAt+i]` with the old element `SpAt+i` as
old value for each `i < SpRemoved`, in ascending order, and then an `Added` at
`p[SpFrom+i]` with the new element `SpFrom+i` as new value for each
`i < SpAdded`.  When they are equal: for each `i < SpRemoved`, the nested diff
of the old element `SpAt+i` and the new element `SpFrom+i` at `p[SpAt+i]`
when the two are of the same kind, neither primitive nor Ref, and otherwise
one `Modified` at `p[SpAt+i]` with those two values.  The differences of the
splices follow one another in the order of the splices. -/
theorem diffLists_splice_rules :
    (∀ (recDiff : Path → Value → Value → DiffResult) (p : Path) (v1 v2 : List Value)
      (splice : Splice), splice.SpRemoved ≠ splice.SpAdded →
      splice.SpAt + splice.SpRemoved ≤ v1.length → splice.SpFrom + splice.SpAdded ≤ v2.length →
      diffListsSplice recDiff p v1 v2 splice = .ok
        ((List.range splice.SpRemoved).map (fun i =>
            (⟨p ++ [.IndexPath (.number ((splice.SpAt + i : Nat) : ℚ)) false], .DiffChangeRemoved,
              listGet v1 (splice.SpAt + i), none, none⟩ : Difference)) ++
          (List.range splice.SpAdded).map (fun i =>
            (⟨p ++ [.IndexPath (.number ((splice.SpFrom + i : Nat) : ℚ)) false], .DiffChangeAdded,
              none, listGet v2 (splice.SpFrom + i), none⟩ : Difference)))) ∧
    (∀ (recDiff : Path → Value → Value → DiffResult) (p : Path) (v1 v2 : List Value)
      (splice : Splice), splice.SpRemoved = splice.SpAdded →
      diffListsSplice recDiff p v1 v2 splice =
        concatDiffs ((List.range splice.SpRemoved).map
          (diffListsModified recDiff p v1 v2 splice))) ∧
    (∀ (recDiff : Path → Value → Value → DiffResult) (p : Path) (v1 v2 : List Value)
      (splice : Splice) (i : Nat) (lastEl newEl : Value),
      listGet v1 (splice.SpAt + i) = some lastEl → listGet v2 (splice.SpFrom + i) = some newEl →
      diffListsModified recDiff p v1 v2 splice i =
        if IsPrimitiveKind lastEl.Kind = false ∧ lastEl.Kind = newEl.Kind ∧
            lastEl.Kind ≠ .RefKind then
          recDiff (p ++ [.IndexPath (.number ((splice.SpAt + i : Nat) : ℚ)) false]) lastEl newEl
        else .ok [⟨p ++ [.IndexPath (.number ((splice.SpAt + i : Nat) : ℚ)) false],
          .DiffChangeModified, some lastEl, some newEl, none⟩]) ∧
    (∀ (rs : List DiffResult) (dss : List (List Difference)),
      List.Forall₂ (fun r ds => r = .ok ds) rs dss → concatDiffs rs = .ok dss.flatten) ∧
    (∀ (sd : SequenceDiffs) (recDiff : Path → Value → Value → DiffResult) (p : Path)
      (v1 v2 : List Value),
      diffLists sd recDiff p v1 v2 =
        concatDiffs ((sd.listDiff v2 v1).map (diffListsSplice recDiff p v1 v2))) ∧
    Diff exampleSequenceDiffs listOld listNew true = .ok
      [⟨[.IndexPath (.number 1) false], .DiffChangeModified, some (.number 2),
          some (.number 5), none⟩,
       ⟨[.IndexPath (.number 2) false, .IndexPath (.number 0) false], .DiffChangeRemoved,
          some (.number 3), none, none⟩,
       ⟨[.IndexPath (.number 2) false, .IndexPath (.number 0) false], .DiffChangeAdded,
          none, some (.number 6), none⟩,
       ⟨[.IndexPath (.number 2) false, .IndexPath (.number 1) false], .DiffChangeAdded,
          none, some (.number 6), none⟩,
       ⟨[.IndexPath (.number 3) false], .DiffChangeModified, some (.number 4),
          some (.number 7), none⟩,
       ⟨[.IndexPath (.number 4) false], .DiffChangeAdded, none, some (.number 8), none⟩] := by
  refine ⟨?_, ?_, ?_, concatDiffs_ok, fun _ _ _ _ _ => rfl, by decide⟩
  · intro recDiff p v1 v2 splice hne h1 h2
    unfold diffListsSplice
    rw [if_neg hne]
    apply concatDiffs_append_ok
    · apply concatDiffs_map_single
      intro i hi
      have hlt : splice.SpAt + i < v1.length := by
        have := List.mem_range.1 hi
        omega
      have hx : listGet v1 (splice.SpAt + i) = some (v1.get ⟨splice.SpAt + i, hlt⟩) := by
        simp [listGet, List.get?_eq_get hlt]
      simp only [diffListsRemoved, hx, listIndexPart]
    · apply concatDiffs_map_single
      intro i hi
      have hlt : splice.SpFrom + i < v2.length := by
        have := List.mem_range.1 hi
        omega
      have hx : listGet v2 (splice.SpFrom + i) = some (v2.get ⟨splice.SpFrom + i, hlt⟩) := by
        simp [listGet, List.get?_eq_get hlt]
      simp only [diffListsAdded, hx, listIndexPart]
  · intro recDiff p v1 v2 splice he
    unfold diffListsSplice
    rw [if_pos he]
  · intro recDiff p v1 v2 splice i lastEl newEl h1 h2
    rw [diffListsModified_eq recDiff p v1 v2 splice i lastEl newEl h1 h2]
    unfold listIndexPart
    by_cases hd : shouldDescend lastEl newEl = true
    · rw [if_pos hd, if_pos ((shouldDescend_iff lastEl newEl).1 hd)]
    · rw [if_neg hd, if_neg (fun h => hd ((shouldDescend_iff lastEl newEl).2 h))]

/-! ## Root compare-and-set -/

/-- C24: root compare-and-set.  For every manifest with stored root `r` and
every view of it, `Commit(new, expected)` returns true exactly when
`expected = r`; it then stores `new` and makes `Root()` return `new`.  When
`expected != r` it returns false, the manifest is unchanged (the stored root
remains `r`) and the view, rebased, has root `r`.  A fresh store has the
empty root, so on it `Commit(x, bogus)` fails for every non-empty `bogus`
and `Commit(x, empty)` after it succeeds, as in `TestChunkStoreRoot`; and of
two views that read the root `r`, the one that commits `x1` to it succeeds
and the other, committing `x2` with expected root `r` after it, fails and
sees `x1` as root. -/
theorem commit_root_compare_and_set :
    (∀ (m : Manifest) (s : ChunkStore) (new expected : Hash),
      ((s.Commit m new expected).2.2 = true ↔ expected = m.root) ∧
      (expected = m.root →
        (s.Commit m new expected).1.root = new ∧ (s.Commit m new expected).2.1.Root = new) ∧
      (expected ≠ m.root →
        (s.Commit m new expected).2.2 = false ∧ (s.Commit m new expected).1 = m ∧
        (s.Commit m new expected).2.1.Root = m.root)) ∧
    (CreateStore emptyManifest).Root = emptyHash ∧
    (∀ x bogus : Hash, bogus ≠ emptyHash →
      ((CreateStore emptyManifest).Commit emptyManifest x bogus).2.2 = false ∧
      (((CreateStore emptyManifest).Commit emptyManifest x bogus).2.1.Commit
        ((CreateStore emptyManifest).Commit emptyManifest x bogus).1 x
          (CreateStore emptyManifest).Root).2.2 = true ∧
      (((CreateStore emptyManifest).Commit emptyManifest x bogus).2.1.Commit
        ((CreateStore emptyManifest).Commit emptyManifest x bogus).1 x
          (CreateStore emptyManifest).Root).2.1.Root = x) ∧
    TestChunkStoreRoot = some (true, false, true) ∧
    (∀ (m : Manifest) (x1 x2 : Hash), x1 ≠ m.root →
      ((CreateStore m).Commit m x1 (CreateStore m).Root).2.2 = true ∧
      ((CreateStore m).Commit ((CreateStore m).Commit m x1 (CreateStore m).Root).1 x2
        (CreateStore m).Root).2.2 = false ∧
      ((CreateStore m).Commit ((CreateStore m).Commit m x1 (CreateStore m).Root).1 x2
        (CreateStore m).Root).2.1.Root = x1) := by
  refine ⟨?_, rfl, ?_, ?_, ?_⟩
  · intro m s new expected
    by_cases h : m.root = expected
    · simp [ChunkStore.Commit, h, ChunkStore.Root]
    · have h' : expected ≠ m.root := fun e => h e.symm
      simp [ChunkStore.Commit, h, h', ChunkStore.Root, ChunkStore.Rebase]
  · intro x bogus hb
    have h : ¬ emptyHash = bogus := fun e => hb e.symm
    simp [ChunkStore.Commit, CreateStore, emptyManifest, ChunkStore.Root, ChunkStore.Rebase, h]
  · decide
  · intro m x1 x2 hx
    simp [ChunkStore.Commit, CreateStore, ChunkStore.Root, ChunkStore.Rebase, hx]

/-! ## Three-way merge: keys in order -/

theorem mem_insertKey {K : Type} (lt : K → K → Bool) {x y : K} {l : List K} :
    y ∈ insertKey lt x l ↔ y = x ∨ y ∈ l := by
  induction l with
  | nil => simp [insertKey]
  | cons z zs ih =>
    simp only [insertKey]
    split_ifs
    · simp only [List.mem_cons, ih]
      tauto
    · simp only [List.mem_cons]

theorem mem_sortKeys {K : Type} (lt : K → K → Bool) {y : K} {l : List K} :
    y ∈ sortKeys lt l ↔ y ∈ l := by
  induction l with
  | nil => simp [sortKeys]
  | cons z zs ih => simp [sortKeys, mem_insertKey, ih]

theorem sorted_insertKey {K : Type} {lt : K → K → Bool} {S : K → Prop} (hord : KeyOrderOn lt S)
    {x : K} {l : List K} (hS : ∀ y ∈ x :: l, S y)
    (hl : l.Pairwise fun a b => lt a b = true) (hx : x ∉ l) :
    (insertKey lt x l).Pairwise fun a b => lt a b = true := by
  induction l with
  | nil => simp [insertKey]
  | cons z zs ih =>
    have hz : ∀ b ∈ zs, lt z b = true := (List.pairwise_cons.1 hl).1
    have hzs := (List.pairwise_cons.1 hl).2
    have hxz : x ≠ z := fun h => hx (h ▸ List.mem_cons_self _ _)
    have hxzs : x ∉ zs := fun h => hx (List.mem_cons_of_mem _ h)
    have hSx : S x := hS x (List.mem_cons_self _ _)
    have hSz : S z := hS z (List.mem_cons_of_mem _ (List.mem_cons_self _ _))
    have hSzs : ∀ y ∈ zs, S y := fun y hy =>
      hS y (List.mem_cons_of_mem _ (List.mem_cons_of_mem _ hy))
    simp only [insertKey]
    split_ifs with hlt
    · refine List.pairwise_cons.2 ⟨?_, ih ?_ hzs hxzs⟩
      · intro b hb
        rcases (mem_insertKey lt).1 hb with rfl | hb
        · exact hlt
        · exact hz b hb
      · intro y hy
        rcases List.mem_cons.1 hy with rfl | hy
        · exact hSx
        · exact hSzs y hy
    · have hxlt : lt x z = true := by
        cases hc : lt x z with
        | true => rfl
        | false => exact absurd (hord.total x z hSx hSz hc (by simpa using hlt)) hxz
      refine List.pairwise_cons.2 ⟨?_, hl⟩
      intro b hb
      rcases List.mem_cons.1 hb with rfl | hb
      · exact hxlt
      · exact hord.trans x z b hSx hSz (hSzs b hb) hxlt (hz b hb)

theorem sorted_sortKeys {K : Type} {lt : K → K → Bool} {S : K → Prop} (hord : KeyOrderOn lt S)
    {l : List K} (hS : ∀ y ∈ l, S y) (h : l.Nodup) :
    (sortKeys lt l).Pairwise fun a b => lt a b = true := by
  induction l with
  | nil => simp [sortKeys]
  | cons z zs ih =>
    have hz := List.nodup_cons.1 h
    refine sorted_insertKey hord ?_ (ih (fun y hy => hS y (List.mem_cons_of_mem _ hy)) hz.2)
      (fun hm => hz.1 ((mem_sortKeys lt).1 hm))
    intro y hy
    rcases List.mem_cons.1 hy with rfl | hy
    · exact hS y (List.mem_cons_self _ _)
    · exact hS y (List.mem_cons_of_mem _ ((mem_sortKeys lt).1 hy))

/-- Two ascending lists with the same keys are the same list. -/
theorem sorted_ext {K : Type} {lt : K → K → Bool} {S : K → Prop} (hord : KeyOrderOn lt S) :
    ∀ (l1 l2 : List K), (∀ y ∈ l1, S y) →
      l1.Pairwise (fun a b => lt a b = true) → l2.Pairwise (fun a b => lt a b = true) →
      (∀ y, y ∈ l1 ↔ y ∈ l2) → l1 = l2
  | [], [], _, _, _, _ => rfl
  | [], y :: ys, _, _, _, h => absurd ((h y).2 (List.mem_cons_self _ _)) (by simp)
  | x :: xs, [], _, _, _, h => absurd ((h x).1 (List.mem_cons_self _ _)) (by simp)
  | x :: xs, y :: ys, hS, h1, h2, h => by
    have hx := List.pairwise_cons.1 h1
    have hy := List.pairwise_cons.1 h2
    have hSx : S x := hS x (List.mem_cons_self _ _)
    have hSy : S y := hS y ((h y).2 (List.mem_cons_self _ _))
    have hxy : x = y := by
      by_contra hne
      have h1' : x ∈ ys := by
        rcases List.mem_cons.1 ((h x).1 (List.mem_cons_self _ _)) with e | e
        · exact absurd e hne
        · exact e
      have h2' : y ∈ xs := by
        rcases List.mem_cons.1 ((h y).2 (List.mem_cons_self _ _)) with e | e
        · exact absurd e.symm hne
        · exact e
      have := hord.trans x y x hSx hSy hSx (hx.1 y h2') (hy.1 x h1')
      rw [hord.irrefl x hSx] at this
      exact absurd this (by simp)
    subst hxy
    have hne1 : ∀ z ∈ xs, z ≠ x := by
      intro z hz e
      subst e
      have := hx.1 z hz
      rw [hord.irrefl z hSx] at this
      exact absurd this (by simp)
    have hne2 : ∀ z ∈ ys, z ≠ x := by
      intro z hz e
      subst e
      have := hy.1 z hz
      rw [hord.irrefl z hSx] at this
      exact absurd this (by simp)
    have := sorted_ext hord xs ys (fun z hz => hS z (List.mem_cons_of_mem _ hz)) hx.2 hy.2 (by
      intro z
      constructor
      · intro hz
        rcases List.mem_cons.1 ((h z).1 (List.mem_cons_of_mem _ hz)) with e | e
        · exact absurd e (hne1 z hz)
        · exact e
      · intro hz
        rcases List.mem_cons.1 ((h z).2 (List.mem_cons_of_mem _ hz)) with e | e
        · exact absurd e (hne2 z hz)
        · exact e)
    rw [this]

theorem mem_keyUnion {K : Type} [DecidableEq K] (lt : K → K → Bool) (a b p : List (K × Value))
    (k : K) :
    k ∈ keyUnion lt a b p ↔ k ∈ a.map Prod.fst ++ b.map Prod.fst ++ p.map Prod.fst := by
  simp [keyUnion, mem_sortKeys]

theorem sorted_keyUnion {K : Type} [DecidableEq K] {lt : K → K → Bool} (a b p : List (K × Value))
    (hord : KeyOrderOn lt (fun k => k ∈ a.map Prod.fst ++ b.map Prod.fst ++ p.map Prod.fst)) :
    (keyUnion lt a b p).Pairwise fun x y => lt x y = true := by
  unfold keyUnion
  exact sorted_sortKeys hord (fun y hy => List.mem_dedup.1 hy) (List.nodup_dedup _)

theorem nodup_of_sorted {K : Type} {lt : K → K → Bool} {S : K → Prop} (hord : KeyOrderOn lt S)
    {l : List K} (hS : ∀ y ∈ l, S y) (h : l.Pairwise fun a b => lt a b = true) : l.Nodup := by
  induction l with
  | nil => exact List.nodup_nil
  | cons x xs ih =>
    have hx := List.pairwise_cons.1 h
    refine List.nodup_cons.2 ⟨?_, ih (fun y hy => hS y (List.mem_cons_of_mem _ hy)) hx.2⟩
    intro hm
    have := hx.1 x hm
    rw [hord.irrefl x (hS x (List.mem_cons_self _ _))] at this
    exact absurd this (by simp)

theorem nodup_keyUnion {K : Type} [DecidableEq K] {lt : K → K → Bool} (a b p : List (K × Value))
    (hord : KeyOrderOn lt (fun k => k ∈ a.map Prod.fst ++ b.map Prod.fst ++ p.map Prod.fst)) :
    (keyUnion lt a b p).Nodup :=
  nodup_of_sorted hord (fun y hy => (mem_keyUnion lt a b p y).1 hy) (sorted_keyUnion a b p hord)

theorem keyUnion_swap {K : Type} [DecidableEq K] {lt : K → K → Bool} (a b p : List (K × Value))
    (hord : KeyOrderOn lt (fun k => k ∈ a.map Prod.fst ++ b.map Prod.fst ++ p.map Prod.fst)) :
    keyUnion lt b a p = keyUnion lt a b p := by
  have hord' : KeyOrderOn lt
      (fun k => k ∈ b.map Prod.fst ++ a.map Prod.fst ++ p.map Prod.fst) := by
    refine ⟨fun x hx => hord.irrefl x ?_, fun x y z hx hy hz => hord.trans x y z ?_ ?_ ?_,
      fun x y hx hy => hord.total x y ?_ ?_⟩ <;>
    · simp only [List.mem_append] at *
      tauto
  refine sorted_ext hord' _ _ (fun y hy => (mem_keyUnion lt b a p y).1 hy)
    (sorted_keyUnion b a p hord') (sorted_keyUnion a b p hord) ?_
  intro y
  rw [mem_keyUnion, mem_keyUnion]
  simp only [List.mem_append]
  tauto

/-! ## Three-way merge: entries -/

theorem entryGet_eq_none {K : Type} [DecidableEq K] {k : K} {l : List (K × Value)} :
    entryGet k l = none ↔ k ∉ l.map Prod.fst := by
  induction l with
  | nil => simp [entryGet]
  | cons e r ih =>
    unfold entryGet at ih ⊢
    by_cases he : e.1 = k
    · simp [List.find?, he]
    · have he' : ¬ k = e.1 := fun h => he h.symm
      simpa [List.find?, he, he'] using ih

theorem entryGet_mem {K : Type} [DecidableEq K] {k : K} {l : List (K × Value)} {v : Value}
    (h : entryGet k l = some v) : (k, v) ∈ l := by
  unfold entryGet at h
  split at h
  · rename_i e heq
    simp only [Option.some.injEq] at h
    have hm := List.mem_of_find?_eq_some heq
    have hk := List.find?_some heq
    simp only [decide_eq_true_eq] at hk
    subst h hk
    exact hm
  · simp at h

theorem entryGet_cons {K : Type} [DecidableEq K] (k : K) (e : K × Value) (l : List (K × Value)) :
    entryGet k (e :: l) = if e.1 = k then some e.2 else entryGet k l := by
  unfold entryGet
  by_cases he : e.1 = k <;> simp [List.find?, he]

/-- Going through ascending keys that include those of ascending entries and
keeping each key with its value gives the entries back. -/
theorem filterMap_entryGet {K : Type} [DecidableEq K] {lt : K → K → Bool} {S : K → Prop}
    (hord : KeyOrderOn lt S) :
    ∀ (keys : List K) (l : List (K × Value)), (∀ y ∈ keys, S y) →
      keys.Pairwise (fun a b => lt a b = true) →
      (l.map Prod.fst).Pairwise (fun a b => lt a b = true) →
      (∀ k ∈ l.map Prod.fst, k ∈ keys) →
      keys.filterMap (fun k => (entryGet k l).map fun v => (k, v)) = l
  | [], [], _, _, _, _ => rfl
  | [], e :: r, _, _, _, h => absurd (h e.1 (by simp)) (by simp)
  | k :: ks, [], hS, hk, _, _ => by
    simp [entryGet]
  | k :: ks, e :: r, hS, hk, hl, h => by
    have hk' := List.pairwise_cons.1 hk
    have hl2 : (e.1 :: r.map Prod.fst).Pairwise (fun a b => lt a b = true) := hl
    have hl' := List.pairwise_cons.1 hl2
    have hSk : S k := hS k (List.mem_cons_self _ _)
    have hSe : S e.1 := hS e.1 (h e.1 (by simp))
    have hSr : ∀ y ∈ r.map Prod.fst, S y := fun y hy => hS y (h y (by simp [hy]))
    have hirr : ∀ x, S x → ¬ lt x x = true := fun x hx hlt => by
      rw [hord.irrefl x hx] at hlt
      exact absurd hlt (by simp)
    by_cases he : e.1 = k
    · have hrk : ∀ y ∈ r.map Prod.fst, y ∈ ks := by
        intro y hy
        rcases List.mem_cons.1 (h y (by simp [hy])) with e' | e'
        · exfalso
          have := hl'.1 y hy
          rw [e', he] at this
          exact hirr k hSk this
        · exact e'
      have hrest : ks.filterMap (fun k' => (entryGet k' (e :: r)).map fun v => (k', v)) =
          ks.filterMap (fun k' => (entryGet k' r).map fun v => (k', v)) := by
        apply List.filterMap_congr
        intro k' hk'm
        have : e.1 ≠ k' := by
          intro e'
          have := hk'.1 k' hk'm
          rw [← e', he] at this
          exact hirr k hSk this
        rw [entryGet_cons, if_neg this]
      rw [List.filterMap_cons, entryGet_cons, if_pos he, hrest,
        filterMap_entryGet hord ks r (fun y hy => hS y (List.mem_cons_of_mem _ hy)) hk'.2 hl'.2 hrk]
      simp [← he]
    · have hek : e.1 ∈ ks := by
        rcases List.mem_cons.1 (h e.1 (by simp)) with e' | e'
        · exact absurd e' he
        · exact e'
      have hkl : k ∉ (e :: r).map Prod.fst := by
        intro hm
        have hlt : lt k e.1 = true := hk'.1 e.1 hek
        rcases List.mem_cons.1 (by simpa using hm : k ∈ e.1 :: r.map Prod.fst) with e' | e'
        · exact he e'.symm
        · have h2 := hl'.1 k e'
          exact hirr k hSk (hord.trans k e.1 k hSk hSe hSk hlt h2)
      have hnone : entryGet k (e :: r) = none := entryGet_eq_none.2 hkl
      have hsub : ∀ y ∈ (e :: r).map Prod.fst, y ∈ ks := by
        intro y hy
        rcases List.mem_cons.1 (h y hy) with e' | e'
        · exact absurd (e' ▸ hy) hkl
        · exact e'
      rw [List.filterMap_cons, hnone]
      exact filterMap_entryGet hord ks (e :: r) (fun y hy => hS y (List.mem_cons_of_mem _ hy))
        hk'.2 hl hsub

/-- The value under a key in the entries kept from a list of distinct keys. -/
theorem entryGet_filterMap {K : Type} [DecidableEq K] (g : K → Option Value) :
    ∀ (keys : List K) (k : K), keys.Nodup →
      entryGet k (keys.filterMap fun k' => (g k').map fun v => (k', v)) =
        if k ∈ keys then g k else none
  | [], k, _ => by simp [entryGet]
  | x :: xs, k, h => by
    have hx := List.nodup_cons.1 h
    have ih := entryGet_filterMap g xs k hx.2
    cases hg : g x with
    | none =>
      have e1 : (x :: xs).filterMap (fun k' => (g k').map fun v => (k', v)) =
          xs.filterMap (fun k' => (g k').map fun v => (k', v)) := by
        simp [List.filterMap_cons, hg]
      rw [e1, ih]
      by_cases hxk : k = x
      · subst hxk
        simp [hx.1, hg]
      · simp [hxk]
    | some v =>
      have e1 : (x :: xs).filterMap (fun k' => (g k').map fun v => (k', v)) =
          (x, v) :: xs.filterMap (fun k' => (g k').map fun v => (k', v)) := by
        simp [List.filterMap_cons, hg]
      rw [e1, entryGet_cons, ih]
      by_cases hxk : k = x
      · subst hxk
        simp [hg]
      · have hxk' : ¬ x = k := fun e => hxk e.symm
        simp [hxk, hxk']

theorem mergeKeys_eq {K : Type} [DecidableEq K]
    (f : K → Option Value → Option Value → Option Value → MergeResult (Option Value))
    (a b p : List (K × Value)) (g : K → Option Value) :
    ∀ keys : List K,
      (∀ k ∈ keys, f k (entryGet k p) (entryGet k a) (entryGet k b) = .ok (g k)) →
      mergeKeys f a b p keys = .ok (keys.filterMap fun k => (g k).map fun v => (k, v))
  | [], _ => rfl
  | k :: ks, h => by
    have hk := h k (List.mem_cons_self _ _)
    have ih := mergeKeys_eq f a b p g ks fun k' hk' => h k' (List.mem_cons_of_mem _ hk')
    simp only [mergeKeys, hk, ih, List.filterMap_cons]
    cases g k <;> rfl

theorem entryList_toList_ofList (l : List (Value × Value)) : (EntryList.ofList l).toList = l := by
  induction l with
  | nil => rfl
  | cons e r ih => obtain ⟨k, v⟩ := e; simp [EntryList.ofList, EntryList.toList, ih]

theorem entryList_ofList_toList : ∀ l : EntryList, EntryList.ofList l.toList = l
  | .nil => rfl
  | .cons k v r => by simp [EntryList.ofList, EntryList.toList, entryList_ofList_toList r]

theorem fieldList_toList_ofList (l : List (GoString × Value)) :
    (FieldList.ofList l).toList = l := by
  induction l with
  | nil => rfl
  | cons e r ih => obtain ⟨k, v⟩ := e; simp [FieldList.ofList, FieldList.toList, ih]

theorem fieldList_ofList_toList : ∀ l : FieldList, FieldList.ofList l.toList = l
  | .nil => rfl
  | .cons k v r => by simp [FieldList.ofList, FieldList.toList, fieldList_ofList_toList r]

theorem strLt_keyOrder (S : GoString → Prop) : KeyOrderOn strLt S :=
  ⟨fun a _ => strLt_irrefl a, fun _ _ _ _ _ _ h1 h2 => strLt_trans h1 h2,
    fun _ _ _ _ h1 h2 => strLt_total h1 h2⟩

/-! ## Three-way merge without conflicts -/

theorem noConflict_kind {lt : Value → Value → Bool} {a b : Value} {p : Option Value}
    (h : NoConflict lt a b p) : a.Kind = b.Kind ∧ IsPrimitiveKind a.Kind = false := by
  cases h <;> simp [Value.Kind, IsPrimitiveKind]

theorem mergedAt_none (m : Merger) : MergedAt m none none none none :=
  ⟨fun _ => rfl, fun _ => rfl, fun _ => rfl, fun h => absurd rfl h⟩

/-- The table at one key of two values that merge without conflict: the
merged value does not depend on the fuel, on the path, or on which of the two
sides is called `a`. -/
theorem mergeChanges_noConflict (M : Merger) (pv va vb : Option Value) (da db : Nat)
    (hda : ∀ x, va = some x → x.depth ≤ da) (hdb : ∀ y, vb = some y → y.depth ≤ db)
    (hkey : va = pv ∨ vb = pv ∨ va = vb ∨ ∃ x y, va = some x ∧ vb = some y)
    (hrec : ∀ x y, va = some x → vb = some y → some x ≠ pv → some y ≠ pv → x ≠ y →
      NoConflict M.less x y pv ∧ ∃ z,
        (∀ fuel path, x.depth < fuel → threeWay M fuel path x y pv = .ok z) ∧
        (∀ fuel path, y.depth < fuel → threeWay M fuel path y x pv = .ok z)) :
    ∃ v, (∀ fuel path, da < fuel →
        mergeChanges M.resolve (threeWay M fuel) path pv va vb = .ok v) ∧
      (∀ fuel path, db < fuel →
        mergeChanges M.resolve (threeWay M fuel) path pv vb va = .ok v) ∧
      MergedAt M pv va vb v := by
  by_cases h1 : va = pv
  · refine ⟨vb, fun fuel path _ => by simp [mergeChanges, h1], fun fuel path _ => ?_,
      fun _ => rfl, fun h => by rw [h, h1], fun h => h.symm, fun h => absurd h1 h⟩
    by_cases h2 : vb = pv
    · simp [mergeChanges, h1, h2]
    · simp [mergeChanges, h1, h2]
  · by_cases h2 : vb = pv
    · refine ⟨va, fun fuel path _ => by simp [mergeChanges, h1, h2],
        fun fuel path _ => by simp [mergeChanges, h2], fun h => absurd h h1, fun _ => rfl,
        fun _ => rfl, fun _ h => absurd h2 h⟩
    · by_cases h3 : va = vb
      · have h3' : vb = va := h3.symm
        refine ⟨va, fun fuel path _ => by simp [mergeChanges, h1, h2, h3],
          fun fuel path _ => by simp [mergeChanges, h1, h2, h3'], fun h => absurd h h1,
          fun h => absurd h h2, fun _ => rfl, fun _ _ h => absurd h3 h⟩
      · have hex : ∃ x y, va = some x ∧ vb = some y := by
          rcases hkey with h | h | h | h
          · exact absurd h h1
          · exact absurd h h2
          · exact absurd h h3
          · exact h
        obtain ⟨x, y, hx, hy⟩ := hex
        subst hx hy
        have hxy : x ≠ y := fun e => h3 (by rw [e])
        obtain ⟨hnc, z, hz1, hz2⟩ := hrec x y rfl rfl h1 h2 hxy
        have hk := noConflict_kind hnc
        have hk2 : y.Kind = x.Kind ∧ IsPrimitiveKind y.Kind = false := ⟨hk.1.symm, hk.1 ▸ hk.2⟩
        have h3' : ¬ some y = some x := fun e => h3 e.symm
        refine ⟨some z, fun fuel path hf => ?_, fun fuel path hf => ?_, fun h => absurd h h1,
          fun h => absurd h h2, fun h => absurd h h3, fun _ _ _ => ⟨x, y, z, rfl, rfl, rfl, hnc, ?_⟩⟩
        · have := hz1 fuel path (Nat.lt_of_le_of_lt (hda x rfl) hf)
          simp only [mergeChanges, h1, h2, h3, if_false]
          rw [if_pos hk, this]
        · have := hz2 fuel path (Nat.lt_of_le_of_lt (hdb y rfl) hf)
          simp only [mergeChanges, h1, h2, h3', if_false]
          rw [if_pos hk2, this]
        · simp only [ThreeWay, hz1 (x.depth + 1) [] (Nat.lt_succ_self _)]

/-- The merge key by key of two lists of entries that merge without
conflict. -/
theorem mergeKeys_noConflict {K : Type} [DecidableEq K] (M : Merger) (lt : K → K → Bool)
    (ea eb ep : List (K × Value)) (part : K → PathPart) (da db : Nat)
    (hord : KeyOrderOn lt (fun k => k ∈ ea.map Prod.fst ++ eb.map Prod.fst ++ ep.map Prod.fst))
    (hda : ∀ k x, entryGet k ea = some x → x.depth ≤ da)
    (hdb : ∀ k y, entryGet k eb = some y → y.depth ≤ db)
    (hkey : ∀ k, entryGet k ea = entryGet k ep ∨ entryGet k eb = entryGet k ep ∨
      entryGet k ea = entryGet k eb ∨ ∃ x y, entryGet k ea = some x ∧ entryGet k eb = some y)
    (hrec : ∀ k x y, entryGet k ea = some x → entryGet k eb = some y →
      some x ≠ entryGet k ep → some y ≠ entryGet k ep → x ≠ y →
      NoConflict M.less x y (entryGet k ep) ∧ ∃ z,
        (∀ fuel path, x.depth < fuel → threeWay M fuel path x y (entryGet k ep) = .ok z) ∧
        (∀ fuel path, y.depth < fuel → threeWay M fuel path y x (entryGet k ep) = .ok z)) :
    ∃ es : List (K × Value),
      (∀ fuel path, da < fuel →
        mergeKeys (fun k => mergeChanges M.resolve (threeWay M fuel) (path ++ [part k]))
          ea eb ep (keyUnion lt ea eb ep) = .ok es) ∧
      (∀ fuel path, db < fuel →
        mergeKeys (fun k => mergeChanges M.resolve (threeWay M fuel) (path ++ [part k]))
          eb ea ep (keyUnion lt eb ea ep) = .ok es) ∧
      (∀ k, MergedAt M (entryGet k ep) (entryGet k ea) (entryGet k eb) (entryGet k es)) := by
  have hQ : ∀ k, ∃ v, (∀ fuel path, da < fuel →
        mergeChanges M.resolve (threeWay M fuel) path (entryGet k ep) (entryGet k ea)
          (entryGet k eb) = .ok v) ∧
      (∀ fuel path, db < fuel →
        mergeChanges M.resolve (threeWay M fuel) path (entryGet k ep) (entryGet k eb)
          (entryGet k ea) = .ok v) ∧
      MergedAt M (entryGet k ep) (entryGet k ea) (entryGet k eb) v := fun k =>
    mergeChanges_noConflict M _ _ _ da db (hda k) (hdb k) (hkey k) (hrec k)
  choose g hg1 hg2 hg3 using hQ
  refine ⟨(keyUnion lt ea eb ep).filterMap fun k => (g k).map fun v => (k, v), ?_, ?_, ?_⟩
  · intro fuel path hf
    exact mergeKeys_eq _ ea eb ep g _ fun k _ => hg1 k fuel _ hf
  · intro fuel path hf
    rw [keyUnion_swap ea eb ep hord]
    exact mergeKeys_eq _ eb ea ep g _ fun k _ => hg2 k fuel _ hf
  · intro k
    rw [entryGet_filterMap g _ k (nodup_keyUnion ea eb ep hord)]
    by_cases hk : k ∈ keyUnion lt ea eb ep
    · rw [if_pos hk]
      exact hg3 k
    · rw [if_neg hk]
      rw [mem_keyUnion] at hk
      simp only [List.mem_append, not_or] at hk
      rw [entryGet_eq_none.2 hk.1.1, entryGet_eq_none.2 hk.1.2, entryGet_eq_none.2 hk.2]
      exact mergedAt_none M

theorem childOf_mapParent {parent : Option Value} {ep : List (Value × Value)}
    (hp : mapParent parent = some ep) (k : Value) : childOf parent k = entryGet k ep := by
  cases parent with
  | none =>
    simp only [mapParent, Option.some.injEq] at hp
    subst hp
    simp [childOf, entryGet]
  | some v =>
    cases v <;> simp only [mapParent, Option.some.injEq] at hp <;> try exact absurd hp (by simp)
    subst hp
    rfl

theorem childOf_structParent {parent : Option Value} {fp : List (GoString × Value)}
    (hp : structParent parent = some fp) (n : GoString) :
    childOf parent (.string n) = entryGet n fp := by
  cases parent with
  | none =>
    simp only [structParent, Option.some.injEq] at hp
    subst hp
    simp [childOf, entryGet]
  | some v =>
    cases v <;> simp only [structParent, Option.some.injEq] at hp <;>
      try exact absurd hp (by simp)
    subst hp
    rfl

theorem childOf_structParent_other {parent : Option Value} {fp : List (GoString × Value)}
    (hp : structParent parent = some fp) (k : Value) (hk : ∀ n, k ≠ .string n) :
    childOf parent k = none := by
  cases parent with
  | none => rfl
  | some v =>
    cases v <;> simp only [structParent, Option.some.injEq] at hp <;>
      try exact absurd hp (by simp)
    cases k <;> first | rfl | exact absurd rfl (hk _)

/-- Two values that merge without conflict: `threeWay` returns the same merged
value for every sufficient fuel, every path and both orders of the sides,
and the merged value has at every key the value that the description
gives. -/
theorem threeWay_noConflict (M : Merger) (a b : Value) (parent : Option Value)
    (h : NoConflict M.less a b parent) :
    ∃ m, (∀ fuel path, a.depth < fuel → threeWay M fuel path a b parent = .ok m) ∧
      (∀ fuel path, b.depth < fuel → threeWay M fuel path b a parent = .ok m) ∧
      (∀ k, MergedAt M (childOf parent k) (childOf (some a) k) (childOf (some b) k)
        (childOf (some m) k)) := by
  induction h with
  | maps ea eb parent ep hp hord hkey hrec ih =>
    obtain ⟨es, h1, h2, h3⟩ := mergeKeys_noConflict M M.less ea.toList eb.toList ep
      (mergeKeyPart M.hashOf) ea.depth eb.depth hord
      (fun k x hx => entryList_depth_le ea (k, x) (entryGet_mem hx))
      (fun k y hy => entryList_depth_le eb (k, y) (entryGet_mem hy)) hkey
      (fun k x y hx hy hpx hpy hxy => ⟨hrec k x y hx hy hpx hpy hxy, by
        obtain ⟨z, hz1, hz2, -⟩ := ih k x y hx hy hpx hpy hxy
        exact ⟨z, hz1, hz2⟩⟩)
    refine ⟨.map (EntryList.ofList es), ?_, ?_, ?_⟩
    · intro fuel path hf
      cases fuel with
      | zero => omega
      | succ f =>
        simp only [Value.depth] at hf
        simp only [threeWay, hp, h1 f path (by omega)]
    · intro fuel path hf
      cases fuel with
      | zero => omega
      | succ f =>
        simp only [Value.depth] at hf
        simp only [threeWay, hp, h2 f path (by omega)]
    · intro k
      rw [childOf_mapParent hp]
      simp only [childOf, entryList_toList_ofList]
      exact h3 k
  | structs name ca cb fa fb parent fp hp hkey hrec ih =>
    obtain ⟨es, h1, h2, h3⟩ := mergeKeys_noConflict M strLt fa.toList fb.toList fp
      PathPart.FieldPath fa.depth fb.depth (strLt_keyOrder _)
      (fun k x hx => fieldList_depth_le fa (k, x) (entryGet_mem hx))
      (fun k y hy => fieldList_depth_le fb (k, y) (entryGet_mem hy)) hkey
      (fun k x y hx hy hpx hpy hxy => ⟨hrec k x y hx hy hpx hpy hxy, by
        obtain ⟨z, hz1, hz2, -⟩ := ih k x y hx hy hpx hpy hxy
        exact ⟨z, hz1, hz2⟩⟩)
    refine ⟨.struct name es.length (FieldList.ofList es), ?_, ?_, ?_⟩
    · intro fuel path hf
      cases fuel with
      | zero => omega
      | succ f =>
        simp only [Value.depth] at hf
        simp only [threeWay, ne_eq, not_true_eq_false, if_false, hp, h1 f path (by omega)]
    · intro fuel path hf
      cases fuel with
      | zero => omega
      | succ f =>
        simp only [Value.depth] at hf
        simp only [threeWay, ne_eq, not_true_eq_false, if_false, hp, h2 f path (by omega)]
    · intro k
      by_cases hk : ∃ n, k = .string n
      · obtain ⟨n, rfl⟩ := hk
        rw [childOf_structParent hp]
        simp only [childOf, fieldList_toList_ofList]
        exact h3 n
      · have hk' : ∀ n, k ≠ .string n := fun n e => hk ⟨n, e⟩
        rw [childOf_structParent_other hp k hk']
        have e1 : ∀ (nm : GoString) (c : Nat) (f : FieldList),
            childOf (some (.struct nm c f)) k = none := by
          intro nm c f
          cases k <;> first | rfl | exact absurd rfl (hk' _)
        rw [e1, e1, e1]
        exact mergedAt_none M

theorem keyOrderCheck_sound {K : Type} [DecidableEq K] {lt : K → K → Bool} {l : List K}
    (h : keyOrderCheck lt l = true) : KeyOrderOn lt (fun k => k ∈ l) := by
  simp only [keyOrderCheck, Bool.and_eq_true, List.all_eq_true, Bool.not_eq_true',
    Bool.or_eq_true, decide_eq_true_eq, Bool.and_eq_false_imp] at h
  obtain ⟨⟨h1, h2⟩, h3⟩ := h
  refine ⟨h1, ?_, ?_⟩
  · intro a b c ha hb hc hab hbc
    rcases h2 a ha b hb c hc with h | h
    · cases hlt : lt a b with
      | false => rw [hlt] at hab; exact absurd hab (by simp)
      | true => rw [h hlt] at hbc; exact absurd hbc (by simp)
    · exact h
  · intro a b ha hb hab hba
    rcases h3 a ha b hb with (h | h) | h
    · rw [hab] at h; exact absurd h (by simp)
    · rw [hba] at h; exact absurd h (by simp)
    · exact h

theorem noConflictKeys_sound {K : Type} [DecidableEq K] (rec : Value → Value → Option Value → Bool)
    (ea eb ep : List (K × Value)) (h : noConflictKeys rec ea eb ep = true) :
    (∀ k, entryGet k ea = entryGet k ep ∨ entryGet k eb = entryGet k ep ∨
      entryGet k ea = entryGet k eb ∨ ∃ x y, entryGet k ea = some x ∧ entryGet k eb = some y) ∧
    (∀ k x y, entryGet k ea = some x → entryGet k eb = some y →
      some x ≠ entryGet k ep → some y ≠ entryGet k ep → x ≠ y →
      rec x y (entryGet k ep) = true) := by
  simp only [noConflictKeys, List.all_eq_true, Bool.or_eq_true, decide_eq_true_eq] at h
  constructor
  · intro k
    by_cases hk : k ∈ ea.map Prod.fst ++ eb.map Prod.fst ++ ep.map Prod.fst
    · rcases h k hk with ((h' | h') | h') | h'
      · exact Or.inl h'
      · exact Or.inr (Or.inl h')
      · exact Or.inr (Or.inr (Or.inl h'))
      · refine Or.inr (Or.inr (Or.inr ?_))
        cases hx : entryGet k ea with
        | none => simp [hx] at h'
        | some x =>
          cases hy : entryGet k eb with
          | none => simp [hx, hy] at h'
          | some y => exact ⟨x, y, rfl, rfl⟩
    · simp only [List.mem_append, not_or] at hk
      rw [entryGet_eq_none.2 hk.1.1, entryGet_eq_none.2 hk.2]
      exact Or.inl rfl
  · intro k x y hx hy hpx hpy hxy
    have hk : k ∈ ea.map Prod.fst ++ eb.map Prod.fst ++ ep.map Prod.fst := by
      have := entryGet_mem hx
      simp only [List.mem_append, List.mem_map]
      exact Or.inl (Or.inl ⟨(k, x), this, rfl⟩)
    rcases h k hk with ((h' | h') | h') | h'
    · rw [hx] at h'; exact absurd h' hpx
    · rw [hy] at h'; exact absurd h' hpy
    · rw [hx, hy] at h'
      exact absurd (Option.some.inj h') hxy
    · simpa [hx, hy] using h'

/-- The check `noConflictCheck` is sound. -/
theorem noConflictCheck_sound (lt : Value → Value → Bool) :
    ∀ (fuel : Nat) (a b : Value) (parent : Option Value),
      noConflictCheck lt fuel a b parent = true → NoConflict lt a b parent
  | 0, _, _, _, h => by simp [noConflictCheck] at h
  | fuel + 1, a, b, parent, h => by
    unfold noConflictCheck at h
    split at h
    · rename_i ea eb
      split at h
      · exact absurd h (by simp)
      · rename_i ep hp
        simp only [Bool.and_eq_true] at h
        have hs := noConflictKeys_sound _ _ _ _ h.2
        exact NoConflict.maps ea eb parent ep hp (keyOrderCheck_sound h.1) hs.1
          fun k x y hx hy hpx hpy hxy =>
            noConflictCheck_sound lt fuel x y _ (hs.2 k x y hx hy hpx hpy hxy)
    · rename_i na ca fa nb cb fb
      split at h
      · exact absurd h (by simp)
      · rename_i fp hp
        simp only [Bool.and_eq_true, decide_eq_true_eq] at h
        obtain ⟨hn, hk⟩ := h
        subst hn
        have hs := noConflictKeys_sound _ _ _ _ hk
        exact NoConflict.structs na ca cb fa fb parent fp hp hs.1
          fun k x y hx hy hpx hpy hxy =>
            noConflictCheck_sound lt fuel x y _ (hs.2 k x y hx hy hpx hpy hxy)
    · exact absurd h (by simp)

/-! ## Three-way merge: a side equal to the parent -/

theorem mergeChanges_right_parent (resolve : Option ResolveFunc)
    (rec : Path → Value → Value → Option Value → MergeResult Value) (path : Path)
    (pv va : Option Value) : mergeChanges resolve rec path pv va pv = .ok va := by
  by_cases h : va = pv
  · simp [mergeChanges, h]
  · simp [mergeChanges, h]

theorem mergeChanges_left_parent (resolve : Option ResolveFunc)
    (rec : Path → Value → Value → Option Value → MergeResult Value) (path : Path)
    (pv vb : Option Value) : mergeChanges resolve rec path pv pv vb = .ok vb := by
  simp [mergeChanges]

theorem keyOrderOn_mono {K : Type} {lt : K → K → Bool} {S T : K → Prop}
    (h : KeyOrderOn lt S) (hTS : ∀ k, T k → S k) : KeyOrderOn lt T :=
  ⟨fun a ha => h.irrefl a (hTS a ha),
    fun a b c ha hb hc => h.trans a b c (hTS a ha) (hTS b hb) (hTS c hc),
    fun a b ha hb => h.total a b (hTS a ha) (hTS b hb)⟩

/-- Merging ascending entries `ea` with the parent's entries on top of the
parent's entries gives `ea`, whichever side `ea` is. -/
theorem mergeKeys_parent {K : Type} [DecidableEq K] (lt : K → K → Bool)
    (resolve : Option ResolveFunc)
    (rec : Path → Value → Value → Option Value → MergeResult Value) (path : K → Path)
    (ea ep : List (K × Value))
    (hord : KeyOrderOn lt (fun k => k ∈ ea.map Prod.fst ++ ep.map Prod.fst))
    (hs : (ea.map Prod.fst).Pairwise fun a b => lt a b = true) :
    mergeKeys (fun k => mergeChanges resolve rec (path k)) ea ep ep (keyUnion lt ea ep ep) =
      .ok ea ∧
    mergeKeys (fun k => mergeChanges resolve rec (path k)) ep ea ep (keyUnion lt ep ea ep) =
      .ok ea := by
  have hord1 : KeyOrderOn lt
      (fun k => k ∈ ea.map Prod.fst ++ ep.map Prod.fst ++ ep.map Prod.fst) :=
    keyOrderOn_mono hord fun k hk => by
      simp only [List.mem_append] at hk ⊢
      tauto
  have hord2 : KeyOrderOn lt
      (fun k => k ∈ ep.map Prod.fst ++ ea.map Prod.fst ++ ep.map Prod.fst) :=
    keyOrderOn_mono hord fun k hk => by
      simp only [List.mem_append] at hk ⊢
      tauto
  constructor
  · rw [mergeKeys_eq _ ea ep ep (fun k => entryGet k ea) _
      (fun k _ => mergeChanges_right_parent resolve rec (path k) _ _)]
    rw [filterMap_entryGet hord1 _ ea (fun y hy => (mem_keyUnion lt ea ep ep y).1 hy)
      (sorted_keyUnion ea ep ep hord1) hs
      (fun k hk => (mem_keyUnion lt ea ep ep k).2 (by simp only [List.mem_append]; tauto))]
  · rw [mergeKeys_eq _ ep ea ep (fun k => entryGet k ea) _
      (fun k _ => mergeChanges_left_parent resolve rec (path k) _ _)]
    rw [filterMap_entryGet hord2 _ ea (fun y hy => (mem_keyUnion lt ep ea ep y).1 hy)
      (sorted_keyUnion ep ea ep hord2) hs
      (fun k hk => (mem_keyUnion lt ep ea ep k).2 (by simp only [List.mem_append]; tauto))]

theorem threeWay_map (M : Merger) (fuel : Nat) (path : Path) (ea eb : EntryList)
    (parent : Option Value) (ep : List (Value × Value)) (hp : mapParent parent = some ep) :
    threeWay M (fuel + 1) path (.map ea) (.map eb) parent =
      match mergeKeys
          (fun k => mergeChanges M.resolve (threeWay M fuel) (path ++ [mergeKeyPart M.hashOf k]))
          ea.toList eb.toList ep (keyUnion M.less ea.toList eb.toList ep) with
      | .error e => .error e
      | .ok es => .ok (.map (EntryList.ofList es)) := by
  simp only [threeWay, hp]

theorem threeWay_struct (M : Merger) (fuel : Nat) (path : Path) (name : GoString) (ca cb : Nat)
    (fa fb : FieldList) (parent : Option Value) (fp : List (GoString × Value))
    (hp : structParent parent = some fp) :
    threeWay M (fuel + 1) path (.struct name ca fa) (.struct name cb fb) parent =
      match mergeKeys
          (fun k => mergeChanges M.resolve (threeWay M fuel) (path ++ [.FieldPath k]))
          fa.toList fb.toList fp (keyUnion strLt fa.toList fb.toList fp) with
      | .error e => .error e
      | .ok fs => .ok (.struct name fs.length (FieldList.ofList fs)) := by
  simp only [threeWay, ne_eq, not_true_eq_false, if_false, hp]

/-- For Maps, `ThreeWay(a, parent, parent) = a` and
`ThreeWay(parent, b, parent) = b`. -/
theorem threeWay_parent_map (M : Merger) (ea ep : EntryList)
    (hord : KeyOrderOn M.less
      (fun k => k ∈ ea.toList.map Prod.fst ++ ep.toList.map Prod.fst))
    (hs : MapSorted M.less ea) :
    ThreeWay M (some (.map ea)) (some (.map ep)) (some (.map ep)) = .ok (some (.map ea)) ∧
    ThreeWay M (some (.map ep)) (some (.map ea)) (some (.map ep)) = .ok (some (.map ea)) := by
  have h := fun fuel path => mergeKeys_parent M.less M.resolve (threeWay M fuel)
    (fun k => path ++ [mergeKeyPart M.hashOf k]) ea.toList ep.toList hord hs
  constructor
  · simp only [ThreeWay]
    rw [threeWay_map M _ [] ea ep (some (.map ep)) ep.toList rfl, (h _ _).1]
    simp only [entryList_ofList_toList]
  · simp only [ThreeWay]
    rw [threeWay_map M _ [] ep ea (some (.map ep)) ep.toList rfl, (h _ _).2]
    simp only [entryList_ofList_toList]

/-- For Structs of the same name, `ThreeWay(a, parent, parent) = a` and
`ThreeWay(parent, b, parent) = b`. -/
theorem threeWay_parent_struct (M : Merger) (name : GoString) (ca cp : Nat) (fa fp : FieldList)
    (hwf : ca = fa.toList.length) (hs : Ascending (fa.toList.map Prod.fst)) :
    ThreeWay M (some (.struct name ca fa)) (some (.struct name cp fp))
      (some (.struct name cp fp)) = .ok (some (.struct name ca fa)) ∧
    ThreeWay M (some (.struct name cp fp)) (some (.struct name ca fa))
      (some (.struct name cp fp)) = .ok (some (.struct name ca fa)) := by
  have h := fun fuel path => mergeKeys_parent strLt M.resolve (threeWay M fuel)
    (fun k => path ++ [PathPart.FieldPath k]) fa.toList fp.toList (strLt_keyOrder _) hs
  constructor
  · simp only [ThreeWay]
    rw [threeWay_struct M _ [] name ca cp fa fp (some (.struct name cp fp)) fp.toList rfl, (h _ _).1]
    simp only [fieldList_ofList_toList, ← hwf]
  · simp only [ThreeWay]
    rw [threeWay_struct M _ [] name cp ca fp fa (some (.struct name cp fp)) fp.toList rfl, (h _ _).2]
    simp only [fieldList_ofList_toList, ← hwf]

/-- C21: three-way merge of Maps or Structs without conflicts.  When `a` and
`b` merge on `parent` without conflict (at every key at most one of them
differs from the parent, or both made the identical change, or both have a
Map or both a Struct there and these merge without conflict),
`ThreeWay(a, b, parent)` succeeds, with every resolver; the merged value has
at each key the value of the side that changed it, the parent's value where
no side changed it, nothing where a side removed it, and for two different
new values their merge; and `ThreeWay(b, a, parent)` is the same value.  For a
Map `a` with ascending keys, and for a Struct `a` with sorted fields and the
name of `parent`, `ThreeWay(a, parent, parent) = a` and
`ThreeWay(parent, a, parent) = a`.  The tests `DoNothing`, `NoRecursion`,
`RecursiveCreate`, `RecursiveCreateNil` and `RecursiveMerge` hold for Maps and
for Structs, and so does `TestNomsMerge_Success`. -/
theorem threeWay_merge_without_conflict :
    (∀ (M : Merger) (a b : Value) (parent : Option Value), NoConflict M.less a b parent →
      ∃ m : Value, ThreeWay M (some a) (some b) parent = .ok (some m) ∧
        ThreeWay M (some b) (some a) parent = .ok (some m) ∧
        ∀ k, MergedAt M (childOf parent k) (childOf (some a) k) (childOf (some b) k)
          (childOf (some m) k)) ∧
    (∀ (M : Merger) (ea ep : EntryList),
      KeyOrderOn M.less (fun k => k ∈ ea.toList.map Prod.fst ++ ep.toList.map Prod.fst) →
      MapSorted M.less ea →
      ThreeWay M (some (.map ea)) (some (.map ep)) (some (.map ep)) = .ok (some (.map ea)) ∧
      ThreeWay M (some (.map ep)) (some (.map ea)) (some (.map ep)) = .ok (some (.map ea))) ∧
    (∀ (M : Merger) (name : GoString) (ca cp : Nat) (fa fp : FieldList),
      ca = fa.toList.length → Ascending (fa.toList.map Prod.fst) →
      ThreeWay M (some (.struct name ca fa)) (some (.struct name cp fp))
        (some (.struct name cp fp)) = .ok (some (.struct name ca fa)) ∧
      ThreeWay M (some (.struct name cp fp)) (some (.struct name ca fa))
        (some (.struct name cp fp)) = .ok (some (.struct name ca fa))) ∧
    (∀ create ∈ [createMap, createStruct],
      tryThreeWayMerge create none none (some aa1) (some aa1) = true ∧
      tryThreeWayMerge create (some aa1a) (some aa1b) (some aa1) (some aaMerged) = true ∧
      tryThreeWayMerge create (some aa1b) (some aa1a) (some aa1) (some aaMerged) = true ∧
      tryThreeWayMerge create (some (mm1a create)) (some (mm1b create)) (some mm1)
        (some (mm1Merged create)) = true ∧
      tryThreeWayMerge create (some (mm1b create)) (some (mm1a create)) (some mm1)
        (some (mm1Merged create)) = true ∧
      tryThreeWayMerge create (some (mm1a create)) (some (mm1b create)) none
        (some (mm1Merged create)) = true ∧
      tryThreeWayMerge create (some (mm1b create)) (some (mm1a create)) none
        (some (mm1Merged create)) = true ∧
      tryThreeWayMerge create (some (mm2a create)) (some (mm2b create)) (some (mm2 create))
        (some (mm2Merged create)) = true ∧
      tryThreeWayMerge create (some (mm2b create)) (some (mm2a create)) (some (mm2 create))
        (some (mm2Merged create)) = true ∧
      noConflictCheck stringLess 3 (create (mm2a create)) (create (mm2b create))
        (some (create (mm2 create))) = true) ∧
    ThreeWay (testMerger none)
      (some (mergeDataset "foobaz" [(.number 1, str "foo"), (str "foo", .number 1)]))
      (some (mergeDataset "foobar" [(.number 1, str "foo"), (.number 2, str "bar"),
        (str "foo", .number 1)]))
      (some (mergeDataset "foobar" [(.number 1, str "foo"), (str "foo", .number 1)])) =
      .ok (some (mergeDataset "foobaz" [(.number 1, str "foo"), (.number 2, str "bar"),
        (str "foo", .number 1)])) := by
  refine ⟨?_, threeWay_parent_map, threeWay_parent_struct, ?_, ?_⟩
  · intro M a b parent h
    obtain ⟨m, h1, h2, h3⟩ := threeWay_noConflict M a b parent h
    refine ⟨m, ?_, ?_, h3⟩
    · simp only [ThreeWay, h1 (a.depth + 1) [] (Nat.lt_succ_self _)]
    · simp only [ThreeWay, h2 (b.depth + 1) [] (Nat.lt_succ_self _)]
  · intro create hc
    simp only [List.mem_cons, List.mem_singleton, List.not_mem_nil, or_false] at hc
    rcases hc with rfl | rfl
    · set_option maxRecDepth 100000 in decide
    · set_option maxRecDepth 100000 in decide
  · set_option maxRecDepth 100000 in decide

theorem threeWay_merge_without_conflict_witness :
    ∃ m : Value,
      ThreeWay (testMerger none) (some (createMap (mm2a createMap)))
        (some (createMap (mm2b createMap))) (some (createMap (mm2 createMap))) = .ok (some m) ∧
      ThreeWay (testMerger none) (some (createMap (mm2b createMap)))
        (some (createMap (mm2a createMap))) (some (createMap (mm2 createMap))) = .ok (some m) :=
  have h := threeWay_merge_without_conflict.1 (testMerger none) (createMap (mm2a createMap))
    (createMap (mm2b createMap)) (some (createMap (mm2 createMap)))
    (noConflictCheck_sound stringLess 3 _ _ _ (by set_option maxRecDepth 100000 in decide))
  h.imp fun _ hm => ⟨hm.1, hm.2.1⟩

/-! ## Three-way merge: conflicts -/

theorem resolveConflict_ne_outOfFuel (resolve : Option ResolveFunc) (path : Path)
    (pv va vb : Option Value) :
    resolveConflict resolve path pv va vb ≠ .error .outOfFuel := by
  unfold resolveConflict
  split
  · simp
  · split
    · split_ifs <;> simp
    · simp

theorem mergeChanges_ne_outOfFuel (resolve : Option ResolveFunc)
    (rec : Path → Value → Value → Option Value → MergeResult Value) (path : Path)
    (pv va vb : Option Value)
    (h : ∀ x y, va = some x → rec path x y pv ≠ .error .outOfFuel) :
    mergeChanges resolve rec path pv va vb ≠ .error .outOfFuel := by
  unfold mergeChanges
  split_ifs
  · simp
  · simp
  · simp
  · cases va with
    | none => exact resolveConflict_ne_outOfFuel _ _ _ _ _
    | some x =>
      cases vb with
      | none => exact resolveConflict_ne_outOfFuel _ _ _ _ _
      | some y =>
        simp only
        split_ifs
        · have := h x y rfl
          cases hr : rec path x y pv with
          | ok z => simp
          | error e =>
            simp only [ne_eq, Except.error.injEq]
            intro hc
            subst hc
            exact this hr
        · exact resolveConflict_ne_outOfFuel _ _ _ _ _

theorem mergeKeys_ne_outOfFuel {K : Type} [DecidableEq K]
    (f : K → Option Value → Option Value → Option Value → MergeResult (Option Value))
    (a b p : List (K × Value)) :
    ∀ keys : List K,
      (∀ k ∈ keys, f k (entryGet k p) (entryGet k a) (entryGet k b) ≠ .error .outOfFuel) →
      mergeKeys f a b p keys ≠ .error .outOfFuel
  | [], _ => by simp [mergeKeys]
  | k :: ks, h => by
    have hk := h k (List.mem_cons_self _ _)
    have ih := mergeKeys_ne_outOfFuel f a b p ks fun k' hk' => h k' (List.mem_cons_of_mem _ hk')
    unfold mergeKeys
    split
    · rename_i e he
      intro hc
      simp only [Except.error.injEq] at hc
      subst hc
      exact hk he
    · split
      · rename_i e he
        intro hc
        simp only [Except.error.injEq] at hc
        subst hc
        exact ih he
      · split <;> simp

/-- With one level of recursion for each level of nesting of `a`, the fuel of
`threeWay` does not run out. -/
theorem threeWay_fuel (M : Merger) :
    ∀ (fuel : Nat) (path : Path) (a b : Value) (parent : Option Value), a.depth < fuel →
      threeWay M fuel path a b parent ≠ .error .outOfFuel
  | 0, _, _, _, _, h => by omega
  | fuel + 1, path, a, b, parent, h => by
    unfold threeWay
    split
    · rename_i ea eb
      simp only [Value.depth] at h
      split
      · simp
      · rename_i ep hp
        have hm := mergeKeys_ne_outOfFuel
          (fun k => mergeChanges M.resolve (threeWay M fuel) (path ++ [mergeKeyPart M.hashOf k]))
          ea.toList eb.toList ep (keyUnion M.less ea.toList eb.toList ep) fun k _ =>
            mergeChanges_ne_outOfFuel _ _ _ _ _ _ fun x y hx =>
              threeWay_fuel M fuel _ x y _ (by
                have := entryList_depth_le ea (k, x) (entryGet_mem hx)
                simp only at this
                omega)
        split
        · rename_i e he
          intro hc
          simp only [Except.error.injEq] at hc
          subst hc
          exact hm he
        · simp
    · rename_i na ca fa nb cb fb
      simp only [Value.depth] at h
      split_ifs
      · simp
      · split
        · simp
        · rename_i fp hp
          have hm := mergeKeys_ne_outOfFuel
            (fun k => mergeChanges M.resolve (threeWay M fuel) (path ++ [PathPart.FieldPath k]))
            fa.toList fb.toList fp (keyUnion strLt fa.toList fb.toList fp) fun k _ =>
              mergeChanges_ne_outOfFuel _ _ _ _ _ _ fun x y hx =>
                threeWay_fuel M fuel _ x y _ (by
                  have := fieldList_depth_le fa (k, x) (entryGet_mem hx)
                  simp only at this
                  omega)
          split
          · rename_i e he
            intro hc
            simp only [Except.error.injEq] at hc
            subst hc
            exact hm he
          · simp
    · split_ifs
      · simp
      · split <;> simp

/-- The fuel that `ThreeWay` gives is enough. -/
theorem ThreeWay_fuel (M : Merger) (a b parent : Option Value) :
    ThreeWay M a b parent ≠ .error .outOfFuel := by
  unfold ThreeWay
  split
  · simp
  · rename_i x y
    have := threeWay_fuel M (x.depth + 1) [] x y parent (Nat.lt_succ_self _)
    split
    · simp
    · rename_i e he
      intro hc
      simp only [Except.error.injEq] at hc
      subst hc
      exact this he
  · simp

theorem mergeKeys_error {K : Type} [DecidableEq K]
    (f : K → Option Value → Option Value → Option Value → MergeResult (Option Value))
    (a b p : List (K × Value)) (k : K) (e : MergeFailure)
    (hk : f k (entryGet k p) (entryGet k a) (entryGet k b) = .error e) :
    ∀ keys : List K, k ∈ keys → ∃ e', mergeKeys f a b p keys = .error e'
  | [], h => absurd h (by simp)
  | x :: xs, h => by
    unfold mergeKeys
    by_cases hx : x = k
    · subst hx
      rw [hk]
      exact ⟨e, rfl⟩
    · have hm : k ∈ xs := by
        rcases List.mem_cons.1 h with h' | h'
        · exact absurd h'.symm hx
        · exact h'
      obtain ⟨e', he'⟩ := mergeKeys_error f a b p k e hk xs hm
      cases f x (entryGet x p) (entryGet x a) (entryGet x b) with
      | error e1 => exact ⟨e1, rfl⟩
      | ok v => rw [he']; exact ⟨e', rfl⟩

theorem mergeChanges_conflict (rec : Path → Value → Value → Option Value → MergeResult Value)
    (path : Path) (pv va vb : Option Value) (h1 : va ≠ pv) (h2 : vb ≠ pv) (h3 : va ≠ vb)
    (hu : Unmergeable va vb) (resolve : Option ResolveFunc) :
    mergeChanges resolve rec path pv va vb = resolveConflict resolve path pv va vb := by
  unfold mergeChanges
  rw [if_neg h1, if_neg h2, if_neg h3]
  split
  · rename_i x y
    rw [if_neg (hu x y rfl rfl)]
  · rfl

theorem resolveConflict_ours (path : Path) (pv va vb : Option Value) (h : va ≠ pv) :
    resolveConflict (some Ours) path pv va vb = .ok va := by
  cases pv <;> cases va <;> simp [resolveConflict, Ours, changeTypeOf] at h ⊢

theorem resolveConflict_theirs (path : Path) (pv va vb : Option Value) (h : vb ≠ pv) :
    resolveConflict (some Theirs) path pv va vb = .ok vb := by
  cases pv <;> cases vb <;> simp [resolveConflict, Theirs, changeTypeOf] at h ⊢

theorem mem_keyUnion_of_ne {K : Type} [DecidableEq K] (lt : K → K → Bool)
    (ea eb ep : List (K × Value)) (k : K) (h : entryGet k ea ≠ entryGet k ep) :
    k ∈ keyUnion lt ea eb ep := by
  rw [mem_keyUnion]
  by_contra hk
  simp only [List.mem_append, not_or] at hk
  rw [entryGet_eq_none.2 hk.1.1, entryGet_eq_none.2 hk.2] at h
  exact h rfl

/-- A conflict at a key makes the merge key by key fail when there is no
resolver. -/
theorem mergeKeys_conflict {K : Type} [DecidableEq K] (lt : K → K → Bool)
    (rec : Path → Value → Value → Option Value → MergeResult Value) (path : K → Path)
    (ea eb ep : List (K × Value)) (k : K)
    (hc : ConflictAt (entryGet k ep) (entryGet k ea) (entryGet k eb)) :
    ∃ e, mergeKeys (fun k => mergeChanges none rec (path k)) ea eb ep (keyUnion lt ea eb ep) =
      .error e := by
  obtain ⟨h1, h2, h3, hu⟩ := hc
  refine mergeKeys_error _ ea eb ep k .conflict ?_ _ (mem_keyUnion_of_ne lt ea eb ep k h1)
  simp only [mergeChanges_conflict rec (path k) _ _ _ h1 h2 h3 hu, resolveConflict]

/-- The merge key by key with a resolver that resolves every conflict to the
value `pick pv va vb`, when no two values under a key have to be merged. -/
theorem mergeKeys_resolved {K : Type} [DecidableEq K] (lt : K → K → Bool)
    (resolve : Option ResolveFunc) (pick : Option Value → Option Value → Option Value)
    (hpick : ∀ path pv va vb, va ≠ pv → vb ≠ pv →
      resolveConflict resolve path pv va vb = .ok (pick va vb))
    (rec : Path → Value → Value → Option Value → MergeResult Value) (path : K → Path)
    (ea eb ep : List (K × Value))
    (hord : KeyOrderOn lt (fun k => k ∈ ea.map Prod.fst ++ eb.map Prod.fst ++ ep.map Prod.fst))
    (hflat : ∀ k, entryGet k ea ≠ entryGet k ep → entryGet k eb ≠ entryGet k ep →
      entryGet k ea ≠ entryGet k eb → Unmergeable (entryGet k ea) (entryGet k eb)) :
    ∃ es, mergeKeys (fun k => mergeChanges resolve rec (path k)) ea eb ep
        (keyUnion lt ea eb ep) = .ok es ∧
      ∀ k, entryGet k es =
        if entryGet k ea = entryGet k ep then entryGet k eb
        else if entryGet k eb = entryGet k ep then entryGet k ea
        else if entryGet k ea = entryGet k eb then entryGet k ea
        else pick (entryGet k ea) (entryGet k eb) := by
  let g : K → Option Value := fun k =>
    if entryGet k ea = entryGet k ep then entryGet k eb
    else if entryGet k eb = entryGet k ep then entryGet k ea
    else if entryGet k ea = entryGet k eb then entryGet k ea
    else pick (entryGet k ea) (entryGet k eb)
  have hg : ∀ k, mergeChanges resolve rec (path k) (entryGet k ep) (entryGet k ea)
      (entryGet k eb) = .ok (g k) := by
    intro k
    by_cases h1 : entryGet k ea = entryGet k ep
    · simp [mergeChanges, g, h1]
    · by_cases h2 : entryGet k eb = entryGet k ep
      · simp [mergeChanges, g, h1, h2]
      · by_cases h3 : entryGet k ea = entryGet k eb
        · simp only [mergeChanges, g, h1, h2, h3, if_false, if_true]
        · rw [mergeChanges_conflict rec (path k) _ _ _ h1 h2 h3 (hflat k h1 h2 h3),
            hpick _ _ _ _ h1 h2]
          simp only [g, h1, h2, h3, if_false]
  refine ⟨_, mergeKeys_eq _ ea eb ep g _ fun k _ => hg k, fun k => ?_⟩
  rw [entryGet_filterMap g _ k (nodup_keyUnion ea eb ep hord)]
  by_cases hk : k ∈ keyUnion lt ea eb ep
  · rw [if_pos hk]
  · rw [if_neg hk]
    rw [mem_keyUnion] at hk
    simp only [List.mem_append, not_or] at hk
    rw [entryGet_eq_none.2 hk.1.1, entryGet_eq_none.2 hk.1.2, entryGet_eq_none.2 hk.2]
    simp

theorem childOf_struct_other (name : GoString) (c : Nat) (f : FieldList) (k : Value)
    (hk : ∀ n, k ≠ .string n) : childOf (some (.struct name c f)) k = none := by
  cases k <;> first | rfl | exact absurd rfl (hk _)

/-- A conflict at a key: without resolver `ThreeWay` returns the conflict
error. -/
theorem threeWay_conflict (M : Merger) (hM : M.resolve = none) (a b : Value)
    (parent : Option Value) (hs : MergeShape a b parent) (k : Value)
    (hc : ConflictAt (childOf parent k) (childOf (some a) k) (childOf (some b) k)) :
    ThreeWay M (some a) (some b) parent = .error .conflict := by
  have hne := ThreeWay_fuel M (some a) (some b) parent
  suffices h : ∃ e, ThreeWay M (some a) (some b) parent = .error e by
    obtain ⟨e, he⟩ := h
    cases e with
    | conflict => exact he
    | outOfFuel => exact absurd he hne
  rcases hs with ⟨ea, eb, ep, rfl, rfl, hp⟩ | ⟨name, ca, cb, fa, fb, fp, rfl, rfl, hp⟩
  · rw [childOf_mapParent hp] at hc
    obtain ⟨e, he⟩ := mergeKeys_conflict M.less (threeWay M (Value.map ea).depth)
      (fun k => [] ++ [mergeKeyPart M.hashOf k]) ea.toList eb.toList ep k hc
    refine ⟨e, ?_⟩
    simp only [ThreeWay]
    rw [threeWay_map M _ [] ea eb parent ep hp, hM, he]
  · by_cases hk : ∃ n, k = .string n
    · obtain ⟨n, rfl⟩ := hk
      rw [childOf_structParent hp] at hc
      obtain ⟨e, he⟩ := mergeKeys_conflict strLt (threeWay M (Value.struct name ca fa).depth)
        (fun k => [] ++ [PathPart.FieldPath k]) fa.toList fb.toList fp n hc
      refine ⟨e, ?_⟩
      simp only [ThreeWay]
      rw [threeWay_struct M _ [] name ca cb fa fb parent fp hp, hM, he]
    · have hk' : ∀ n, k ≠ .string n := fun n e => hk ⟨n, e⟩
      rw [childOf_structParent_other hp k hk', childOf_struct_other _ _ _ k hk'] at hc
      exact absurd rfl hc.1

/-- With a resolver that resolves every conflict to `pick va vb`, and no two
values under a key that have to be merged, `ThreeWay` succeeds and the merged
value has at each key the value of the only side that changed it, and
`pick va vb` at a conflict. -/
theorem threeWay_resolved (M : Merger) (pick : Option Value → Option Value → Option Value)
    (hpick : ∀ path pv va vb, va ≠ pv → vb ≠ pv →
      resolveConflict M.resolve path pv va vb = .ok (pick va vb))
    (a b : Value) (parent : Option Value) (hs : MergeShape a b parent)
    (hord : KeysOrdered M.less a b parent)
    (hflat : ∀ k, childOf (some a) k ≠ childOf parent k → childOf (some b) k ≠ childOf parent k →
      childOf (some a) k ≠ childOf (some b) k →
      Unmergeable (childOf (some a) k) (childOf (some b) k)) :
    ∃ m, ThreeWay M (some a) (some b) parent = .ok (some m) ∧
      ∀ k, childOf (some m) k =
        if childOf (some a) k = childOf parent k then childOf (some b) k
        else if childOf (some b) k = childOf parent k then childOf (some a) k
        else if childOf (some a) k = childOf (some b) k then childOf (some a) k
        else pick (childOf (some a) k) (childOf (some b) k) := by
  rcases hs with ⟨ea, eb, ep, rfl, rfl, hp⟩ | ⟨name, ca, cb, fa, fb, fp, rfl, rfl, hp⟩
  · obtain ⟨es, he, hes⟩ := mergeKeys_resolved M.less M.resolve pick hpick
      (threeWay M (Value.map ea).depth) (fun k => [] ++ [mergeKeyPart M.hashOf k])
      ea.toList eb.toList ep (hord ea eb ep rfl rfl hp) (fun k h1 h2 h3 => by
        have := hflat k
        rw [childOf_mapParent hp] at this
        exact this h1 h2 h3)
    refine ⟨.map (EntryList.ofList es), ?_, fun k => ?_⟩
    · simp only [ThreeWay]
      rw [threeWay_map M _ [] ea eb parent ep hp, he]
    · rw [childOf_mapParent hp]
      simp only [childOf, entryList_toList_ofList]
      exact hes k
  · obtain ⟨es, he, hes⟩ := mergeKeys_resolved strLt M.resolve pick hpick
      (threeWay M (Value.struct name ca fa).depth) (fun k => [] ++ [PathPart.FieldPath k])
      fa.toList fb.toList fp (strLt_keyOrder _) (fun n h1 h2 h3 => by
        have := hflat (.string n)
        rw [childOf_structParent hp] at this
        exact this h1 h2 h3)
    refine ⟨.struct name es.length (FieldList.ofList es), ?_, fun k => ?_⟩
    · simp only [ThreeWay]
      rw [threeWay_struct M _ [] name ca cb fa fb parent fp hp, he]
    · by_cases hk : ∃ n, k = .string n
      · obtain ⟨n, rfl⟩ := hk
        rw [childOf_structParent hp]
        simp only [childOf, fieldList_toList_ofList]
        exact hes n
      · have hk' : ∀ n, k ≠ .string n := fun n e => hk ⟨n, e⟩
        rw [childOf_structParent_other hp k hk', childOf_struct_other _ _ _ k hk',
          childOf_struct_other _ _ _ k hk', childOf_struct_other _ _ _ k hk']
        simp

theorem threeWay_kinds (M : Merger) (a b : Value) (parent : Option Value)
    (h : a.Kind ≠ b.Kind) : ThreeWay M (some a) (some b) parent = .error .conflict := by
  simp only [ThreeWay]
  cases a <;> cases b <;> first
    | exact absurd rfl h
    | simp [threeWay, Value.Kind]

/-- C22, where the description fails: a nil `a` and `b` is not an error,
`ThreeWay(nil, nil, parent)` returns `parent` (`TestThreeWayMerge_DoNothing`);
and when `a` and `b` both set the key `k1`, which `parent` does not have, to
two different Maps, `ThreeWay` without resolver returns no error but the
Map with the merge of the two under `k1`
(`TestThreeWayMerge_RecursiveCreate`). -/
theorem threeWay_nil_nil_and_nested :
    ThreeWay (testMerger none) none none (some (createMap aa1)) = .ok (some (createMap aa1)) ∧
    childOf (some (createMap (mm1a createMap))) (str "k1") ≠ childOf (some (createMap mm1)) (str "k1") ∧
    childOf (some (createMap (mm1b createMap))) (str "k1") ≠ childOf (some (createMap mm1)) (str "k1") ∧
    childOf (some (createMap (mm1a createMap))) (str "k1") ≠
      childOf (some (createMap (mm1b createMap))) (str "k1") ∧
    ThreeWay (testMerger none) (some (createMap (mm1a createMap)))
      (some (createMap (mm1b createMap))) (some (createMap mm1)) =
      .ok (some (createMap (mm1Merged createMap))) := by
  set_option maxRecDepth 100000 in decide

/-- C22, amended: conflicts of a three-way merge of two Maps, or of two
Structs of the same name.  When at some key `a` and `b` both changed the
parent's value, to different values that do not merge (one is absent, or
they are of different kinds, or of a primitive kind), `ThreeWay` without
resolver returns the conflict error.  With the resolver `Ours`, when no two
values under a key have to be merged, `ThreeWay` succeeds and the merged
value has at each key the value of `b` where `a` did not change it and the
value of `a` elsewhere, also at a conflict; with `Theirs` it has the value of
`a` where `b` did not change it and the value of `b` elsewhere.  One nil
side, and two sides of different kinds, are the conflict error.  The tests
`MergeOurs`, `MergeTheirs`, `NilConflict`, `ImmediateConflict`,
`NestedConflict`, `NestedConflictingOperation` and `CustomMerge` hold for Maps
and Structs, and so do `TestNomsMerge_Left`, `_Right` and `_Conflict`. -/
theorem threeWay_conflict_handling :
    (∀ (M : Merger) (a b : Value) (parent : Option Value) (k : Value), M.resolve = none →
      MergeShape a b parent →
      ConflictAt (childOf parent k) (childOf (some a) k) (childOf (some b) k) →
      ThreeWay M (some a) (some b) parent = .error .conflict) ∧
    (∀ (M : Merger) (a b : Value) (parent : Option Value), M.resolve = some Ours →
      MergeShape a b parent → KeysOrdered M.less a b parent →
      (∀ k, childOf (some a) k ≠ childOf parent k → childOf (some b) k ≠ childOf parent k →
        childOf (some a) k ≠ childOf (some b) k →
        Unmergeable (childOf (some a) k) (childOf (some b) k)) →
      ∃ m, ThreeWay M (some a) (some b) parent = .ok (some m) ∧
        ∀ k, childOf (some m) k =
          if childOf (some a) k = childOf parent k then childOf (some b) k
          else childOf (some a) k) ∧
    (∀ (M : Merger) (a b : Value) (parent : Option Value), M.resolve = some Theirs →
      MergeShape a b parent → KeysOrdered M.less a b parent →
      (∀ k, childOf (some a) k ≠ childOf parent k → childOf (some b) k ≠ childOf parent k →
        childOf (some a) k ≠ childOf (some b) k →
        Unmergeable (childOf (some a) k) (childOf (some b) k)) →
      ∃ m, ThreeWay M (some a) (some b) parent = .ok (some m) ∧
        ∀ k, childOf (some m) k =
          if childOf (some b) k = childOf parent k then childOf (some a) k
          else childOf (some b) k) ∧
    (∀ (M : Merger) (b : Value) (parent : Option Value),
      ThreeWay M none (some b) parent = .error .conflict) ∧
    (∀ (M : Merger) (a : Value) (parent : Option Value),
      ThreeWay M (some a) none parent = .error .conflict) ∧
    (∀ (M : Merger) (a b : Value) (parent : Option Value), a.Kind ≠ b.Kind →
      ThreeWay M (some a) (some b) parent = .error .conflict) ∧
    (∀ create ∈ [createMap, createStruct],
      ThreeWay (testMerger (some Ours)) (some (create [("k1", str "k-won")]))
        (some (create [("k1", str "k-too"), ("k2", str "k-two")]))
        (some (create [("k1", str "k-one")])) =
        .ok (some (create [("k1", str "k-won"), ("k2", str "k-two")])) ∧
      ThreeWay (testMerger (some Theirs)) (some (create [("k1", str "k-won")]))
        (some (create [("k1", str "k-too"), ("k2", str "k-two")]))
        (some (create [("k1", str "k-one")])) =
        .ok (some (create [("k1", str "k-too"), ("k2", str "k-two")])) ∧
      tryThreeWayConflict (some (create [("k1", str "k-won")]))
        (some (create [("k1", str "k-too"), ("k2", str "k-two")]))
        (some (create [("k1", str "k-one")])) = true ∧
      tryThreeWayConflict none (some (create (mm2b create))) (some (create (mm2 create)))
        = true ∧
      tryThreeWayConflict (some (create (mm2a create))) none (some (create (mm2 create)))
        = true ∧
      tryThreeWayConflict (some (.set .nil)) (some (create (mm2b create)))
        (some (create (mm2 create))) = true ∧
      tryThreeWayConflict (some (create (mm2b create))) (some (.set .nil))
        (some (create (mm2 create))) = true ∧
      tryThreeWayConflict (some (create (kvsSet (mm2a create) "k2" (.set .nil))))
        (some (create (mm2b create))) (some (create (mm2 create))) = true ∧
      tryThreeWayConflict (some (create (kvsRemove (mm2a create) "k2")))
        (some (create (mm2b create))) (some (create (mm2 create))) = true ∧
      ThreeWay (testMerger (some customResolve))
        (some (create [("k1", str "k-won"), ("k2", str "k-too"), ("mm1", create mm1),
          ("n1", create [("a", str "1")]), ("s1", str "s-one")]))
        (some (create [("k2", str "k-two"), ("mm1", str "mm-one"),
          ("n1", create [("a", str "2")]), ("s1", str "s-one")]))
        (some (create [("k1", str "k-one"), ("k2", str "k-two"), ("mm1", create mm1),
          ("s1", str "s-one")])) =
        .ok (some (create [("k2", str "k-too"), ("mm1", str "mm-one"),
          ("n1", create [("a", str "1")]), ("s1", str "s-one")]))) ∧
    ThreeWay (testMerger (some Ours)) (some (numDataset 43)) (some (numDataset 44))
      (some (numDataset 42)) = .ok (some (numDataset 43)) ∧
    ThreeWay (testMerger (some Theirs)) (some (numDataset 43)) (some (numDataset 44))
      (some (numDataset 42)) = .ok (some (numDataset 44)) ∧
    ThreeWay (testMerger none) (some (numDataset 43)) (some (numDataset 44))
      (some (numDataset 42)) = .error .conflict := by
  refine ⟨?_, ?_, ?_, fun _ _ _ => rfl, fun _ _ _ => rfl, threeWay_kinds, ?_, ?_, ?_, ?_⟩
  · intro M a b parent k hM hs hc
    exact threeWay_conflict M hM a b parent hs k hc
  · intro M a b parent hM hs hord hflat
    obtain ⟨m, hm, hk⟩ := threeWay_resolved M (fun va _ => va)
      (fun path pv va vb h1 _ => by rw [hM]; exact resolveConflict_ours path pv va vb h1)
      a b parent hs hord hflat
    refine ⟨m, hm, fun k => ?_⟩
    rw [hk k]
    split_ifs <;> rfl
  · intro M a b parent hM hs hord hflat
    obtain ⟨m, hm, hk⟩ := threeWay_resolved M (fun _ vb => vb)
      (fun path pv va vb _ h2 => by rw [hM]; exact resolveConflict_theirs path pv va vb h2)
      a b parent hs hord hflat
    refine ⟨m, hm, fun k => ?_⟩
    rw [hk k]
    by_cases h1 : childOf (some a) k = childOf parent k
    · by_cases h2 : childOf (some b) k = childOf parent k
      · rw [if_pos h1, if_pos h2, h2, ← h1]
      · rw [if_pos h1, if_neg h2]
    · by_cases h2 : childOf (some b) k = childOf parent k
      · rw [if_neg h1, if_pos h2, if_pos h2]
      · by_cases h3 : childOf (some a) k = childOf (some b) k
        · rw [if_neg h1, if_neg h2, if_pos h3, if_neg h2, h3]
        · rw [if_neg h1, if_neg h2, if_neg h3, if_neg h2]
  · intro create hc
    simp only [List.mem_cons, List.mem_singleton, List.not_mem_nil, or_false] at hc
    rcases hc with rfl | rfl
    · set_option maxRecDepth 100000 in decide
    · set_option maxRecDepth 100000 in decide
  · set_option maxRecDepth 100000 in decide
  · set_option maxRecDepth 100000 in decide
  · set_option maxRecDepth 100000 in decide

/-! ## Tables: big-endian numbers and pieces of a buffer -/

theorem length_putUint (w n : Nat) : (putUint w n).length = w := by
  induction w generalizing n with
  | zero => rfl
  | succ w ih => simp [putUint, ih]

theorem getUint_putUint (w n : Nat) (h : n < 256 ^ w) : getUint (putUint w n) = n := by
  induction w generalizing n with
  | zero =>
    simp only [pow_zero, Nat.lt_one_iff] at h
    simp [putUint, getUint, h]
  | succ w ih =>
    have hpos : 0 < 256 ^ w := by positivity
    have hq : n / 256 ^ w < 256 := by
      rw [Nat.div_lt_iff_lt_mul hpos]
      rw [pow_succ] at h
      rw [Nat.mul_comm]
      exact h
    simp only [putUint, getUint, length_putUint, Nat.mod_eq_of_lt hq,
      ih _ (Nat.mod_lt _ hpos)]
    rw [Nat.mul_comm]
    exact Nat.div_add_mod n (256 ^ w)

theorem getUint_lt (bs : List Nat) (h : ∀ b ∈ bs, b < 256) : getUint bs < 256 ^ bs.length := by
  induction bs with
  | nil => simp [getUint]
  | cons b r ih =>
    have hb := h b (List.mem_cons_self _ _)
    have hr := ih fun x hx => h x (List.mem_cons_of_mem _ hx)
    simp only [getUint, List.length_cons, pow_succ]
    have : b * 256 ^ r.length ≤ 255 * 256 ^ r.length := Nat.mul_le_mul_right _ (by omega)
    omega

theorem getUint_inj : ∀ (xs ys : List Nat), xs.length = ys.length → (∀ b ∈ xs, b < 256) →
    (∀ b ∈ ys, b < 256) → getUint xs = getUint ys → xs = ys
  | [], [], _, _, _, _ => rfl
  | [], _ :: _, h, _, _, _ => by simp at h
  | _ :: _, [], h, _, _, _ => by simp at h
  | x :: xs, y :: ys, hl, hx, hy, h => by
    simp only [List.length_cons, Nat.add_right_cancel_iff] at hl
    have hxs := getUint_lt xs fun b hb => hx b (List.mem_cons_of_mem _ hb)
    have hys := getUint_lt ys fun b hb => hy b (List.mem_cons_of_mem _ hb)
    simp only [getUint, hl] at h
    rw [hl] at hxs
    have hpos : 0 < 256 ^ ys.length := by positivity
    have h1 : x = y := by
      have e1 : (x * 256 ^ ys.length + getUint xs) / 256 ^ ys.length = x := by
        rw [Nat.mul_comm, Nat.mul_add_div hpos, Nat.div_eq_of_lt hxs, Nat.add_zero]
      have e2 : (y * 256 ^ ys.length + getUint ys) / 256 ^ ys.length = y := by
        rw [Nat.mul_comm, Nat.mul_add_div hpos, Nat.div_eq_of_lt hys, Nat.add_zero]
      rw [← e1, ← e2, h]
    subst h1
    have h2 : getUint xs = getUint ys := by omega
    rw [getUint_inj xs ys hl (fun b hb => hx b (List.mem_cons_of_mem _ hb))
      (fun b hb => hy b (List.mem_cons_of_mem _ hb)) h2]

theorem length_flatMap_const {α : Type} (l : List α) (f : α → List Nat) (k : Nat)
    (h : ∀ x ∈ l, (f x).length = k) : (l.flatMap f).length = l.length * k := by
  induction l with
  | nil => simp
  | cons a r ih =>
    have ha := h a (List.mem_cons_self _ _)
    have hr := ih fun x hx => h x (List.mem_cons_of_mem _ hx)
    simp only [List.flatMap_cons, List.length_append, ha, hr, List.length_cons]
    rw [Nat.add_mul, Nat.one_mul, Nat.add_comm]

/-- The pieces of the concatenation of `n` lists of `k` bytes each, whatever
follows it. -/
theorem pieces_flatMap {α : Type} (l : List α) (f : α → List Nat) (k : Nat) (rest : List Nat)
    (h : ∀ x ∈ l, (f x).length = k) :
    pieces k l.length (l.flatMap f ++ rest) = l.map f := by
  unfold pieces
  apply List.ext_getElem
  · simp
  · intro i h1 h2
    simp only [List.length_map, List.length_range] at h1
    simp only [List.getElem_map, List.getElem_range]
    have hsplit : l = l.take i ++ l[i] :: l.drop (i + 1) := by
      rw [← List.drop_eq_getElem_cons h1, List.take_append_drop]
    have hlen : ((l.take i).flatMap f).length = i * k := by
      rw [length_flatMap_const _ f k fun x hx => h x (List.mem_of_mem_take hx)]
      rw [List.length_take, Nat.min_eq_left (Nat.le_of_lt h1)]
    have hk : (f l[i]).length = k := h _ (List.getElem_mem _)
    conv_lhs => rw [hsplit]
    rw [List.flatMap_append, List.flatMap_cons, List.append_assoc, List.append_assoc,
      ← hlen, List.drop_left, ← hk, List.take_left]

theorem drop_length_flatMap {α : Type} (l : List α) (f : α → List Nat) (k : Nat)
    (rest : List Nat) (h : ∀ x ∈ l, (f x).length = k) :
    (l.flatMap f ++ rest).drop (l.length * k) = rest := by
  rw [← length_flatMap_const l f k h, List.drop_left]

theorem getD_offsetsOf (lens : List Nat) :
    ∀ (start i : Nat), i < lens.length →
      (offsetsOf start lens).getD i 0 = start + (lens.take i).sum := by
  induction lens with
  | nil => intro start i h; simp at h
  | cons l ls ih =>
    intro start i h
    cases i with
    | zero => simp [offsetsOf]
    | succ i =>
      simp only [List.length_cons, Nat.add_lt_add_iff_right] at h
      simp only [offsetsOf, List.getD_cons_succ, ih (start + l) i h, List.take_succ_cons,
        List.sum_cons]
      omega

/-- The payload at place `i` in the concatenated payloads, whatever follows
them. -/
theorem drop_take_payload {α : Type} (l : List α) (f : α → List Nat) (rest : List Nat) (i : Nat)
    (hi : i < l.length) :
    ((l.flatMap f ++ rest).drop (((l.map fun x => (f x).length).take i).sum)).take
      ((l.map fun x => (f x).length).getD i 0) = f (l.get ⟨i, hi⟩) := by
  obtain ⟨t, x, d, hl, ht, hx⟩ : ∃ t x d, l = t ++ x :: d ∧ t.length = i ∧
      l.get ⟨i, hi⟩ = x := by
    refine ⟨l.take i, l[i], l.drop (i + 1), ?_, ?_, rfl⟩
    · rw [← List.drop_eq_getElem_cons hi, List.take_append_drop]
    · rw [List.length_take, Nat.min_eq_left (Nat.le_of_lt hi)]
  rw [hx]
  subst hl
  subst ht
  have hlen : ∀ t : List α, (t.map fun x => (f x).length).sum = (t.flatMap f).length := by
    intro t
    induction t with
    | nil => rfl
    | cons a r ih => simp [ih]
  have e1 : ((t ++ x :: d).map fun x => (f x).length).take t.length =
      t.map fun x => (f x).length := by
    rw [List.map_append, List.take_left' (by simp)]
  have e2 : ((t ++ x :: d).map fun x => (f x).length).getD t.length 0 = (f x).length := by
    rw [List.map_append, List.getD_append_right _ _ _ _ (by simp)]
    simp
  rw [e1, e2, hlen, List.flatMap_append, List.flatMap_cons, List.append_assoc, List.append_assoc,
    List.drop_left, List.take_left]

/-! ## Tables: what the writer writes -/

theorem length_insertKey {K : Type} (lt : K → K → Bool) (x : K) (l : List K) :
    (insertKey lt x l).length = l.length + 1 := by
  induction l with
  | nil => rfl
  | cons z zs ih =>
    simp only [insertKey]
    split_ifs <;> simp [ih]

theorem length_sortKeys {K : Type} (lt : K → K → Bool) (l : List K) :
    (sortKeys lt l).length = l.length := by
  induction l with
  | nil => rfl
  | cons z zs ih => simp [sortKeys, length_insertKey, ih]

theorem length_stagingOf (chunks : List (addr × List Nat)) :
    ∀ start, (stagingOf start chunks).length = chunks.length := by
  induction chunks with
  | nil => intro; rfl
  | cons c r ih => intro start; simp [stagingOf, ih]

theorem map_a_stagingOf (chunks : List (addr × List Nat)) :
    ∀ start, (stagingOf start chunks).map (fun r => r.a) = chunks.map Prod.fst := by
  induction chunks with
  | nil => intro; rfl
  | cons c r ih => intro start; simp [stagingOf, ih]

theorem map_size_stagingOf (chunks : List (addr × List Nat)) :
    ∀ start, (stagingOf start chunks).map (fun r => r.size) =
      chunks.map fun c => c.2.length := by
  induction chunks with
  | nil => intro; rfl
  | cons c r ih => intro start; simp [stagingOf, ih]

theorem mem_stagingOf (chunks : List (addr × List Nat)) :
    ∀ (start : Nat) (r : prefixIndexRec), r ∈ stagingOf start chunks →
      ∃ i, ∃ hi : i < chunks.length, r = ⟨(chunks.get ⟨i, hi⟩).1, start + i,
        (chunks.get ⟨i, hi⟩).2.length⟩ := by
  induction chunks with
  | nil => intro start r h; simp [stagingOf] at h
  | cons c rest ih =>
    intro start r h
    simp only [stagingOf, List.mem_cons] at h
    rcases h with rfl | h
    · exact ⟨0, by simp, rfl⟩
    · obtain ⟨i, hi, rfl⟩ := ih (start + 1) r h
      refine ⟨i + 1, by simpa using hi, ?_⟩
      simp only [List.get_eq_getElem, List.getElem_cons_succ, prefixIndexRec.mk.injEq, true_and,
        and_true]
      omega

theorem addChunks_eq (chunks : List (addr × List Nat)) :
    ∀ tw : tableWriter,
      tw.data.length + (chunks.map fun c => c.2.length).sum ≤ tw.capacity →
      addChunks tw chunks = some ⟨tw.capacity, tw.data ++ chunks.flatMap (fun c => c.2),
        tw.prefixes ++ stagingOf tw.prefixes.length chunks⟩ := by
  induction chunks with
  | nil => intro tw _; simp [addChunks, stagingOf]
  | cons c rest ih =>
    intro tw h
    simp only [List.map_cons, List.sum_cons] at h
    have hc : ¬ tw.data.length + c.2.length > tw.capacity := by omega
    simp only [addChunks, tableWriter.addChunk, hc, if_false]
    rw [ih _ (by simp only [List.length_append]; omega)]
    simp [stagingOf, List.append_assoc]

theorem length_writeFooter (n t : Nat) : (writeFooter n t).length = footerSize := by
  simp [writeFooter, length_putUint, magicNumber, footerSize, lit, utf8Encode]

theorem length_suffix (a : addr) (h : a.WF) : a.Suffix.length = addrSuffixSize := by
  simp [addr.Suffix, h.1, addrSize, addrPrefixSize, addrSuffixSize]

theorem length_writeIndex (recs : List prefixIndexRec) (h : ∀ r ∈ recs, r.a.WF) :
    (writeIndex recs).length =
      recs.length * (prefixTupleSize + lengthSize + addrSuffixSize) := by
  unfold writeIndex
  rw [List.length_append, List.length_append,
    length_flatMap_const _ _ prefixTupleSize (fun r _ => by
      simp [length_putUint, prefixTupleSize]),
    length_flatMap_const _ _ lengthSize (fun r _ => by simp [length_putUint]),
    length_flatMap_const _ _ addrSuffixSize (fun r hr => length_suffix r.a (h r hr)),
    length_sortKeys]
  ring

theorem sum_lengths (chunks : List (addr × List Nat)) :
    (chunks.map fun c => c.2.length).sum = (chunks.flatMap fun c => c.2).length := by
  induction chunks with
  | nil => rfl
  | cons a r ih => simp [ih]

theorem stagingOf_wf (chunks : List (addr × List Nat)) (h : ∀ c ∈ chunks, c.1.WF)
    (start : Nat) : ∀ r ∈ stagingOf start chunks, r.a.WF := by
  intro r hr
  obtain ⟨i, hi, rfl⟩ := mem_stagingOf chunks start r hr
  exact h _ (List.get_mem _ _ _)

/-- The table that `buildTable` builds is the table of the layout. -/
theorem buildTable_eq (hashOf : List Nat → addr) (chunks : List (addr × List Nat))
    (h : ∀ c ∈ chunks, c.1.WF) :
    buildTable hashOf chunks = some (tableBytes chunks,
      hashOf ((sortKeys prefixIndexRec.less (stagingOf 0 chunks)).flatMap fun r => r.a)) := by
  unfold buildTable
  simp only
  rw [addChunks_eq chunks _ (by
    simp only [newTableWriter, maxTableSize, List.length_nil, Nat.zero_add]
    omega)]
  simp only [newTableWriter, List.nil_append, List.length_nil, tableWriter.finish,
    length_stagingOf]
  have hlen : ((chunks.flatMap fun c => c.2) ++ writeIndex (stagingOf 0 chunks) ++
      writeFooter chunks.length (chunks.flatMap fun c => c.2).length).length =
      maxTableSize chunks.length (chunks.map fun c => c.2.length).sum := by
    rw [List.length_append, List.length_append, length_writeFooter,
      length_writeIndex _ (stagingOf_wf chunks h 0), length_stagingOf, sum_lengths]
    simp only [maxTableSize, prefixTupleSize, addrSize, lengthSize, addrSuffixSize,
      addrPrefixSize, ordinalSize]
    ring
  rw [if_neg (by rw [hlen]; omega)]
  rfl

/-! ## Tables: what `parseTableIndex` reads -/

theorem getUint_putUint_mod (w n : Nat) : getUint (putUint w n) = n % 256 ^ w := by
  induction w generalizing n with
  | zero => simp [putUint, getUint, Nat.mod_one]
  | succ w ih =>
    simp only [putUint, getUint, length_putUint, ih, Nat.mod_mod]
    rw [Nat.mod_pow_succ]
    rw [Nat.mul_comm, Nat.add_comm]

theorem prefix_lt (a : addr) (h : a.WF) : a.Prefix < 256 ^ addrPrefixSize := by
  have := getUint_lt (a.take addrPrefixSize) fun b hb => h.2 b (List.mem_of_mem_take hb)
  rw [List.length_take, h.1] at this
  exact this

theorem footer_parts (n t : Nat) (hn : n < 256 ^ 4) :
    (writeFooter n t).drop 12 = magicNumber ∧ getUint ((writeFooter n t).take 4) = n ∧
    getUint (((writeFooter n t).drop 4).take 8) = t % 256 ^ 8 := by
  unfold writeFooter
  refine ⟨?_, ?_, ?_⟩
  · rw [List.drop_left' (by simp [length_putUint])]
  · rw [List.append_assoc, List.take_left' (length_putUint 4 n), getUint_putUint 4 n hn]
  · rw [List.append_assoc, List.drop_left' (length_putUint 4 n),
      List.take_left' (length_putUint 8 t), getUint_putUint_mod]

/-- Reading back the index of the table of the layout gives the index of the
layout. -/
theorem parseTableIndex_tableBytes (chunks : List (addr × List Nat))
    (hwf : ∀ c ∈ chunks, c.1.WF) (hn : chunks.length < 256 ^ 4)
    (hlen : ∀ c ∈ chunks, c.2.length < 256 ^ 4) :
    parseTableIndex (tableBytes chunks) = some (indexOf chunks) := by
  have hrwf := stagingOf_wf chunks hwf 0
  have hF := length_writeFooter chunks.length (chunks.flatMap fun c => c.2).length
  have hI := length_writeIndex _ hrwf
  rw [length_stagingOf] at hI
  obtain ⟨hmagic, hcount, htotal⟩ :=
    footer_parts chunks.length (chunks.flatMap fun c => c.2).length hn
  have hL : (tableBytes chunks).length = (chunks.flatMap fun c => c.2).length +
      chunks.length * (prefixTupleSize + lengthSize + addrSuffixSize) + footerSize := by
    simp only [tableBytes, List.length_append, hF, hI]
  have hfooter : (tableBytes chunks).drop ((tableBytes chunks).length - footerSize) =
      writeFooter chunks.length (chunks.flatMap fun c => c.2).length := by
    rw [hL]
    unfold tableBytes
    rw [List.drop_left' (by simp only [List.length_append, hI]; omega)]
  have hindex : (tableBytes chunks).drop ((tableBytes chunks).length - footerSize -
      chunks.length * (prefixTupleSize + lengthSize + addrSuffixSize)) =
      writeIndex (stagingOf 0 chunks) ++
        writeFooter chunks.length (chunks.flatMap fun c => c.2).length := by
    rw [hL]
    unfold tableBytes
    rw [List.append_assoc, List.drop_left' (by omega)]
  have hsl : (sortKeys prefixIndexRec.less (stagingOf 0 chunks)).length = chunks.length := by
    rw [length_sortKeys, length_stagingOf]
  have hrl : (stagingOf 0 chunks).length = chunks.length := length_stagingOf chunks 0
  have htl : ∀ r ∈ sortKeys prefixIndexRec.less (stagingOf 0 chunks),
      (putUint addrPrefixSize r.a.Prefix ++ putUint ordinalSize r.order).length =
        prefixTupleSize := fun r _ => by simp [length_putUint, prefixTupleSize]
  have hll : ∀ r ∈ stagingOf 0 chunks, (putUint lengthSize r.size).length = lengthSize :=
    fun r _ => length_putUint _ _
  have hsfl : ∀ r ∈ stagingOf 0 chunks, r.a.Suffix.length = addrSuffixSize :=
    fun r hr => length_suffix r.a (hrwf r hr)
  have htuples : pieces prefixTupleSize chunks.length (writeIndex (stagingOf 0 chunks) ++
      writeFooter chunks.length (chunks.flatMap fun c => c.2).length) =
      (sortKeys prefixIndexRec.less (stagingOf 0 chunks)).map fun r =>
        putUint addrPrefixSize r.a.Prefix ++ putUint ordinalSize r.order := by
    unfold writeIndex
    rw [List.append_assoc, List.append_assoc]
    conv_lhs => rw [← hsl]
    exact pieces_flatMap _ _ _ _ htl
  have hlengths : pieces lengthSize chunks.length ((writeIndex (stagingOf 0 chunks) ++
      writeFooter chunks.length (chunks.flatMap fun c => c.2).length).drop
        (chunks.length * prefixTupleSize)) =
      (stagingOf 0 chunks).map fun r => putUint lengthSize r.size := by
    unfold writeIndex
    rw [List.append_assoc, List.append_assoc]
    conv_lhs => rw [← hsl, drop_length_flatMap _ _ _ _ htl, hsl, ← hrl]
    exact pieces_flatMap _ _ _ _ hll
  have hsuffixes : pieces addrSuffixSize chunks.length ((writeIndex (stagingOf 0 chunks) ++
      writeFooter chunks.length (chunks.flatMap fun c => c.2).length).drop
        (chunks.length * prefixTupleSize + chunks.length * lengthSize)) =
      (stagingOf 0 chunks).map fun r => r.a.Suffix := by
    unfold writeIndex
    rw [List.append_assoc, List.append_assoc, ← List.drop_drop]
    conv_lhs => rw [← hsl, drop_length_flatMap _ _ _ _ htl, hsl, ← hrl,
      drop_length_flatMap _ _ _ _ hll]
    exact pieces_flatMap _ _ _ _ hsfl
  unfold parseTableIndex
  rw [if_neg (by rw [hL]; omega)]
  simp only [hfooter, hmagic, ne_eq, not_true_eq_false, if_false, hcount, htotal]
  rw [if_neg (by rw [hL]; omega)]
  simp only [hindex, htuples, hlengths, hsuffixes, indexOf, List.map_map, Option.some.injEq,
    tableIndex.mk.injEq, true_and]
  have hsm : ∀ r ∈ sortKeys prefixIndexRec.less (stagingOf 0 chunks),
      r ∈ stagingOf 0 chunks := fun r hr => (mem_sortKeys _).1 hr
  have horder : ∀ r ∈ stagingOf 0 chunks, r.order < 256 ^ 4 := by
    intro r hr
    obtain ⟨i, hi, rfl⟩ := mem_stagingOf chunks 0 r hr
    simp only
    omega
  have hsize : ∀ r ∈ stagingOf 0 chunks, r.size < 256 ^ 4 := by
    intro r hr
    obtain ⟨i, hi, rfl⟩ := mem_stagingOf chunks 0 r hr
    exact hlen _ (List.get_mem _ _ _)
  have e1 : (stagingOf 0 chunks).map (getUint ∘ fun r => putUint lengthSize r.size) =
      (stagingOf 0 chunks).map fun r => r.size := by
    apply List.map_congr_left
    intro r hr
    exact getUint_putUint _ _ (hsize r hr)
  refine ⟨?_, ?_, e1, by rw [e1]; exact ⟨rfl, trivial⟩⟩
  · apply List.map_congr_left
    intro r hr
    simp only [Function.comp]
    rw [List.take_left' (length_putUint _ _),
      getUint_putUint _ _ (prefix_lt r.a (hrwf r (hsm r hr)))]
  · apply List.map_congr_left
    intro r hr
    simp only [Function.comp]
    rw [List.drop_left' (length_putUint _ _)]
    exact getUint_putUint _ _ (horder r (hsm r hr))

/-! ## Tables: the lookup in an index with ascending prefixes -/

theorem findPrefixLoop_spec (ps : List Nat) (p n : Nat)
    (hmono : ∀ i j, i ≤ j → j < n → ps.getD i 0 ≤ ps.getD j 0) :
    ∀ (fuel idx j : Nat), idx ≤ j → j ≤ n → j - idx ≤ fuel →
      (∀ i, i < idx → ps.getD i 0 < p) → (∀ i, j ≤ i → i < n → p ≤ ps.getD i 0) →
      findPrefixLoop ps p fuel idx j ≤ n ∧
      (∀ i, i < findPrefixLoop ps p fuel idx j → ps.getD i 0 < p) ∧
      (∀ i, findPrefixLoop ps p fuel idx j ≤ i → i < n → p ≤ ps.getD i 0)
  | 0, idx, j, h1, h2, h3, h4, h5 => by
    have hj : idx = j := by omega
    subst hj
    simp only [findPrefixLoop]
    exact ⟨h2, h4, h5⟩
  | fuel + 1, idx, j, h1, h2, h3, h4, h5 => by
    simp only [findPrefixLoop]
    by_cases hlt : idx < j
    · rw [if_pos hlt]
      by_cases hp : ps.getD (idx + (j - idx) / 2) 0 < p
      · rw [if_pos hp]
        refine findPrefixLoop_spec ps p n hmono fuel _ j (by omega) h2 (by omega) ?_ h5
        intro i hi
        have := hmono i (idx + (j - idx) / 2) (by omega) (by omega)
        omega
      · rw [if_neg hp]
        refine findPrefixLoop_spec ps p n hmono fuel idx _ (by omega) (by omega) (by omega) h4 ?_
        intro i hi hin
        have := hmono (idx + (j - idx) / 2) i hi hin
        omega
    · rw [if_neg hlt]
      have hj : idx = j := by omega
      subst hj
      exact ⟨h2, h4, h5⟩

theorem findPrefix_spec (ti : tableIndex) (p : Nat)
    (hmono : ∀ i j, i ≤ j → j < ti.chunkCount → ti.prefixes.getD i 0 ≤ ti.prefixes.getD j 0) :
    ti.findPrefix p ≤ ti.chunkCount ∧ (∀ i, i < ti.findPrefix p → ti.prefixes.getD i 0 < p) ∧
      (∀ i, ti.findPrefix p ≤ i → i < ti.chunkCount → p ≤ ti.prefixes.getD i 0) :=
  findPrefixLoop_spec ti.prefixes p ti.chunkCount hmono ti.chunkCount 0 ti.chunkCount
    (Nat.zero_le _) (Nat.le_refl _) (by omega) (fun i hi => absurd hi (Nat.not_lt_zero i))
    (fun i h1 h2 => by omega)

theorem walkRun_some (ti : tableIndex) (h : addr) :
    ∀ (fuel idx o : Nat), ti.walkRun h fuel idx = some o →
      ∃ j, idx ≤ j ∧ j < ti.chunkCount ∧ ti.prefixes.getD j 0 = h.Prefix ∧
        ti.ordinals.getD j 0 = o ∧ ti.suffixes.getD o [] = h.Suffix
  | 0, idx, o, hw => by simp [tableIndex.walkRun] at hw
  | fuel + 1, idx, o, hw => by
    simp only [tableIndex.walkRun] at hw
    by_cases hc : idx < ti.chunkCount ∧ ti.prefixes.getD idx 0 = h.Prefix
    · rw [if_pos hc] at hw
      by_cases hm : ti.ordinalSuffixMatches (ti.ordinals.getD idx 0) h = true
      · rw [if_pos hm] at hw
        simp only [Option.some.injEq] at hw
        subst hw
        refine ⟨idx, Nat.le_refl _, hc.1, hc.2, rfl, ?_⟩
        simpa [tableIndex.ordinalSuffixMatches] using hm
      · rw [if_neg hm] at hw
        obtain ⟨j, h1, h2⟩ := walkRun_some ti h fuel (idx + 1) o hw
        exact ⟨j, by omega, h2⟩
    · rw [if_neg hc] at hw
      exact absurd hw (by simp)

theorem walkRun_none (ti : tableIndex) (h : addr) :
    ∀ (fuel idx : Nat), ti.chunkCount ≤ fuel + idx → ti.walkRun h fuel idx = none →
      ∀ j, idx ≤ j → j < ti.chunkCount →
        (∀ k, idx ≤ k → k ≤ j → ti.prefixes.getD k 0 = h.Prefix) →
        ti.suffixes.getD (ti.ordinals.getD j 0) [] ≠ h.Suffix
  | 0, idx, hf, _, j, h1, h2, _ => by omega
  | fuel + 1, idx, hf, hw, j, h1, h2, h3 => by
    simp only [tableIndex.walkRun] at hw
    have hc : idx < ti.chunkCount ∧ ti.prefixes.getD idx 0 = h.Prefix :=
      ⟨by omega, h3 idx (Nat.le_refl _) h1⟩
    rw [if_pos hc] at hw
    by_cases hm : ti.ordinalSuffixMatches (ti.ordinals.getD idx 0) h = true
    · rw [if_pos hm] at hw
      exact absurd hw (by simp)
    · rw [if_neg hm] at hw
      by_cases hj : j = idx
      · subst hj
        simpa [tableIndex.ordinalSuffixMatches] using hm
      · exact walkRun_none ti h fuel (idx + 1) (by omega) hw j (by omega) h2
          fun k hk1 hk2 => h3 k (by omega) hk2

/-- From the first place with a prefix not below the prefix of `h` the walk finds
a chunk with the address parts of `h` if the index has one at all. -/
theorem walkRun_lowerBound (ti : tableIndex) (h : addr) (idx : Nat)
    (hmono : ∀ i j, i ≤ j → j < ti.chunkCount → ti.prefixes.getD i 0 ≤ ti.prefixes.getD j 0)
    (hlow : ∀ i, i < idx → ti.prefixes.getD i 0 < h.Prefix)
    (hup : ∀ i, idx ≤ i → i < ti.chunkCount → h.Prefix ≤ ti.prefixes.getD i 0)
    (hw : ti.walkRun h ti.chunkCount idx = none) :
    ∀ j, j < ti.chunkCount → ti.prefixes.getD j 0 = h.Prefix →
      ti.suffixes.getD (ti.ordinals.getD j 0) [] ≠ h.Suffix := by
  intro j hj hp
  have hij : idx ≤ j := by
    by_contra hlt
    have := hlow j (by omega)
    omega
  refine walkRun_none ti h ti.chunkCount idx (by omega) hw j hij hj ?_
  intro k hk1 hk2
  have h1 := hmono k j hk2 hj
  have h2 := hup k hk1 (by omega)
  omega

/-- The lookup finds an ordinal only at a place of the index with the prefix and
the suffix of `h`. -/
theorem lookupOrdinal_some (ti : tableIndex) (h : addr) (o : Nat)
    (hl : ti.lookupOrdinal h = some o) :
    ∃ j, j < ti.chunkCount ∧ ti.prefixes.getD j 0 = h.Prefix ∧ ti.ordinals.getD j 0 = o ∧
      ti.suffixes.getD o [] = h.Suffix := by
  obtain ⟨j, _, hj⟩ := walkRun_some ti h _ _ o hl
  exact ⟨j, hj⟩

/-- The lookup finds nothing only if no place of the index has the prefix and
the suffix of `h`. -/
theorem lookupOrdinal_none (ti : tableIndex) (h : addr)
    (hmono : ∀ i j, i ≤ j → j < ti.chunkCount → ti.prefixes.getD i 0 ≤ ti.prefixes.getD j 0)
    (hl : ti.lookupOrdinal h = none) :
    ∀ j, j < ti.chunkCount → ti.prefixes.getD j 0 = h.Prefix →
      ti.suffixes.getD (ti.ordinals.getD j 0) [] ≠ h.Suffix :=
  walkRun_lowerBound ti h _ hmono (findPrefix_spec ti h.Prefix hmono).2.1
    (findPrefix_spec ti h.Prefix hmono).2.2 hl

theorem skipBelow_spec (ps : List Nat) (p : Nat) :
    ∀ (fuel idx : Nat), ps.length ≤ fuel + idx →
      idx ≤ skipBelow ps p fuel idx ∧
      (∀ i, idx ≤ i → i < skipBelow ps p fuel idx → ps.getD i 0 < p) ∧
      (skipBelow ps p fuel idx < ps.length → ¬ ps.getD (skipBelow ps p fuel idx) 0 < p)
  | 0, idx, hf => by
    simp only [skipBelow]
    exact ⟨Nat.le_refl _, fun i h1 h2 => by omega, fun h => by omega⟩
  | fuel + 1, idx, hf => by
    simp only [skipBelow]
    by_cases hc : idx < ps.length ∧ ps.getD idx 0 < p
    · rw [if_pos hc]
      obtain ⟨h1, h2, h3⟩ := skipBelow_spec ps p fuel (idx + 1) (by omega)
      refine ⟨by omega, ?_, h3⟩
      intro i hi1 hi2
      by_cases hi : i = idx
      · subst hi
        exact hc.2
      · exact h2 i (by omega) hi2
    · rw [if_neg hc]
      refine ⟨Nat.le_refl _, fun i h1 h2 => by omega, fun h hlt => hc ⟨h, hlt⟩⟩

theorem hasRecord_with (r : hasRecord) (b : Bool) (h : b = r.has) :
    ({ r with has := b } : hasRecord) = r := by
  cases r
  simp_all

/-- The linear merge pass sets the flag of a record as a lookup of its address
would, for records in the order of their prefixes. -/
theorem hasManyLoop_spec (ti : tableIndex) (hlen : ti.prefixes.length = ti.chunkCount)
    (hmono : ∀ i j, i ≤ j → j < ti.chunkCount → ti.prefixes.getD i 0 ≤ ti.prefixes.getD j 0) :
    ∀ (recs : List hasRecord) (filterIdx : Nat),
      recs.Pairwise (fun x y => x.pfx ≤ y.pfx) → (∀ r ∈ recs, r.pfx = r.a.Prefix) →
      (∀ i, i < filterIdx → ∀ r ∈ recs, ti.prefixes.getD i 0 < r.pfx) →
      ti.hasManyLoop filterIdx recs =
        recs.map fun r => { r with has := r.has || (ti.lookupOrdinal r.a).isSome }
  | [], _, _, _, _ => rfl
  | rec :: rest, filterIdx, hs, hp, hinv => by
    have hs2 := List.pairwise_cons.1 hs
    have hp2 : ∀ r ∈ rest, r.pfx = r.a.Prefix := fun r hr => hp r (List.mem_cons_of_mem _ hr)
    have hrp := hp rec (List.mem_cons_self _ _)
    simp only [tableIndex.hasManyLoop, List.map_cons]
    by_cases hh : rec.has = true
    · rw [if_pos hh, hasManyLoop_spec ti hlen hmono rest filterIdx hs2.2 hp2
        fun i hi r hr => hinv i hi r (List.mem_cons_of_mem _ hr)]
      congr 1
      exact (hasRecord_with rec _ (by simp [hh])).symm
    · rw [if_neg hh]
      simp only [Bool.not_eq_true] at hh
      obtain ⟨h1, h2, h3⟩ := skipBelow_spec ti.prefixes rec.pfx ti.prefixes.length filterIdx
        (by omega)
      generalize skipBelow ti.prefixes rec.pfx ti.prefixes.length filterIdx = idx at h1 h2 h3
      have hlow : ∀ i, i < idx → ti.prefixes.getD i 0 < rec.pfx := by
        intro i hi
        by_cases hif : i < filterIdx
        · exact hinv i hif rec (List.mem_cons_self _ _)
        · exact h2 i (by omega) hi
      have hnone : ∀ r : hasRecord, r.pfx = r.a.Prefix →
          (∀ j, j < ti.chunkCount → ti.prefixes.getD j 0 ≠ r.pfx) →
          ti.lookupOrdinal r.a = none := by
        intro r hr hne
        cases hl : ti.lookupOrdinal r.a with
        | none => rfl
        | some o =>
          obtain ⟨j, hj, hjp, _⟩ := lookupOrdinal_some ti r.a o hl
          exact absurd (hjp.trans hr.symm) (hne j hj)
      by_cases hge : idx ≥ ti.prefixes.length
      · rw [if_pos hge]
        have hall : ∀ r ∈ rec :: rest, r.has = false →
            ti.lookupOrdinal r.a = none := by
          intro r hr _
          refine hnone r (hp r hr) fun j hj => ?_
          have hj1 := hlow j (by omega)
          have hle : rec.pfx ≤ r.pfx := by
            rcases List.mem_cons.1 hr with rfl | hr2
            · exact Nat.le_refl _
            · exact hs2.1 r hr2
          omega
        have hid : ∀ r ∈ rec :: rest,
            ({ r with has := r.has || (ti.lookupOrdinal r.a).isSome } : hasRecord) = r := by
          intro r hr
          cases hrh : r.has with
          | true => exact hasRecord_with r _ (by simp [hrh])
          | false =>
            rw [hall r hr hrh]
            exact hasRecord_with r _ (by simp [hrh])
        rw [hid rec (List.mem_cons_self _ _)]
        congr 1
        symm
        conv_rhs => rw [← List.map_id rest]
        exact List.map_congr_left fun r hr => hid r (List.mem_cons_of_mem _ hr)
      · rw [if_neg hge]
        have hidx : idx < ti.chunkCount := by omega
        have h4 := h3 (by omega)
        have hup : ∀ i, idx ≤ i → i < ti.chunkCount → rec.pfx ≤ ti.prefixes.getD i 0 := by
          intro i hi1 hi2
          have := hmono idx i hi1 hi2
          omega
        have hrest := hasManyLoop_spec ti hlen hmono rest idx hs2.2 hp2 (by
          intro i hi r hr
          have := hlow i hi
          have := hs2.1 r hr
          omega)
        by_cases hne : rec.pfx ≠ ti.prefixes.getD idx 0
        · rw [if_pos hne, hrest]
          have hl : ti.lookupOrdinal rec.a = none := by
            refine hnone rec hrp fun j hj => ?_
            by_cases hji : j < idx
            · have := hlow j hji
              omega
            · have := hmono idx j (by omega) hj
              omega
          rw [hl]
          congr 1
          exact (hasRecord_with rec _ (by simp [hh])).symm
        · rw [if_neg hne, hrest]
          congr 1
          have hb : (ti.walkRun rec.a ti.chunkCount idx).isSome =
              (ti.lookupOrdinal rec.a).isSome := by
            cases hw : ti.walkRun rec.a ti.chunkCount idx with
            | none =>
              have hno := walkRun_lowerBound ti rec.a idx hmono (hrp ▸ hlow) (hrp ▸ hup) hw
              cases hl : ti.lookupOrdinal rec.a with
              | none => rfl
              | some o =>
                obtain ⟨j, hj, hjp, hjo, hjs⟩ := lookupOrdinal_some ti rec.a o hl
                exact absurd (hjo ▸ hjs) (hno j hj hjp)
            | some o =>
              obtain ⟨j, _, hj, hjp, hjo, hjs⟩ := walkRun_some ti rec.a _ _ o hw
              cases hl : ti.lookupOrdinal rec.a with
              | some _ => rfl
              | none =>
                exact absurd (hjo ▸ hjs) (lookupOrdinal_none ti rec.a hmono hl j hj hjp)
          rw [hb, hh]
          rfl

/-! ## Tables: the index of a written table -/

theorem getD_map_lt {α β : Type} (f : α → β) (l : List α) (i : Nat) (d : β) (e : α)
    (h : i < l.length) : (l.map f).getD i d = f (l.getD i e) := by
  rw [List.getD_eq_getElem _ _ (by simpa using h), List.getD_eq_getElem _ _ h, List.getElem_map]

theorem getD_stagingOf (chunks : List (addr × List Nat)) :
    ∀ (start i : Nat) (hi : i < chunks.length),
      (stagingOf start chunks).getD i ⟨[], 0, 0⟩ =
        ⟨(chunks.get ⟨i, hi⟩).1, start + i, (chunks.get ⟨i, hi⟩).2.length⟩ := by
  induction chunks with
  | nil => intro start i hi; simp at hi
  | cons c rest ih =>
    intro start i hi
    cases i with
    | zero => simp [stagingOf]
    | succ i =>
      have := ih (start + 1) i (by simpa using hi)
      simp only [stagingOf, List.getD_cons_succ, this, List.get_cons_succ]
      simp only [prefixIndexRec.mk.injEq, true_and, and_true]
      omega

theorem addr_ext (a b : addr) (ha : a.WF) (hb : b.WF) (hp : a.Prefix = b.Prefix)
    (hs : a.Suffix = b.Suffix) : a = b := by
  have ht : a.take addrPrefixSize = b.take addrPrefixSize := by
    refine getUint_inj _ _ ?_ (fun x hx => ha.2 x (List.mem_of_mem_take hx))
      (fun x hx => hb.2 x (List.mem_of_mem_take hx)) hp
    rw [List.length_take, List.length_take, ha.1, hb.1]
  rw [← List.take_append_drop addrPrefixSize a, ← List.take_append_drop addrPrefixSize b, ht]
  exact congrArg _ hs

theorem fst_inj (chunks : List (addr × List Nat)) (hnd : (chunks.map Prod.fst).Nodup)
    (i j : Nat) (hi : i < chunks.length) (hj : j < chunks.length)
    (h : (chunks.get ⟨i, hi⟩).1 = (chunks.get ⟨j, hj⟩).1) : i = j := by
  have hinj := List.nodup_iff_injective_get.1 hnd
  have := hinj (show (chunks.map Prod.fst).get ⟨i, by simpa using hi⟩ =
    (chunks.map Prod.fst).get ⟨j, by simpa using hj⟩ by simpa using h)
  exact congrArg Fin.val this

/-- With distinct addresses the order of the index is a total order of the
staging list. -/
theorem less_keyOrder (chunks : List (addr × List Nat)) (hwf : ∀ c ∈ chunks, c.1.WF)
    (hnd : (chunks.map Prod.fst).Nodup) :
    KeyOrderOn prefixIndexRec.less (fun r => r ∈ stagingOf 0 chunks) := by
  refine ⟨fun x _ => by simp [prefixIndexRec.less, strLt_irrefl], ?_, ?_⟩
  · intro x y z _ _ _ h1 h2
    simp only [prefixIndexRec.less, Bool.or_eq_true, Bool.and_eq_true, decide_eq_true_eq] at *
    rcases h1 with h1 | ⟨h1, h1s⟩ <;> rcases h2 with h2 | ⟨h2, h2s⟩
    · exact Or.inl (by omega)
    · exact Or.inl (by omega)
    · exact Or.inl (by omega)
    · exact Or.inr ⟨h1.trans h2, strLt_trans h1s h2s⟩
  · intro x y hx hy h1 h2
    have hpe : x.a.Prefix = y.a.Prefix := by
      by_contra hne
      rcases Nat.lt_or_gt_of_ne hne with hlt | hgt
      · simp [prefixIndexRec.less, hlt] at h1
      · simp [prefixIndexRec.less, hgt] at h2
    have hs1 : strLt x.a.Suffix y.a.Suffix = false := by
      simpa [prefixIndexRec.less, hpe] using h1
    have hs2 : strLt y.a.Suffix x.a.Suffix = false := by
      simpa [prefixIndexRec.less, hpe] using h2
    have hax : x.a = y.a := addr_ext _ _ (stagingOf_wf chunks hwf 0 x hx)
      (stagingOf_wf chunks hwf 0 y hy) hpe (strLt_total hs1 hs2)
    obtain ⟨i, hi, rfl⟩ := mem_stagingOf chunks 0 x hx
    obtain ⟨j, hj, rfl⟩ := mem_stagingOf chunks 0 y hy
    have := fst_inj chunks hnd i j hi hj hax
    subst this
    rfl

/-- The prefixes of the index of a written table ascend. -/
theorem indexOf_mono (chunks : List (addr × List Nat)) (hwf : ∀ c ∈ chunks, c.1.WF)
    (hnd : (chunks.map Prod.fst).Nodup) :
    ∀ i j, i ≤ j → j < (indexOf chunks).chunkCount →
      (indexOf chunks).prefixes.getD i 0 ≤ (indexOf chunks).prefixes.getD j 0 := by
  intro i j hij hj
  have hsorted := sorted_sortKeys (less_keyOrder chunks hwf hnd) (fun y hy => hy)
    (List.Nodup.of_map _ (by rw [map_a_stagingOf]; exact hnd))
  have hsl : (sortKeys prefixIndexRec.less (stagingOf 0 chunks)).length = chunks.length := by
    rw [length_sortKeys, length_stagingOf]
  simp only [indexOf] at hj ⊢
  rcases Nat.eq_or_lt_of_le hij with rfl | hlt
  · exact Nat.le_refl _
  · rw [getD_map_lt _ _ i 0 ⟨[], 0, 0⟩ (by omega), getD_map_lt _ _ j 0 ⟨[], 0, 0⟩ (by omega),
      List.getD_eq_getElem _ _ (by omega), List.getD_eq_getElem _ _ (by omega)]
    have := List.pairwise_iff_getElem.1 hsorted i j (by omega) (by omega) hlt
    simp only [prefixIndexRec.less, Bool.or_eq_true, Bool.and_eq_true, decide_eq_true_eq] at this
    rcases this with h | ⟨h, _⟩ <;> omega

/-- Each place of the index of a written table holds the prefix and the ordinal
of a written chunk. -/
theorem indexOf_place (chunks : List (addr × List Nat)) (j : Nat) (hj : j < chunks.length) :
    ∃ i, ∃ hi : i < chunks.length,
      (indexOf chunks).prefixes.getD j 0 = (chunks.get ⟨i, hi⟩).1.Prefix ∧
      (indexOf chunks).ordinals.getD j 0 = i := by
  have hsl : (sortKeys prefixIndexRec.less (stagingOf 0 chunks)).length = chunks.length := by
    rw [length_sortKeys, length_stagingOf]
  have hmem : (sortKeys prefixIndexRec.less (stagingOf 0 chunks)).getD j ⟨[], 0, 0⟩ ∈
      stagingOf 0 chunks := by
    rw [List.getD_eq_getElem _ _ (by omega)]
    exact (mem_sortKeys _).1 (List.getElem_mem _)
  obtain ⟨i, hi, hr⟩ := mem_stagingOf chunks 0 _ hmem
  refine ⟨i, hi, ?_, ?_⟩
  · simp only [indexOf]
    rw [getD_map_lt _ _ j 0 ⟨[], 0, 0⟩ (by omega), hr]
  · simp only [indexOf]
    rw [getD_map_lt _ _ j 0 ⟨[], 0, 0⟩ (by omega), hr]
    simp

/-- Each written chunk has a place in the index of the table. -/
theorem indexOf_chunk (chunks : List (addr × List Nat)) (i : Nat) (hi : i < chunks.length) :
    ∃ j, j < chunks.length ∧
      (indexOf chunks).prefixes.getD j 0 = (chunks.get ⟨i, hi⟩).1.Prefix ∧
      (indexOf chunks).ordinals.getD j 0 = i := by
  have hsl : (sortKeys prefixIndexRec.less (stagingOf 0 chunks)).length = chunks.length := by
    rw [length_sortKeys, length_stagingOf]
  have hmem : (stagingOf 0 chunks).getD i ⟨[], 0, 0⟩ ∈
      sortKeys prefixIndexRec.less (stagingOf 0 chunks) := by
    rw [List.getD_eq_getElem _ _ (by rw [length_stagingOf]; exact hi)]
    exact (mem_sortKeys _).2 (List.getElem_mem _)
  obtain ⟨j, hj, hr⟩ := List.getElem_of_mem hmem
  rw [getD_stagingOf chunks 0 i hi] at hr
  refine ⟨j, by omega, ?_, ?_⟩
  · simp only [indexOf]
    rw [getD_map_lt _ _ j 0 ⟨[], 0, 0⟩ hj, List.getD_eq_getElem _ _ hj, hr]
  · simp only [indexOf]
    rw [getD_map_lt _ _ j 0 ⟨[], 0, 0⟩ hj, List.getD_eq_getElem _ _ hj, hr]
    simp

theorem indexOf_suffix (chunks : List (addr × List Nat)) (i : Nat) (hi : i < chunks.length) :
    (indexOf chunks).suffixes.getD i [] = (chunks.get ⟨i, hi⟩).1.Suffix := by
  simp only [indexOf]
  rw [getD_map_lt _ _ i [] ⟨[], 0, 0⟩ (by rw [length_stagingOf]; exact hi),
    getD_stagingOf chunks 0 i hi]

/-- A lookup in the index of a written table finds the ordinal of the chunk with
the address looked up, and finds nothing only for an address not written. -/
theorem lookupOrdinal_indexOf (chunks : List (addr × List Nat)) (hwf : ∀ c ∈ chunks, c.1.WF)
    (hnd : (chunks.map Prod.fst).Nodup) (h : addr) (hh : h.WF) :
    (∀ o, (indexOf chunks).lookupOrdinal h = some o →
      ∃ ho : o < chunks.length, (chunks.get ⟨o, ho⟩).1 = h) ∧
    ((indexOf chunks).lookupOrdinal h = none → h ∉ chunks.map Prod.fst) := by
  constructor
  · intro o hl
    obtain ⟨j, hj, hjp, hjo, hjs⟩ := lookupOrdinal_some _ h o hl
    obtain ⟨i, hi, hip, hio⟩ := indexOf_place chunks j hj
    have hoi : o = i := hjo.symm.trans hio
    subst hoi
    refine ⟨hi, ?_⟩
    rw [indexOf_suffix chunks o hi] at hjs
    exact addr_ext _ _ (hwf _ (List.get_mem _ _ _)) hh (hip.symm.trans hjp) hjs
  · intro hl hmem
    obtain ⟨c, hc, rfl⟩ := List.mem_map.1 hmem
    obtain ⟨⟨i, hi⟩, rfl⟩ := List.get_of_mem hc
    obtain ⟨j, hj, hjp, hjo⟩ := indexOf_chunk chunks i hi
    refine lookupOrdinal_none _ _ (indexOf_mono chunks hwf hnd) hl j hj hjp ?_
    rw [hjo, indexOf_suffix chunks i hi]

/-- The payload that the index of a written table locates for an ordinal is the
payload of the chunk with that ordinal. -/
theorem payload_indexOf (chunks : List (addr × List Nat)) (o : Nat) (ho : o < chunks.length) :
    ((tableBytes chunks).drop ((indexOf chunks).offsets.getD o 0)).take
      ((indexOf chunks).lengths.getD o 0) = (chunks.get ⟨o, ho⟩).2 := by
  simp only [indexOf, tableBytes, map_size_stagingOf]
  rw [getD_offsetsOf _ 0 o (by simpa using ho), Nat.zero_add, List.append_assoc]
  exact drop_take_payload chunks (fun c => c.2) _ o ho

/-! ## Tables: writing and reading back -/

/-- `TestSimple`: the reader of the table of three chunks has each of them and
gets its bytes, and has none of three other addresses. -/
theorem testSimple_table :
    (readerOf simpleChunks).map (fun tr =>
      (simpleChunks.map fun c => (tr.has c.1, decide (tr.get c.1 = c.2)),
       [lit "yo", lit "do", lit "so much to do"].map fun c =>
        (tr.has (exampleAddr c), tr.get (exampleAddr c)))) =
      some ([(true, true), (true, true), (true, true)],
        [(false, []), (false, []), (false, [])]) := by
  set_option maxRecDepth 1000000 in decide

/-- `TestHasManySequentialPrefix`: the three addresses share their prefix, and
`hasMany` finds the second and the third. -/
theorem testHasManySequentialPrefix_table :
    (∀ a ∈ sequentialAddrs, ∀ b ∈ sequentialAddrs, a.Prefix = b.Prefix) ∧
    (readerOf sequentialChunks).map
      (fun tr => (tr.hasMany sequentialRecords).1.map fun r => r.has) = some [true, true] := by
  set_option maxRecDepth 1000000 in decide

/-- C23: a table written by `buildTable` (`addChunk` for each chunk, then
`finish`, into a buffer of `maxTableSize`) from chunks with distinct
addresses of 20 bytes, as many chunks and as long payloads as the `u32`
fields of the layout can count, reads back through `parseTableIndex` and
`newTableReader`: `has` is true and `get` returns the payload for every
written chunk; `has` is false and `get` returns the empty chunk for every
address not written; and `hasMany` on records in the order of their prefixes
sets the flag of exactly the records whose address was written (a flag
that was set stays set).  Nothing is asked of the prefixes, so written
addresses may share theirs. -/
theorem table_write_read_round_trip (hashOf : List Nat → addr)
    (chunks : List (addr × List Nat)) (blockSize : Nat)
    (hwf : ∀ c ∈ chunks, c.1.WF) (hnd : (chunks.map Prod.fst).Nodup)
    (hn : chunks.length < 2 ^ 32) (hlen : ∀ c ∈ chunks, c.2.length < 2 ^ 32) :
    ∃ tableData name index, buildTable hashOf chunks = some (tableData, name) ∧
      parseTableIndex tableData = some index ∧
      (∀ c ∈ chunks,
        (newTableReader index (tableReaderAtFromBytes tableData) blockSize).has c.1 = true ∧
        (newTableReader index (tableReaderAtFromBytes tableData) blockSize).get c.1 = c.2) ∧
      (∀ h : addr, h.WF → h ∉ chunks.map Prod.fst →
        (newTableReader index (tableReaderAtFromBytes tableData) blockSize).has h = false ∧
        (newTableReader index (tableReaderAtFromBytes tableData) blockSize).get h = []) ∧
      (∀ recs : List hasRecord, recs.Pairwise (fun x y => x.pfx ≤ y.pfx) →
        (∀ r ∈ recs, r.a.WF ∧ r.pfx = r.a.Prefix) →
        (newTableReader index (tableReaderAtFromBytes tableData) blockSize).hasMany recs =
          (recs.map fun r => { r with has := r.has || decide (r.a ∈ chunks.map Prod.fst) },
            recs.any fun r => !(r.has || decide (r.a ∈ chunks.map Prod.fst)))) := by
  have h256 : (256 : Nat) ^ 4 = 2 ^ 32 := by norm_num
  have hlook : ∀ h : addr, h.WF →
      ((indexOf chunks).lookupOrdinal h).isSome = decide (h ∈ chunks.map Prod.fst) := by
    intro h hh
    obtain ⟨h1, h2⟩ := lookupOrdinal_indexOf chunks hwf hnd h hh
    cases hl : (indexOf chunks).lookupOrdinal h with
    | none => simpa using h2 hl
    | some o =>
      obtain ⟨ho, hoc⟩ := h1 o hl
      have : h ∈ chunks.map Prod.fst :=
        hoc ▸ List.mem_map_of_mem Prod.fst (List.get_mem chunks o ho)
      simpa using this
  refine ⟨tableBytes chunks, _, indexOf chunks, buildTable_eq hashOf chunks hwf,
    parseTableIndex_tableBytes chunks hwf (h256 ▸ hn) (fun c hc => h256 ▸ hlen c hc), ?_, ?_, ?_⟩
  · intro c hc
    have hmem : c.1 ∈ chunks.map Prod.fst := List.mem_map_of_mem Prod.fst hc
    obtain ⟨h1, h2⟩ := lookupOrdinal_indexOf chunks hwf hnd c.1 (hwf c hc)
    cases hl : (indexOf chunks).lookupOrdinal c.1 with
    | none => exact absurd hmem (h2 hl)
    | some o =>
      obtain ⟨ho, hoc⟩ := h1 o hl
      obtain ⟨⟨i, hi⟩, rfl⟩ := List.get_of_mem hc
      have hoi := fst_inj chunks hnd o i ho hi hoc
      subst hoi
      refine ⟨by
        show ((indexOf chunks).lookupOrdinal _).isSome = true
        rw [hl]
        rfl, ?_⟩
      simp only [tableReader.get, newTableReader, hl, tableReaderAtFromBytes]
      exact payload_indexOf chunks o ho
  · intro h hh hnot
    have hl : (indexOf chunks).lookupOrdinal h = none := by
      have := hlook h hh
      simpa [hnot] using this
    exact ⟨by simp [tableReader.has, newTableReader, hl],
      by simp [tableReader.get, newTableReader, hl]⟩
  · intro recs hs hr
    have hmap : (indexOf chunks).hasManyLoop 0 recs =
        recs.map fun r => { r with has := r.has || decide (r.a ∈ chunks.map Prod.fst) } := by
      rw [hasManyLoop_spec (indexOf chunks)
        (by simp [indexOf, length_sortKeys, length_stagingOf])
        (indexOf_mono chunks hwf hnd) recs 0 hs (fun r hr2 => (hr r hr2).2)
        (fun i hi => absurd hi (Nat.not_lt_zero i))]
      exact List.map_congr_left fun r hr2 => by rw [hlook r.a (hr r hr2).1]
    simp only [tableReader.hasMany, newTableReader, hmap, List.any_map, Prod.mk.injEq, true_and]
    rfl

theorem table_write_read_round_trip_witness :
    (∀ a ∈ sequentialAddrs, ∀ b ∈ sequentialAddrs, a.Prefix = b.Prefix) ∧
    ∃ tableData name index, buildTable exampleAddr sequentialChunks = some (tableData, name) ∧
      parseTableIndex tableData = some index ∧
      ∀ c ∈ sequentialChunks,
        (newTableReader index (tableReaderAtFromBytes tableData) 4096).has c.1 = true ∧
        (newTableReader index (tableReaderAtFromBytes tableData) 4096).get c.1 = c.2 :=
  ⟨by set_option maxRecDepth 1000000 in decide,
    let ⟨t, n, i, h1, h2, h3, _⟩ := table_write_read_round_trip exampleAddr sequentialChunks 4096
      (by set_option maxRecDepth 1000000 in decide)
      (by set_option maxRecDepth 1000000 in decide)
      (by decide) (by set_option maxRecDepth 1000000 in decide)
    ⟨t, n, i, h1, h2, h3⟩⟩

end Noms
